import Mathlib

/-!
# uqexpr: a shallow embedding of `uqexpr.c` and proofs about it

The program keeps two stores (plain variables and loop variables), reads its input
line by line and hands expressions to the external evaluator `tinyexpr`.

Conventions of the embedding.

* A C string is the list of its characters before the terminating NUL (`CStr`); a
  `char*` that may be `NULL` is an `Option CStr`.
* `double` values are exact rationals (`ℚ`): rounding and the IEEE special values are
  outside the model.
* `int` values are integers; a conversion or an addition that leaves the 32-bit range
  is undefined behaviour and is `none`.
* A function that may dereference `NULL` (or hits another undefined behaviour)
  returns an `Option`; `none` means that the run does not continue.
* The parallel arrays of `Variables` and `Loops` are lists of records, `size` is the
  length of the list.
* Everything written to `stdout`/`stderr`, and every call of the evaluator, is
  recorded as an event (`Ev`), in order.
* The evaluator (`te_compile` followed by `te_eval`) is the parameter `te`.
-/

namespace Uqexpr

/-- The contents of a NUL-terminated C string. -/
abbrev CStr := List Char

/-! ## Constants of the source -/

def INVALID_COMMAND_LINE_ERROR : Int := 4
def FILE_DOES_NOT_OPEN_ERROR : Int := 7
def INVALID_VARIABLES_ERROR : Int := 12
def DUPLICATE_VARIABLES_ERROR : Int := 6
def LOOP_COMMAS : Nat := 3
def MAX_VARIABLE_LENGTH : Nat := 22
def DEFAULT_SIG_FIGS : Nat := 3
def LOOP_LENGTH : Nat := 6
def INT_MIN : Int := -2147483648
def INT_MAX : Int := 2147483647

/-- The string literal `" "` that `range_new_loop` stores in the name slot of a
promoted variable. -/
def sentinel : CStr := [' ']

/-! ## The C library functions the source calls -/

/-- The byte read by `s[i]`: the character at `i`, or the terminating NUL. -/
def cstrAt (s : CStr) (i : Nat) : Char := s.getD i '\x00'

/-- C library `isalpha` in the "C" locale. -/
def isalpha (c : Char) : Bool := c.isAlpha

/-- C library `isdigit`. -/
def isdigit (c : Char) : Bool := c.isDigit

/-- C library `isspace` in the "C" locale: space, `\t`, `\n`, `\v`, `\f`, `\r`. -/
def isspace (c : Char) : Bool :=
  c = ' ' || c = '\t' || c = '\n' || c = '\x0b' || c = '\x0c' || c = '\r'

/-- C library `strtok` on the text `s` that starts at the scan position: the token
found (if any) and the text at the position saved for the next call. Leading
delimiters are skipped; the token ends before the next delimiter, which is
overwritten and stepped over. `strtok(NULL, d)` is `strtok saved d`. -/
def strtok (s : CStr) (delim : List Char) : Option CStr × CStr :=
  let s1 := s.dropWhile (fun c => delim.contains c)
  if s1 = [] then (none, [])
  else (some (s1.takeWhile (fun c => !delim.contains c)),
        (s1.dropWhile (fun c => !delim.contains c)).drop 1)

/-- The number of occurrences of `c`, as counted by the `for` loops over `strlen`. -/
def countChar (c : Char) (s : CStr) : Nat := s.count c

/-- The value of a string of decimal digits. -/
def digitsVal (ds : List Char) : Nat :=
  ds.foldl (fun acc d => 10 * acc + (d.toNat - '0'.toNat)) 0

/-- An optional sign: whether it is `-`, and the text after it. -/
def takeSign (s : CStr) : Bool × CStr :=
  match s with
  | '-' :: t => (true, t)
  | '+' :: t => (false, t)
  | _ => (false, s)

/-- The exponent part of a decimal floating constant: the factor it denotes and the
text after it; without digits after `e` nothing is consumed. -/
def takeExponent (s : CStr) : ℚ × CStr :=
  match s with
  | c :: t =>
    if c = 'e' ∨ c = 'E' then
      let (neg, t1) := takeSign t
      let ds := t1.takeWhile isdigit
      if ds = [] then (1, s)
      else ((if neg then (1 / (10 : ℚ) ^ digitsVal ds) else (10 : ℚ) ^ digitsVal ds),
            t1.dropWhile isdigit)
    else (1, s)
  | [] => (1, s)

/-- C library `strtod` on decimal input: the value and the text at `*endptr`. White
space is skipped, then an optional sign, digits with an optional point, and an
optional exponent are consumed; when no digit is found no conversion is performed,
the value is `0` and `*endptr` is the start of the input. The hexadecimal forms and
the words `inf`, `infinity`, `nan` are not converted here, and the value is not
rounded; `strtodC` below converts them and rounds. -/
def strtod (s : CStr) : ℚ × CStr :=
  let s1 := s.dropWhile isspace
  let (neg, s2) := takeSign s1
  let ip := s2.takeWhile isdigit
  let s3 := s2.dropWhile isdigit
  let (fp, s4) : List Char × CStr :=
    match s3 with
    | '.' :: t => (t.takeWhile isdigit, t.dropWhile isdigit)
    | _ => ([], s3)
  if ip = [] ∧ fp = [] then (0, s)
  else
    let m : ℚ := (digitsVal (ip ++ fp) : ℚ) / (10 : ℚ) ^ fp.length
    let (ex, s5) := takeExponent s4
    ((if neg then -(m * ex) else m * ex), s5)

/-- The part of `strtod` that reads the point and the digits after it: the digits and
the text after them. -/
def takeFraction (s : CStr) : List Char × CStr :=
  match s with
  | '.' :: t => (t.takeWhile isdigit, t.dropWhile isdigit)
  | _ => ([], s)

/-- The conversion of an integer value to `int`: defined only inside the range. -/
def toInt (z : Int) : Option Int :=
  if INT_MIN ≤ z ∧ z ≤ INT_MAX then some z else none

/-! ## The data model -/

/-- One slot of `Variables`: `names[i]` and `values[i]`. -/
structure Variable where
  name : CStr
  value : ℚ
deriving DecidableEq

/-- The struct `Variables`; `size` is `entries.length`. -/
structure Variables where
  entries : List Variable
  converted : Int
deriving DecidableEq

/-- One slot of `Loops`: the five parallel arrays at one index. -/
structure Loop where
  name : CStr
  currentValue : ℚ
  startingValue : ℚ
  increment : ℚ
  endValue : ℚ
deriving DecidableEq

/-- The two stores every line-processing function receives by pointer; `loops` is
the struct `Loops`, whose `size` is the length of the list. -/
structure Stores where
  vars : Variables
  loops : List Loop
deriving DecidableEq

/-- A binding table: `tevars[j].name` with the value at `tevars[j].address`. -/
abbrev Table := List (CStr × ℚ)

/-- What the program does that can be observed, in order. A number printed with the
format `%.<sf>g` is recorded as the pair of `sf` and the value. -/
inductive Ev where
  /-- A fixed text written to `stdout`. -/
  | text (s : String)
  /-- `name = value` on `stdout`. -/
  | varLine (sf : Nat) (name : CStr) (value : ℚ)
  /-- `name = current (start, increment, end)` on `stdout`. -/
  | loopLine (sf : Nat) (name : CStr) (current start increment endValue : ℚ)
  /-- `Result = value` on `stdout`. -/
  | result (sf : Nat) (value : ℚ)
  /-- `Result = value when name = current` on `stdout`. -/
  | resultWhen (sf : Nat) (value : ℚ) (name : CStr) (current : ℚ)
  /-- `target = value when name = sweep` on `stdout`. -/
  | assignWhen (sf : Nat) (target : CStr) (value : ℚ) (name : CStr) (sweep : ℚ)
  /-- The diagnostic "Error in command, expression or assignment operation" on
  `stderr`. -/
  | err
  /-- Another fixed message on `stderr`. -/
  | errText (s : String)
  /-- The message on `stderr` that the file `fileName` cannot be opened. -/
  | errOpen (fileName : CStr)
  /-- A call `te_compile(expression, tevars, index, ..)`, with the stores as they
  are at the call. -/
  | compile (expression : CStr) (table : Table) (stores : Stores)
deriving DecidableEq

/-- Whether the event is a line on `stdout`. -/
def Ev.isStdout : Ev → Bool
  | .text _ => true
  | .varLine _ _ _ => true
  | .loopLine _ _ _ _ _ _ => true
  | .result _ _ => true
  | .resultWhen _ _ _ _ => true
  | .assignWhen _ _ _ _ _ => true
  | .err => false
  | .errText _ => false
  | .errOpen _ => false
  | .compile _ _ _ => false

/-- The result of a function of the source that returns an `int`, may change the
stores and may print. -/
structure Res where
  ret : Int
  st : Stores
  out : List Ev
deriving DecidableEq

/-! ## Decoding the `--define` and `--loopable` strings -/

/-- The function `extend_variables`: the return value, the store and the flag
`*duplicated` after the call. -/
def extend_variables (vars : Variables) (key valueString : Option CStr)
    (duplicated : Bool) : Int × Variables × Bool :=
  match key, valueString with
  | some key, some valueString =>
    if key.length < 1 ∨ key.length > MAX_VARIABLE_LENGTH then
      (INVALID_VARIABLES_ERROR, vars, duplicated)
    else if ¬ key.all isalpha then (INVALID_VARIABLES_ERROR, vars, duplicated)
    else
      let (value, tempExcess) := strtod valueString
      if tempExcess = [] ∧ valueString.length > 0 then
        (0, { vars with entries := vars.entries ++ [⟨key, value⟩] },
          duplicated || vars.entries.any (fun v => v.name = key))
      else (INVALID_VARIABLES_ERROR, vars, duplicated)
  | _, _ => (INVALID_VARIABLES_ERROR, vars, duplicated)

/-- The `for` loop of `decode_variable_strings` over the strings still to decode,
with the check of `duplicated` after it. -/
def decode_variable_strings_from : List CStr → Variables → Bool → Int × Variables
  | [], vars, duplicated =>
    (if duplicated then DUPLICATE_VARIABLES_ERROR else 0, vars)
  | s :: rest, vars, duplicated =>
    if countChar '=' s ≠ 1 then (INVALID_VARIABLES_ERROR, vars)
    else
      let key := strtok s ['=']
      let valueString := strtok key.2 ['=']
      match extend_variables vars key.1 valueString.1 duplicated with
      | (result, vars1, duplicated1) =>
        if result ≠ 0 then (result, vars1)
        else decode_variable_strings_from rest vars1 duplicated1

/-- The function `decode_variable_strings`: the return value and the store. -/
def decode_variable_strings (variableStrings : List CStr) : Int × Variables :=
  decode_variable_strings_from variableStrings ⟨[], 0⟩ false

/-- The range test shared by `extend_loops` and `range`: the condition under which
they return `INVALID_VARIABLES_ERROR`. -/
def rangeRejected (startValue increment endValue : ℚ) : Prop :=
  (startValue < endValue ∧ increment < 0) ∨ (startValue > endValue ∧ increment > 0)
    ∨ increment = 0

instance (s i e : ℚ) : Decidable (rangeRejected s i e) := by
  unfold rangeRejected; infer_instance

/-- The function `reallocate_loops`: one more loop at the end of the arrays. -/
def reallocate_loops (loops : List Loop) (name : CStr) (startValue increment endValue : ℚ) :
    List Loop :=
  loops ++ [⟨name, startValue, startValue, increment, endValue⟩]

/-- The function `extend_loops`: the return value, the loops and the flag
`*duplicated` after the call. -/
def extend_loops (loops : List Loop) (vars : Variables)
    (name startingValueString incrementString endValueString : Option CStr)
    (duplicated : Bool) : Int × List Loop × Bool :=
  match name, startingValueString, incrementString, endValueString with
  | some name, some startingValueString, some incrementString, some endValueString =>
    if name.length < 1 ∨ name.length > MAX_VARIABLE_LENGTH then
      (INVALID_VARIABLES_ERROR, loops, duplicated)
    else if ¬ name.all isalpha then (INVALID_VARIABLES_ERROR, loops, duplicated)
    else
      let startValue := strtod startingValueString
      if startValue.2 ≠ [] ∨ startingValueString.length = 0 then
        (INVALID_VARIABLES_ERROR, loops, duplicated)
      else
        let increment := strtod incrementString
        if increment.2 ≠ [] ∨ incrementString.length = 0 then
          (INVALID_VARIABLES_ERROR, loops, duplicated)
        else
          let endValue := strtod endValueString
          if endValue.2 ≠ [] ∨ endValueString.length = 0 then
            (INVALID_VARIABLES_ERROR, loops, duplicated)
          else if rangeRejected startValue.1 increment.1 endValue.1 then
            (INVALID_VARIABLES_ERROR, loops, duplicated)
          else
            (0, reallocate_loops loops name startValue.1 increment.1 endValue.1,
              duplicated || loops.any (fun l => l.name = name)
                || vars.entries.any (fun v => v.name = name))
  | _, _, _, _ => (INVALID_VARIABLES_ERROR, loops, duplicated)

/-- The `for` loop of `decode_loops_strings` over the strings still to decode, with
the check of `duplicated` after it. -/
def decode_loops_strings_from (vars : Variables) :
    List CStr → List Loop → Bool → Int × List Loop
  | [], loops, duplicated => (if duplicated then DUPLICATE_VARIABLES_ERROR else 0, loops)
  | s :: rest, loops, duplicated =>
    if countChar ',' s ≠ LOOP_COMMAS then (INVALID_VARIABLES_ERROR, loops)
    else
      let name := strtok s [',']
      let startingValueString := strtok name.2 [',']
      let incrementString := strtok startingValueString.2 [',']
      let endValueString := strtok incrementString.2 [',']
      match extend_loops loops vars name.1 startingValueString.1 incrementString.1
          endValueString.1 duplicated with
      | (result, loops1, duplicated1) =>
        if result ≠ 0 then (result, loops1)
        else decode_loops_strings_from vars rest loops1 duplicated1

/-- The function `decode_loops_strings`: the return value and the loops. -/
def decode_loops_strings (loopsStrings : List CStr) (vars : Variables) :
    Int × List Loop :=
  decode_loops_strings_from vars loopsStrings [] false

/-! ## `@range` and `@print` -/

/-- The line `name = current (start, increment, end)` printed for a loop. -/
def loopLine (sf : Nat) (l : Loop) : Ev :=
  .loopLine sf l.name l.currentValue l.startingValue l.increment l.endValue

/-- The first `for` loop of `range_new_loop`: the first loop called `name` gets the
new range; `none` when no loop has that name. -/
def range_redefine (name : CStr) (startValue increment endValue : ℚ) :
    List Loop → Option (List Loop × Loop)
  | [] => none
  | l :: ls =>
    if l.name = name then
      let l1 : Loop := ⟨l.name, startValue, startValue, increment, endValue⟩
      some (l1 :: ls, l1)
    else (range_redefine name startValue increment endValue ls).map
      (fun r => (l :: r.1, r.2))

/-- The second `for` loop of `range_new_loop`: the name of the first variable called
`name` is replaced by the sentinel; `none` when no variable has that name. -/
def range_promote (name : CStr) : List Variable → Option (List Variable)
  | [] => none
  | v :: vs =>
    if v.name = name then some (⟨sentinel, v.value⟩ :: vs)
    else (range_promote name vs).map (fun r => v :: r)

/-- The function `range_allocate_loop`: one more loop at the end, and its line. -/
def range_allocate_loop (loops : List Loop) (name : CStr)
    (startValue increment endValue : ℚ) (sf : Nat) : List Loop × List Ev :=
  let l : Loop := ⟨name, startValue, startValue, increment, endValue⟩
  (loops ++ [l], [loopLine sf l])

/-- The function `range_new_loop`. -/
def range_new_loop (st : Stores) (name : CStr) (startValue increment endValue : ℚ)
    (sf : Nat) : Res :=
  match range_redefine name startValue increment endValue st.loops with
  | some (loops1, l1) => ⟨0, { st with loops := loops1 }, [loopLine sf l1]⟩
  | none =>
    let vars1 : Variables :=
      match range_promote name st.vars.entries with
      | some entries1 => ⟨entries1, st.vars.converted + 1⟩
      | none => st.vars
    let r := range_allocate_loop st.loops name startValue increment endValue sf
    ⟨0, ⟨vars1, r.1⟩, r.2⟩

/-- The function `range` on a non-`NULL` argument. -/
def range (expression : CStr) (st : Stores) (sf : Nat) : Res :=
  if countChar ',' expression ≠ LOOP_COMMAS then ⟨INVALID_VARIABLES_ERROR, st, []⟩
  else
    let name := strtok expression [',']
    let startingValueString := strtok name.2 [',']
    let incrementString := strtok startingValueString.2 [',']
    let endValueString := strtok incrementString.2 [',']
    match name.1, startingValueString.1, incrementString.1, endValueString.1 with
    | some name, some startingValueString, some incrementString, some endValueString =>
      if name.length < 1 ∨ name.length > MAX_VARIABLE_LENGTH then
        ⟨INVALID_VARIABLES_ERROR, st, []⟩
      else if ¬ name.all isalpha then ⟨INVALID_VARIABLES_ERROR, st, []⟩
      else
        let startValue := strtod startingValueString
        if startValue.2 ≠ [] ∨ startingValueString.length = 0 then
          ⟨INVALID_VARIABLES_ERROR, st, []⟩
        else
          let increment := strtod incrementString
          if increment.2 ≠ [] ∨ incrementString.length = 0 then
            ⟨INVALID_VARIABLES_ERROR, st, []⟩
          else
            let endValue := strtod endValueString
            if cstrAt endValue.2 0 ≠ '\n' ∨ endValueString.length = 0 then
              ⟨INVALID_VARIABLES_ERROR, st, []⟩
            else if rangeRejected startValue.1 increment.1 endValue.1 then
              ⟨INVALID_VARIABLES_ERROR, st, []⟩
            else range_new_loop st name startValue.1 increment.1 endValue.1 sf
    | _, _, _, _ => ⟨INVALID_VARIABLES_ERROR, st, []⟩

/-- The function `print_variables`: the lines of `@print`. -/
def print_variables (st : Stores) (sf : Nat) : List Ev :=
  (if (st.vars.entries.length : Int) - st.vars.converted = 0 then
      [Ev.text "No variables were defined.\n"]
    else
      Ev.text "Variables:\n" ::
        (st.vars.entries.filter (fun v => v.name ≠ sentinel)).map
          (fun v => Ev.varLine sf v.name v.value))
  ++
  (if st.loops.length = 0 then [Ev.text "No loop variables were defined.\n"]
    else Ev.text "Loop variables:\n" :: st.loops.map (loopLine sf))

/-! ## Binding tables -/

/-- The entries a binding loop makes for the variables: every slot whose name is not
the sentinel, with its value. -/
def bind_vars (entries : List Variable) : Table :=
  (entries.filter (fun v => v.name ≠ sentinel)).map (fun v => (v.name, v.value))

/-- The entries a binding loop makes for the loops: every loop whose name is not the
sentinel, with its current value. -/
def bind_loops (loops : List Loop) : Table :=
  (loops.filter (fun l => l.name ≠ sentinel)).map (fun l => (l.name, l.currentValue))

/-- The table of `download_assignment` and `download_expression`: variables first. -/
def tableVL (st : Stores) : Table := bind_vars st.vars.entries ++ bind_loops st.loops

/-- The table of `loop_expression` and `loop_assignment`: loops first. -/
def tableLV (st : Stores) : Table := bind_loops st.loops ++ bind_vars st.vars.entries

/-! ## The loop driver -/

/-- The iteration count `1 + (int)floor((end - start) / increment)` of a loop. The
quotient by a zero increment is not a number, and a count outside `int` is not
defined. -/
def repetitions (l : Loop) : Option Int :=
  if l.increment = 0 then none
  else (toInt ⌊(l.endValue - l.startingValue) / l.increment⌋).bind
    (fun f => toInt (1 + f))

/-- The assignment `loops->currentValue[k] = v`. -/
def setCurrentValue : List Loop → Nat → ℚ → List Loop
  | [], _, _ => []
  | l :: ls, 0, v => { l with currentValue := v } :: ls
  | l :: ls, k + 1, v => l :: setCurrentValue ls k v

/-- The assignment `variables->values[k] = v`. -/
def setValue : List Variable → Nat → ℚ → List Variable
  | [], _, _ => []
  | x :: xs, 0, v => { x with value := v } :: xs
  | x :: xs, k + 1, v => x :: setValue xs k v

/-- The loop at an index, for the reads `loops->...[k]`. -/
def loopAt (loops : List Loop) (k : Nat) : Loop := loops.getD k ⟨[], 0, 0, 0, 0⟩

/-- The `for` loop of `loop_expression` with `n` iterations left, at iteration `i`.
`names` is the name column of `tevars`, `values` the array the addresses point to. -/
def loop_expression_from (te : CStr → Table → Option ℚ) (expression : CStr)
    (loopVarIndex : Nat) (sf : Nat) (names : List CStr) :
    Nat → Nat → Stores → List ℚ → Res
  | 0, _, st, _ => ⟨0, st, []⟩
  | n + 1, i, st, values =>
    let l := loopAt st.loops loopVarIndex
    let current := l.startingValue + (i : ℚ) * l.increment
    let st1 : Stores := { st with loops := setCurrentValue st.loops loopVarIndex current }
    let values1 := values.set loopVarIndex current
    let table : Table := names.zip values1
    match te expression table with
    | some value =>
      let r := loop_expression_from te expression loopVarIndex sf names n (i + 1) st1 values1
      ⟨r.ret, r.st,
        Ev.compile expression table st1 :: Ev.resultWhen sf value l.name current :: r.out⟩
    | none => ⟨1, st1, [Ev.compile expression table st1]⟩

/-- The function `loop_expression` on a non-`NULL` expression. The array `values` has
`variables->size + loops->size` elements, of which the table uses the first `index`. -/
def loop_expression (te : CStr → Table → Option ℚ) (st : Stores) (expression : CStr)
    (loopVarIndex : Nat) (sf : Nat) : Option Res :=
  match st.loops[loopVarIndex]? with
  | none => none
  | some l =>
    match repetitions l with
    | none => none
    | some reps =>
      let table := tableLV st
      let values := table.map Prod.snd ++
        List.replicate (st.vars.entries.length + st.loops.length - table.length) 0
      some (loop_expression_from te expression loopVarIndex sf (table.map Prod.fst)
        reps.toNat 0 st values)

/-- The index of the first variable called `name`. -/
def findVariable (name : CStr) : List Variable → Option Nat
  | [] => none
  | v :: vs => if v.name = name then some 0 else (findVariable name vs).map (· + 1)

/-- The index of the first loop called `name`. -/
def findLoop (name : CStr) : List Loop → Option Nat
  | [] => none
  | l :: ls => if l.name = name then some 0 else (findLoop name ls).map (· + 1)

/-- The function `loop_assignment_setup`: the return value, `*variableIndex`,
`*loopIndex` (`none` for `-1`) and the stores. A `NULL` name is dereferenced. -/
def loop_assignment_setup (expressionVariable : Option CStr) (st : Stores) :
    Option (Int × Option Nat × Option Nat × Stores) :=
  match expressionVariable with
  | none => none
  | some ev =>
    if ev = sentinel then some (1, none, none, st)
    else
      let variableIndex := findVariable ev st.vars.entries
      let loopIndex := findLoop ev st.loops
      if variableIndex = none ∧ loopIndex = none then
        some (0, some st.vars.entries.length, none,
          { st with vars := { st.vars with entries := st.vars.entries ++ [⟨ev, 0⟩] } })
      else some (0, variableIndex, loopIndex, st)

/-- The function `loop_print_assignment`: the stores after the write, and the line.
With both indices `-1` (which `loop_assignment_setup` never leaves) nothing is
written here. -/
def loop_print_assignment (value : ℚ) (st : Stores) (expressionVariable : CStr)
    (loopIndex variableIndex : Option Nat) (sf : Nat) (loopVarIndex : Nat) (i : Nat) :
    Stores × Ev :=
  let st1 : Stores :=
    match variableIndex, loopIndex with
    | none, some li => { st with loops := setCurrentValue st.loops li value }
    | none, none => st
    | some vi, _ => { st with vars := { st.vars with entries := setValue st.vars.entries vi value } }
  let l := loopAt st1.loops loopVarIndex
  (st1, Ev.assignWhen sf expressionVariable value l.name
    (l.startingValue + (i : ℚ) * l.increment))

/-- The `for` loop of `loop_assignment` with `n` iterations left, at iteration `i`. -/
def loop_assignment_from (te : CStr → Table → Option ℚ) (sf : Nat)
    (loopIndex variableIndex : Option Nat) (expressionVariable : CStr)
    (loopVarIndex : Nat) (expressionExpression : CStr) : Nat → Nat → Stores → Res
  | 0, _, st => ⟨0, st, []⟩
  | n + 1, i, st =>
    let l := loopAt st.loops loopVarIndex
    let current := l.startingValue + (i : ℚ) * l.increment
    let st1 : Stores := { st with loops := setCurrentValue st.loops loopVarIndex current }
    let table := tableLV st1
    match te expressionExpression table with
    | some value =>
      let w := loop_print_assignment value st1 expressionVariable loopIndex variableIndex
        sf loopVarIndex i
      let r := loop_assignment_from te sf loopIndex variableIndex expressionVariable
        loopVarIndex expressionExpression n (i + 1) w.1
      ⟨r.ret, r.st, Ev.compile expressionExpression table st1 :: w.2 :: r.out⟩
    | none => ⟨1, st1, [Ev.compile expressionExpression table st1]⟩

/-- The function `loop_assignment`. A `NULL` expression reaches `te_compile` in the
first iteration. -/
def loop_assignment (te : CStr → Table → Option ℚ) (st : Stores) (sf : Nat)
    (loopIndex variableIndex : Option Nat) (expressionVariable : CStr)
    (loopVarIndex : Nat) (expressionExpression : Option CStr) : Option Res :=
  match st.loops[loopVarIndex]? with
  | none => none
  | some l =>
    match repetitions l with
    | none => none
    | some reps =>
      match expressionExpression with
      | none => if reps.toNat = 0 then some ⟨0, st, []⟩ else none
      | some e =>
        some (loop_assignment_from te sf loopIndex variableIndex expressionVariable
          loopVarIndex e reps.toNat 0 st)

/-- The search loop of `loop` from index `i` on: the last index whose name matches
(`found` when there is none), and the loops with every match reset to its start. -/
def loop_search (variableName : CStr) : Nat → List Loop → Option Nat → Option Nat × List Loop
  | _, [], found => (found, [])
  | i, l :: ls, found =>
    if l.name = variableName then
      let r := loop_search variableName (i + 1) ls (some i)
      (r.1, { l with currentValue := l.startingValue } :: r.2)
    else
      let r := loop_search variableName (i + 1) ls found
      (r.1, l :: r.2)

/-- The function `loop` on the copy of the line. -/
def loop (te : CStr → Table → Option ℚ) (line : CStr) (st : Stores) (sf : Nat) :
    Option Res :=
  let first := strtok line [' ']
  let variableName := strtok first.2 [' ']
  let expression := strtok variableName.2 []
  match variableName.1 with
  | none => if st.loops = [] then some ⟨1, st, []⟩ else none
  | some name =>
    let found := loop_search name 0 st.loops none
    let st1 : Stores := { st with loops := found.2 }
    match found.1 with
    | none => some ⟨1, st1, []⟩
    | some loopVarIndex =>
      match expression.1 with
      | none => none
      | some expression =>
        let numberEquals := countChar '=' expression
        if numberEquals = 0 then loop_expression te st1 expression loopVarIndex sf
        else if numberEquals = 1 then
          let expressionVariable := strtok expression ['=']
          let expressionExpression := strtok expressionVariable.2 []
          let expressionVariable1 :=
            match expressionVariable.1 with
            | some ev => strtok ev [' ']
            | none => strtok expressionExpression.2 [' ']
          match loop_assignment_setup expressionVariable1.1 st1 with
          | none => none
          | some (result, variableIndex, loopIndex, st2) =>
            if result ≠ 0 then some ⟨result, st2, []⟩
            else
              loop_assignment te st2 sf loopIndex variableIndex
                (expressionVariable1.1.getD []) loopVarIndex expressionExpression.1
        else some ⟨1, st1, []⟩

/-- The branch of `loop` for one `=` (the calls of `loop_assignment_setup` and of
`loop_assignment`) on a target and an expression that are not `NULL`. -/
def loop_assignment_form (te : CStr → Table → Option ℚ) (st : Stores) (sf : Nat)
    (loopVarIndex : Nat) (expressionVariable expressionExpression : CStr) : Option Res :=
  match loop_assignment_setup (some expressionVariable) st with
  | none => none
  | some (result, variableIndex, loopIndex, st2) =>
    if result ≠ 0 then some ⟨result, st2, []⟩
    else
      loop_assignment te st2 sf loopIndex variableIndex expressionVariable loopVarIndex
        (some expressionExpression)

/-! ## Classifying and running one line -/

/-- The loop `while (isspace(s[start]) && start < end) start++`, with `fuel` bounding
the number of iterations. -/
def trimStart (s : CStr) (testEnd : Nat) : Nat → Nat → Nat
  | 0, testStart => testStart
  | fuel + 1, testStart =>
    if isspace (cstrAt s testStart) ∧ testStart < testEnd then
      trimStart s testEnd fuel (testStart + 1)
    else testStart

/-- The loop `while (isspace(s[end]) && end > start) end--`, with `fuel` bounding
the number of iterations. -/
def trimEnd (s : CStr) (testStart : Nat) : Nat → Nat → Nat
  | 0, testEnd => testEnd
  | fuel + 1, testEnd =>
    if isspace (cstrAt s testEnd) ∧ testEnd > testStart then
      trimEnd s testStart fuel (testEnd - 1)
    else testEnd

/-- The C string in the buffer of `s` after `memmove(s, s + start, n)`. -/
def memmoveFront (s : CStr) (start n : Nat) : CStr :=
  let bytes := s ++ ['\x00']
  (((bytes.drop start).take n) ++ bytes.drop n).takeWhile (fun c => c ≠ '\x00')

/-- The copy `testString` of the line in `detect_range_print` after the two trimming
loops and the `memmove`. -/
def testString (line : CStr) : CStr :=
  memmoveFront line (trimStart line line.length (line.length + 1) 0)
    (trimEnd line (trimStart line line.length (line.length + 1) 0) (line.length + 1)
        line.length
      - trimStart line line.length (line.length + 1) 0 + 1)

/-- The function `detect_range_print`. `strcmp` on a `NULL` first token, and `range`
on a `NULL` argument, dereference `NULL`. -/
def detect_range_print (line : CStr) (st : Stores) (sf : Nat) : Option Res :=
  let testEnd := line.length
  let testStart := trimStart line testEnd (testEnd + 1) 0
  let testEnd1 := trimEnd line testStart (testEnd + 1) testEnd
  let testString := memmoveFront line testStart (testEnd1 - testStart + 1)
  if testString = "@print\n".toList then some ⟨1, st, print_variables st sf⟩
  else
    let spaceCounter := countChar ' ' testString
    let rangeTest := strtok testString [' ']
    let rangeExpression := strtok rangeTest.2 [' ']
    match rangeTest.1 with
    | none => none
    | some rangeTest =>
      if rangeTest = "@range".toList ∧ spaceCounter = 1 ∧ cstrAt line 0 = '@' then
        match rangeExpression.1 with
        | none => none
        | some rangeExpression =>
          let r := range rangeExpression st sf
          some ⟨1, r.st, r.out ++ (if r.ret ≠ 0 then [Ev.err] else [])⟩
      else some ⟨0, st, []⟩

/-- The function `detect_loops`. -/
def detect_loops (te : CStr → Table → Option ℚ) (line : CStr) (st : Stores) (sf : Nat) :
    Option Res :=
  if line.length > LOOP_LENGTH ∧ cstrAt line 0 = '@' ∧ cstrAt line 1 = 'l'
      ∧ cstrAt line 2 = 'o' ∧ cstrAt line 3 = 'o' ∧ cstrAt line 4 = 'p'
      ∧ cstrAt line 5 = ' ' ∧ isalpha (cstrAt line LOOP_LENGTH) then
    match loop te line st sf with
    | none => none
    | some r => some ⟨1, r.st, r.out ++ (if r.ret ≠ 0 then [Ev.err] else [])⟩
  else some ⟨0, st, []⟩

/-- The first `for` loop of `download_assignment_print`: the first variable called
`name` gets the value; `none` when no variable has that name. -/
def assignVariable (name : CStr) (value : ℚ) : List Variable → Option (List Variable)
  | [] => none
  | v :: vs =>
    if name = v.name then some (⟨v.name, value⟩ :: vs)
    else (assignVariable name value vs).map (fun r => v :: r)

/-- The second `for` loop of `download_assignment_print`: the first loop called
`name` gets the value as its current value; `none` when no loop has that name. -/
def assignLoop (name : CStr) (value : ℚ) : List Loop → Option (List Loop)
  | [] => none
  | l :: ls =>
    if name = l.name then some ({ l with currentValue := value } :: ls)
    else (assignLoop name value ls).map (fun r => l :: r)

/-- The function `download_assignment_print`: `*finished`, the stores and the lines. -/
def download_assignment_print (variableName : CStr) (st : Stores) (sf : Nat) (value : ℚ) :
    Bool × Stores × List Ev :=
  let a : Bool × Variables × List Ev :=
    match assignVariable variableName value st.vars.entries with
    | some entries1 => (true, ⟨entries1, st.vars.converted⟩, [Ev.varLine sf variableName value])
    | none => (false, st.vars, [])
  let b : Bool × List Loop × List Ev :=
    match assignLoop variableName value st.loops with
    | some loops1 => (true, loops1, [Ev.varLine sf variableName value])
    | none => (false, st.loops, [])
  (a.1 || b.1, ⟨a.2.1, b.2.1⟩, a.2.2 ++ b.2.2)

/-- The function `download_allocate_variable`. -/
def download_allocate_variable (vars : Variables) (variableName : CStr) (sf : Nat)
    (value : ℚ) : Variables × List Ev :=
  ({ vars with entries := vars.entries ++ [⟨variableName, value⟩] },
    [Ev.varLine sf variableName value])

/-- The function `download_assignment` on a non-`NULL` expression. -/
def download_assignment (te : CStr → Table → Option ℚ) (st : Stores) (expression : CStr)
    (variableName : CStr) (sf : Nat) : Res :=
  let table := tableVL st
  match te expression table with
  | some value =>
    let p := download_assignment_print variableName st sf value
    if p.1 then ⟨0, p.2.1, Ev.compile expression table st :: p.2.2⟩
    else
      let a := download_allocate_variable p.2.1.vars variableName sf value
      ⟨0, { p.2.1 with vars := a.1 }, Ev.compile expression table st :: (p.2.2 ++ a.2)⟩
  | none => ⟨1, st, [Ev.compile expression table st, Ev.err]⟩

/-- The function `download_expression`. -/
def download_expression (te : CStr → Table → Option ℚ) (st : Stores) (line : CStr)
    (sf : Nat) : Res :=
  let table := tableVL st
  match te line table with
  | some res => ⟨0, st, [Ev.compile line table st, Ev.result sf res]⟩
  | none => ⟨0, st, [Ev.compile line table st, Ev.err]⟩

/-- The function `download_setup`: the return value and `*numberEquals`. -/
def download_setup (line : CStr) : Int × Nat :=
  (if countChar '#' line > 0 then 1 else 0, countChar '=' line)

/-- The function `download_assignment_check_valid`: the return value and what it
prints. -/
def download_assignment_check_valid (variableName : CStr) : Int × List Ev :=
  if ¬ variableName.all isalpha ∨ variableName.length < 1
      ∨ variableName.length > MAX_VARIABLE_LENGTH then (1, [Ev.err])
  else (0, [])

/-- The key of an assignment after the two trimming loops, the `memmove` and the
write of the terminating NUL: the characters `start .. end` of the first token. -/
def trimKey (variableName : CStr) : CStr :=
  let end0 := variableName.length - 1
  let start := trimStart variableName end0 (end0 + 1) 0
  let end1 := trimEnd variableName start (end0 + 1) end0
  (variableName.drop start).take (end1 - start + 1)

/-- What `download_live_command_line` and `download_file` do with one line that
`fgets` delivered (the two bodies are the same statements): the stores after the
line and what was printed. -/
def download_line (te : CStr → Table → Option ℚ) (sf : Nat) (st : Stores) (line : CStr) :
    Option (Stores × List Ev) :=
  let setup := download_setup line
  if setup.1 ≠ 0 then some (st, [])
  else
    match detect_range_print line st sf with
    | none => none
    | some r1 =>
      if r1.ret ≠ 0 then some (r1.st, r1.out)
      else
        match detect_loops te line r1.st sf with
        | none => none
        | some r2 =>
          if r2.ret ≠ 0 then some (r2.st, r1.out ++ r2.out)
          else if setup.2 = 1 then
            let variableName := strtok line ['=']
            let expression := strtok variableName.2 ['=']
            match variableName.1 with
            | none => none
            | some variableName =>
              let key := trimKey variableName
              let check := download_assignment_check_valid key
              if check.1 ≠ 0 then some (r2.st, r1.out ++ r2.out ++ check.2)
              else
                match expression.1 with
                | none => none
                | some expression =>
                  let r := download_assignment te r2.st expression key sf
                  some (r.st, r1.out ++ r2.out ++ r.out)
          else if setup.2 = 0 then
            let r := download_expression te r2.st line sf
            some (r.st, r1.out ++ r2.out ++ r.out)
          else some (r2.st, r1.out ++ r2.out)

/-- The lines of a whole input, one after the other. -/
def download_lines (te : CStr → Table → Option ℚ) (sf : Nat) :
    Stores → List CStr → Option (Stores × List Ev)
  | st, [] => some (st, [])
  | st, line :: rest =>
    match download_line te sf st line with
    | none => none
    | some (st1, out1) =>
      match download_lines te sf st1 rest with
      | none => none
      | some (st2, out2) => some (st2, out1 ++ out2)

/-! ## The command line and the run -/

/-- The struct `Information`. -/
structure Information where
  fileName : CStr
  variableStrings : List CStr
  loopsStrings : List CStr
deriving DecidableEq

/-- The `for` loop of `download_command_line` over the arguments still to read, with
`download_variable`, `download_loops` and `download_sig_figs` in their branches: the
return value, `*sigFigs` and the strings collected. -/
def download_command_line_from : List CStr → Nat → Information → Int × Nat × Information
  | [], sigFigs, information => (0, sigFigs, information)
  | a :: rest, sigFigs, information =>
    if a = "--define".toList then
      match rest with
      | [] => (INVALID_COMMAND_LINE_ERROR, sigFigs, information)
      | v :: rest1 =>
        if v ≠ [] then
          download_command_line_from rest1 sigFigs
            { information with variableStrings := information.variableStrings ++ [v] }
        else (INVALID_COMMAND_LINE_ERROR, sigFigs, information)
    else if a = "--loopable".toList then
      match rest with
      | [] => (INVALID_COMMAND_LINE_ERROR, sigFigs, information)
      | v :: rest1 =>
        if v ≠ [] then
          download_command_line_from rest1 sigFigs
            { information with loopsStrings := information.loopsStrings ++ [v] }
        else (INVALID_COMMAND_LINE_ERROR, sigFigs, information)
    else if a = "--significantfigures".toList then
      match rest with
      | [] => (INVALID_COMMAND_LINE_ERROR, sigFigs, information)
      | v :: rest1 =>
        if sigFigs ≠ 0 then (INVALID_COMMAND_LINE_ERROR, sigFigs, information)
        else if v.length = 1 ∧ '2' ≤ cstrAt v 0 ∧ cstrAt v 0 ≤ '8' then
          download_command_line_from rest1 ((cstrAt v 0).toNat - '0'.toNat) information
        else (INVALID_COMMAND_LINE_ERROR, sigFigs, information)
    else if rest = [] ∧ a ≠ [] ∧ (a.length < 2 ∨ ('-' ≠ cstrAt a 0 ∧ '-' ≠ cstrAt a 1)) then
      download_command_line_from rest sigFigs { information with fileName := a }
    else (INVALID_COMMAND_LINE_ERROR, sigFigs, information)

/-- The function `download_command_line` on `argv[1..]`. -/
def download_command_line (arguments : List CStr) : Int × Nat × Information :=
  match download_command_line_from arguments 0 ⟨[], [], []⟩ with
  | (result, sigFigs, information) =>
    (result, if result = 0 ∧ sigFigs = 0 then DEFAULT_SIG_FIGS else sigFigs, information)

/-- The stores after `decode_variable_strings` and `decode_loops_strings`, when both
return 0. -/
def initialStores (variableStrings loopsStrings : List CStr) : Option Stores :=
  let v := decode_variable_strings variableStrings
  let l := decode_loops_strings loopsStrings v.2
  if v.1 = 0 ∧ l.1 = 0 then some ⟨v.2, l.2⟩ else none

/-- The result of `run_initial_command_line`. -/
structure Initial where
  ret : Int
  sigFigs : Nat
  information : Information
  st : Stores
  out : List Ev
deriving DecidableEq

/-- The function `run_initial_command_line` on `argv[1..]`; `canOpen` tells whether
`fopen` succeeds on a file name. -/
def run_initial_command_line (canOpen : CStr → Bool) (arguments : List CStr) : Initial :=
  let c := download_command_line arguments
  if c.1 = INVALID_COMMAND_LINE_ERROR then
    ⟨INVALID_COMMAND_LINE_ERROR, c.2.1, c.2.2, ⟨⟨[], 0⟩, []⟩,
      [Ev.errText "Usage: ./uqexpr [--loopable string] [--define string] [--significantfigures 2..8] [inputfilename]\n"]⟩
  else if c.2.2.fileName ≠ [] ∧ canOpen c.2.2.fileName = false then
    ⟨FILE_DOES_NOT_OPEN_ERROR, c.2.1, c.2.2, ⟨⟨[], 0⟩, []⟩, [Ev.errOpen c.2.2.fileName]⟩
  else
    let result := decode_variable_strings c.2.2.variableStrings
    let resultTwo := decode_loops_strings c.2.2.loopsStrings result.2
    if result.1 = INVALID_VARIABLES_ERROR ∨ resultTwo.1 = INVALID_VARIABLES_ERROR then
      ⟨INVALID_VARIABLES_ERROR, c.2.1, c.2.2, ⟨result.2, resultTwo.2⟩,
        [Ev.errText "uqexpr: invalid variable(s) were found\n"]⟩
    else if result.1 = DUPLICATE_VARIABLES_ERROR ∨ resultTwo.1 = DUPLICATE_VARIABLES_ERROR then
      ⟨DUPLICATE_VARIABLES_ERROR, c.2.1, c.2.2, ⟨result.2, resultTwo.2⟩,
        [Ev.errText "uqexpr: one or more variables are duplicated\n"]⟩
    else ⟨0, c.2.1, c.2.2, ⟨result.2, resultTwo.2⟩, []⟩

/-- The function `run_program`; `input` is the sequence of lines `fgets` delivers,
from the file or from `stdin`. The final call of `free_memory` hands every
`variables->names[i]` to `free`; after a promotion that name is the string literal
`" "`, which is not an allocated block, so the call has no defined behaviour and there
is no result then. -/
def run_program (te : CStr → Table → Option ℚ) (st : Stores) (sigFigs : Nat)
    (information : Information) (input : List CStr) : Option (Int × List Ev) :=
  let head : List Ev :=
    [Ev.text "Welcome to uqexpr!\nWritten by s4809233.\n"]
    ++ (if st.vars.entries.length = 0 then [Ev.text "No variables were defined.\n"]
        else Ev.text "Variables:\n" ::
          st.vars.entries.map (fun v => Ev.varLine sigFigs v.name v.value))
    ++ (if st.loops.length = 0 then [Ev.text "No loop variables were defined.\n"]
        else Ev.text "Loop variables:\n" :: st.loops.map (loopLine sigFigs))
    ++ (if information.fileName ≠ [] then []
        else [Ev.text "Please enter your expressions and assignment operations.\n"])
  match download_lines te sigFigs st input with
  | none => none
  | some (st1, out) =>
    if st1.vars.entries.any (fun v => v.name = sentinel) then none
    else some (0, head ++ out ++ [Ev.text "Thank you for using uqexpr.\n"])

/-- The function `main` on `argv[1..]`: the exit status and everything printed. -/
def main (te : CStr → Table → Option ℚ) (canOpen : CStr → Bool) (arguments : List CStr)
    (input : List CStr) : Option (Int × List Ev) :=
  let r := run_initial_command_line canOpen arguments
  if r.ret ≠ 0 then some (r.ret, r.out)
  else
    match run_program te r.st r.sigFigs r.information input with
    | none => none
    | some (result, out) => some (result, r.out ++ out)

/-- The stores the program can be in between two lines: those after a successful
initial decoding, and those after a line processed from such stores. -/
inductive Reachable (te : CStr → Table → Option ℚ) : Stores → Prop
  | init (variableStrings loopsStrings : List CStr) (st : Stores) :
      initialStores variableStrings loopsStrings = some st → Reachable te st
  | step (sf : Nat) (line : CStr) (st st1 : Stores) (out : List Ev) :
      Reachable te st → download_line te sf st line = some (st1, out) → Reachable te st1

/-! ## Words of the specification -/

/-- A name of 1 to 22 alphabetic characters. -/
def ValidName (n : CStr) : Prop :=
  1 ≤ n.length ∧ n.length ≤ MAX_VARIABLE_LENGTH ∧ n.all isalpha = true

instance (n : CStr) : Decidable (ValidName n) := by unfold ValidName; infer_instance

/-- The range rule of the specification. -/
def RangeValid (s i e : ℚ) : Prop := i ≠ 0 ∧ (s < e → i > 0) ∧ (s > e → i < 0)

instance (s i e : ℚ) : Decidable (RangeValid s i e) := by unfold RangeValid; infer_instance

/-- The text before the first `d`. -/
def fieldHead (d : Char) (s : CStr) : CStr := s.takeWhile (fun c => !decide (c = d))

/-- The text after the first `d`. -/
def fieldTail (d : Char) (s : CStr) : CStr := (s.dropWhile (fun c => !decide (c = d))).drop 1

/-- The field number `n` (from 0) of `s` split at every `d`. -/
def field (d : Char) : Nat → CStr → CStr
  | 0, s => fieldHead d s
  | n + 1, s => field d n (fieldTail d s)

/-- A numeric field of a string given on the command line: not empty, and consumed
entirely by `strtod`. -/
def Numeric (f : CStr) : Prop := f ≠ [] ∧ (strtod f).2 = []

instance (f : CStr) : Decidable (Numeric f) := by unfold Numeric; infer_instance

/-- The last field of a `@range` argument as `range` wants it: not empty, and with a
newline where `strtod` stops. -/
def NumericLine (f : CStr) : Prop := f ≠ [] ∧ cstrAt (strtod f).2 0 = '\n'

instance (f : CStr) : Decidable (NumericLine f) := by unfold NumericLine; infer_instance

/-- The value `strtod` reads from field `n` of a comma-separated argument. -/
def numField (n : Nat) (e : CStr) : ℚ := (strtod (field ',' n e)).1

/-- The arguments that pass all the checks of `range`. -/
def RangeArgAccepted (e : CStr) : Prop :=
  countChar ',' e = 3 ∧ ValidName (field ',' 0 e) ∧ Numeric (field ',' 1 e)
    ∧ Numeric (field ',' 2 e) ∧ NumericLine (field ',' 3 e)
    ∧ RangeValid (numField 1 e) (numField 2 e) (numField 3 e)

instance (e : CStr) : Decidable (RangeArgAccepted e) := by
  unfold RangeArgAccepted; infer_instance

/-- A `--define` string as the specification wants it: exactly one `=`, a valid
name before it and a numeric value after it. -/
def DefineValid (s : CStr) : Prop :=
  countChar '=' s = 1 ∧ ValidName (field '=' 0 s) ∧ Numeric (field '=' 1 s)

instance (s : CStr) : Decidable (DefineValid s) := by unfold DefineValid; infer_instance

/-- A `--loopable` string as the specification wants it: four comma-separated
fields, a valid name, three numeric fields and a valid range. -/
def LoopableValid (s : CStr) : Prop :=
  countChar ',' s = 3 ∧ ValidName (field ',' 0 s) ∧ Numeric (field ',' 1 s)
    ∧ Numeric (field ',' 2 s) ∧ Numeric (field ',' 3 s)
    ∧ RangeValid (numField 1 s) (numField 2 s) (numField 3 s)

instance (s : CStr) : Decidable (LoopableValid s) := by unfold LoopableValid; infer_instance

/-- The variable a valid `--define` string defines. -/
def defineEntry (s : CStr) : Variable := ⟨field '=' 0 s, (strtod (field '=' 1 s)).1⟩

/-- The loop a valid `--loopable` string defines. -/
def loopableEntry (s : CStr) : Loop :=
  ⟨field ',' 0 s, numField 1 s, numField 1 s, numField 2 s, numField 3 s⟩

/-- The initial strings the specification accepts: every `--define` string and every
`--loopable` string is valid, and the names are pairwise distinct across both lists. -/
def InitialValid (variableStrings loopsStrings : List CStr) : Prop :=
  (∀ s ∈ variableStrings, DefineValid s) ∧ (∀ s ∈ loopsStrings, LoopableValid s)
    ∧ (variableStrings.map (field '=' 0) ++ loopsStrings.map (field ',' 0)).Nodup

instance (vs ls : List CStr) : Decidable (InitialValid vs ls) := by
  unfold InitialValid; infer_instance

/-! ## Shapes of the stores and the invariant -/

/-- The names in the variable slots, sentinels included. -/
def varNames (st : Stores) : List CStr := st.vars.entries.map (fun v => v.name)

/-- The names of the live (not promoted) variables. -/
def liveNames (st : Stores) : List CStr := (varNames st).filter (fun n => n ≠ sentinel)

/-- The names of the loops. -/
def loopNames (st : Stores) : List CStr := st.loops.map (fun l => l.name)

/-- The fields of a loop that only `@range` writes. -/
def Loop.key (l : Loop) : CStr × ℚ × ℚ × ℚ :=
  (l.name, l.startingValue, l.increment, l.endValue)

/-- The invariant of the stores: every loop has a valid name and a valid range, and
no name occurs twice among the live variables and the loops. -/
def Inv (st : Stores) : Prop :=
  (∀ k ∈ st.loops.map Loop.key, ValidName k.1 ∧ RangeValid k.2.1 k.2.2.1 k.2.2.2)
    ∧ (liveNames st ++ loopNames st).Nodup

/-- The calls of the evaluator in a trace: expression, table and stores. -/
def calls : List Ev → List (CStr × Table × Stores)
  | [] => []
  | Ev.compile e tab snap :: out => (e, tab, snap) :: calls out
  | _ :: out => calls out

/-! ## Properties of the calls of the evaluator -/

/-- What the call number `j` of the evaluator must look like in a `@loop` command over
the loop `L`: the loop store holds `start + j * increment` as the current value of
`L`, the table has an entry for the name of `L` with that value, and every entry of
the table under that name carries that value. -/
def SweepCall (L : Loop) (j : Nat) (c : CStr × Table × Stores) : Prop :=
  (∃ l ∈ c.2.2.loops, l.name = L.name
      ∧ l.currentValue = L.startingValue + (j : ℚ) * L.increment)
  ∧ (L.name, L.startingValue + (j : ℚ) * L.increment) ∈ c.2.1
  ∧ ∀ p ∈ c.2.1, p.1 = L.name → p.2 = L.startingValue + (j : ℚ) * L.increment

/-- A call of the evaluator that fits stores `st` seen earlier: the stores at the call
satisfy the invariant and still have every loop name of `st`, and the names of the
table are the names of the loops and of the live variables at the call, in one of
the two orders. -/
def CallOk (st : Stores) (c : CStr × Table × Stores) : Prop :=
  Inv c.2.2 ∧ (∀ x ∈ loopNames st, x ∈ loopNames c.2.2)
    ∧ (c.2.1.map Prod.fst = loopNames c.2.2 ++ liveNames c.2.2
        ∨ c.2.1.map Prod.fst = liveNames c.2.2 ++ loopNames c.2.2)

/-- The first statement of an iteration of `loop_assignment`: the swept loop `k` gets
the value `start + i * increment`. -/
def advance (st : Stores) (k i : Nat) : Stores :=
  ⟨st.vars, setCurrentValue st.loops k
    ((loopAt st.loops k).startingValue + (i : ℚ) * (loopAt st.loops k).increment)⟩

/-- The stores with the value `v` as the current value of the loop at index `li`. -/
def writeLoop (st : Stores) (li : Nat) (v : ℚ) : Stores :=
  ⟨st.vars, setCurrentValue st.loops li v⟩

/-- The stores with the value `v` as the value of the variable at index `vi`. -/
def writeVariable (st : Stores) (vi : Nat) (v : ℚ) : Stores :=
  ⟨⟨setValue st.vars.entries vi v, st.vars.converted⟩, st.loops⟩

/-- Every iteration of a `@loop` command over the loop `k`, with the trace and the
final stores `r`, writes the value it evaluates with `write`: the stores at the next
call of the evaluator are those of this call after the write, with the sweep advanced,
and after the last iteration of a command that succeeds the stores are those of the
last call after the write. -/
def IteratesWith (te : CStr → Table → Option ℚ) (e : CStr) (k : Nat)
    (write : Stores → ℚ → Stores) (r : Res) : Prop :=
  (∀ (j : Nat) (c c1 : CStr × Table × Stores),
      (calls r.out)[j]? = some c → (calls r.out)[j + 1]? = some c1 →
      ∃ v, te e c.2.1 = some v ∧ c1.2.2 = advance (write c.2.2 v) k (j + 1))
  ∧ (r.ret = 0 → ∀ c, (calls r.out).getLast? = some c →
      ∃ v, te e c.2.1 = some v ∧ r.st = write c.2.2 v)

/-! ## Properties of the printed lines -/

/-- The number of significant figures in the format of the numbers of a printed line
(`none` for a line without a number and for a call of the evaluator). -/
def Ev.sigFigs : Ev → Option Nat
  | .varLine sf _ _ => some sf
  | .loopLine sf _ _ _ _ _ => some sf
  | .result sf _ => some sf
  | .resultWhen sf _ _ _ => some sf
  | .assignWhen sf _ _ _ _ => some sf
  | _ => none

/-- Every number in the trace is printed with `sf` significant figures. -/
def FormattedWith (sf : Nat) (out : List Ev) : Prop :=
  ∀ e ∈ out, ∀ n, e.sigFigs = some n → n = sf

/-! ## Tombstones -/

/-- The counter `converted` is the number of slots whose name is the sentinel. -/
def ConvertedCounts (st : Stores) : Prop :=
  st.vars.converted = (((varNames st).filter (fun n => n = sentinel)).length : Int)

/-- The slots of `xs` are still at their index in `ys`: a slot has kept its name or got
the sentinel as its name, and a slot whose name is the sentinel is unchanged. -/
def SlotsKept (xs ys : List Variable) : Prop :=
  ∀ (i : Nat) (x : Variable), xs[i]? = some x →
    ∃ y, ys[i]? = some y ∧ (y.name = x.name ∨ y.name = sentinel)
      ∧ (x.name = sentinel → y = x)

/-- A call of the evaluator made after stores `st`: the slots of `st` are kept in the
stores at the call, the counter of those stores counts their tombstones, and the table
is the one the two binding loops make from those stores, in one of the two orders. -/
def CallExact (st : Stores) (c : CStr × Table × Stores) : Prop :=
  SlotsKept st.vars.entries c.2.2.vars.entries ∧ ConvertedCounts c.2.2
    ∧ (c.2.1 = tableVL c.2.2 ∨ c.2.1 = tableLV c.2.2)

/-- The names of variables and of loops that a printed line shows. -/
def Ev.names : Ev → List CStr
  | .varLine _ name _ => [name]
  | .loopLine _ name _ _ _ _ => [name]
  | .resultWhen _ _ name _ => [name]
  | .assignWhen _ target _ name _ => [target, name]
  | _ => []

/-- No line of the trace shows the sentinel as a name. -/
def SentinelFree (out : List Ev) : Prop :=
  ∀ e ∈ out, sentinel ∉ e.names

/-- The text `s` without its leading and its trailing white space. -/
def strip (s : CStr) : CStr :=
  ((s.dropWhile isspace).reverse.dropWhile isspace).reverse

/-! ## A loop over an expression with the table rebuilt at every iteration -/

/-- The `for` loop of `loop_expression` as the specification reads it: at every
iteration the table is rebuilt from the stores, loops first, as `loop_assignment`
does. -/
def loop_expression_rebuilt_from (te : CStr → Table → Option ℚ) (expression : CStr)
    (loopVarIndex : Nat) (sf : Nat) : Nat → Nat → Stores → Res
  | 0, _, st => ⟨0, st, []⟩
  | n + 1, i, st =>
    let l := loopAt st.loops loopVarIndex
    let current := l.startingValue + (i : ℚ) * l.increment
    let st1 : Stores := { st with loops := setCurrentValue st.loops loopVarIndex current }
    let table := tableLV st1
    match te expression table with
    | some value =>
      let r := loop_expression_rebuilt_from te expression loopVarIndex sf n (i + 1) st1
      ⟨r.ret, r.st,
        Ev.compile expression table st1 :: Ev.resultWhen sf value l.name current :: r.out⟩
    | none => ⟨1, st1, [Ev.compile expression table st1]⟩

/-- The function `loop_expression` with the table rebuilt at every iteration. -/
def loop_expression_rebuilt (te : CStr → Table → Option ℚ) (st : Stores) (expression : CStr)
    (loopVarIndex : Nat) (sf : Nat) : Option Res :=
  match st.loops[loopVarIndex]? with
  | none => none
  | some l =>
    match repetitions l with
    | none => none
    | some reps =>
      some (loop_expression_rebuilt_from te expression loopVarIndex sf reps.toNat 0 st)

/-! ## The text of the printed lines

The numbers of a line are printed by `printf` with the format `%.Ng` that `snprintf`
builds from the significant-figure setting `N`. The conversion is the one of the C
standard, on exact values: infinities and NaN do not occur among them. -/

/-- The decimal digits of `n`, with zeros on the left to make at least `w` digits. -/
def padDigits (w n : Nat) : CStr :=
  List.replicate (w - (Nat.toDigits 10 n).length) '0' ++ Nat.toDigits 10 n

/-- The fraction digits `ds` as `%g` prints them: trailing zeros are removed, and the
decimal point is printed when a digit remains. -/
def fractionG (ds : CStr) : CStr :=
  if (ds.reverse.dropWhile (fun c => c = '0')).reverse = [] then []
  else '.' :: (ds.reverse.dropWhile (fun c => c = '0')).reverse

/-- The integer nearest to `r ≥ 0`, the even one of the two when `r` is half way. -/
def roundHalfEven (r : ℚ) : Nat :=
  if r - (⌊r⌋.toNat : ℚ) < 1 / 2 then ⌊r⌋.toNat
  else if 1 / 2 < r - (⌊r⌋.toNat : ℚ) then ⌊r⌋.toNat + 1
  else if ⌊r⌋.toNat % 2 = 0 then ⌊r⌋.toNat else ⌊r⌋.toNat + 1

/-- The value `a * 10 ^ z`. -/
def scale10 (a : ℚ) (z : Int) : ℚ :=
  if 0 ≤ z then a * (10 : ℚ) ^ z.toNat else a / (10 : ℚ) ^ (-z).toNat

/-- The least `m1 ≥ m` with `1 ≤ a * 10 ^ m1`, searching at most `fuel` steps. -/
def expDown (a : ℚ) : Nat → Nat → Nat
  | 0, m => m
  | fuel + 1, m => if 1 ≤ a * (10 : ℚ) ^ m then m else expDown a fuel (m + 1)

/-- The decimal exponent of `a > 0`: the `X` with `10 ^ X ≤ a < 10 ^ (X + 1)`. -/
def exponent10 (a : ℚ) : Int :=
  if 1 ≤ a then ((Nat.toDigits 10 ⌊a⌋.toNat).length : Int) - 1
  else -(expDown a a.den 1 : Int)

/-- The conversion `%.Pg` of `printf` with the precision `precision`. With `P` the
precision (1 when it is 0) and `X` the exponent the value has when it is rounded to
`P` significant digits: style `f` with `P - 1 - X` fraction digits if `P > X ≥ -4`,
else style `e` with `P - 1` fraction digits and an exponent of at least two digits;
in both, trailing zeros of the fraction are removed, and so is a decimal point
without a fraction. -/
def formatG (precision : Nat) (v : ℚ) : CStr :=
  let P := if precision = 0 then 1 else precision
  let a := |v|
  let sign : CStr := if v < 0 then ['-'] else []
  if a = 0 then ['0']
  else
    let X0 := exponent10 a
    let m0 := roundHalfEven (scale10 a ((P : Int) - 1 - X0))
    let X := if m0 = 10 ^ P then X0 + 1 else X0
    let m := if m0 = 10 ^ P then 10 ^ (P - 1) else m0
    if X < (P : Int) ∧ -4 ≤ X then
      sign ++ Nat.toDigits 10 (m / 10 ^ ((P : Int) - 1 - X).toNat)
        ++ fractionG (if ((P : Int) - 1 - X).toNat = 0 then []
            else padDigits ((P : Int) - 1 - X).toNat (m % 10 ^ ((P : Int) - 1 - X).toNat))
    else
      sign ++ (Nat.toDigits 10 m).take 1 ++ fractionG ((Nat.toDigits 10 m).drop 1)
        ++ 'e' :: (if X < 0 then '-' else '+') :: padDigits 2 X.natAbs

/-- The text the event writes to `stdout` (nothing for a message on `stderr` and for
a call of the evaluator), with the numbers in the format `%.Ng` for the event's
significant-figure setting `N`. -/
def Ev.stdoutText : Ev → CStr
  | .text s => s.toList
  | .varLine sf name value => name ++ " = ".toList ++ formatG sf value ++ ['\n']
  | .loopLine sf name current start increment endValue =>
    name ++ " = ".toList ++ formatG sf current ++ " (".toList ++ formatG sf start
      ++ ", ".toList ++ formatG sf increment ++ ", ".toList ++ formatG sf endValue
      ++ ")\n".toList
  | .result sf value => "Result = ".toList ++ formatG sf value ++ ['\n']
  | .resultWhen sf value name current =>
    "Result = ".toList ++ formatG sf value ++ " when ".toList ++ name ++ " = ".toList
      ++ formatG sf current ++ ['\n']
  | .assignWhen sf target value name sweep =>
    target ++ " = ".toList ++ formatG sf value ++ " when ".toList ++ name
      ++ " = ".toList ++ formatG sf sweep ++ ['\n']
  | _ => []

/-- The `double` nearest to one third, `6004799503160661 / 2 ^ 54`: the value of the
expression `1/3` in the arithmetic of the machine. -/
def oneThirdDouble : ℚ := 6004799503160661 / 18014398509481984

/-! ## The numeric checks in the arithmetic of the machine

The stores above hold exact rationals, and `strtod` above reads decimal constants
only. This section embeds the functions that read and check the numbers of a
`--define` string, of a `--loopable` string and of a `@range` argument, and the
iteration count and the swept value of the two loop functions, once more on the values
of the type `double`: finite numbers with 53 binary digits, infinities and NaN. The
sign of a zero is not kept. -/

/-- A value of the type `double`. -/
inductive Dbl where
  /-- A finite value. -/
  | fin (q : ℚ)
  /-- An infinity, negative or positive. -/
  | inf (negative : Bool)
  /-- A NaN. -/
  | nan
deriving DecidableEq

/-- The least `k1 ≥ k` with `a < 2 ^ (k1 + 1)`, searching at most `fuel` steps. -/
def binaryExponentUp (a : ℚ) : Nat → Nat → Nat
  | 0, k => k
  | fuel + 1, k => if a < (2 : ℚ) ^ (k + 1) then k else binaryExponentUp a fuel (k + 1)

/-- The least `k1 ≥ k` with `1 ≤ a * 2 ^ k1`, searching at most `fuel` steps. -/
def binaryExponentDown (a : ℚ) : Nat → Nat → Nat
  | 0, k => k
  | fuel + 1, k => if 1 ≤ a * (2 : ℚ) ^ k then k else binaryExponentDown a fuel (k + 1)

/-- The binary exponent of `a > 0`: the `e` with `2 ^ e ≤ a < 2 ^ (e + 1)`, as far as
it lies between -1023 and 1024. -/
def binaryExponent (a : ℚ) : Int :=
  if 1 ≤ a then (binaryExponentUp a 1024 0 : Int) else -(binaryExponentDown a 1022 1 : Int)

/-- The value `a * 2 ^ z`. -/
def scale2 (a : ℚ) (z : Int) : ℚ :=
  if 0 ≤ z then a * (2 : ℚ) ^ z.toNat else a / (2 : ℚ) ^ (-z).toNat

/-- The `double` nearest to `q` (the one with the even last digit when `q` is half
way): 53 binary digits from the exponent -1022 on, fewer below, and an infinity from
`2 ^ 1024` on. -/
def roundDouble (q : ℚ) : Dbl :=
  if q = 0 then .fin 0
  else if (2 : ℚ) ^ 1024 ≤ scale2
      ((roundHalfEven (scale2 |q| (52 - max (binaryExponent |q|) (-1022))) : Nat) : ℚ)
      (max (binaryExponent |q|) (-1022) - 52) then .inf (decide (q < 0))
  else .fin ((if q < 0 then -1 else 1) * scale2
      ((roundHalfEven (scale2 |q| (52 - max (binaryExponent |q|) (-1022))) : Nat) : ℚ)
      (max (binaryExponent |q|) (-1022) - 52))

/-- The operator `<` on two `double`s: false when one of them is a NaN. -/
def Dbl.lt : Dbl → Dbl → Bool
  | .fin a, .fin b => decide (a < b)
  | .fin _, .inf negative => !negative
  | .inf negative, .fin _ => negative
  | .inf a, .inf b => a && !b
  | _, _ => false

/-- The operator `==` on two `double`s: false when one of them is a NaN. -/
def Dbl.eq : Dbl → Dbl → Bool
  | .fin a, .fin b => decide (a = b)
  | .inf a, .inf b => a == b
  | _, _ => false

/-- C library `isxdigit`. -/
def isxdigit (c : Char) : Bool :=
  isdigit c || (decide ('a' ≤ c) && decide (c ≤ 'f')) || (decide ('A' ≤ c) && decide (c ≤ 'F'))

/-- The value of a string of hexadecimal digits. -/
def hexDigitsVal (ds : List Char) : Nat :=
  ds.foldl (fun acc d => 16 * acc +
    (if isdigit d then d.toNat - '0'.toNat
      else if 'a' ≤ d then d.toNat - 'a'.toNat + 10 else d.toNat - 'A'.toNat + 10)) 0

/-- The binary exponent part of a hexadecimal floating constant: the exponent and the
text after it; without digits after `p` nothing is consumed. -/
def takeBinaryExponent (s : CStr) : Int × CStr :=
  match s with
  | c :: t =>
    if c = 'p' ∨ c = 'P' then
      if (takeSign t).2.takeWhile isdigit = [] then (0, s)
      else ((if (takeSign t).1 then -(digitsVal ((takeSign t).2.takeWhile isdigit) : Int)
              else (digitsVal ((takeSign t).2.takeWhile isdigit) : Int)),
            (takeSign t).2.dropWhile isdigit)
    else (0, s)
  | [] => (0, s)

/-- The text after the word `nan`: a parenthesised sequence of letters, digits and
underscores is part of the NaN. -/
def takeNanChars (t : CStr) : CStr :=
  match t with
  | '(' :: u =>
    match u.dropWhile (fun c => isalpha c || isdigit c || c = '_') with
    | ')' :: w => w
    | _ => t
  | _ => t

/-- The part of a hexadecimal constant with the point and the digits after it: the
digits and the text after them. -/
def takeFraction16 (s : CStr) : List Char × CStr :=
  match s with
  | '.' :: t => (t.takeWhile isxdigit, t.dropWhile isxdigit)
  | _ => ([], s)

/-- The hexadecimal form of C library `strtod`, on the text `t` after the sign and
`0x`: the value and the text after it, or `none` when no hexadecimal digit follows. -/
def strtodHex (negative : Bool) (t : CStr) : Option (Dbl × CStr) :=
  if t.takeWhile isxdigit = [] ∧ (takeFraction16 (t.dropWhile isxdigit)).1 = [] then none
  else
    some (roundDouble ((if negative then -1 else 1) * scale2
        ((hexDigitsVal (t.takeWhile isxdigit ++ (takeFraction16 (t.dropWhile isxdigit)).1)
            : ℚ) / (16 : ℚ) ^ (takeFraction16 (t.dropWhile isxdigit)).1.length)
        (takeBinaryExponent (takeFraction16 (t.dropWhile isxdigit)).2).1),
      (takeBinaryExponent (takeFraction16 (t.dropWhile isxdigit)).2).2)

/-- C library `strtod`: the value and the text at `*endptr`. After white space and
an optional sign it converts the words `infinity`, `inf` and `nan` (in any case of
the letters), a hexadecimal constant after `0x`, and otherwise a decimal constant as
`strtod` above does; the value is the nearest `double`. -/
def strtodC (s : CStr) : Dbl × CStr :=
  if ((takeSign (s.dropWhile isspace)).2.take 8).map Char.toLower = "infinity".toList then
    (.inf (takeSign (s.dropWhile isspace)).1, (takeSign (s.dropWhile isspace)).2.drop 8)
  else if ((takeSign (s.dropWhile isspace)).2.take 3).map Char.toLower = "inf".toList then
    (.inf (takeSign (s.dropWhile isspace)).1, (takeSign (s.dropWhile isspace)).2.drop 3)
  else if ((takeSign (s.dropWhile isspace)).2.take 3).map Char.toLower = "nan".toList then
    (.nan, takeNanChars ((takeSign (s.dropWhile isspace)).2.drop 3))
  else
    match (takeSign (s.dropWhile isspace)).2 with
    | '0' :: x :: t =>
      if x = 'x' ∨ x = 'X' then
        match strtodHex (takeSign (s.dropWhile isspace)).1 t with
        | some r => r
        | none => (roundDouble (strtod s).1, (strtod s).2)
      else (roundDouble (strtod s).1, (strtod s).2)
    | _ => (roundDouble (strtod s).1, (strtod s).2)

/-- One slot of `Variables` with its `double`. -/
structure VariableD where
  name : CStr
  value : Dbl
deriving DecidableEq

/-- One loop of `Loops` with its four `double`s. -/
structure LoopD where
  name : CStr
  currentValue : Dbl
  startingValue : Dbl
  increment : Dbl
  endValue : Dbl
deriving DecidableEq

/-- The two stores with their `double`s. -/
structure StoresD where
  entries : List VariableD
  converted : Int
  loops : List LoopD
deriving DecidableEq

/-- The function `extend_variables` on `double`s: the return value, the slots and the
flag `*duplicated` after the call. -/
def extend_variablesD (entries : List VariableD) (key valueString : Option CStr)
    (duplicated : Bool) : Int × List VariableD × Bool :=
  match key, valueString with
  | some key, some valueString =>
    if key.length < 1 ∨ key.length > MAX_VARIABLE_LENGTH then
      (INVALID_VARIABLES_ERROR, entries, duplicated)
    else if ¬ key.all isalpha then (INVALID_VARIABLES_ERROR, entries, duplicated)
    else if (strtodC valueString).2 = [] ∧ valueString.length > 0 then
      (0, entries ++ [⟨key, (strtodC valueString).1⟩],
        duplicated || entries.any (fun v => v.name = key))
    else (INVALID_VARIABLES_ERROR, entries, duplicated)
  | _, _ => (INVALID_VARIABLES_ERROR, entries, duplicated)

/-- The `for` loop of `decode_variable_strings` on `double`s, with the check of
`duplicated` after it. -/
def decode_variable_stringsD_from : List CStr → List VariableD → Bool →
    Int × List VariableD
  | [], entries, duplicated =>
    (if duplicated then DUPLICATE_VARIABLES_ERROR else 0, entries)
  | s :: rest, entries, duplicated =>
    if countChar '=' s ≠ 1 then (INVALID_VARIABLES_ERROR, entries)
    else
      match extend_variablesD entries (strtok s ['=']).1
          (strtok (strtok s ['=']).2 ['=']).1 duplicated with
      | (result, entries1, duplicated1) =>
        if result ≠ 0 then (result, entries1)
        else decode_variable_stringsD_from rest entries1 duplicated1

/-- The function `decode_variable_strings` on `double`s. -/
def decode_variable_stringsD (variableStrings : List CStr) : Int × List VariableD :=
  decode_variable_stringsD_from variableStrings [] false

/-- The range test of `extend_loops` and `range` on `double`s:
`(start < end && increment < 0) || (start > end && increment > 0) || (increment == 0)`. -/
def rangeRejectedD (startValue increment endValue : Dbl) : Bool :=
  (startValue.lt endValue && increment.lt (.fin 0))
    || (endValue.lt startValue && (Dbl.fin 0).lt increment)
    || increment.eq (.fin 0)

/-- The function `extend_loops` on `double`s: the return value, the loops and the flag
`*duplicated` after the call. -/
def extend_loopsD (loops : List LoopD) (entries : List VariableD)
    (name startingValueString incrementString endValueString : Option CStr)
    (duplicated : Bool) : Int × List LoopD × Bool :=
  match name, startingValueString, incrementString, endValueString with
  | some name, some startingValueString, some incrementString, some endValueString =>
    if name.length < 1 ∨ name.length > MAX_VARIABLE_LENGTH then
      (INVALID_VARIABLES_ERROR, loops, duplicated)
    else if ¬ name.all isalpha then (INVALID_VARIABLES_ERROR, loops, duplicated)
    else if (strtodC startingValueString).2 ≠ [] ∨ startingValueString.length = 0 then
      (INVALID_VARIABLES_ERROR, loops, duplicated)
    else if (strtodC incrementString).2 ≠ [] ∨ incrementString.length = 0 then
      (INVALID_VARIABLES_ERROR, loops, duplicated)
    else if (strtodC endValueString).2 ≠ [] ∨ endValueString.length = 0 then
      (INVALID_VARIABLES_ERROR, loops, duplicated)
    else if rangeRejectedD (strtodC startingValueString).1 (strtodC incrementString).1
        (strtodC endValueString).1 then
      (INVALID_VARIABLES_ERROR, loops, duplicated)
    else
      (0, loops ++ [⟨name, (strtodC startingValueString).1, (strtodC startingValueString).1,
          (strtodC incrementString).1, (strtodC endValueString).1⟩],
        duplicated || loops.any (fun l => l.name = name)
          || entries.any (fun v => v.name = name))
  | _, _, _, _ => (INVALID_VARIABLES_ERROR, loops, duplicated)

/-- The `for` loop of `decode_loops_strings` on `double`s, with the check of
`duplicated` after it. -/
def decode_loops_stringsD_from (entries : List VariableD) :
    List CStr → List LoopD → Bool → Int × List LoopD
  | [], loops, duplicated => (if duplicated then DUPLICATE_VARIABLES_ERROR else 0, loops)
  | s :: rest, loops, duplicated =>
    if countChar ',' s ≠ LOOP_COMMAS then (INVALID_VARIABLES_ERROR, loops)
    else
      match extend_loopsD loops entries (strtok s [',']).1
          (strtok (strtok s [',']).2 [',']).1
          (strtok (strtok (strtok s [',']).2 [',']).2 [',']).1
          (strtok (strtok (strtok (strtok s [',']).2 [',']).2 [',']).2 [',']).1
          duplicated with
      | (result, loops1, duplicated1) =>
        if result ≠ 0 then (result, loops1)
        else decode_loops_stringsD_from entries rest loops1 duplicated1

/-- The function `decode_loops_strings` on `double`s. -/
def decode_loops_stringsD (loopsStrings : List CStr) (entries : List VariableD) :
    Int × List LoopD :=
  decode_loops_stringsD_from entries loopsStrings [] false

/-- The function `run_initial_command_line` on `double`s: the return value and the
stores. -/
def run_initial_command_lineD (canOpen : CStr → Bool) (arguments : List CStr) :
    Int × StoresD :=
  if (download_command_line arguments).1 = INVALID_COMMAND_LINE_ERROR then
    (INVALID_COMMAND_LINE_ERROR, ⟨[], 0, []⟩)
  else if (download_command_line arguments).2.2.fileName ≠ []
      ∧ canOpen (download_command_line arguments).2.2.fileName = false then
    (FILE_DOES_NOT_OPEN_ERROR, ⟨[], 0, []⟩)
  else
    match decode_variable_stringsD (download_command_line arguments).2.2.variableStrings with
    | (result, entries) =>
      match decode_loops_stringsD (download_command_line arguments).2.2.loopsStrings
          entries with
      | (resultTwo, loops) =>
        if result = INVALID_VARIABLES_ERROR ∨ resultTwo = INVALID_VARIABLES_ERROR then
          (INVALID_VARIABLES_ERROR, ⟨entries, 0, loops⟩)
        else if result = DUPLICATE_VARIABLES_ERROR
            ∨ resultTwo = DUPLICATE_VARIABLES_ERROR then
          (DUPLICATE_VARIABLES_ERROR, ⟨entries, 0, loops⟩)
        else (0, ⟨entries, 0, loops⟩)

/-- The first `for` loop of `range_new_loop` on `double`s: the first loop called `name`
gets the new range; `none` when no loop has that name. -/
def range_redefineD (name : CStr) (startValue increment endValue : Dbl) :
    List LoopD → Option (List LoopD)
  | [] => none
  | l :: ls =>
    if l.name = name then some (⟨l.name, startValue, startValue, increment, endValue⟩ :: ls)
    else (range_redefineD name startValue increment endValue ls).map (fun r => l :: r)

/-- The second `for` loop of `range_new_loop` on `double`s: the name of the first
variable called `name` is replaced by the sentinel; `none` when no variable has that
name. -/
def range_promoteD (name : CStr) : List VariableD → Option (List VariableD)
  | [] => none
  | v :: vs =>
    if v.name = name then some (⟨sentinel, v.value⟩ :: vs)
    else (range_promoteD name vs).map (fun r => v :: r)

/-- The function `range_new_loop` on `double`s: the stores after it (the line it
prints is left out). -/
def range_new_loopD (st : StoresD) (name : CStr) (startValue increment endValue : Dbl) :
    StoresD :=
  match range_redefineD name startValue increment endValue st.loops with
  | some loops1 => { st with loops := loops1 }
  | none =>
    match range_promoteD name st.entries with
    | some entries1 =>
      ⟨entries1, st.converted + 1,
        st.loops ++ [⟨name, startValue, startValue, increment, endValue⟩]⟩
    | none =>
      { st with loops := st.loops ++ [⟨name, startValue, startValue, increment, endValue⟩] }

/-- The function `range` on `double`s, on a non-`NULL` argument: the return value and
the stores. -/
def rangeD (expression : CStr) (st : StoresD) : Int × StoresD :=
  if countChar ',' expression ≠ LOOP_COMMAS then (INVALID_VARIABLES_ERROR, st)
  else
    match (strtok expression [',']).1, (strtok (strtok expression [',']).2 [',']).1,
      (strtok (strtok (strtok expression [',']).2 [',']).2 [',']).1,
      (strtok (strtok (strtok (strtok expression [',']).2 [',']).2 [',']).2 [',']).1 with
    | some name, some startingValueString, some incrementString, some endValueString =>
      if name.length < 1 ∨ name.length > MAX_VARIABLE_LENGTH then
        (INVALID_VARIABLES_ERROR, st)
      else if ¬ name.all isalpha then (INVALID_VARIABLES_ERROR, st)
      else if (strtodC startingValueString).2 ≠ [] ∨ startingValueString.length = 0 then
        (INVALID_VARIABLES_ERROR, st)
      else if (strtodC incrementString).2 ≠ [] ∨ incrementString.length = 0 then
        (INVALID_VARIABLES_ERROR, st)
      else if cstrAt (strtodC endValueString).2 0 ≠ '\n' ∨ endValueString.length = 0 then
        (INVALID_VARIABLES_ERROR, st)
      else if rangeRejectedD (strtodC startingValueString).1 (strtodC incrementString).1
          (strtodC endValueString).1 then
        (INVALID_VARIABLES_ERROR, st)
      else
        (0, range_new_loopD st name (strtodC startingValueString).1
          (strtodC incrementString).1 (strtodC endValueString).1)
    | _, _, _, _ => (INVALID_VARIABLES_ERROR, st)

/-- The range rule of the specification on `double`s, with the comparisons of the
machine: the increment is not zero, it is positive when the start is below the end,
and negative when the start is above the end. -/
def RangeValidD (s i e : Dbl) : Prop :=
  i.eq (.fin 0) = false ∧ (s.lt e = true → (Dbl.fin 0).lt i = true)
    ∧ (e.lt s = true → i.lt (.fin 0) = true)

instance (s i e : Dbl) : Decidable (RangeValidD s i e) := by
  unfold RangeValidD; infer_instance

/-! ## Concrete inputs used in the examples -/

/-- An evaluator that knows decimal literals only: a literal surrounded by white
space has its value, everything else is rejected. -/
def teLiteral : CStr → Table → Option ℚ := fun e _ =>
  if (strtod e).2 ≠ e ∧ (strtod e).2.all isspace then some (strtod e).1 else none

/-- The stores after `--define x=1 --loopable a,0,1,5`. -/
def storesXA : Stores := ⟨⟨[⟨['x'], 1⟩], 0⟩, [⟨['a'], 0, 0, 1, 5⟩]⟩

/-- The empty stores. -/
def storesEmpty : Stores := ⟨⟨[], 0⟩, []⟩

/-- An evaluator that knows the one expression ` x + 1` (as it stands after the `=` of
`x = x + 1`): its value is the value the table has for `x`, plus one; everything else
is rejected. -/
def teIncr : CStr → Table → Option ℚ := fun e tab =>
  if e = " x + 1\n".toList then (tab.lookup ['x']).map (fun v => v + 1) else none

/-- The stores after `--loopable a,0,1,3`. -/
def storesA : Stores := ⟨⟨[], 0⟩, [⟨['a'], 0, 0, 1, 3⟩]⟩

/-- The stores after `--define x=1 --loopable a,0,1,5` and the line `@range x,0,1,3`:
the one variable slot is a tombstone. -/
def storesPromoted : Stores :=
  ⟨⟨[⟨sentinel, 1⟩], 1⟩, [⟨['a'], 0, 0, 1, 5⟩, ⟨['x'], 0, 0, 1, 3⟩]⟩

/-- An evaluator that knows the two expressions of the round trip: ` 2+2` (as it
stands after the `=` of `name = 2+2`) has the value 4, and `name*2` has twice the value
the table has for `name`; everything else is rejected. -/
def teRoundTrip : CStr → Table → Option ℚ := fun e tab =>
  if e = " 2+2\n".toList then some 4
  else if e = "name*2\n".toList then (tab.lookup "name".toList).map (fun v => v * 2)
  else none

/-! # Lemmas and theorems -/

theorem rangeRejected_iff (s i e : ℚ) : rangeRejected s i e ↔ ¬ RangeValid s i e := by
  unfold rangeRejected RangeValid
  constructor
  · rintro (⟨h1, h2⟩ | ⟨h1, h2⟩ | h) ⟨h3, h4, h5⟩
    · exact absurd (h4 h1) (not_lt.mpr h2.le)
    · exact absurd (h5 h1) (not_lt.mpr h2.le)
    · exact h3 h
  · intro h
    by_contra hc
    push_neg at hc
    apply h
    refine ⟨hc.2.2, fun h1 => ?_, fun h1 => ?_⟩
    · exact lt_of_le_of_ne (hc.1 h1) (Ne.symm hc.2.2)
    · exact lt_of_le_of_ne (hc.2.1 h1) hc.2.2

theorem strtok_nil (delim : List Char) : strtok [] delim = (none, []) := by
  simp [strtok]

theorem strtok_cons_eq (d : Char) (t : CStr) : strtok (d :: t) [d] = strtok t [d] := by
  simp [strtok, List.dropWhile]

theorem strtok_cons_ne (d c : Char) (t : CStr) (h : c ≠ d) :
    strtok (c :: t) [d] = (some (fieldHead d (c :: t)), fieldTail d (c :: t)) := by
  simp [strtok, List.dropWhile, h, fieldHead, fieldTail]

theorem strtok_some_ne_nil {d : Char} {s t r : CStr} (h : strtok s [d] = (some t, r)) :
    t ≠ [] := by
  induction s with
  | nil => simp [strtok_nil] at h
  | cons c s ih =>
    by_cases hc : c = d
    · subst hc; rw [strtok_cons_eq] at h; exact ih h
    · rw [strtok_cons_ne _ _ _ hc] at h
      simp only [Prod.mk.injEq, Option.some.injEq] at h
      rw [← h.1]; simp [fieldHead, List.takeWhile, hc]

theorem countChar_fieldTail (d : Char) (s : CStr) (h : fieldTail d s ≠ []) :
    countChar d s = countChar d (fieldTail d s) + 1 := by
  induction s with
  | nil => simp [fieldTail] at h
  | cons c s ih =>
    by_cases hc : c = d
    · subst hc; simp [fieldTail, countChar, List.dropWhile]
    · have h1 : fieldTail d (c :: s) = fieldTail d s := by
        simp [fieldTail, List.dropWhile, hc]
      rw [h1] at h ⊢
      rw [← ih h]; simp [countChar, List.count_cons, hc]

theorem strtok_count {d : Char} {s t r : CStr} (h : strtok s [d] = (some t, r))
    (hr : r ≠ []) :
    countChar d r + 1 ≤ countChar d s ∧
      (countChar d s = countChar d r + 1 → t = fieldHead d s ∧ r = fieldTail d s) := by
  induction s with
  | nil => simp [strtok_nil] at h
  | cons c s ih =>
    by_cases hc : c = d
    · subst hc; rw [strtok_cons_eq] at h
      have := (ih h).1
      have h2 : countChar c (c :: s) = countChar c s + 1 := by simp [countChar]
      constructor
      · omega
      · intro h3; omega
    · rw [strtok_cons_ne _ _ _ hc] at h
      simp only [Prod.mk.injEq, Option.some.injEq] at h
      obtain ⟨h1, h2⟩ := h
      subst h1 h2
      have := countChar_fieldTail d (c :: s) hr
      exact ⟨by omega, fun _ => ⟨rfl, rfl⟩⟩

theorem strtok_count_zero {d : Char} {s t r : CStr} (h : strtok s [d] = (some t, r))
    (h0 : countChar d s = 0) : t = fieldHead d s ∧ t = s := by
  cases s with
  | nil => simp [strtok_nil] at h
  | cons c s =>
    have hc : c ≠ d := by
      intro hc; subst hc; simp [countChar] at h0
    rw [strtok_cons_ne _ _ _ hc] at h
    simp only [Prod.mk.injEq, Option.some.injEq] at h
    refine ⟨h.1.symm, ?_⟩
    rw [← h.1]
    simp only [fieldHead]
    rw [List.takeWhile_eq_self_iff]
    intro x hx
    have : x ≠ d := by
      intro hxd; subst hxd
      simp only [countChar] at h0
      exact absurd hx (List.count_eq_zero.mp h0)
    simp [this]

theorem strtok_of_fieldHead {d : Char} {s : CStr} (h : fieldHead d s ≠ []) :
    strtok s [d] = (some (fieldHead d s), fieldTail d s) := by
  cases s with
  | nil => simp [fieldHead] at h
  | cons c s =>
    by_cases hc : c = d
    · subst hc; simp [fieldHead, List.takeWhile] at h
    · exact strtok_cons_ne _ _ _ hc

theorem tokens_eq_fields {d : Char} {s t0 r0 t1 r1 t2 r2 t3 r3 : CStr}
    (hc : countChar d s = 3) (h0 : strtok s [d] = (some t0, r0))
    (h1 : strtok r0 [d] = (some t1, r1)) (h2 : strtok r1 [d] = (some t2, r2))
    (h3 : strtok r2 [d] = (some t3, r3)) :
    t0 = field d 0 s ∧ t1 = field d 1 s ∧ t2 = field d 2 s ∧ t3 = field d 3 s := by
  have hr0 : r0 ≠ [] := by rintro rfl; simp [strtok_nil] at h1
  have hr1 : r1 ≠ [] := by rintro rfl; simp [strtok_nil] at h2
  have hr2 : r2 ≠ [] := by rintro rfl; simp [strtok_nil] at h3
  obtain ⟨a0, b0⟩ := strtok_count h0 hr0
  obtain ⟨a1, b1⟩ := strtok_count h1 hr1
  obtain ⟨a2, b2⟩ := strtok_count h2 hr2
  obtain ⟨e0, f0⟩ := b0 (by omega)
  obtain ⟨e1, f1⟩ := b1 (by omega)
  obtain ⟨e2, f2⟩ := b2 (by omega)
  obtain ⟨e3, -⟩ := strtok_count_zero h3 (by omega)
  subst f0 f1 f2
  exact ⟨e0, e1, e2, e3⟩

theorem tokens_of_fields {d : Char} {s : CStr} (f0 : field d 0 s ≠ [])
    (f1 : field d 1 s ≠ []) (f2 : field d 2 s ≠ []) (f3 : field d 3 s ≠ []) :
    strtok s [d] = (some (field d 0 s), fieldTail d s)
    ∧ strtok (fieldTail d s) [d] = (some (field d 1 s), fieldTail d (fieldTail d s))
    ∧ strtok (fieldTail d (fieldTail d s)) [d]
        = (some (field d 2 s), fieldTail d (fieldTail d (fieldTail d s)))
    ∧ strtok (fieldTail d (fieldTail d (fieldTail d s))) [d]
        = (some (field d 3 s), fieldTail d (fieldTail d (fieldTail d (fieldTail d s)))) :=
  ⟨strtok_of_fieldHead f0, strtok_of_fieldHead f1, strtok_of_fieldHead f2,
    strtok_of_fieldHead f3⟩

theorem range_of_accepted {e : CStr} (h : RangeArgAccepted e) (st : Stores) (sf : Nat) :
    range e st sf
      = range_new_loop st (field ',' 0 e) (numField 1 e) (numField 2 e) (numField 3 e) sf := by
  obtain ⟨hc, hn, h1, h2, h3, hr⟩ := h
  have f0 : field ',' 0 e ≠ [] := by
    intro h0; rw [h0] at hn; simp [ValidName] at hn
  obtain ⟨t0, t1, t2, t3⟩ := tokens_of_fields f0 h1.1 h2.1 h3.1
  have hr2 : ¬ rangeRejected (numField 1 e) (numField 2 e) (numField 3 e) := by
    rw [rangeRejected_iff]; exact not_not.mpr hr
  obtain ⟨hn1, hn2, hn3⟩ := hn
  unfold range
  simp only [hc, LOOP_COMMAS, t0, t1, t2, t3]
  simp only [numField] at hr2
  simp only [MAX_VARIABLE_LENGTH] at hn2 ⊢
  have hn4 : ¬ (field ',' 0 e).length = 0 := by omega
  simp [h1.1, h1.2, h2.1, h2.2, h3.1, h3.2, hr2, hn3, numField, hn2, hn4, f0]

theorem range_of_not_accepted {e : CStr} (h : ¬ RangeArgAccepted e) (st : Stores)
    (sf : Nat) : range e st sf = ⟨INVALID_VARIABLES_ERROR, st, []⟩ := by
  unfold range
  by_cases hc : countChar ',' e = 3
  swap
  · simp [hc, LOOP_COMMAS]
  simp only [hc, LOOP_COMMAS]
  rcases h0 : strtok e [','] with ⟨_ | t0, r0⟩
  · simp
  rcases h1 : strtok r0 [','] with ⟨_ | t1, r1⟩
  · simp
  rcases h2 : strtok r1 [','] with ⟨_ | t2, r2⟩
  · simp
  rcases h3 : strtok r2 [','] with ⟨_ | t3, r3⟩
  · simp
  obtain ⟨e0, e1, e2, e3⟩ := tokens_eq_fields hc h0 h1 h2 h3
  have n1 := strtok_some_ne_nil h1
  have n2 := strtok_some_ne_nil h2
  have n3 := strtok_some_ne_nil h3
  simp only []
  split_ifs with a1 a2 a3 a4 a5 a6 a7
  all_goals try rfl
  exfalso
  apply h
  push_neg at a2 a4 a5 a6
  rw [rangeRejected_iff, not_not] at a7
  refine ⟨hc, ?_, ?_, ?_, ?_, ?_⟩
  · rw [← e0]; exact ⟨a2.1, a2.2, a3⟩
  · rw [← e1]; exact ⟨n1, a4.1⟩
  · rw [← e2]; exact ⟨n2, a5.1⟩
  · rw [← e3]; exact ⟨n3, a6.1⟩
  · simp only [numField]; rw [← e1, ← e2, ← e3]; exact a7

/-! ## What the writes of values leave unchanged -/

theorem validName_ne_sentinel {n : CStr} (h : ValidName n) : n ≠ sentinel := by
  rintro rfl
  have := h.2.2
  revert this
  decide

theorem loopNames_eq_of_key {st st1 : Stores}
    (h : st1.loops.map Loop.key = st.loops.map Loop.key) : loopNames st1 = loopNames st := by
  have := congrArg (List.map Prod.fst) h
  simpa [loopNames, Loop.key, List.map_map, Function.comp_def] using this

theorem Inv_of_shape {st st1 : Stores} (hv : varNames st1 = varNames st)
    (hl : st1.loops.map Loop.key = st.loops.map Loop.key) (h : Inv st) : Inv st1 := by
  unfold Inv at *
  rw [hl, loopNames_eq_of_key hl]
  unfold liveNames at *
  rw [hv]
  exact h

theorem setCurrentValue_key (ls : List Loop) (k : Nat) (v : ℚ) :
    (setCurrentValue ls k v).map Loop.key = ls.map Loop.key := by
  induction ls generalizing k with
  | nil => rfl
  | cons l ls ih =>
    cases k with
    | zero => simp [setCurrentValue, Loop.key]
    | succ k => simp [setCurrentValue, ih]

theorem setCurrentValue_length (ls : List Loop) (k : Nat) (v : ℚ) :
    (setCurrentValue ls k v).length = ls.length := by
  have := congrArg List.length (setCurrentValue_key ls k v)
  simpa using this

theorem setValue_name (xs : List Variable) (k : Nat) (v : ℚ) :
    (setValue xs k v).map (fun x => x.name) = xs.map (fun x => x.name) := by
  induction xs generalizing k with
  | nil => rfl
  | cons x xs ih =>
    cases k with
    | zero => simp [setValue]
    | succ k => simp [setValue, ih]

theorem assignVariable_name {n : CStr} {v : ℚ} {xs r : List Variable}
    (h : assignVariable n v xs = some r) :
    r.map (fun x => x.name) = xs.map (fun x => x.name) := by
  induction xs generalizing r with
  | nil => simp [assignVariable] at h
  | cons x xs ih =>
    unfold assignVariable at h
    split_ifs at h with hx
    · simp only [Option.some.injEq] at h; subst h; simp
    · simp only [Option.map_eq_some'] at h
      obtain ⟨r1, h1, h2⟩ := h
      subst h2; simp [ih h1]

theorem assignVariable_none {n : CStr} {v : ℚ} {xs : List Variable} :
    assignVariable n v xs = none ↔ n ∉ xs.map (fun x => x.name) := by
  induction xs with
  | nil => simp [assignVariable]
  | cons x xs ih =>
    unfold assignVariable
    split_ifs with hx
    · simp [hx]
    · simp [hx, ih]

theorem assignLoop_key {n : CStr} {v : ℚ} {ls r : List Loop}
    (h : assignLoop n v ls = some r) : r.map Loop.key = ls.map Loop.key := by
  induction ls generalizing r with
  | nil => simp [assignLoop] at h
  | cons x xs ih =>
    unfold assignLoop at h
    split_ifs at h with hx
    · simp only [Option.some.injEq] at h; subst h; simp [Loop.key]
    · simp only [Option.map_eq_some'] at h
      obtain ⟨r1, h1, h2⟩ := h
      subst h2; simp [ih h1]

theorem assignLoop_none {n : CStr} {v : ℚ} {ls : List Loop} :
    assignLoop n v ls = none ↔ n ∉ ls.map (fun l => l.name) := by
  induction ls with
  | nil => simp [assignLoop]
  | cons x xs ih =>
    unfold assignLoop
    split_ifs with hx
    · simp [hx]
    · simp [hx, ih]

theorem loop_search_key (n : CStr) (i : Nat) (ls : List Loop) (f : Option Nat) :
    (loop_search n i ls f).2.map Loop.key = ls.map Loop.key := by
  induction ls generalizing i f with
  | nil => rfl
  | cons l ls ih =>
    unfold loop_search
    split_ifs with hx
    · simp [ih, Loop.key]
    · simp [ih]

theorem findVariable_none {n : CStr} {xs : List Variable} :
    findVariable n xs = none ↔ n ∉ xs.map (fun x => x.name) := by
  induction xs with
  | nil => simp [findVariable]
  | cons x xs ih =>
    unfold findVariable
    split_ifs with hx
    · simp [hx]
    · simp [ih, Ne.symm hx]

theorem findLoop_none {n : CStr} {ls : List Loop} :
    findLoop n ls = none ↔ n ∉ ls.map (fun l => l.name) := by
  induction ls with
  | nil => simp [findLoop]
  | cons x xs ih =>
    unfold findLoop
    split_ifs with hx
    · simp [hx]
    · simp [ih, Ne.symm hx]

theorem loop_expression_from_shape (te : CStr → Table → Option ℚ) (e : CStr) (k sf : Nat)
    (names : List CStr) (n i : Nat) (st : Stores) (values : List ℚ) :
    (loop_expression_from te e k sf names n i st values).st.vars = st.vars
    ∧ (loop_expression_from te e k sf names n i st values).st.loops.map Loop.key
        = st.loops.map Loop.key := by
  induction n generalizing i st values with
  | zero => simp [loop_expression_from]
  | succ n ih =>
    unfold loop_expression_from
    simp only []
    split
    · refine ⟨(ih _ _ _).1, ?_⟩
      rw [(ih _ _ _).2]
      exact setCurrentValue_key _ _ _
    · exact ⟨rfl, setCurrentValue_key _ _ _⟩

theorem loop_print_assignment_shape (value : ℚ) (st : Stores) (ev : CStr)
    (li vi : Option Nat) (sf k i : Nat) :
    varNames (loop_print_assignment value st ev li vi sf k i).1 = varNames st
    ∧ (loop_print_assignment value st ev li vi sf k i).1.vars.converted = st.vars.converted
    ∧ (loop_print_assignment value st ev li vi sf k i).1.loops.map Loop.key
        = st.loops.map Loop.key := by
  unfold loop_print_assignment
  cases vi with
  | none =>
    cases li with
    | none => simp
    | some li => simp [varNames, setCurrentValue_key]
  | some vi => simp [varNames, setValue_name]

theorem loop_assignment_from_shape (te : CStr → Table → Option ℚ) (sf : Nat)
    (li vi : Option Nat) (ev : CStr) (k : Nat) (e : CStr) (n i : Nat) (st : Stores) :
    varNames (loop_assignment_from te sf li vi ev k e n i st).st = varNames st
    ∧ (loop_assignment_from te sf li vi ev k e n i st).st.vars.converted
        = st.vars.converted
    ∧ (loop_assignment_from te sf li vi ev k e n i st).st.loops.map Loop.key
        = st.loops.map Loop.key := by
  induction n generalizing i st with
  | zero => simp [loop_assignment_from]
  | succ n ih =>
    unfold loop_assignment_from
    simp only []
    split
    · refine ⟨?_, ?_, ?_⟩
      · rw [(ih _ _).1, (loop_print_assignment_shape _ _ _ _ _ _ _ _).1]; rfl
      · rw [(ih _ _).2.1, (loop_print_assignment_shape _ _ _ _ _ _ _ _).2.1]
      · rw [(ih _ _).2.2, (loop_print_assignment_shape _ _ _ _ _ _ _ _).2.2]
        exact setCurrentValue_key _ _ _
    · exact ⟨rfl, rfl, setCurrentValue_key _ _ _⟩

theorem filter_sentinel_append (l : List CStr) (n : CStr) (h : n ≠ sentinel) :
    (l ++ [n]).filter (fun n => n ≠ sentinel) = l.filter (fun n => n ≠ sentinel) ++ [n] := by
  simp [List.filter_append, List.filter_cons, h]

theorem Inv_append_var {st : Stores} {n : CStr} {v : ℚ} (h : Inv st) (hs : n ≠ sentinel)
    (hv : n ∉ varNames st) (hl : n ∉ loopNames st) :
    Inv { st with vars := { st.vars with entries := st.vars.entries ++ [⟨n, v⟩] } } := by
  refine ⟨h.1, ?_⟩
  have h2 := h.2
  have e1 : liveNames { st with vars := { st.vars with entries := st.vars.entries ++ [⟨n, v⟩] } }
      = liveNames st ++ [n] := by
    simp only [liveNames, varNames, List.map_append, List.map_cons, List.map_nil]
    exact filter_sentinel_append _ _ hs
  have e2 : loopNames { st with vars := { st.vars with entries := st.vars.entries ++ [⟨n, v⟩] } }
      = loopNames st := rfl
  rw [e1, e2]
  have hv2 : n ∉ liveNames st := fun hm => hv (List.mem_of_mem_filter hm)
  rw [List.nodup_append] at h2 ⊢
  obtain ⟨a, b, c⟩ := h2
  refine ⟨?_, b, ?_⟩
  · rw [List.nodup_append]
    refine ⟨a, List.nodup_singleton n, ?_⟩
    intro x hx hx2
    rw [List.mem_singleton] at hx2
    subst hx2; exact hv2 hx
  · intro x hx hx2
    rw [List.mem_append, List.mem_singleton] at hx
    rcases hx with hx | hx
    · exact c hx hx2
    · subst hx; exact hl hx2

theorem loop_assignment_setup_inv {ev : Option CStr} {st st2 : Stores} {res : Int}
    {vi li : Option Nat} (h : Inv st)
    (hs : loop_assignment_setup ev st = some (res, vi, li, st2)) :
    Inv st2 ∧ st2.loops = st.loops := by
  unfold loop_assignment_setup at hs
  cases ev with
  | none => simp at hs
  | some ev =>
    simp only [] at hs
    split_ifs at hs with h1 h2
    · simp only [Option.some.injEq, Prod.mk.injEq] at hs
      obtain ⟨-, -, -, rfl⟩ := hs
      exact ⟨h, rfl⟩
    · simp only [Option.some.injEq, Prod.mk.injEq] at hs
      obtain ⟨-, -, -, rfl⟩ := hs
      refine ⟨Inv_append_var h h1 ?_ ?_, rfl⟩
      · exact findVariable_none.mp h2.1
      · exact findLoop_none.mp h2.2
    · simp only [Option.some.injEq, Prod.mk.injEq] at hs
      obtain ⟨-, -, -, rfl⟩ := hs
      exact ⟨h, rfl⟩

theorem loop_expression_shape {te : CStr → Table → Option ℚ} {st : Stores} {e : CStr}
    {k sf : Nat} {r : Res} (h : loop_expression te st e k sf = some r) :
    r.st.vars = st.vars ∧ r.st.loops.map Loop.key = st.loops.map Loop.key := by
  unfold loop_expression at h
  split at h
  · simp at h
  · split at h
    · simp at h
    · simp only [Option.some.injEq] at h
      subst h
      exact loop_expression_from_shape _ _ _ _ _ _ _ _ _

theorem loop_assignment_shape {te : CStr → Table → Option ℚ} {st : Stores} {sf : Nat}
    {li vi : Option Nat} {ev : CStr} {k : Nat} {e : Option CStr} {r : Res}
    (h : loop_assignment te st sf li vi ev k e = some r) :
    varNames r.st = varNames st ∧ r.st.vars.converted = st.vars.converted
    ∧ r.st.loops.map Loop.key = st.loops.map Loop.key := by
  unfold loop_assignment at h
  split at h
  · simp at h
  · split at h
    · simp at h
    · split at h
      · split_ifs at h
        · simp only [Option.some.injEq] at h
          subst h; exact ⟨rfl, rfl, rfl⟩
      · simp only [Option.some.injEq] at h
        subst h
        exact loop_assignment_from_shape _ _ _ _ _ _ _ _ _ _

theorem loop_inv {te : CStr → Table → Option ℚ} {line : CStr} {st : Stores} {sf : Nat}
    {r : Res} (hi : Inv st) (h : loop te line st sf = some r) :
    Inv r.st ∧ r.st.loops.map Loop.key = st.loops.map Loop.key := by
  unfold loop at h
  simp only [] at h
  split at h
  · split_ifs at h
    simp only [Option.some.injEq] at h
    subst h; exact ⟨hi, rfl⟩
  · rename_i name hname
    have hk := loop_search_key name 0 st.loops none
    have hi1 : Inv { st with loops := (loop_search name 0 st.loops none).2 } :=
      @Inv_of_shape st _ rfl hk hi
    split at h
    · simp only [Option.some.injEq] at h
      subst h; exact ⟨hi1, hk⟩
    · split at h
      · simp at h
      · split_ifs at h
        · obtain ⟨a, b⟩ := loop_expression_shape h
          have hv : varNames r.st = varNames st := by simp [varNames, a]
          exact ⟨Inv_of_shape hv (b.trans hk) hi, b.trans hk⟩
        · split at h
          · simp at h
          · rename_i result variableIndex loopIndex st2 hsetup
            obtain ⟨i2, l2⟩ := loop_assignment_setup_inv hi1 hsetup
            split_ifs at h
            · simp only [Option.some.injEq] at h
              subst h
              exact ⟨i2, by rw [l2]; exact hk⟩
            · obtain ⟨a, -, c⟩ := loop_assignment_shape h
              have hk2 : r.st.loops.map Loop.key = st.loops.map Loop.key := by
                rw [c, l2]; exact hk
              exact ⟨Inv_of_shape a c i2, hk2⟩
        · simp only [Option.some.injEq] at h
          subst h; exact ⟨hi1, hk⟩

theorem download_assignment_print_shape (n : CStr) (st : Stores) (sf : Nat) (value : ℚ) :
    varNames (download_assignment_print n st sf value).2.1 = varNames st
    ∧ (download_assignment_print n st sf value).2.1.vars.converted = st.vars.converted
    ∧ (download_assignment_print n st sf value).2.1.loops.map Loop.key
        = st.loops.map Loop.key
    ∧ ((download_assignment_print n st sf value).1 = false →
        n ∉ varNames st ∧ n ∉ loopNames st) := by
  unfold download_assignment_print
  simp only []
  refine ⟨?_, ?_, ?_, ?_⟩
  · cases h : assignVariable n value st.vars.entries with
    | none => rfl
    | some r => simpa [varNames] using assignVariable_name h
  · cases h : assignVariable n value st.vars.entries <;> rfl
  · cases h : assignLoop n value st.loops with
    | none => rfl
    | some r => simpa using assignLoop_key h
  · cases h : assignVariable n value st.vars.entries with
    | some r => simp
    | none =>
      cases h2 : assignLoop n value st.loops with
      | some r => simp
      | none =>
        intro _
        exact ⟨assignVariable_none.mp h, assignLoop_none.mp h2⟩

theorem download_assignment_inv {te : CStr → Table → Option ℚ} {st : Stores} {e n : CStr}
    {sf : Nat} (hi : Inv st) (hn : ValidName n) :
    Inv (download_assignment te st e n sf).st
    ∧ (download_assignment te st e n sf).st.loops.map Loop.key = st.loops.map Loop.key := by
  unfold download_assignment
  simp only []
  split
  · rename_i value hv
    obtain ⟨a, b, c, d⟩ := download_assignment_print_shape n st sf value
    split_ifs with hf
    · exact ⟨Inv_of_shape a c hi, c⟩
    · have hf2 : (download_assignment_print n st sf value).1 = false := by simpa using hf
      obtain ⟨d1, d2⟩ := d hf2
      have i1 : Inv (download_assignment_print n st sf value).2.1 := Inv_of_shape a c hi
      refine ⟨?_, c⟩
      simp only [download_allocate_variable]
      apply Inv_append_var i1 (validName_ne_sentinel hn)
      · rw [a]; exact d1
      · rw [loopNames_eq_of_key c]; exact d2
  · exact ⟨hi, rfl⟩

/-! ## `@range` keeps the invariant -/

theorem range_redefine_none {n : CStr} {s i e : ℚ} {ls : List Loop} :
    range_redefine n s i e ls = none ↔ n ∉ ls.map (fun l => l.name) := by
  induction ls with
  | nil => simp [range_redefine]
  | cons x xs ih =>
    unfold range_redefine
    split_ifs with hx
    · simp [hx]
    · simp [ih, Ne.symm hx]

theorem range_redefine_some {n : CStr} {s i e : ℚ} {ls ls1 : List Loop} {l1 : Loop}
    (h : range_redefine n s i e ls = some (ls1, l1)) :
    ls1.map (fun l => l.name) = ls.map (fun l => l.name)
    ∧ l1 = ⟨n, s, s, i, e⟩
    ∧ ∀ k ∈ ls1.map Loop.key, k ∈ ls.map Loop.key ∨ k = (n, s, i, e) := by
  induction ls generalizing ls1 with
  | nil => simp [range_redefine] at h
  | cons x xs ih =>
    unfold range_redefine at h
    split_ifs at h with hx
    · simp only [Option.some.injEq, Prod.mk.injEq] at h
      obtain ⟨rfl, rfl⟩ := h
      refine ⟨by simp, by rw [hx], ?_⟩
      intro k hk
      simp only [List.map_cons, List.mem_cons] at hk
      rcases hk with hk | hk
      · right; rw [hk]; simp [Loop.key, hx]
      · left; simp only [List.map_cons, List.mem_cons]; right; exact hk
    · simp only [Option.map_eq_some'] at h
      obtain ⟨⟨r1, r2⟩, h1, h2⟩ := h
      simp only [Prod.mk.injEq] at h2
      obtain ⟨rfl, rfl⟩ := h2
      obtain ⟨a, b, c⟩ := ih h1
      refine ⟨by simp [a], b, ?_⟩
      intro k hk
      simp only [List.map_cons, List.mem_cons] at hk
      rcases hk with hk | hk
      · left; simp [hk]
      · rcases c k hk with c1 | c1
        · left; simp only [List.map_cons, List.mem_cons]; right; exact c1
        · right; exact c1

theorem range_promote_none {n : CStr} {xs : List Variable} :
    range_promote n xs = none ↔ n ∉ xs.map (fun x => x.name) := by
  induction xs with
  | nil => simp [range_promote]
  | cons x xs ih =>
    unfold range_promote
    split_ifs with hx
    · simp [hx]
    · simp [ih, Ne.symm hx]

theorem range_promote_some {n : CStr} {xs r : List Variable} (hn : n ≠ sentinel)
    (h : range_promote n xs = some r) :
    (r.map (fun x => x.name)).filter (fun n => n ≠ sentinel)
      = ((xs.map (fun x => x.name)).filter (fun n => n ≠ sentinel)).erase n := by
  induction xs generalizing r with
  | nil => simp [range_promote] at h
  | cons x xs ih =>
    unfold range_promote at h
    split_ifs at h with hx
    · simp only [Option.some.injEq] at h
      subst h
      simp [List.filter_cons, hx, hn]
    · simp only [Option.map_eq_some'] at h
      obtain ⟨r1, h1, h2⟩ := h
      subst h2
      by_cases hs : x.name = sentinel
      · simpa [List.filter_cons, hs] using ih h1
      · have hne : (x.name == n) = false := by simpa using hx
        simpa [List.filter_cons, hs, List.erase_cons, hne] using ih h1

theorem nodup_promote {L M : List CStr} {n : CStr} (h : (L ++ M).Nodup) (hM : n ∉ M) :
    (L.erase n ++ (M ++ [n])).Nodup := by
  rw [List.nodup_append] at h ⊢
  obtain ⟨a, b, c⟩ := h
  refine ⟨a.erase n, ?_, ?_⟩
  · rw [List.nodup_append]
    refine ⟨b, List.nodup_singleton n, ?_⟩
    intro x hx hx2
    rw [List.mem_singleton] at hx2
    subst hx2; exact hM hx
  · intro x hx hx2
    rw [List.mem_append, List.mem_singleton] at hx2
    rcases hx2 with hx2 | hx2
    · exact c (List.mem_of_mem_erase hx) hx2
    · subst hx2
      exact (a.mem_erase_iff.mp hx).1 rfl

theorem range_new_loop_live_loops (st : Stores) (n : CStr) (s i e : ℚ) (sf : Nat)
    (hn : n ≠ sentinel) (h : range_redefine n s i e st.loops = none) :
    liveNames (range_new_loop st n s i e sf).st = (liveNames st).erase n
    ∧ (range_new_loop st n s i e sf).st.loops = st.loops ++ [⟨n, s, s, i, e⟩] := by
  constructor
  · unfold range_new_loop
    simp only [h, range_allocate_loop]
    cases hp : range_promote n st.vars.entries with
    | none =>
      have := range_promote_none.mp hp
      simp only [liveNames, varNames]
      rw [List.erase_of_not_mem]
      intro hm
      exact this (List.mem_of_mem_filter hm)
    | some r =>
      simp only [liveNames, varNames]
      exact range_promote_some hn hp
  · unfold range_new_loop
    simp [h, range_allocate_loop]

theorem range_new_loop_inv {st : Stores} {n : CStr} {s i e : ℚ} {sf : Nat} (hi : Inv st)
    (hn : ValidName n) (hr : RangeValid s i e) : Inv (range_new_loop st n s i e sf).st := by
  cases h : range_redefine n s i e st.loops with
  | some p =>
    obtain ⟨ls1, l1⟩ := p
    obtain ⟨a, b, c⟩ := range_redefine_some h
    have hst : (range_new_loop st n s i e sf).st = { st with loops := ls1 } := by
      unfold range_new_loop; simp [h]
    rw [hst]
    refine ⟨?_, ?_⟩
    · intro k hk
      rcases c k hk with c1 | c1
      · exact hi.1 k c1
      · subst c1; exact ⟨hn, hr⟩
    · have : loopNames { st with loops := ls1 } = loopNames st := a
      rw [this]; exact hi.2
  | none =>
    obtain ⟨a, b⟩ := range_new_loop_live_loops st n s i e sf (validName_ne_sentinel hn) h
    refine ⟨?_, ?_⟩
    · rw [b]
      intro k hk
      simp only [List.map_append, List.map_cons, List.map_nil, List.mem_append,
        List.mem_singleton] at hk
      rcases hk with hk | hk
      · exact hi.1 k hk
      · subst hk; exact ⟨hn, hr⟩
    · rw [a]
      have e2 : loopNames (range_new_loop st n s i e sf).st = loopNames st ++ [n] := by
        simp [loopNames, b]
      rw [e2]
      exact nodup_promote hi.2 (range_redefine_none.mp h)

theorem range_new_loop_loopNames (st : Stores) (n : CStr) (s i e : ℚ) (sf : Nat) :
    ∀ x ∈ loopNames st, x ∈ loopNames (range_new_loop st n s i e sf).st := by
  intro x hx
  cases h : range_redefine n s i e st.loops with
  | some p =>
    obtain ⟨ls1, l1⟩ := p
    obtain ⟨a, -, -⟩ := range_redefine_some h
    have hst : (range_new_loop st n s i e sf).st = { st with loops := ls1 } := by
      unfold range_new_loop; simp [h]
    rw [hst]
    have : loopNames { st with loops := ls1 } = loopNames st := a
    rw [this]; exact hx
  | none =>
    have hst : (range_new_loop st n s i e sf).st.loops = st.loops ++ [⟨n, s, s, i, e⟩] := by
      unfold range_new_loop; simp [h, range_allocate_loop]
    simp only [loopNames, hst, List.map_append, List.mem_append]
    left; exact hx

theorem range_inv {e : CStr} {st : Stores} {sf : Nat} (hi : Inv st) :
    Inv (range e st sf).st ∧ ∀ x ∈ loopNames st, x ∈ loopNames (range e st sf).st := by
  by_cases h : RangeArgAccepted e
  · rw [range_of_accepted h]
    exact ⟨range_new_loop_inv hi h.2.1 h.2.2.2.2.2, range_new_loop_loopNames _ _ _ _ _ _⟩
  · rw [range_of_not_accepted h]
    exact ⟨hi, fun x hx => hx⟩

/-! ## One line keeps the invariant -/

theorem detect_range_print_inv {line : CStr} {st : Stores} {sf : Nat} {r : Res}
    (hi : Inv st) (h : detect_range_print line st sf = some r) :
    Inv r.st ∧ (∀ x ∈ loopNames st, x ∈ loopNames r.st) ∧ (r.ret = 0 → r.st = st) := by
  unfold detect_range_print at h
  simp only [] at h
  split_ifs at h with h1
  · simp only [Option.some.injEq] at h
    subst h; exact ⟨hi, fun x hx => hx, fun _ => rfl⟩
  · split at h
    · simp at h
    · split_ifs at h with h2
      · split at h
        · simp at h
        · simp only [Option.some.injEq] at h
          subst h
          exact ⟨(range_inv hi).1, (range_inv hi).2, fun h0 => by simp at h0⟩
      · simp only [Option.some.injEq] at h
        subst h; exact ⟨hi, fun x hx => hx, fun _ => rfl⟩

theorem detect_loops_inv {te : CStr → Table → Option ℚ} {line : CStr} {st : Stores}
    {sf : Nat} {r : Res} (hi : Inv st) (h : detect_loops te line st sf = some r) :
    Inv r.st ∧ r.st.loops.map Loop.key = st.loops.map Loop.key := by
  unfold detect_loops at h
  split_ifs at h with h1
  · split at h
    · simp at h
    · rename_i r1 hr1
      simp only [Option.some.injEq] at h
      subst h
      exact @loop_inv te line st sf r1 hi hr1
  · simp only [Option.some.injEq] at h
    subst h; exact ⟨hi, rfl⟩

theorem check_valid_zero {n : CStr} (h : ¬ (download_assignment_check_valid n).1 ≠ 0) :
    ValidName n := by
  unfold download_assignment_check_valid at h
  split_ifs at h with h1
  · simp at h
  · push_neg at h1
    exact ⟨h1.2.1, h1.2.2, h1.1⟩

theorem download_line_inv {te : CStr → Table → Option ℚ} {sf : Nat} {st st1 : Stores}
    {line : CStr} {out : List Ev} (hi : Inv st)
    (h : download_line te sf st line = some (st1, out)) :
    Inv st1 ∧ ∀ x ∈ loopNames st, x ∈ loopNames st1 := by
  unfold download_line at h
  simp only [] at h
  by_cases h0 : (download_setup line).1 ≠ 0
  · rw [if_pos h0] at h
    simp only [Option.some.injEq, Prod.mk.injEq] at h
    obtain ⟨rfl, -⟩ := h
    exact ⟨hi, fun x hx => hx⟩
  rw [if_neg h0] at h
  cases hr1 : detect_range_print line st sf with
  | none => simp [hr1] at h
  | some r1 =>
    simp only [hr1] at h
    obtain ⟨a1, a2, a3⟩ := detect_range_print_inv hi hr1
    by_cases h1 : r1.ret ≠ 0
    · rw [if_pos h1] at h
      simp only [Option.some.injEq, Prod.mk.injEq] at h
      obtain ⟨rfl, -⟩ := h
      exact ⟨a1, a2⟩
    rw [if_neg h1] at h
    cases hr2 : detect_loops te line r1.st sf with
    | none => simp [hr2] at h
    | some r2 =>
      simp only [hr2] at h
      obtain ⟨b1, b2⟩ := detect_loops_inv a1 hr2
      have b3 : ∀ x ∈ loopNames st, x ∈ loopNames r2.st := by
        intro x hx
        rw [loopNames_eq_of_key b2]; exact a2 x hx
      by_cases h2 : r2.ret ≠ 0
      · rw [if_pos h2] at h
        simp only [Option.some.injEq, Prod.mk.injEq] at h
        obtain ⟨rfl, -⟩ := h
        exact ⟨b1, b3⟩
      rw [if_neg h2] at h
      by_cases h3 : (download_setup line).2 = 1
      · rw [if_pos h3] at h
        cases hvn : (strtok line ['=']).1 with
        | none => simp [hvn] at h
        | some variableName =>
          simp only [hvn] at h
          by_cases h5 : (download_assignment_check_valid (trimKey variableName)).1 ≠ 0
          · rw [if_pos h5] at h
            simp only [Option.some.injEq, Prod.mk.injEq] at h
            obtain ⟨rfl, -⟩ := h
            exact ⟨b1, b3⟩
          rw [if_neg h5] at h
          cases hex : (strtok (strtok line ['=']).2 ['=']).1 with
          | none => simp [hex] at h
          | some expression =>
            simp only [hex, Option.some.injEq, Prod.mk.injEq] at h
            obtain ⟨rfl, -⟩ := h
            obtain ⟨c1, c2⟩ := @download_assignment_inv te r2.st expression
              (trimKey variableName) sf b1 (check_valid_zero h5)
            refine ⟨c1, ?_⟩
            intro x hx
            rw [loopNames_eq_of_key c2]; exact b3 x hx
      rw [if_neg h3] at h
      by_cases h4 : (download_setup line).2 = 0
      · rw [if_pos h4] at h
        simp only [Option.some.injEq, Prod.mk.injEq] at h
        obtain ⟨rfl, -⟩ := h
        have : (download_expression te r2.st line sf).st = r2.st := by
          unfold download_expression; simp only []; split <;> rfl
        rw [this]
        exact ⟨b1, b3⟩
      rw [if_neg h4] at h
      simp only [Option.some.injEq, Prod.mk.injEq] at h
      obtain ⟨rfl, -⟩ := h
      exact ⟨b1, b3⟩

/-! ## The initial decoding -/

theorem tokens2_eq_fields {d : Char} {s t0 r0 t1 r1 : CStr} (hc : countChar d s = 1)
    (h0 : strtok s [d] = (some t0, r0)) (h1 : strtok r0 [d] = (some t1, r1)) :
    t0 = field d 0 s ∧ t1 = field d 1 s := by
  have hr0 : r0 ≠ [] := by rintro rfl; simp [strtok_nil] at h1
  obtain ⟨a0, b0⟩ := strtok_count h0 hr0
  obtain ⟨e0, f0⟩ := b0 (by omega)
  obtain ⟨e1, -⟩ := strtok_count_zero h1 (by omega)
  subst f0
  exact ⟨e0, e1⟩

theorem any_name_iff_vars (xs : List Variable) (n : CStr) :
    xs.any (fun v => decide (v.name = n)) = true ↔ n ∈ xs.map (fun v => v.name) := by
  simp only [List.any_eq_true, decide_eq_true_eq, List.mem_map]

theorem any_name_iff_loops (xs : List Loop) (n : CStr) :
    xs.any (fun v => decide (v.name = n)) = true ↔ n ∈ xs.map (fun v => v.name) := by
  simp only [List.any_eq_true, decide_eq_true_eq, List.mem_map]

theorem extend_variables_of_valid {s : CStr} (h : DefineValid s) (vars : Variables)
    (dup : Bool) :
    extend_variables vars (strtok s ['=']).1 (strtok (strtok s ['=']).2 ['=']).1 dup
      = (0, { vars with entries := vars.entries ++ [defineEntry s] },
          dup || vars.entries.any (fun v => v.name = field '=' 0 s)) := by
  obtain ⟨hc, hn, h1⟩ := h
  have f0 : field '=' 0 s ≠ [] := by
    intro h0; rw [h0] at hn; simp [ValidName] at hn
  have t0 : strtok s ['='] = (some (field '=' 0 s), fieldTail '=' s) := strtok_of_fieldHead f0
  have t1 : strtok (fieldTail '=' s) ['=']
      = (some (field '=' 1 s), fieldTail '=' (fieldTail '=' s)) := strtok_of_fieldHead h1.1
  obtain ⟨hn1, hn2, hn3⟩ := hn
  have hn4 : ¬ (field '=' 0 s).length = 0 := by omega
  rw [t0]; simp only []; rw [t1]
  unfold extend_variables
  simp only [MAX_VARIABLE_LENGTH] at hn2 ⊢
  have h5 : 0 < (field '=' 1 s).length := List.length_pos.mpr h1.1
  have h6 : ¬ 22 < (field '=' 0 s).length := by omega
  simp [h1.1, h1.2, hn3, hn2, hn4, f0, defineEntry, h5, h6]

theorem extend_variables_of_not_valid {s : CStr} (hc : countChar '=' s = 1)
    (h : ¬ DefineValid s) (vars : Variables) (dup : Bool) :
    extend_variables vars (strtok s ['=']).1 (strtok (strtok s ['=']).2 ['=']).1 dup
      = (INVALID_VARIABLES_ERROR, vars, dup) := by
  rcases h0 : strtok s ['='] with ⟨_ | t0, r0⟩
  · simp [extend_variables]
  rcases h1 : strtok r0 ['='] with ⟨_ | t1, r1⟩
  · simp [extend_variables]
  obtain ⟨e0, e1⟩ := tokens2_eq_fields hc h0 h1
  have n1 := strtok_some_ne_nil h1
  unfold extend_variables
  simp only []
  split_ifs with a1 a2 a3
  all_goals try rfl
  exfalso
  apply h
  push_neg at a1
  refine ⟨hc, ?_, ?_⟩
  · rw [← e0]; exact ⟨a1.1, a1.2, a2⟩
  · rw [← e1]; exact ⟨n1, a3.1⟩

theorem decode_variable_strings_from_zero (strs : List CStr) (vars : Variables) (dup : Bool) :
    (decode_variable_strings_from strs vars dup).1 = 0 ↔
      (∀ s ∈ strs, DefineValid s) ∧ dup = false
      ∧ (∀ s ∈ strs, field '=' 0 s ∉ vars.entries.map (fun v => v.name))
      ∧ (strs.map (field '=' 0)).Nodup := by
  induction strs generalizing vars dup with
  | nil =>
    cases dup <;> simp [decode_variable_strings_from, DUPLICATE_VARIABLES_ERROR]
  | cons s rest ih =>
    unfold decode_variable_strings_from
    by_cases hc : countChar '=' s = 1
    swap
    · have : ¬ DefineValid s := fun h => hc h.1
      simp [hc, INVALID_VARIABLES_ERROR, this]
    simp only [hc, ne_eq, not_true_eq_false, ↓reduceIte]
    by_cases hv : DefineValid s
    · rw [extend_variables_of_valid hv]
      simp only [ne_eq, not_true_eq_false, ↓reduceIte]
      rw [ih]
      simp only [List.mem_cons, forall_eq_or_imp, List.map_cons, List.nodup_cons,
        List.map_append, List.map_nil, List.mem_append, List.mem_singleton, Bool.or_eq_false_iff,
        defineEntry, List.mem_map, List.not_mem_nil, or_false]
      have hany := any_name_iff_vars vars.entries (field '=' 0 s)
      constructor
      · rintro ⟨a, ⟨b1, b2⟩, c, d⟩
        refine ⟨⟨hv, a⟩, b1, ⟨?_, fun x hx => ?_⟩, ?_, d⟩
        · intro hm
          have := hany.mpr (List.mem_map.mpr hm)
          rw [this] at b2; exact Bool.noConfusion b2
        · intro hm; exact c x hx (Or.inl hm)
        · rintro ⟨x, hx, hxe⟩
          exact c x hx (Or.inr hxe)
      · rintro ⟨⟨-, a⟩, b, ⟨c1, c2⟩, d1, d2⟩
        refine ⟨a, ⟨b, ?_⟩, fun x hx => ?_, d2⟩
        · by_contra hne
          have : vars.entries.any (fun v => decide (v.name = field '=' 0 s)) = true := by
            simpa using hne
          exact c1 (List.mem_map.mp (hany.mp this))
        · rintro (hm | hm)
          · exact c2 x hx hm
          · exact d1 ⟨x, hx, hm⟩
    · rw [extend_variables_of_not_valid hc hv]
      simp [INVALID_VARIABLES_ERROR, hv]

theorem decode_variable_strings_from_result (strs : List CStr) (vars : Variables)
    (dup : Bool) (h : ∀ s ∈ strs, DefineValid s) :
    (decode_variable_strings_from strs vars dup).2
      = ⟨vars.entries ++ strs.map defineEntry, vars.converted⟩ := by
  induction strs generalizing vars dup with
  | nil => simp [decode_variable_strings_from]
  | cons s rest ih =>
    have hv := h s (List.mem_cons_self _ _)
    unfold decode_variable_strings_from
    simp only [hv.1, ne_eq, not_true_eq_false, ↓reduceIte]
    rw [extend_variables_of_valid hv]
    simp only [ne_eq, not_true_eq_false, ↓reduceIte]
    rw [ih _ _ (fun x hx => h x (List.mem_cons_of_mem _ hx))]
    simp

theorem decode_variable_strings_from_code (strs : List CStr) (vars : Variables)
    (dup : Bool) :
    (decode_variable_strings_from strs vars dup).1 = 0
    ∨ (decode_variable_strings_from strs vars dup).1 = DUPLICATE_VARIABLES_ERROR
    ∨ (decode_variable_strings_from strs vars dup).1 = INVALID_VARIABLES_ERROR := by
  induction strs generalizing vars dup with
  | nil => cases dup <;> simp [decode_variable_strings_from]
  | cons s rest ih =>
    unfold decode_variable_strings_from
    by_cases hc : countChar '=' s = 1
    swap
    · simp [hc]
    simp only [hc, ne_eq, not_true_eq_false, ↓reduceIte]
    by_cases hv : DefineValid s
    · rw [extend_variables_of_valid hv]
      simp only [ne_eq, not_true_eq_false, ↓reduceIte]
      exact ih _ _
    · rw [extend_variables_of_not_valid hc hv]
      simp [INVALID_VARIABLES_ERROR]

theorem extend_loops_of_valid {s : CStr} (h : LoopableValid s) (loops : List Loop)
    (vars : Variables) (dup : Bool) :
    extend_loops loops vars (strtok s [',']).1 (strtok (strtok s [',']).2 [',']).1
        (strtok (strtok (strtok s [',']).2 [',']).2 [',']).1
        (strtok (strtok (strtok (strtok s [',']).2 [',']).2 [',']).2 [',']).1 dup
      = (0, loops ++ [loopableEntry s],
          dup || loops.any (fun l => l.name = field ',' 0 s)
            || vars.entries.any (fun v => v.name = field ',' 0 s)) := by
  obtain ⟨hc, hn, h1, h2, h3, hr⟩ := h
  have f0 : field ',' 0 s ≠ [] := by
    intro h0; rw [h0] at hn; simp [ValidName] at hn
  obtain ⟨t0, t1, t2, t3⟩ := tokens_of_fields f0 h1.1 h2.1 h3.1
  have hr2 : ¬ rangeRejected (numField 1 s) (numField 2 s) (numField 3 s) := by
    rw [rangeRejected_iff]; exact not_not.mpr hr
  obtain ⟨hn1, hn2, hn3⟩ := hn
  have hn4 : ¬ (field ',' 0 s).length = 0 := by omega
  simp only [t0, t1, t2, t3]
  unfold extend_loops
  simp only [MAX_VARIABLE_LENGTH] at hn2 ⊢
  have h6 : ¬ 22 < (field ',' 0 s).length := by omega
  simp only [numField] at hr2
  simp [h1.1, h1.2, h2.1, h2.2, h3.1, h3.2, hr2, hn3, hn4, f0, h6, loopableEntry,
    reallocate_loops, numField]

theorem extend_loops_of_not_valid {s : CStr} (hc : countChar ',' s = 3)
    (h : ¬ LoopableValid s) (loops : List Loop) (vars : Variables) (dup : Bool) :
    extend_loops loops vars (strtok s [',']).1 (strtok (strtok s [',']).2 [',']).1
        (strtok (strtok (strtok s [',']).2 [',']).2 [',']).1
        (strtok (strtok (strtok (strtok s [',']).2 [',']).2 [',']).2 [',']).1 dup
      = (INVALID_VARIABLES_ERROR, loops, dup) := by
  rcases h0 : strtok s [','] with ⟨_ | t0, r0⟩
  · simp [extend_loops]
  rcases h1 : strtok r0 [','] with ⟨_ | t1, r1⟩
  · simp [extend_loops]
  rcases h2 : strtok r1 [','] with ⟨_ | t2, r2⟩
  · simp [extend_loops]
  rcases h3 : strtok r2 [','] with ⟨_ | t3, r3⟩
  · simp [extend_loops]
  obtain ⟨e0, e1, e2, e3⟩ := tokens_eq_fields hc h0 h1 h2 h3
  have n1 := strtok_some_ne_nil h1
  have n2 := strtok_some_ne_nil h2
  have n3 := strtok_some_ne_nil h3
  unfold extend_loops
  simp only []
  split_ifs with a1 a2 a3 a4 a5 a6
  all_goals try rfl
  exfalso
  apply h
  push_neg at a1 a3 a4 a5
  rw [rangeRejected_iff, not_not] at a6
  refine ⟨hc, ?_, ?_, ?_, ?_, ?_⟩
  · rw [← e0]; exact ⟨a1.1, a1.2, a2⟩
  · rw [← e1]; exact ⟨n1, a3.1⟩
  · rw [← e2]; exact ⟨n2, a4.1⟩
  · rw [← e3]; exact ⟨n3, a5.1⟩
  · simp only [numField]; rw [← e1, ← e2, ← e3]; exact a6

theorem decode_loops_strings_from_zero (vars : Variables) (strs : List CStr)
    (loops : List Loop) (dup : Bool) :
    (decode_loops_strings_from vars strs loops dup).1 = 0 ↔
      (∀ s ∈ strs, LoopableValid s) ∧ dup = false
      ∧ (∀ s ∈ strs, field ',' 0 s ∉ loops.map (fun l => l.name)
          ∧ field ',' 0 s ∉ vars.entries.map (fun v => v.name))
      ∧ (strs.map (field ',' 0)).Nodup := by
  induction strs generalizing loops dup with
  | nil =>
    cases dup <;> simp [decode_loops_strings_from, DUPLICATE_VARIABLES_ERROR]
  | cons s rest ih =>
    unfold decode_loops_strings_from
    by_cases hc : countChar ',' s = 3
    swap
    · have : ¬ LoopableValid s := fun h => hc h.1
      simp [hc, INVALID_VARIABLES_ERROR, this, LOOP_COMMAS]
    simp only [hc, LOOP_COMMAS, ne_eq, not_true_eq_false, ↓reduceIte]
    by_cases hv : LoopableValid s
    · rw [extend_loops_of_valid hv]
      simp only [ne_eq, not_true_eq_false, ↓reduceIte]
      rw [ih]
      simp only [List.mem_cons, forall_eq_or_imp, List.map_cons, List.nodup_cons,
        List.map_append, List.map_nil, List.mem_append, List.mem_singleton, Bool.or_eq_false_iff,
        loopableEntry, List.mem_map, List.not_mem_nil, or_false]
      have hany := any_name_iff_loops loops (field ',' 0 s)
      have hany2 := any_name_iff_vars vars.entries (field ',' 0 s)
      constructor
      · rintro ⟨a, ⟨⟨b1, b2⟩, b3⟩, c, d⟩
        refine ⟨⟨hv, a⟩, b1, ⟨⟨?_, ?_⟩, fun x hx => ⟨?_, (c x hx).2⟩⟩, ?_, d⟩
        · intro hm
          have := hany.mpr (List.mem_map.mpr hm)
          rw [this] at b2; exact Bool.noConfusion b2
        · intro hm
          have := hany2.mpr (List.mem_map.mpr hm)
          rw [this] at b3; exact Bool.noConfusion b3
        · intro hm; exact (c x hx).1 (Or.inl hm)
        · rintro ⟨x, hx, hxe⟩
          exact (c x hx).1 (Or.inr hxe)
      · rintro ⟨⟨-, a⟩, b, ⟨⟨c1, c1b⟩, c2⟩, d1, d2⟩
        refine ⟨a, ⟨⟨b, ?_⟩, ?_⟩, fun x hx => ⟨?_, (c2 x hx).2⟩, d2⟩
        · by_contra hne
          have : loops.any (fun v => decide (v.name = field ',' 0 s)) = true := by
            simpa using hne
          exact c1 (List.mem_map.mp (hany.mp this))
        · by_contra hne
          have : vars.entries.any (fun v => decide (v.name = field ',' 0 s)) = true := by
            simpa using hne
          exact c1b (List.mem_map.mp (hany2.mp this))
        · rintro (hm | hm)
          · exact (c2 x hx).1 hm
          · exact d1 ⟨x, hx, hm⟩
    · rw [extend_loops_of_not_valid hc hv]
      simp [INVALID_VARIABLES_ERROR, hv]

theorem decode_loops_strings_from_result (vars : Variables) (strs : List CStr)
    (loops : List Loop) (dup : Bool) (h : ∀ s ∈ strs, LoopableValid s) :
    (decode_loops_strings_from vars strs loops dup).2 = loops ++ strs.map loopableEntry := by
  induction strs generalizing loops dup with
  | nil => simp [decode_loops_strings_from]
  | cons s rest ih =>
    have hv := h s (List.mem_cons_self _ _)
    unfold decode_loops_strings_from
    simp only [hv.1, LOOP_COMMAS, ne_eq, not_true_eq_false, ↓reduceIte]
    rw [extend_loops_of_valid hv]
    simp only [ne_eq, not_true_eq_false, ↓reduceIte]
    rw [ih _ _ (fun x hx => h x (List.mem_cons_of_mem _ hx))]
    simp

theorem decode_loops_strings_from_code (vars : Variables) (strs : List CStr)
    (loops : List Loop) (dup : Bool) :
    (decode_loops_strings_from vars strs loops dup).1 = 0
    ∨ (decode_loops_strings_from vars strs loops dup).1 = DUPLICATE_VARIABLES_ERROR
    ∨ (decode_loops_strings_from vars strs loops dup).1 = INVALID_VARIABLES_ERROR := by
  induction strs generalizing loops dup with
  | nil => cases dup <;> simp [decode_loops_strings_from]
  | cons s rest ih =>
    unfold decode_loops_strings_from
    by_cases hc : countChar ',' s = 3
    swap
    · simp [hc, LOOP_COMMAS]
    simp only [hc, LOOP_COMMAS, ne_eq, not_true_eq_false, ↓reduceIte]
    by_cases hv : LoopableValid s
    · rw [extend_loops_of_valid hv]
      simp only [ne_eq, not_true_eq_false, ↓reduceIte]
      exact ih _ _
    · rw [extend_loops_of_not_valid hc hv]
      simp [INVALID_VARIABLES_ERROR]

theorem initial_decode_iff (vs ls : List CStr) :
    ((decode_variable_strings vs).1 = 0
      ∧ (decode_loops_strings ls (decode_variable_strings vs).2).1 = 0)
    ↔ InitialValid vs ls := by
  unfold decode_variable_strings decode_loops_strings InitialValid
  rw [decode_variable_strings_from_zero]
  constructor
  · rintro ⟨⟨a, -, -, b⟩, h2⟩
    rw [decode_variable_strings_from_result _ _ _ a, decode_loops_strings_from_zero] at h2
    obtain ⟨c, -, d, e⟩ := h2
    refine ⟨a, c, ?_⟩
    rw [List.nodup_append]
    refine ⟨b, e, ?_⟩
    intro x hx hx2
    obtain ⟨s, hs, rfl⟩ := List.mem_map.mp hx2
    apply (d s hs).2
    simpa [defineEntry] using hx
  · rintro ⟨a, c, h⟩
    rw [List.nodup_append] at h
    obtain ⟨b, e, f⟩ := h
    refine ⟨⟨a, rfl, by simp, b⟩, ?_⟩
    rw [decode_variable_strings_from_result _ _ _ a, decode_loops_strings_from_zero]
    refine ⟨c, rfl, fun s hs => ⟨by simp, ?_⟩, e⟩
    intro hm
    have hm2 : field ',' 0 s ∈ vs.map (field '=' 0) := by simpa [defineEntry] using hm
    exact f hm2 (List.mem_map.mpr ⟨s, hs, rfl⟩)

theorem initial_inv {vs ls : List CStr} {st : Stores} (h : initialStores vs ls = some st) :
    Inv st := by
  unfold initialStores at h
  simp only [] at h
  split_ifs at h with h1
  simp only [Option.some.injEq] at h
  obtain ⟨a, c, d⟩ := (initial_decode_iff vs ls).mp h1
  have e1 : (decode_variable_strings vs).2 = ⟨vs.map defineEntry, 0⟩ := by
    unfold decode_variable_strings
    rw [decode_variable_strings_from_result _ _ _ a]; simp
  have e2 : (decode_loops_strings ls (decode_variable_strings vs).2).2
      = ls.map loopableEntry := by
    unfold decode_loops_strings
    rw [decode_loops_strings_from_result _ _ _ _ c]; simp
  rw [e1] at h
  rw [e1] at e2
  rw [e2] at h
  subst h
  refine ⟨?_, ?_⟩
  · intro k hk
    simp only [List.map_map, List.mem_map, Function.comp_apply] at hk
    obtain ⟨s, hs, rfl⟩ := hk
    exact ⟨(c s hs).2.1, (c s hs).2.2.2.2.2⟩
  · have hsub : (liveNames ⟨⟨vs.map defineEntry, 0⟩, ls.map loopableEntry⟩
        ++ loopNames ⟨⟨vs.map defineEntry, 0⟩, ls.map loopableEntry⟩).Sublist
        (vs.map (field '=' 0) ++ ls.map (field ',' 0)) := by
      apply List.Sublist.append
      · have : vs.map (field '=' 0)
            = varNames ⟨⟨vs.map defineEntry, 0⟩, ls.map loopableEntry⟩ := by
          simp [varNames, defineEntry, Function.comp_def]
        rw [this]
        exact List.filter_sublist _
      · have : ls.map (field ',' 0)
            = loopNames ⟨⟨vs.map defineEntry, 0⟩, ls.map loopableEntry⟩ := by
          simp [loopNames, loopableEntry, Function.comp_def]
        rw [this]
    exact d.sublist hsub

theorem reachable_inv {te : CStr → Table → Option ℚ} {st : Stores} (h : Reachable te st) :
    Inv st := by
  induction h with
  | init vs ls st h => exact initial_inv h
  | step sf line st st1 out _ h ih => exact (download_line_inv ih h).1

theorem reachable_storesXA (te : CStr → Table → Option ℚ) : Reachable te storesXA :=
  Reachable.init ["x=1".toList] ["a,0,1,5".toList] storesXA (by decide!)

/-- On the exact values of these stores, which come from decimal constants: in every
state reachable from a successful initial decoding by any sequence
of input lines, every loop of the loop store has a non-zero increment whose sign
agrees with the order of start and end. -/
theorem loops_keep_valid_range (te : CStr → Table → Option ℚ) (st : Stores)
    (h : Reachable te st) :
    ∀ l ∈ st.loops, l.increment ≠ 0
      ∧ (l.startingValue < l.endValue → l.increment > 0)
      ∧ (l.startingValue > l.endValue → l.increment < 0) := by
  intro l hl
  exact ((reachable_inv h).1 l.key (List.mem_map_of_mem _ hl)).2

/-- C6: in every state reachable from a successful initial decoding by any sequence
of input lines, no name occurs twice among the live (not tombstoned) variables and
the loops taken together. -/
theorem C6_names_unique (te : CStr → Table → Option ℚ) (st : Stores)
    (h : Reachable te st) :
    (((st.vars.entries.map (fun v => v.name)).filter (fun n => n ≠ sentinel))
      ++ st.loops.map (fun l => l.name)).Nodup :=
  (reachable_inv h).2

theorem C6_witness :
    Reachable teLiteral storesXA ∧ ([['x']] ++ [['a']] : List CStr).Nodup :=
  ⟨reachable_storesXA teLiteral,
    C6_names_unique teLiteral storesXA (reachable_storesXA teLiteral)⟩

/-! ## The iteration count -/

theorem rangeValid_quotient_nonneg {s i e : ℚ} (h : RangeValid s i e) : 0 ≤ (e - s) / i := by
  obtain ⟨h0, h1, h2⟩ := h
  rcases lt_trichotomy s e with hlt | heq | hgt
  · exact div_nonneg (by linarith) (h1 hlt).le
  · subst heq; simp
  · exact div_nonneg_of_nonpos (by linarith) (h2 hgt).le

/-- C1 (the code at the failing input): the range 0, 1, 2147483647 passes the range
validation and `@range a,0,1,2147483647` is accepted, but the iteration count
`1 + (int)floor((end - start) / increment)` is then 1 + 2147483647, which is not an
`int`: the count is not a number that is at least 1, and the following `@loop a 1`
has no defined result. -/
theorem C1_repetitions_overflow :
    RangeValid 0 1 2147483647
    ∧ download_lines teLiteral 3 storesEmpty ["@range a,0,1,2147483647\n".toList]
        = some (⟨⟨[], 0⟩, [⟨['a'], 0, 0, 1, 2147483647⟩]⟩,
            [Ev.loopLine 3 ['a'] 0 0 1 2147483647])
    ∧ repetitions ⟨['a'], 0, 0, 1, 2147483647⟩ = none
    ∧ download_lines teLiteral 3 storesEmpty
        ["@range a,0,1,2147483647\n".toList, "@loop a 1\n".toList] = none := by
  refine ⟨by decide!, by decide!, by decide!, by decide!⟩

/-! ## Names -/

/-- C7 (the code at the failing input): after `--define x=1 --loopable a,0,1,5` the
line `@loop a x1 = 5` creates the live variable `x1`, whose name is not alphabetic:
the target of a loop-assignment is not validated. -/
theorem C7_loop_target_not_validated :
    ∃ st, Reachable teLiteral st
      ∧ st.vars.entries = [⟨['x'], 1⟩, ⟨['x', '1'], 5⟩]
      ∧ ['x', '1'] ≠ sentinel ∧ ¬ ValidName ['x', '1'] := by
  have h : (download_line teLiteral 3 storesXA "@loop a x1 = 5\n".toList).map Prod.fst
      = some ⟨⟨[⟨['x'], 1⟩, ⟨['x', '1'], 5⟩], 0⟩, [⟨['a'], 5, 0, 1, 5⟩]⟩ := by decide!
  obtain ⟨⟨st1, out⟩, h1, h2⟩ := Option.map_eq_some'.mp h
  refine ⟨st1, Reachable.step 3 _ storesXA st1 out (reachable_storesXA _) h1, ?_, by decide,
    by decide⟩
  simp only at h2
  rw [h2]

/-! ## `@range` -/

/-- On the decimal constants that `strtod` above converts: whenever the name field of
a `@range` argument is not a name of 1 to 22 alphabetic characters, or the values read from its start, increment and end fields
are not a valid range, `range` returns the error and leaves both stores as they
were, whatever the stores contain. -/
theorem range_rejects_before_acting (e : CStr) (st : Stores) (sf : Nat)
    (h : ¬ ValidName (field ',' 0 e)
      ∨ ¬ RangeValid (numField 1 e) (numField 2 e) (numField 3 e)) :
    range e st sf = ⟨INVALID_VARIABLES_ERROR, st, []⟩ :=
  range_of_not_accepted (fun hacc => h.elim (fun h1 => h1 hacc.2.1)
    (fun h2 => h2 hacc.2.2.2.2.2)) st sf

/-- C9 (the code at the failing input): the line `@range a,0,1,` with its newline is
accepted, although its end field is empty: no diagnostic is printed and a loop `a`
with end value 0 is created. The decoder of `--loopable` rejects the same string
`a,0,1,`. -/
theorem C9_empty_end_field_accepted :
    detect_range_print "@range a,0,1,\n".toList storesEmpty 3
      = some ⟨1, ⟨⟨[], 0⟩, [⟨['a'], 0, 0, 1, 0⟩]⟩, [Ev.loopLine 3 ['a'] 0 0 1 0]⟩
    ∧ field ',' 3 "a,0,1,".toList = []
    ∧ (decode_loops_strings ["a,0,1,".toList] ⟨[], 0⟩).1 = INVALID_VARIABLES_ERROR := by
  refine ⟨by decide!, by decide, by decide!⟩

/-! ## The initial decoding and the start of the run -/

theorem run_initial_out_not_stdout (canOpen : CStr → Bool) (arguments : List CStr) :
    ∀ e ∈ (run_initial_command_line canOpen arguments).out, e.isStdout = false := by
  unfold run_initial_command_line
  simp only []
  split_ifs <;> simp [Ev.isStdout]

theorem run_initial_zero {canOpen : CStr → Bool} {arguments : List CStr}
    (h : (run_initial_command_line canOpen arguments).ret = 0) :
    (decode_variable_strings (download_command_line arguments).2.2.variableStrings).1 = 0
    ∧ (decode_loops_strings (download_command_line arguments).2.2.loopsStrings
        (decode_variable_strings
          (download_command_line arguments).2.2.variableStrings).2).1 = 0 := by
  unfold run_initial_command_line at h
  simp only [] at h
  split_ifs at h with h1 h2 h3 h4
  · simp [INVALID_COMMAND_LINE_ERROR] at h
  · simp [FILE_DOES_NOT_OPEN_ERROR] at h
  · simp [INVALID_VARIABLES_ERROR] at h
  · simp [DUPLICATE_VARIABLES_ERROR] at h
  · push_neg at h3 h4
    constructor
    · rcases decode_variable_strings_from_code
        (download_command_line arguments).2.2.variableStrings ⟨[], 0⟩ false with a | a | a
      · exact a
      · exact absurd a h4.1
      · exact absurd a h3.1
    · rcases decode_loops_strings_from_code
        (decode_variable_strings (download_command_line arguments).2.2.variableStrings).2
        (download_command_line arguments).2.2.loopsStrings [] false with a | a | a
      · exact a
      · exact absurd a h4.2
      · exact absurd a h3.2

/-- On the decimal constants that `strtod` above converts: for every list of
`--define` strings and every list of `--loopable` strings, `decode_variable_strings` and `decode_loops_strings` both return 0 exactly when every
`--define` string has one `=`, a valid name and a numeric value, every `--loopable`
string has four fields with a valid name, numeric values and a valid range, and all
names are pairwise distinct across both lists; and when this fails for the strings of
a command line, `run_initial_command_line` returns a non-zero status, `main` returns
it, and nothing was written to `stdout`. -/
theorem initial_decode_exact (vs ls : List CStr) :
    (((decode_variable_strings vs).1 = 0
        ∧ (decode_loops_strings ls (decode_variable_strings vs).2).1 = 0)
      ↔ InitialValid vs ls)
    ∧ ∀ (te : CStr → Table → Option ℚ) (canOpen : CStr → Bool) (arguments input : List CStr),
        (download_command_line arguments).2.2.variableStrings = vs →
        (download_command_line arguments).2.2.loopsStrings = ls →
        ¬ InitialValid vs ls →
        (run_initial_command_line canOpen arguments).ret ≠ 0
        ∧ ∃ out, main te canOpen arguments input
            = some ((run_initial_command_line canOpen arguments).ret, out)
          ∧ ∀ e ∈ out, e.isStdout = false := by
  refine ⟨initial_decode_iff vs ls, ?_⟩
  intro te canOpen arguments input hv hl hn
  have hret : (run_initial_command_line canOpen arguments).ret ≠ 0 := by
    intro h0
    have := run_initial_zero h0
    rw [hv, hl] at this
    exact hn ((initial_decode_iff vs ls).mp this)
  refine ⟨hret, (run_initial_command_line canOpen arguments).out, ?_,
    run_initial_out_not_stdout canOpen arguments⟩
  unfold main
  simp only []
  rw [if_pos hret]

theorem range_redefine_index {n : CStr} {s i e : ℚ} {ls ls1 : List Loop} {l1 : Loop}
    (h : range_redefine n s i e ls = some (ls1, l1)) :
    ls1.length = ls.length
    ∧ ∃ k, findLoop n ls = some k ∧ ls1[k]? = some ⟨n, s, s, i, e⟩
        ∧ ∀ j, j ≠ k → ls1[j]? = ls[j]? := by
  induction ls generalizing ls1 with
  | nil => simp [range_redefine] at h
  | cons x xs ih =>
    unfold range_redefine at h
    split_ifs at h with hx
    · simp only [Option.some.injEq, Prod.mk.injEq] at h
      obtain ⟨rfl, rfl⟩ := h
      refine ⟨by simp, 0, by simp [findLoop, hx], by simp [hx], ?_⟩
      intro j hj
      cases j with
      | zero => exact absurd rfl hj
      | succ j => simp
    · simp only [Option.map_eq_some'] at h
      obtain ⟨⟨r1, r2⟩, h1, h2⟩ := h
      simp only [Prod.mk.injEq] at h2
      obtain ⟨rfl, rfl⟩ := h2
      obtain ⟨a, k, b, c, d⟩ := ih h1
      refine ⟨by simp [a], k + 1, by simp [findLoop, hx, b], by simpa using c, ?_⟩
      intro j hj
      cases j with
      | zero => simp
      | succ j =>
        simp only [List.getElem?_cons_succ]
        exact d j (fun hjk => hj (by rw [hjk]))

/-- C4: when the name field of an accepted `@range` argument already names a loop,
`range` succeeds in place: the variable store is unchanged, the number of loops is
unchanged, the (first) loop of that name gets current = start and the new start,
increment and end, and every other loop is unchanged. -/
theorem C4_redefine_in_place (e : CStr) (st : Stores) (sf : Nat) (h : RangeArgAccepted e)
    (hl : field ',' 0 e ∈ st.loops.map (fun l => l.name)) :
    (range e st sf).ret = 0
    ∧ (range e st sf).st.vars = st.vars
    ∧ (range e st sf).st.loops.length = st.loops.length
    ∧ ∃ k, findLoop (field ',' 0 e) st.loops = some k
        ∧ (range e st sf).st.loops[k]?
            = some ⟨field ',' 0 e, numField 1 e, numField 1 e, numField 2 e, numField 3 e⟩
        ∧ ∀ j, j ≠ k → (range e st sf).st.loops[j]? = st.loops[j]? := by
  rw [range_of_accepted h]
  cases hr : range_redefine (field ',' 0 e) (numField 1 e) (numField 2 e) (numField 3 e)
      st.loops with
  | none => exact absurd hl (range_redefine_none.mp hr)
  | some p =>
    obtain ⟨ls1, l1⟩ := p
    obtain ⟨a, k, b, c, d⟩ := range_redefine_index hr
    have hst : range_new_loop st (field ',' 0 e) (numField 1 e) (numField 2 e)
        (numField 3 e) sf = ⟨0, { st with loops := ls1 }, [loopLine sf l1]⟩ := by
      unfold range_new_loop; rw [hr]
    rw [hst]
    exact ⟨rfl, rfl, a, k, b, c, d⟩

theorem C4_witness :
    (RangeArgAccepted "a,1,2,9\n".toList
      ∧ field ',' 0 "a,1,2,9\n".toList ∈ storesXA.loops.map (fun l => l.name))
    ∧ ((range "a,1,2,9\n".toList storesXA 3).ret = 0
      ∧ (range "a,1,2,9\n".toList storesXA 3).st.vars = storesXA.vars
      ∧ (range "a,1,2,9\n".toList storesXA 3).st.loops.length = storesXA.loops.length
      ∧ ∃ k, findLoop (field ',' 0 "a,1,2,9\n".toList) storesXA.loops = some k
          ∧ (range "a,1,2,9\n".toList storesXA 3).st.loops[k]?
              = some ⟨field ',' 0 "a,1,2,9\n".toList, numField 1 "a,1,2,9\n".toList,
                  numField 1 "a,1,2,9\n".toList, numField 2 "a,1,2,9\n".toList,
                  numField 3 "a,1,2,9\n".toList⟩
          ∧ ∀ j, j ≠ k → (range "a,1,2,9\n".toList storesXA 3).st.loops[j]?
              = storesXA.loops[j]?) :=
  ⟨⟨by decide!, by decide⟩,
    C4_redefine_in_place "a,1,2,9\n".toList storesXA 3 (by decide!) (by decide)⟩

/-! ## The calls of the evaluator -/

theorem calls_append (a b : List Ev) : calls (a ++ b) = calls a ++ calls b := by
  induction a with
  | nil => rfl
  | cons x xs ih => cases x <;> simp [calls, ih]

theorem setCurrentValue_twice (ls : List Loop) (k : Nat) (v w : ℚ) :
    setCurrentValue (setCurrentValue ls k v) k w = setCurrentValue ls k w := by
  induction ls generalizing k with
  | nil => rfl
  | cons l ls ih =>
    cases k with
    | zero => simp [setCurrentValue]
    | succ k => simp [setCurrentValue, ih]

theorem loopAt_key_of_keys {ls1 ls : List Loop} (h : ls1.map Loop.key = ls.map Loop.key)
    (k : Nat) : (loopAt ls1 k).key = (loopAt ls k).key := by
  have h2 := congrArg (fun l => l[k]?) h
  simp only [List.getElem?_map] at h2
  unfold loopAt
  rw [List.getD_eq_getElem?_getD, List.getD_eq_getElem?_getD]
  cases h3 : ls1[k]? <;> cases h4 : ls[k]? <;> simp [h3, h4] at h2 ⊢
  exact h2

theorem loopAt_setCurrentValue (ls : List Loop) (k : Nat) (v : ℚ) (hk : k < ls.length) :
    (loopAt (setCurrentValue ls k v) k).currentValue = v := by
  induction ls generalizing k with
  | nil => simp at hk
  | cons l ls ih =>
    cases k with
    | zero => simp [setCurrentValue, loopAt]
    | succ k =>
      have := ih k (by simpa using hk)
      simpa [setCurrentValue, loopAt] using this

theorem loopAt_mem (ls : List Loop) (k : Nat) (hk : k < ls.length) : loopAt ls k ∈ ls := by
  unfold loopAt
  rw [List.getD_eq_getElem _ _ hk]
  exact List.getElem_mem _

theorem loopAt_of_getElem? {ls : List Loop} {k : Nat} {l : Loop} (h : ls[k]? = some l) :
    loopAt ls k = l ∧ k < ls.length := by
  obtain ⟨hk, he⟩ := List.getElem?_eq_some.mp h
  refine ⟨?_, hk⟩
  unfold loopAt
  rw [List.getD_eq_getElem _ _ hk]; exact he

theorem repetitions_of_key {l1 l2 : Loop} (h : l1.key = l2.key) :
    repetitions l1 = repetitions l2 := by
  simp only [Loop.key, Prod.mk.injEq] at h
  unfold repetitions
  rw [h.2.1, h.2.2.1, h.2.2.2]

theorem loop_expression_from_calls (te : CStr → Table → Option ℚ) (e : CStr) (k sf : Nat)
    (names : List CStr) (n i : Nat) (st : Stores) (values : List ℚ) :
    (calls (loop_expression_from te e k sf names n i st values).out).length ≤ n
    ∧ ((loop_expression_from te e k sf names n i st values).ret = 0 →
        (calls (loop_expression_from te e k sf names n i st values).out).length = n)
    ∧ ∀ j c, (calls (loop_expression_from te e k sf names n i st values).out)[j]? = some c →
        c = (e, names.zip (values.set k ((loopAt st.loops k).startingValue
                + ((i + j : ℕ) : ℚ) * (loopAt st.loops k).increment)),
              ⟨st.vars, setCurrentValue st.loops k ((loopAt st.loops k).startingValue
                + ((i + j : ℕ) : ℚ) * (loopAt st.loops k).increment)⟩) := by
  induction n generalizing i st values with
  | zero => simp [loop_expression_from, calls]
  | succ n ih =>
    unfold loop_expression_from
    simp only []
    split
    · obtain ⟨a, b, c⟩ := ih (i + 1) ⟨st.vars, setCurrentValue st.loops k
        ((loopAt st.loops k).startingValue + (i : ℚ) * (loopAt st.loops k).increment)⟩
        (values.set k
          ((loopAt st.loops k).startingValue + (i : ℚ) * (loopAt st.loops k).increment))
      simp only [calls, List.length_cons]
      refine ⟨by omega, fun h0 => by rw [b h0], ?_⟩
      intro j cc hj
      cases j with
      | zero =>
        simp only [List.getElem?_cons_zero, Option.some.injEq] at hj
        rw [← hj]; simp
      | succ j =>
        simp only [List.getElem?_cons_succ] at hj
        have hc := c j cc hj
        have hkey := loopAt_key_of_keys (setCurrentValue_key st.loops k
          ((loopAt st.loops k).startingValue + (i : ℚ) * (loopAt st.loops k).increment)) k
        simp only [Loop.key, Prod.mk.injEq] at hkey
        rw [hkey.2.1, hkey.2.2.1, List.set_set, setCurrentValue_twice] at hc
        rw [hc]
        have : i + 1 + j = i + (j + 1) := by omega
        rw [this]
    · simp only [calls, List.length_cons, List.length_nil]
      refine ⟨by omega, fun h0 => by simp at h0, ?_⟩
      intro j cc hj
      cases j with
      | zero =>
        simp only [List.getElem?_cons_zero, Option.some.injEq] at hj
        rw [← hj]; simp
      | succ j => simp at hj

theorem loop_assignment_from_calls (te : CStr → Table → Option ℚ) (sf : Nat)
    (li vi : Option Nat) (ev : CStr) (k : Nat) (e : CStr) (n i : Nat) (st : Stores)
    (hk : k < st.loops.length) :
    (calls (loop_assignment_from te sf li vi ev k e n i st).out).length ≤ n
    ∧ ((loop_assignment_from te sf li vi ev k e n i st).ret = 0 →
        (calls (loop_assignment_from te sf li vi ev k e n i st).out).length = n)
    ∧ ∀ j c, (calls (loop_assignment_from te sf li vi ev k e n i st).out)[j]? = some c →
        c.1 = e ∧ c.2.1 = tableLV c.2.2 ∧ varNames c.2.2 = varNames st
        ∧ c.2.2.loops.map Loop.key = st.loops.map Loop.key
        ∧ (loopAt c.2.2.loops k).currentValue = (loopAt st.loops k).startingValue
              + ((i + j : ℕ) : ℚ) * (loopAt st.loops k).increment := by
  induction n generalizing i st with
  | zero => simp [loop_assignment_from, calls]
  | succ n ih =>
    have hkey := setCurrentValue_key st.loops k
      ((loopAt st.loops k).startingValue + (i : ℚ) * (loopAt st.loops k).increment)
    unfold loop_assignment_from
    simp only []
    split
    · rename_i value hv
      obtain ⟨g1, g2, g3⟩ := loop_print_assignment_shape value
        ⟨st.vars, setCurrentValue st.loops k
          ((loopAt st.loops k).startingValue + (i : ℚ) * (loopAt st.loops k).increment)⟩
        ev li vi sf k i
      have hk2 : k < (loop_print_assignment value
          ⟨st.vars, setCurrentValue st.loops k
            ((loopAt st.loops k).startingValue + (i : ℚ) * (loopAt st.loops k).increment)⟩
          ev li vi sf k i).1.loops.length := by
        have := congrArg List.length (g3.trans hkey)
        simp only [List.length_map] at this
        omega
      obtain ⟨a, b, c⟩ := ih (i + 1) _ hk2
      simp only [calls, List.length_cons]
      refine ⟨by omega, fun h0 => by rw [b h0], ?_⟩
      intro j cc hj
      cases j with
      | zero =>
        simp only [List.getElem?_cons_zero, Option.some.injEq] at hj
        rw [← hj]
        refine ⟨rfl, rfl, rfl, hkey, ?_⟩
        simp only [Nat.add_zero]
        exact loopAt_setCurrentValue _ _ _ hk
      | succ j =>
        simp only [List.getElem?_cons_succ] at hj
        obtain ⟨c1, c2, c3, c4, c5⟩ := c j cc hj
        have hkey2 := loopAt_key_of_keys (g3.trans hkey) k
        simp only [Loop.key, Prod.mk.injEq] at hkey2
        refine ⟨c1, c2, ?_, ?_, ?_⟩
        · rw [c3, g1]; rfl
        · rw [c4, g3]; exact hkey
        · rw [c5, hkey2.2.1, hkey2.2.2.1]
          have : i + 1 + j = i + (j + 1) := by omega
          rw [this]
    · simp only [calls, List.length_cons, List.length_nil]
      refine ⟨by omega, fun h0 => by simp at h0, ?_⟩
      intro j cc hj
      cases j with
      | zero =>
        simp only [List.getElem?_cons_zero, Option.some.injEq] at hj
        rw [← hj]
        refine ⟨rfl, rfl, rfl, hkey, ?_⟩
        simp only [Nat.add_zero]
        exact loopAt_setCurrentValue _ _ _ hk
      | succ j => simp at hj

/-! ## The names in a binding table -/

theorem inv_loop_ne_sentinel {st : Stores} (h : Inv st) :
    ∀ l ∈ st.loops, l.name ≠ sentinel := by
  intro l hl
  exact validName_ne_sentinel (h.1 l.key (List.mem_map_of_mem _ hl)).1

theorem bind_loops_eq {ls : List Loop} (h : ∀ l ∈ ls, l.name ≠ sentinel) :
    bind_loops ls = ls.map (fun l => (l.name, l.currentValue)) := by
  unfold bind_loops
  rw [List.filter_eq_self.mpr]
  intro l hl
  simpa using h l hl

theorem bind_vars_names (xs : List Variable) :
    (bind_vars xs).map Prod.fst
      = (xs.map (fun v => v.name)).filter (fun n => n ≠ sentinel) := by
  unfold bind_vars
  rw [List.filter_map, List.map_map]
  rfl

theorem tableLV_names {st : Stores} (h : Inv st) :
    (tableLV st).map Prod.fst = loopNames st ++ liveNames st := by
  unfold tableLV
  rw [List.map_append, bind_vars_names, bind_loops_eq (inv_loop_ne_sentinel h), List.map_map]
  rfl

theorem tableVL_names {st : Stores} (h : Inv st) :
    (tableVL st).map Prod.fst = liveNames st ++ loopNames st := by
  unfold tableVL
  rw [List.map_append, bind_vars_names, bind_loops_eq (inv_loop_ne_sentinel h), List.map_map]
  rfl

theorem tableLV_nodup {st : Stores} (h : Inv st) : ((tableLV st).map Prod.fst).Nodup := by
  rw [tableLV_names h]; exact List.nodup_append_comm.mp h.2

theorem sweepCall_of {L : Loop} {j : Nat} {e : CStr} {tab : Table} {snap : Stores} {k : Nat}
    (hk : k < snap.loops.length) (hn : (loopAt snap.loops k).name = L.name)
    (hc : (loopAt snap.loops k).currentValue = L.startingValue + (j : ℚ) * L.increment)
    (hm : (L.name, L.startingValue + (j : ℚ) * L.increment) ∈ tab)
    (hd : (tab.map Prod.fst).Nodup) : SweepCall L j (e, tab, snap) := by
  refine ⟨⟨loopAt snap.loops k, loopAt_mem _ _ hk, hn, hc⟩, hm, ?_⟩
  intro p hp hp1
  have := List.inj_on_of_nodup_map hd hp hm hp1
  rw [this]

theorem loop_search_found {n : CStr} {ls : List Loop} {i : Nat} {f : Option Nat} {k : Nat}
    (h : (loop_search n i ls f).1 = some k) :
    f = some k ∨ (i ≤ k ∧ k - i < ls.length ∧ (loopAt ls (k - i)).name = n) := by
  induction ls generalizing i f with
  | nil => left; simpa [loop_search] using h
  | cons l ls ih =>
    unfold loop_search at h
    split_ifs at h with hx
    · rcases ih h with h1 | ⟨h1, h2, h3⟩
      · simp only [Option.some.injEq] at h1
        right
        subst h1
        refine ⟨le_refl _, by simp, ?_⟩
        simpa [loopAt] using hx
      · right
        refine ⟨by omega, by simp only [List.length_cons]; omega, ?_⟩
        have : k - i = (k - (i + 1)) + 1 := by omega
        rw [this]
        simpa [loopAt] using h3
    · rcases ih h with h1 | ⟨h1, h2, h3⟩
      · left; exact h1
      · right
        refine ⟨by omega, by simp only [List.length_cons]; omega, ?_⟩
        have : k - i = (k - (i + 1)) + 1 := by omega
        rw [this]
        simpa [loopAt] using h3

theorem loop_eq_of_name {st : Stores} (h : Inv st) {L : Loop} (hL : L ∈ st.loops) {k : Nat}
    (hk : k < st.loops.length) (hn : (loopAt st.loops k).name = L.name) :
    (loopAt st.loops k).key = L.key := by
  have hd : (st.loops.map (fun l => l.name)).Nodup :=
    (List.nodup_append.mp h.2).2.1
  have := List.inj_on_of_nodup_map hd (loopAt_mem _ _ hk) hL hn
  rw [this]

theorem loop_expression_sweep {te : CStr → Table → Option ℚ} {st : Stores} {e : CStr}
    {k sf : Nat} {r : Res} {L : Loop} (hi : Inv st) (hk : k < st.loops.length)
    (hkey : (loopAt st.loops k).key = L.key) (h : loop_expression te st e k sf = some r) :
    ∃ reps, repetitions L = some reps ∧ (calls r.out).length ≤ reps.toNat
      ∧ (r.ret = 0 → (calls r.out).length = reps.toNat)
      ∧ ∀ j c, (calls r.out)[j]? = some c → SweepCall L j c := by
  unfold loop_expression at h
  have hget : st.loops[k]? = some (loopAt st.loops k) := by
    rw [List.getElem?_eq_getElem hk]
    unfold loopAt
    rw [List.getD_eq_getElem _ _ hk]
  rw [hget] at h
  simp only [] at h
  rw [repetitions_of_key hkey] at h
  cases hr : repetitions L with
  | none => rw [hr] at h; simp at h
  | some reps =>
    rw [hr] at h
    simp only [Option.some.injEq] at h
    subst h
    obtain ⟨a, b, c⟩ := loop_expression_from_calls te e k sf ((tableLV st).map Prod.fst)
      reps.toNat 0 st ((tableLV st).map Prod.snd ++
        List.replicate (st.vars.entries.length + st.loops.length - (tableLV st).length) 0)
    refine ⟨reps, rfl, a, b, ?_⟩
    intro j cc hj
    have hc := c j cc hj
    simp only [Loop.key, Prod.mk.injEq] at hkey
    rw [hkey.2.1, hkey.2.2.1, Nat.zero_add] at hc
    rw [hc]
    have hlen : ∀ v : ℚ, (setCurrentValue st.loops k v).length = st.loops.length :=
      fun v => setCurrentValue_length _ _ _
    have hkeys := fun v : ℚ => loopAt_key_of_keys (setCurrentValue_key st.loops k v) k
    have hnames := tableLV_names hi
    have hnl : ((tableLV st).map Prod.fst).length = (tableLV st).length := by simp
    apply sweepCall_of (k := k)
    · simp only [hlen]; exact hk
    · have := hkeys (L.startingValue + (j : ℚ) * L.increment)
      simp only [Loop.key, Prod.mk.injEq] at this
      rw [this.1]; exact hkey.1
    · exact loopAt_setCurrentValue _ _ _ hk
    · apply List.getElem?_mem (n := k)
      rw [List.getElem?_zip_eq_some]
      constructor
      · rw [hnames, List.getElem?_append_left (by simpa [loopNames] using hk)]
        simp only [loopNames, List.getElem?_map, hget, Option.map_some']
        rw [hkey.1]
      · apply List.getElem?_set_self
        simp only [List.length_append, List.length_map, List.length_replicate]
        omega
    · rw [List.map_fst_zip]
      · exact tableLV_nodup hi
      · simp only [List.length_set, List.length_append, List.length_map, List.length_replicate]
        omega

theorem loop_assignment_sweep {te : CStr → Table → Option ℚ} {st : Stores} {sf : Nat}
    {li vi : Option Nat} {ev : CStr} {k : Nat} {e : Option CStr} {r : Res} {L : Loop}
    (hi : Inv st) (hk : k < st.loops.length) (hkey : (loopAt st.loops k).key = L.key)
    (h : loop_assignment te st sf li vi ev k e = some r) :
    ∃ reps, repetitions L = some reps ∧ (calls r.out).length ≤ reps.toNat
      ∧ (r.ret = 0 → (calls r.out).length = reps.toNat)
      ∧ ∀ j c, (calls r.out)[j]? = some c → SweepCall L j c := by
  unfold loop_assignment at h
  have hget : st.loops[k]? = some (loopAt st.loops k) := by
    rw [List.getElem?_eq_getElem hk]
    unfold loopAt
    rw [List.getD_eq_getElem _ _ hk]
  rw [hget] at h
  simp only [] at h
  rw [repetitions_of_key hkey] at h
  cases hr : repetitions L with
  | none => rw [hr] at h; simp at h
  | some reps =>
    rw [hr] at h
    cases e with
    | none =>
      simp only [] at h
      split_ifs at h with h0
      simp only [Option.some.injEq] at h
      subst h
      exact ⟨reps, rfl, by simp [calls], fun _ => by simp [calls, h0],
        fun j c hj => by simp [calls] at hj⟩
    | some e =>
      simp only [Option.some.injEq] at h
      subst h
      obtain ⟨a, b, c⟩ := loop_assignment_from_calls te sf li vi ev k e reps.toNat 0 st hk
      refine ⟨reps, rfl, a, b, ?_⟩
      intro j cc hj
      obtain ⟨c1, c2, c3, c4, c5⟩ := c j cc hj
      obtain ⟨ce, ctab, csnap⟩ := cc
      simp only at c1 c2 c3 c4 c5
      have hi2 : Inv csnap := Inv_of_shape c3 c4 hi
      have hk2 : k < csnap.loops.length := by
        have := congrArg List.length c4
        simp only [List.length_map] at this
        omega
      have hkey2 := loopAt_key_of_keys c4 k
      rw [hkey] at hkey2
      simp only [Loop.key, Prod.mk.injEq] at hkey hkey2
      rw [hkey.2.1, hkey.2.2.1, Nat.zero_add] at c5
      apply sweepCall_of (k := k) hk2 hkey2.1 c5
      · rw [c2]
        unfold tableLV
        rw [bind_loops_eq (inv_loop_ne_sentinel hi2)]
        apply List.mem_append_left
        rw [List.mem_map]
        exact ⟨loopAt csnap.loops k, loopAt_mem _ _ hk2, by rw [hkey2.1, c5]⟩
      · rw [c2]; exact tableLV_nodup hi2

/-- In every `@loop` command over a loop `L` of a reachable state, in the
expression form and in the assignment form alike, the call number `j` of the
evaluator (counted from 0) is made with `j` below the iteration count, with
`start + j * increment` stored as the current value of `L`, and with a table whose
entry for the name of `L` carries exactly that value; and when the command succeeds
there was one such call for every `j` below the iteration count. -/
theorem loop_sweep_value_bound (te : CStr → Table → Option ℚ) (st : Stores) (line : CStr)
    (sf : Nat) (r : Res) (L : Loop) (hreach : Reachable te st)
    (h : loop te line st sf = some r) (hL : L ∈ st.loops)
    (hname : (strtok (strtok line [' ']).2 [' ']).1 = some L.name) :
    (r.ret = 0 → ∃ reps, repetitions L = some reps ∧ (calls r.out).length = reps.toNat)
    ∧ ∀ (j : Nat) (c : CStr × Table × Stores), (calls r.out)[j]? = some c →
        (∃ reps, repetitions L = some reps ∧ (j : Int) < reps) ∧ SweepCall L j c := by
  have hi := reachable_inv hreach
  have fin : ∀ {r : Res},
      (∃ reps, repetitions L = some reps ∧ (calls r.out).length ≤ reps.toNat
        ∧ (r.ret = 0 → (calls r.out).length = reps.toNat)
        ∧ ∀ (j : Nat) (c : CStr × Table × Stores), (calls r.out)[j]? = some c → SweepCall L j c) →
      (r.ret = 0 → ∃ reps, repetitions L = some reps ∧ (calls r.out).length = reps.toNat)
      ∧ ∀ (j : Nat) (c : CStr × Table × Stores), (calls r.out)[j]? = some c →
          (∃ reps, repetitions L = some reps ∧ (j : Int) < reps) ∧ SweepCall L j c := by
    rintro r ⟨reps, a, b, c, d⟩
    refine ⟨fun h0 => ⟨reps, a, c h0⟩, fun j cc hj => ⟨⟨reps, a, ?_⟩, d j cc hj⟩⟩
    have hlt : j < (calls r.out).length := by
      obtain ⟨hlt, -⟩ := List.getElem?_eq_some.mp hj
      exact hlt
    omega
  have triv : ∀ {r : Res}, r.ret ≠ 0 → r.out = [] →
      (r.ret = 0 → ∃ reps, repetitions L = some reps ∧ (calls r.out).length = reps.toNat)
      ∧ ∀ (j : Nat) (c : CStr × Table × Stores), (calls r.out)[j]? = some c →
          (∃ reps, repetitions L = some reps ∧ (j : Int) < reps) ∧ SweepCall L j c := by
    intro r h1 h2
    refine ⟨fun h0 => absurd h0 h1, fun j c hj => ?_⟩
    rw [h2] at hj; simp [calls] at hj
  unfold loop at h
  simp only [hname] at h
  have hkeys := loop_search_key L.name 0 st.loops none
  have hi1 : Inv ⟨st.vars, (loop_search L.name 0 st.loops none).2⟩ :=
    @Inv_of_shape st _ rfl hkeys hi
  cases hf : (loop_search L.name 0 st.loops none).1 with
  | none =>
    simp only [hf, Option.some.injEq] at h
    subst h
    exact triv (by simp) rfl
  | some k =>
    simp only [hf] at h
    rcases loop_search_found hf with h0 | ⟨-, h1, h2⟩
    · simp at h0
    simp only [Nat.sub_zero] at h1 h2
    have hkey : (loopAt st.loops k).key = L.key := loop_eq_of_name hi hL h1 h2
    have hkey1 : (loopAt (loop_search L.name 0 st.loops none).2 k).key = L.key :=
      (loopAt_key_of_keys hkeys k).trans hkey
    have hk1 : k < (loop_search L.name 0 st.loops none).2.length := by
      have := congrArg List.length hkeys
      simp only [List.length_map] at this
      omega
    cases hex : (strtok (strtok (strtok line [' ']).2 [' ']).2 []).1 with
    | none => simp [hex] at h
    | some expression =>
      simp only [hex] at h
      by_cases hz : countChar '=' expression = 0
      · rw [if_pos hz] at h
        exact fin (loop_expression_sweep hi1 hk1 hkey1 h)
      rw [if_neg hz] at h
      by_cases ho : countChar '=' expression = 1
      · rw [if_pos ho] at h
        split at h
        · simp at h
        · rename_i result variableIndex loopIndex st2 hsetup
          obtain ⟨i2, l2⟩ := loop_assignment_setup_inv hi1 hsetup
          simp only at l2
          by_cases hres : result ≠ 0
          · rw [if_pos hres] at h
            simp only [Option.some.injEq] at h
            subst h
            exact triv hres rfl
          rw [if_neg hres] at h
          have hk2 : k < st2.loops.length := by rw [l2]; exact hk1
          have hkey2 : (loopAt st2.loops k).key = L.key := by rw [l2]; exact hkey1
          exact fin (loop_assignment_sweep i2 hk2 hkey2 h)
      · rw [if_neg ho] at h
        simp only [Option.some.injEq] at h
        subst h
        exact triv (by simp) rfl

/-! ## Every call of the evaluator gets the names of the stores -/

theorem callOk_mono {st st1 : Stores} {c : CStr × Table × Stores}
    (h : ∀ x ∈ loopNames st, x ∈ loopNames st1) (hc : CallOk st1 c) : CallOk st c :=
  ⟨hc.1, fun x hx => hc.2.1 x (h x hx), hc.2.2⟩

theorem callOk_of_shape {st snap : Stores} {e : CStr} {tab : Table} (hi : Inv st)
    (hv : varNames snap = varNames st) (hl : snap.loops.map Loop.key = st.loops.map Loop.key)
    (ht : tab.map Prod.fst = loopNames st ++ liveNames st
      ∨ tab.map Prod.fst = liveNames st ++ loopNames st) : CallOk st (e, tab, snap) := by
  have e1 : loopNames snap = loopNames st := loopNames_eq_of_key hl
  have e2 : liveNames snap = liveNames st := by simp only [liveNames, hv]
  refine ⟨Inv_of_shape hv hl hi, fun x hx => by rw [e1]; exact hx, ?_⟩
  simp only [e1, e2]
  exact ht

theorem loop_expression_callOk {te : CStr → Table → Option ℚ} {st : Stores} {e : CStr}
    {k sf : Nat} {r : Res} (hi : Inv st) (h : loop_expression te st e k sf = some r) :
    ∀ c ∈ calls r.out, CallOk st c := by
  unfold loop_expression at h
  split at h
  · simp at h
  · split at h
    · simp at h
    · simp only [Option.some.injEq] at h
      subst h
      intro c hc
      obtain ⟨j, hj⟩ := List.mem_iff_getElem?.mp hc
      rw [(loop_expression_from_calls _ _ _ _ _ _ _ _ _).2.2 j c hj]
      refine callOk_of_shape hi ?_ ?_ (Or.inl ?_)
      · rfl
      · exact setCurrentValue_key _ _ _
      rw [List.map_fst_zip]
      · exact tableLV_names hi
      · simp only [List.length_set, List.length_append, List.length_map,
          List.length_replicate]
        omega

theorem loop_assignment_callOk {te : CStr → Table → Option ℚ} {st : Stores} {sf : Nat}
    {li vi : Option Nat} {ev : CStr} {k : Nat} {e : Option CStr} {r : Res}
    (hi : Inv st) (h : loop_assignment te st sf li vi ev k e = some r) :
    ∀ c ∈ calls r.out, CallOk st c := by
  unfold loop_assignment at h
  split at h
  · simp at h
  · rename_i l hl
    obtain ⟨-, hk⟩ := loopAt_of_getElem? hl
    split at h
    · simp at h
    · split at h
      · split_ifs at h
        simp only [Option.some.injEq] at h
        subst h
        intro c hc
        simp [calls] at hc
      · simp only [Option.some.injEq] at h
        subst h
        intro c hc
        obtain ⟨j, hj⟩ := List.mem_iff_getElem?.mp hc
        obtain ⟨c1, c2, c3, c4, -⟩ :=
          (loop_assignment_from_calls _ _ _ _ _ _ _ _ _ _ hk).2.2 j c hj
        obtain ⟨ce, ctab, csnap⟩ := c
        simp only at c2 c3 c4
        have hi2 : Inv csnap := Inv_of_shape c3 c4 hi
        refine ⟨hi2, fun x hx => ?_, Or.inl ?_⟩
        · rw [loopNames_eq_of_key c4]; exact hx
        · simp only; rw [c2]; exact tableLV_names hi2

theorem loop_callOk {te : CStr → Table → Option ℚ} {line : CStr} {st : Stores} {sf : Nat}
    {r : Res} (hi : Inv st) (h : loop te line st sf = some r) :
    ∀ c ∈ calls r.out, CallOk st c := by
  have triv : ∀ {r : Res}, r.out = [] → ∀ c ∈ calls r.out, CallOk st c := by
    intro r h0 c hc
    rw [h0] at hc; simp [calls] at hc
  unfold loop at h
  simp only [] at h
  split at h
  · split_ifs at h
    simp only [Option.some.injEq] at h
    subst h; exact triv rfl
  · rename_i name hname
    have hk := loop_search_key name 0 st.loops none
    have hi1 : Inv { st with loops := (loop_search name 0 st.loops none).2 } :=
      @Inv_of_shape st _ rfl hk hi
    have hmono : ∀ x ∈ loopNames st,
        x ∈ loopNames { st with loops := (loop_search name 0 st.loops none).2 } := by
      intro x hx
      rw [loopNames_eq_of_key hk]; exact hx
    split at h
    · simp only [Option.some.injEq] at h
      subst h; exact triv rfl
    · split at h
      · simp at h
      · split_ifs at h
        · intro c hc
          exact callOk_mono hmono (loop_expression_callOk hi1 h c hc)
        · split at h
          · simp at h
          · rename_i result variableIndex loopIndex st2 hsetup
            obtain ⟨i2, l2⟩ := loop_assignment_setup_inv hi1 hsetup
            simp only at l2
            split_ifs at h
            · simp only [Option.some.injEq] at h
              subst h; exact triv rfl
            · intro c hc
              apply callOk_mono _ (loop_assignment_callOk i2 h c hc)
              intro x hx
              have e1 : loopNames st2
                  = loopNames ⟨st.vars, (loop_search name 0 st.loops none).2⟩ := by
                simp only [loopNames, l2]
              rw [e1]; exact hmono x hx
        · simp only [Option.some.injEq] at h
          subst h; exact triv rfl

theorem calls_eq_nil {out : List Ev}
    (h : ∀ e ∈ out, ∀ a b c, e ≠ Ev.compile a b c) : calls out = [] := by
  induction out with
  | nil => rfl
  | cons x xs ih =>
    have hx := h x (List.mem_cons_self _ _)
    have ih2 := ih (fun e he => h e (List.mem_cons_of_mem _ he))
    cases x <;> simp [calls, ih2] at hx ⊢

theorem calls_print_variables (st : Stores) (sf : Nat) : calls (print_variables st sf) = [] := by
  apply calls_eq_nil
  intro e he a b c
  unfold print_variables at he
  simp only [List.mem_append] at he
  rcases he with he | he
  · split_ifs at he
    · simp only [List.mem_singleton] at he; rw [he]; simp
    · simp only [List.mem_cons, List.mem_map] at he
      rcases he with he | ⟨v, -, he⟩
      · rw [he]; simp
      · rw [← he]; simp
  · split_ifs at he
    · simp only [List.mem_singleton] at he; rw [he]; simp
    · simp only [List.mem_cons, List.mem_map] at he
      rcases he with he | ⟨v, -, he⟩
      · rw [he]; simp
      · rw [← he]; simp [loopLine]

theorem calls_range_new_loop (st : Stores) (n : CStr) (s i e : ℚ) (sf : Nat) :
    calls (range_new_loop st n s i e sf).out = [] := by
  unfold range_new_loop
  split <;> simp [calls, loopLine, range_allocate_loop]

theorem calls_range (e : CStr) (st : Stores) (sf : Nat) : calls (range e st sf).out = [] := by
  by_cases h : RangeArgAccepted e
  · rw [range_of_accepted h]; exact calls_range_new_loop _ _ _ _ _ _
  · rw [range_of_not_accepted h]; rfl

theorem detect_range_print_calls {line : CStr} {st : Stores} {sf : Nat} {r : Res}
    (h : detect_range_print line st sf = some r) : calls r.out = [] := by
  unfold detect_range_print at h
  simp only [] at h
  split_ifs at h with h1
  · simp only [Option.some.injEq] at h
    subst h; exact calls_print_variables _ _
  · split at h
    · simp at h
    · split_ifs at h with h2
      · split at h
        · simp at h
        · simp only [Option.some.injEq] at h
          subst h
          rw [calls_append, calls_range]
          split_ifs <;> simp [calls]
      · simp only [Option.some.injEq] at h
        subst h; rfl

theorem detect_loops_callOk {te : CStr → Table → Option ℚ} {line : CStr} {st : Stores}
    {sf : Nat} {r : Res} (hi : Inv st) (h : detect_loops te line st sf = some r) :
    ∀ c ∈ calls r.out, CallOk st c := by
  unfold detect_loops at h
  split_ifs at h with h1
  · split at h
    · simp at h
    · rename_i r1 hr1
      simp only [Option.some.injEq] at h
      subst h
      intro c hc
      rw [calls_append] at hc
      have : calls (if r1.ret ≠ 0 then [Ev.err] else []) = [] := by
        split_ifs <;> simp [calls]
      rw [this, List.append_nil] at hc
      exact @loop_callOk te line st sf r1 hi hr1 c hc
  · simp only [Option.some.injEq] at h
    subst h
    intro c hc; simp [calls] at hc

theorem download_assignment_print_calls (n : CStr) (st : Stores) (sf : Nat) (value : ℚ) :
    calls (download_assignment_print n st sf value).2.2 = [] := by
  unfold download_assignment_print
  simp only [calls_append]
  cases assignVariable n value st.vars.entries <;>
    cases assignLoop n value st.loops <;> simp [calls]

theorem download_assignment_callOk {te : CStr → Table → Option ℚ} {st : Stores}
    {e n : CStr} {sf : Nat} (hi : Inv st) :
    ∀ c ∈ calls (download_assignment te st e n sf).out, CallOk st c := by
  have hok : CallOk st (e, tableVL st, st) :=
    callOk_of_shape hi rfl rfl (Or.inr (tableVL_names hi))
  unfold download_assignment
  simp only []
  split
  · split_ifs
    · intro c hc
      simp only [calls, download_assignment_print_calls, List.mem_singleton] at hc
      rw [hc]; exact hok
    · intro c hc
      simp only [calls, calls_append, download_assignment_print_calls,
        download_allocate_variable, List.nil_append, List.mem_singleton] at hc
      rw [hc]; exact hok
  · intro c hc
    simp only [calls, List.mem_singleton] at hc
    rw [hc]; exact hok

theorem download_expression_callOk {te : CStr → Table → Option ℚ} {st : Stores}
    {line : CStr} {sf : Nat} (hi : Inv st) :
    (download_expression te st line sf).st = st
    ∧ ∀ c ∈ calls (download_expression te st line sf).out, CallOk st c := by
  have hok : CallOk st (line, tableVL st, st) :=
    callOk_of_shape hi rfl rfl (Or.inr (tableVL_names hi))
  unfold download_expression
  simp only []
  split
  · refine ⟨rfl, fun c hc => ?_⟩
    simp only [calls, List.mem_singleton] at hc
    rw [hc]; exact hok
  · refine ⟨rfl, fun c hc => ?_⟩
    simp only [calls, List.mem_singleton] at hc
    rw [hc]; exact hok

theorem download_line_callOk {te : CStr → Table → Option ℚ} {sf : Nat} {st st1 : Stores}
    {line : CStr} {out : List Ev} (hi : Inv st)
    (h : download_line te sf st line = some (st1, out)) :
    ∀ c ∈ calls out, CallOk st c := by
  unfold download_line at h
  simp only [] at h
  by_cases h0 : (download_setup line).1 ≠ 0
  · rw [if_pos h0] at h
    simp only [Option.some.injEq, Prod.mk.injEq] at h
    obtain ⟨-, rfl⟩ := h
    intro c hc; simp [calls] at hc
  rw [if_neg h0] at h
  cases hr1 : detect_range_print line st sf with
  | none => simp [hr1] at h
  | some r1 =>
    simp only [hr1] at h
    obtain ⟨a1, a2, a3⟩ := detect_range_print_inv hi hr1
    have c1 := detect_range_print_calls hr1
    by_cases h1 : r1.ret ≠ 0
    · rw [if_pos h1] at h
      simp only [Option.some.injEq, Prod.mk.injEq] at h
      obtain ⟨-, rfl⟩ := h
      intro c hc; rw [c1] at hc; simp at hc
    rw [if_neg h1] at h
    have hst : r1.st = st := a3 (not_not.mp h1)
    rw [hst] at h
    cases hr2 : detect_loops te line st sf with
    | none => simp [hr2] at h
    | some r2 =>
      simp only [hr2] at h
      obtain ⟨b1, b2⟩ := detect_loops_inv hi hr2
      have c2 := detect_loops_callOk hi hr2
      have b3 : ∀ x ∈ loopNames st, x ∈ loopNames r2.st := by
        intro x hx
        rw [loopNames_eq_of_key b2]; exact hx
      by_cases h2 : r2.ret ≠ 0
      · rw [if_pos h2] at h
        simp only [Option.some.injEq, Prod.mk.injEq] at h
        obtain ⟨-, rfl⟩ := h
        intro c hc
        rw [calls_append, c1, List.nil_append] at hc
        exact c2 c hc
      rw [if_neg h2] at h
      by_cases h3 : (download_setup line).2 = 1
      · rw [if_pos h3] at h
        cases hvn : (strtok line ['=']).1 with
        | none => simp [hvn] at h
        | some variableName =>
          simp only [hvn] at h
          by_cases h5 : (download_assignment_check_valid (trimKey variableName)).1 ≠ 0
          · rw [if_pos h5] at h
            simp only [Option.some.injEq, Prod.mk.injEq] at h
            obtain ⟨-, rfl⟩ := h
            intro c hc
            have hcv : calls (download_assignment_check_valid (trimKey variableName)).2
                = [] := by
              unfold download_assignment_check_valid
              split_ifs <;> simp [calls]
            rw [calls_append, calls_append, c1, hcv, List.nil_append, List.append_nil] at hc
            exact c2 c hc
          rw [if_neg h5] at h
          cases hex : (strtok (strtok line ['=']).2 ['=']).1 with
          | none => simp [hex] at h
          | some expression =>
            simp only [hex, Option.some.injEq, Prod.mk.injEq] at h
            obtain ⟨-, rfl⟩ := h
            intro c hc
            rw [calls_append, calls_append, c1, List.nil_append, List.mem_append] at hc
            rcases hc with hc | hc
            · exact c2 c hc
            · exact callOk_mono b3 (download_assignment_callOk b1 c hc)
      rw [if_neg h3] at h
      by_cases h4 : (download_setup line).2 = 0
      · rw [if_pos h4] at h
        simp only [Option.some.injEq, Prod.mk.injEq] at h
        obtain ⟨-, rfl⟩ := h
        intro c hc
        rw [calls_append, calls_append, c1, List.nil_append, List.mem_append] at hc
        rcases hc with hc | hc
        · exact c2 c hc
        · exact callOk_mono b3 ((download_expression_callOk b1).2 c hc)
      rw [if_neg h4] at h
      simp only [Option.some.injEq, Prod.mk.injEq] at h
      obtain ⟨-, rfl⟩ := h
      intro c hc
      rw [calls_append, c1, List.nil_append] at hc
      exact c2 c hc

theorem download_lines_callOk {te : CStr → Table → Option ℚ} {sf : Nat} {lines : List CStr}
    {st st2 : Stores} {out : List Ev} (hi : Inv st)
    (h : download_lines te sf st lines = some (st2, out)) :
    Inv st2 ∧ (∀ x ∈ loopNames st, x ∈ loopNames st2) ∧ ∀ c ∈ calls out, CallOk st c := by
  induction lines generalizing st st2 out with
  | nil =>
    simp only [download_lines, Option.some.injEq, Prod.mk.injEq] at h
    obtain ⟨rfl, rfl⟩ := h
    exact ⟨hi, fun x hx => hx, fun c hc => by simp [calls] at hc⟩
  | cons line rest ih =>
    unfold download_lines at h
    cases h1 : download_line te sf st line with
    | none => simp [h1] at h
    | some p1 =>
      obtain ⟨st1, out1⟩ := p1
      simp only [h1] at h
      cases h2 : download_lines te sf st1 rest with
      | none => simp [h2] at h
      | some p2 =>
        obtain ⟨st3, out2⟩ := p2
        simp only [h2, Option.some.injEq, Prod.mk.injEq] at h
        obtain ⟨rfl, rfl⟩ := h
        obtain ⟨a1, a2⟩ := download_line_inv hi h1
        obtain ⟨b1, b2, b3⟩ := ih a1 h2
        refine ⟨b1, fun x hx => b2 x (a2 x hx), ?_⟩
        intro c hc
        rw [calls_append, List.mem_append] at hc
        rcases hc with hc | hc
        · exact download_line_callOk hi h1 c hc
        · exact callOk_mono a2 (b3 c hc)

theorem range_new_loop_ret (st : Stores) (n : CStr) (s i e : ℚ) (sf : Nat) :
    (range_new_loop st n s i e sf).ret = 0 := by
  unfold range_new_loop
  split <;> rfl

theorem range_new_loop_converted {st : Stores} {n : CStr} (s i e : ℚ) (sf : Nat)
    (hv : n ∈ st.vars.entries.map (fun v => v.name))
    (hl : n ∉ st.loops.map (fun l => l.name)) :
    (range_new_loop st n s i e sf).st.vars.converted = st.vars.converted + 1 := by
  have hr := (@range_redefine_none n s i e st.loops).mpr hl
  unfold range_new_loop
  simp only [hr]
  cases hp : range_promote n st.vars.entries with
  | none => exact absurd hv (range_promote_none.mp hp)
  | some r => rfl

theorem count_eq_one_of_nodup {l : List CStr} {x : CStr} (hd : l.Nodup) (hx : x ∈ l) :
    l.count x = 1 := by
  induction l with
  | nil => simp at hx
  | cons a l ih =>
    rw [List.nodup_cons] at hd
    rw [List.count_cons]
    by_cases ha : a = x
    · subst ha
      rw [List.count_eq_zero_of_not_mem hd.1]
      simp
    · have hx2 : x ∈ l := by
        rcases List.mem_cons.mp hx with h | h
        · exact absurd h.symm ha
        · exact h
      rw [ih hd.2 hx2]
      simp [ha]

theorem count_table_name {st : Stores} {c : CStr × Table × Stores} {x : CStr}
    (hc : CallOk st c) (hx : x ∈ loopNames st) :
    (c.2.1.map Prod.fst).count x = 1 ∧ x ∉ liveNames c.2.2 ∧ x ∈ loopNames c.2.2 := by
  obtain ⟨hi, hm, hn⟩ := hc
  have hx2 := hm x hx
  have hd := hi.2
  refine ⟨?_, ?_, hx2⟩
  · rcases hn with hn | hn
    · rw [hn]
      exact count_eq_one_of_nodup (List.nodup_append_comm.mp hd)
        (List.mem_append_left _ hx2)
    · rw [hn]
      exact count_eq_one_of_nodup hd (List.mem_append_right _ hx2)
  · intro hlive
    exact (List.nodup_append.mp hd).2.2 hlive hx2

/-- C3: when the name field `x` of an accepted `@range` argument names a variable and
no loop of a reachable state, `range` succeeds and afterwards: the tombstone counter
is one higher; no line of `@print` lists a variable `x`; `@print` lists the loop `x`
with current = start and the given start, increment and end; and in every call of the
evaluator made by any later lines the table has exactly one entry named `x`, while
`x` is a loop and not a live variable of the stores at that call. -/
theorem C3_promotion (te : CStr → Table → Option ℚ) (st : Stores) (e : CStr) (sf : Nat)
    (hreach : Reachable te st) (ha : RangeArgAccepted e)
    (hv : field ',' 0 e ∈ st.vars.entries.map (fun v => v.name))
    (hl : field ',' 0 e ∉ st.loops.map (fun l => l.name)) :
    (range e st sf).ret = 0
    ∧ (range e st sf).st.vars.converted = st.vars.converted + 1
    ∧ (∀ sf1 v, Ev.varLine sf1 (field ',' 0 e) v ∉ print_variables (range e st sf).st sf1)
    ∧ (∀ sf1, Ev.loopLine sf1 (field ',' 0 e) (numField 1 e) (numField 1 e) (numField 2 e)
          (numField 3 e) ∈ print_variables (range e st sf).st sf1)
    ∧ (∀ sf1 lines st2 out,
        download_lines te sf1 (range e st sf).st lines = some (st2, out) →
        ∀ c ∈ calls out, (c.2.1.map Prod.fst).count (field ',' 0 e) = 1
          ∧ field ',' 0 e ∉ liveNames c.2.2 ∧ field ',' 0 e ∈ loopNames c.2.2) := by
  have hi := reachable_inv hreach
  rw [range_of_accepted ha]
  have hr := (@range_redefine_none (field ',' 0 e) (numField 1 e) (numField 2 e)
    (numField 3 e) st.loops).mpr hl
  obtain ⟨a, b⟩ := range_new_loop_live_loops st (field ',' 0 e) (numField 1 e)
    (numField 2 e) (numField 3 e) sf (validName_ne_sentinel ha.2.1) hr
  have hi1 := @range_new_loop_inv st (field ',' 0 e) (numField 1 e) (numField 2 e)
    (numField 3 e) sf hi ha.2.1 ha.2.2.2.2.2
  have hlive : field ',' 0 e ∉ liveNames (range_new_loop st (field ',' 0 e) (numField 1 e)
      (numField 2 e) (numField 3 e) sf).st := by
    rw [a]
    intro hm
    exact ((List.nodup_append.mp hi.2).1.mem_erase_iff.mp hm).1 rfl
  have hloop : field ',' 0 e ∈ loopNames (range_new_loop st (field ',' 0 e) (numField 1 e)
      (numField 2 e) (numField 3 e) sf).st := by
    simp [loopNames, b]
  refine ⟨range_new_loop_ret _ _ _ _ _ _, range_new_loop_converted _ _ _ _ hv hl, ?_, ?_, ?_⟩
  · intro sf1 v hm
    unfold print_variables at hm
    rw [List.mem_append] at hm
    rcases hm with hm | hm
    · split_ifs at hm
      · simp at hm
      · simp only [List.mem_cons, List.mem_map, List.mem_filter, decide_eq_true_eq] at hm
        rcases hm with hm | ⟨u, ⟨hu1, hu2⟩, hu3⟩
        · simp at hm
        · simp only [Ev.varLine.injEq, true_and] at hu3
          apply hlive
          simp only [liveNames, varNames, List.mem_filter, List.mem_map, decide_eq_true_eq]
          exact ⟨⟨u, hu1, hu3.1⟩, by rw [← hu3.1]; exact hu2⟩
    · split_ifs at hm
      · simp at hm
      · simp only [List.mem_cons, List.mem_map, loopLine] at hm
        rcases hm with hm | ⟨u, -, hu3⟩
        · simp at hm
        · simp at hu3
  · intro sf1
    unfold print_variables
    rw [List.mem_append]
    right
    rw [b]
    simp [loopLine]
  · intro sf1 lines st2 out hd c hc
    exact count_table_name ((download_lines_callOk hi1 hd).2.2 c hc) hloop

theorem C3_witness :
    (Reachable teLiteral storesXA ∧ RangeArgAccepted "x,0,1,3\n".toList
      ∧ field ',' 0 "x,0,1,3\n".toList ∈ storesXA.vars.entries.map (fun v => v.name)
      ∧ field ',' 0 "x,0,1,3\n".toList ∉ storesXA.loops.map (fun l => l.name))
    ∧ ((range "x,0,1,3\n".toList storesXA 3).ret = 0
      ∧ (range "x,0,1,3\n".toList storesXA 3).st.vars.converted
          = storesXA.vars.converted + 1
      ∧ (∀ sf1 v, Ev.varLine sf1 (field ',' 0 "x,0,1,3\n".toList) v
          ∉ print_variables (range "x,0,1,3\n".toList storesXA 3).st sf1)
      ∧ (∀ sf1, Ev.loopLine sf1 (field ',' 0 "x,0,1,3\n".toList)
            (numField 1 "x,0,1,3\n".toList) (numField 1 "x,0,1,3\n".toList)
            (numField 2 "x,0,1,3\n".toList) (numField 3 "x,0,1,3\n".toList)
          ∈ print_variables (range "x,0,1,3\n".toList storesXA 3).st sf1)
      ∧ (∀ sf1 lines st2 out,
          download_lines teLiteral sf1 (range "x,0,1,3\n".toList storesXA 3).st lines
            = some (st2, out) →
          ∀ c ∈ calls out, (c.2.1.map Prod.fst).count (field ',' 0 "x,0,1,3\n".toList) = 1
            ∧ field ',' 0 "x,0,1,3\n".toList ∉ liveNames c.2.2
            ∧ field ',' 0 "x,0,1,3\n".toList ∈ loopNames c.2.2)) :=
  ⟨⟨reachable_storesXA teLiteral, by decide!, by decide, by decide⟩,
    C3_promotion teLiteral storesXA "x,0,1,3\n".toList 3 (reachable_storesXA teLiteral)
      (by decide!) (by decide) (by decide)⟩

/-! ## Comment lines -/

/-- C13. A line that contains `#` anywhere produces no output at all (no result, no
diagnostic, no call of the evaluator) and leaves the variable store and the loop store
as they are, whatever else the line holds. -/
theorem C13_comment_line_ignored (te : CStr → Table → Option ℚ) (sf : Nat) (st : Stores)
    (line : CStr) (h : '#' ∈ line) : download_line te sf st line = some (st, []) := by
  have hc : countChar '#' line > 0 := List.count_pos_iff.mpr h
  unfold download_line download_setup
  simp only [hc, if_true]
  rfl

theorem C13_witness :
    '#' ∈ "@range b,0,1,5 # a loop\n".toList
    ∧ download_line teLiteral 3 storesXA "@range b,0,1,5 # a loop\n".toList
        = some (storesXA, []) :=
  ⟨by decide, C13_comment_line_ignored teLiteral 3 storesXA _ (by decide)⟩

/-! ## The exit status of the initial decoding -/

theorem decode_variable_strings_from_invalid (strs : List CStr) (vars : Variables)
    (dup : Bool) :
    (decode_variable_strings_from strs vars dup).1 = INVALID_VARIABLES_ERROR
      ↔ ∃ s ∈ strs, ¬ DefineValid s := by
  induction strs generalizing vars dup with
  | nil =>
    simp only [decode_variable_strings_from, List.not_mem_nil, false_and, exists_false,
      iff_false]
    cases dup <;> simp [INVALID_VARIABLES_ERROR, DUPLICATE_VARIABLES_ERROR]
  | cons s rest ih =>
    unfold decode_variable_strings_from
    by_cases hc : countChar '=' s = 1
    · by_cases hv : DefineValid s
      · rw [if_neg (by simpa using hc)]
        simp only [extend_variables_of_valid hv]
        rw [if_neg (by simp), ih]
        constructor
        · rintro ⟨x, hx, hn⟩
          exact ⟨x, List.mem_cons_of_mem _ hx, hn⟩
        · rintro ⟨x, hx, hn⟩
          rcases List.mem_cons.mp hx with rfl | hx
          · exact absurd hv hn
          · exact ⟨x, hx, hn⟩
      · rw [if_neg (by simpa using hc)]
        simp only [extend_variables_of_not_valid hc hv]
        rw [if_pos (by simp [INVALID_VARIABLES_ERROR])]
        exact ⟨fun _ => ⟨s, List.mem_cons_self _ _, hv⟩, fun _ => rfl⟩
    · rw [if_pos hc]
      exact ⟨fun _ => ⟨s, List.mem_cons_self _ _, fun hv => hc hv.1⟩, fun _ => rfl⟩

theorem decode_loops_strings_from_invalid (vars : Variables) (strs : List CStr)
    (loops : List Loop) (dup : Bool) :
    (decode_loops_strings_from vars strs loops dup).1 = INVALID_VARIABLES_ERROR
      ↔ ∃ s ∈ strs, ¬ LoopableValid s := by
  induction strs generalizing loops dup with
  | nil =>
    simp only [decode_loops_strings_from, List.not_mem_nil, false_and, exists_false,
      iff_false]
    cases dup <;> simp [INVALID_VARIABLES_ERROR, DUPLICATE_VARIABLES_ERROR]
  | cons s rest ih =>
    unfold decode_loops_strings_from
    by_cases hc : countChar ',' s = 3
    · by_cases hv : LoopableValid s
      · rw [if_neg (by simpa [LOOP_COMMAS] using hc)]
        simp only [extend_loops_of_valid hv]
        rw [if_neg (by simp), ih]
        constructor
        · rintro ⟨x, hx, hn⟩
          exact ⟨x, List.mem_cons_of_mem _ hx, hn⟩
        · rintro ⟨x, hx, hn⟩
          rcases List.mem_cons.mp hx with rfl | hx
          · exact absurd hv hn
          · exact ⟨x, hx, hn⟩
      · rw [if_neg (by simpa [LOOP_COMMAS] using hc)]
        simp only [extend_loops_of_not_valid hc hv]
        rw [if_pos (by simp [INVALID_VARIABLES_ERROR])]
        exact ⟨fun _ => ⟨s, List.mem_cons_self _ _, hv⟩, fun _ => rfl⟩
    · rw [if_pos (by simpa [LOOP_COMMAS] using hc)]
      exact ⟨fun _ => ⟨s, List.mem_cons_self _ _, fun hv => hc hv.1⟩, fun _ => rfl⟩

/-- On the decimal constants that `strtod` above converts: when the command line is
well formed and the input file (if one is named) can be opened, `run_initial_command_line` returns 12 exactly when some `--define` or
`--loopable` string is invalid, and returns 6 exactly when every string is valid and
some name occurs twice among them. An invalid string therefore gives 12 whether or not
a name is repeated, and wherever the repetition stands. -/
theorem decode_status_exact (canOpen : CStr → Bool) (arguments : List CStr)
    (hc : (download_command_line arguments).1 = 0)
    (hf : (download_command_line arguments).2.2.fileName = []
      ∨ canOpen (download_command_line arguments).2.2.fileName = true) :
    ((run_initial_command_line canOpen arguments).ret = INVALID_VARIABLES_ERROR
      ↔ (∃ s ∈ (download_command_line arguments).2.2.variableStrings, ¬ DefineValid s)
        ∨ ∃ s ∈ (download_command_line arguments).2.2.loopsStrings, ¬ LoopableValid s)
    ∧ ((run_initial_command_line canOpen arguments).ret = DUPLICATE_VARIABLES_ERROR
      ↔ (∀ s ∈ (download_command_line arguments).2.2.variableStrings, DefineValid s)
        ∧ (∀ s ∈ (download_command_line arguments).2.2.loopsStrings, LoopableValid s)
        ∧ ¬ ((download_command_line arguments).2.2.variableStrings.map (field '=' 0)
            ++ (download_command_line arguments).2.2.loopsStrings.map (field ',' 0)).Nodup) := by
  have h12v := decode_variable_strings_from_invalid
    (download_command_line arguments).2.2.variableStrings ⟨[], 0⟩ false
  have h12l := decode_loops_strings_from_invalid
    (decode_variable_strings (download_command_line arguments).2.2.variableStrings).2
    (download_command_line arguments).2.2.loopsStrings [] false
  have hcv := decode_variable_strings_from_code
    (download_command_line arguments).2.2.variableStrings ⟨[], 0⟩ false
  have hcl := decode_loops_strings_from_code
    (decode_variable_strings (download_command_line arguments).2.2.variableStrings).2
    (download_command_line arguments).2.2.loopsStrings [] false
  have hz := initial_decode_iff (download_command_line arguments).2.2.variableStrings
    (download_command_line arguments).2.2.loopsStrings
  have hret : (run_initial_command_line canOpen arguments).ret
      = if (decode_variable_strings
              (download_command_line arguments).2.2.variableStrings).1 = INVALID_VARIABLES_ERROR
            ∨ (decode_loops_strings (download_command_line arguments).2.2.loopsStrings
                (decode_variable_strings
                  (download_command_line arguments).2.2.variableStrings).2).1
              = INVALID_VARIABLES_ERROR then INVALID_VARIABLES_ERROR
        else if (decode_variable_strings
              (download_command_line arguments).2.2.variableStrings).1 = DUPLICATE_VARIABLES_ERROR
            ∨ (decode_loops_strings (download_command_line arguments).2.2.loopsStrings
                (decode_variable_strings
                  (download_command_line arguments).2.2.variableStrings).2).1
              = DUPLICATE_VARIABLES_ERROR then DUPLICATE_VARIABLES_ERROR
        else 0 := by
    unfold run_initial_command_line
    simp only []
    rw [if_neg (by rw [hc]; decide)]
    rw [if_neg (by
      rintro ⟨h1, h2⟩
      rcases hf with hf | hf
      · exact h1 hf
      · rw [hf] at h2; exact absurd h2 (by decide))]
    split_ifs <;> rfl
  unfold decode_variable_strings at hret hz h12l hcl
  unfold decode_loops_strings at hret hz
  unfold InitialValid at hz
  rw [hret]
  constructor
  · rw [← h12v, ← h12l]
    split_ifs with h1 h2
    · exact ⟨fun _ => h1, fun _ => rfl⟩
    · exact ⟨fun h => absurd h (by decide), fun h => absurd h h1⟩
    · exact ⟨fun h => absurd h (by decide), fun h => absurd h h1⟩
  · split_ifs with h1 h2
    · refine ⟨fun h => absurd h (by decide), ?_⟩
      rintro ⟨hv, hl, -⟩
      rcases h1 with h1 | h1
      · obtain ⟨s, hs, hn⟩ := h12v.mp h1
        exact absurd (hv s hs) hn
      · obtain ⟨s, hs, hn⟩ := h12l.mp h1
        exact absurd (hl s hs) hn
    · refine ⟨fun _ => ?_, fun _ => rfl⟩
      have hv : ∀ s ∈ (download_command_line arguments).2.2.variableStrings, DefineValid s := by
        intro s hs
        by_contra hn
        exact h1 (Or.inl (h12v.mpr ⟨s, hs, hn⟩))
      have hl : ∀ s ∈ (download_command_line arguments).2.2.loopsStrings, LoopableValid s := by
        intro s hs
        by_contra hn
        exact h1 (Or.inr (h12l.mpr ⟨s, hs, hn⟩))
      refine ⟨hv, hl, fun hnd => ?_⟩
      have h0 := hz.mpr ⟨hv, hl, hnd⟩
      rcases h2 with h2 | h2
      · rw [h0.1] at h2; exact absurd h2 (by decide)
      · rw [h0.2] at h2; exact absurd h2 (by decide)
    · refine ⟨fun h => absurd h (by decide), ?_⟩
      rintro ⟨hv, hl, hnd⟩
      exfalso
      apply hnd
      have h0 : _ ∧ _ := ⟨(hcv.resolve_right (fun h => h.elim (fun h => h2 (Or.inl h))
        (fun h => h1 (Or.inl h)))), (hcl.resolve_right (fun h => h.elim (fun h => h2 (Or.inr h))
        (fun h => h1 (Or.inr h))))⟩
      exact (hz.mp h0).2.2

/-! ## Lines with two or more `=` -/

/-- C14. The line `a = b = 1` is not a comment and not a directive and has two `=`:
whatever the evaluator and the stores, the program prints nothing for it, in particular
no diagnostic, and leaves the stores as they are. -/
theorem C14_two_equals_no_diagnostic :
    '#' ∉ "a = b = 1\n".toList ∧ countChar '=' "a = b = 1\n".toList = 2
    ∧ ∀ (te : CStr → Table → Option ℚ) (sf : Nat) (st : Stores),
        detect_range_print "a = b = 1\n".toList st sf = some ⟨0, st, []⟩
        ∧ detect_loops te "a = b = 1\n".toList st sf = some ⟨0, st, []⟩
        ∧ download_line te sf st "a = b = 1\n".toList = some (st, []) := by
  refine ⟨by decide, by decide, fun te sf st => ?_⟩
  have h1 : detect_range_print "a = b = 1\n".toList st sf = some ⟨0, st, []⟩ := by
    unfold detect_range_print
    rfl
  have h2 : detect_loops te "a = b = 1\n".toList st sf = some ⟨0, st, []⟩ := by
    unfold detect_loops
    rfl
  refine ⟨h1, h2, ?_⟩
  unfold download_line
  simp only [h1, h2]
  rfl

/-! ## `@print` -/

/-- C15. The lines `@print` + newline and the same with leading blanks are print-all,
but `@print` followed by a blank and a newline, and `@print` as a last line without a
newline, are not: `detect_range_print` returns 0 for them, and the line is handed to
the evaluator as an expression (here an evaluator that rejects it, so that the only
output is the diagnostic). -/
theorem C15_print_trailing_not_trimmed :
    (∀ (st : Stores) (sf : Nat),
      detect_range_print "@print\n".toList st sf = some ⟨1, st, print_variables st sf⟩
      ∧ detect_range_print "  @print\n".toList st sf = some ⟨1, st, print_variables st sf⟩
      ∧ detect_range_print "@print \n".toList st sf = some ⟨0, st, []⟩
      ∧ detect_range_print "@print".toList st sf = some ⟨0, st, []⟩)
    ∧ download_line teLiteral 3 storesXA "@print \n".toList
        = some (storesXA, [Ev.compile "@print \n".toList [(['x'], 1), (['a'], 0)] storesXA,
            Ev.err])
    ∧ download_line teLiteral 3 storesXA "@print".toList
        = some (storesXA, [Ev.compile "@print".toList [(['x'], 1), (['a'], 0)] storesXA,
            Ev.err]) := by
  refine ⟨fun st sf => ⟨?_, ?_, ?_, ?_⟩, by decide!, by decide!⟩ <;>
    (unfold detect_range_print; rfl)

/-! ## The trimming loops -/

theorem cstrAt_length (s : CStr) : cstrAt s s.length = '\x00' := by
  simp [cstrAt, List.getD_eq_getElem?_getD]

theorem cstrAt_append_left {w t : CStr} {i : Nat} (h : i < w.length) :
    cstrAt (w ++ t) i ∈ w := by
  have : cstrAt (w ++ t) i = w[i] := by
    simp [cstrAt, List.getD_eq_getElem?_getD, List.getElem?_append_left h,
      List.getElem?_eq_getElem h]
  rw [this]
  exact List.getElem_mem h

theorem cstrAt_append_right (w t : CStr) : cstrAt (w ++ t) w.length = cstrAt t 0 := by
  simp [cstrAt, List.getD_eq_getElem?_getD, List.getElem?_append_right]

theorem trimEnd_length (s : CStr) (start fuel : Nat) :
    trimEnd s start fuel s.length = s.length := by
  cases fuel with
  | zero => rfl
  | succ n =>
    unfold trimEnd
    rw [if_neg]
    rw [cstrAt_length]
    simp [isspace]

theorem trimStart_leading (w t : CStr) (e : Nat) (hw : ∀ x ∈ w, isspace x = true)
    (ht : isspace (cstrAt t 0) = false) (he : w.length ≤ e) :
    ∀ (fuel i : Nat), i ≤ w.length → w.length - i ≤ fuel →
      trimStart (w ++ t) e fuel i = w.length := by
  intro fuel
  induction fuel with
  | zero =>
    intro i hi hf
    unfold trimStart
    omega
  | succ n ih =>
    intro i hi hf
    unfold trimStart
    rcases Nat.lt_or_ge i w.length with hlt | hge
    · rw [if_pos ⟨hw _ (cstrAt_append_left hlt), by omega⟩]
      exact ih (i + 1) hlt (by omega)
    · have hieq : i = w.length := by omega
      subst hieq
      rw [cstrAt_append_right, if_neg]
      rw [ht]
      simp

theorem memmoveFront_drop (s : CStr) (k : Nat) (h0 : '\x00' ∉ s) (hk : k ≤ s.length) :
    memmoveFront s k (s.length - k + 1) = s.drop k := by
  unfold memmoveFront
  have h1 : (s ++ ['\x00']).drop k = s.drop k ++ ['\x00'] := by
    rw [List.drop_append_of_le_length hk]
  have h2 : ((s ++ ['\x00']).drop k).take (s.length - k + 1) = s.drop k ++ ['\x00'] := by
    rw [h1]
    apply List.take_of_length_le
    simp
  simp only [h2, List.append_assoc]
  rw [List.takeWhile_append_of_pos]
  · simp
  · intro a ha
    have : a ∈ s := List.mem_of_mem_drop ha
    simp only [ne_eq, decide_not, Bool.not_eq_eq_eq_not, Bool.not_true, decide_eq_false_iff_not]
    rintro rfl
    exact h0 this

theorem testString_eq (w t : CStr) (h0 : '\x00' ∉ w ++ t) (hw : ∀ x ∈ w, isspace x = true)
    (ht : isspace (cstrAt t 0) = false) : testString (w ++ t) = t := by
  unfold testString
  rw [trimStart_leading w t (w ++ t).length hw ht (by simp) _ 0 (by omega) (by simp; omega),
    trimEnd_length, memmoveFront_drop _ _ h0 (by simp)]
  simp

theorem testString_eq_dropWhile (line : CStr) (h0 : '\x00' ∉ line) :
    testString line = line.dropWhile isspace := by
  have h := testString_eq (line.takeWhile isspace) (line.dropWhile isspace)
    (by rw [List.takeWhile_append_dropWhile]; exact h0)
    (fun x hx => (List.mem_takeWhile_imp hx))
    (by
      cases hd : line.dropWhile isspace with
      | nil => simp [cstrAt, isspace]
      | cons c r =>
        have := List.head_dropWhile_not isspace line (by rw [hd]; simp)
        simp only [hd, List.head_cons] at this
        simpa [cstrAt] using this)
  rwa [List.takeWhile_append_dropWhile] at h

theorem detect_range_print_def (line : CStr) (st : Stores) (sf : Nat) :
    detect_range_print line st sf
      = if testString line = "@print\n".toList then some ⟨1, st, print_variables st sf⟩
        else
          match (strtok (testString line) [' ']).1 with
          | none => none
          | some rangeTest =>
            if rangeTest = "@range".toList ∧ countChar ' ' (testString line) = 1
                ∧ cstrAt line 0 = '@' then
              match (strtok (strtok (testString line) [' ']).2 [' ']).1 with
              | none => none
              | some rangeExpression =>
                some ⟨1, (range rangeExpression st sf).st,
                  (range rangeExpression st sf).out
                    ++ (if (range rangeExpression st sf).ret ≠ 0 then [Ev.err] else [])⟩
            else some ⟨0, st, []⟩ := rfl

/-! ## Which lines go to `range` -/

theorem fieldHead_of_not_mem {d : Char} {s : CStr} (h : d ∉ s) : fieldHead d s = s := by
  unfold fieldHead
  rw [List.takeWhile_eq_self_iff]
  intro x hx
  simp only [Bool.not_eq_eq_eq_not, Bool.not_true, decide_eq_false_iff_not]
  rintro rfl
  exact h hx

theorem strtok_of_not_mem {d : Char} {s : CStr} (h : d ∉ s) (hs : s ≠ []) :
    strtok s [d] = (some s, []) := by
  have hf : fieldHead d s = s := fieldHead_of_not_mem h
  rw [strtok_of_fieldHead (by rw [hf]; exact hs), hf]
  have : fieldTail d s = [] := by
    unfold fieldTail
    have := List.takeWhile_append_dropWhile (fun c => !decide (c = d)) s
    unfold fieldHead at hf
    rw [hf] at this
    have h2 : s.dropWhile (fun c => !decide (c = d)) = [] := by
      simpa using this
    rw [h2]
    rfl
  rw [this]

theorem testString_of_at (line : CStr) (h0 : '\x00' ∉ line) (h : cstrAt line 0 = '@') :
    testString line = line := by
  have := testString_eq [] line (by simpa using h0) (by simp) (by rw [h]; decide)
  simpa using this

/-- The lines `@range`, one blank, one argument without a blank: `detect_range_print`
hands the argument to `range`. -/
theorem detect_range_print_routed (arg : CStr) (st : Stores) (sf : Nat)
    (h0 : '\x00' ∉ arg) (hs : ' ' ∉ arg) (ha : arg ≠ []) :
    detect_range_print ("@range ".toList ++ arg) st sf
      = some ⟨1, (range arg st sf).st,
          (range arg st sf).out ++ (if (range arg st sf).ret ≠ 0 then [Ev.err] else [])⟩ := by
  have hts : testString ("@range ".toList ++ arg) = "@range ".toList ++ arg :=
    testString_of_at _ (by simpa using h0) rfl
  have htok : strtok ("@range ".toList ++ arg) [' '] = (some "@range".toList, arg) := by
    show strtok ('@' :: ('r' :: 'a' :: 'n' :: 'g' :: 'e' :: ' ' :: arg)) [' '] = _
    rw [strtok_cons_ne ' ' '@' _ (by decide)]
    simp [fieldHead, fieldTail, List.takeWhile, List.dropWhile]
  have hcount : countChar ' ' ("@range ".toList ++ arg) = 1 := by
    unfold countChar
    rw [List.count_append, List.count_eq_zero_of_not_mem hs]
    rfl
  rw [detect_range_print_def, hts, if_neg (by simp), htok]
  simp only [hcount]
  rw [if_pos ⟨trivial, trivial, rfl⟩, strtok_of_not_mem hs ha]

/-! ## The tokens of a `@loop` line -/

theorem strtok_no_delim (s : CStr) (h : s ≠ []) : strtok s [] = (some s, []) := by
  have h1 : s.dropWhile (fun c => ([] : List Char).contains c) = s := by
    cases s with
    | nil => rfl
    | cons c t => rfl
  have h2 : s.takeWhile (fun c => !([] : List Char).contains c) = s := by
    rw [List.takeWhile_eq_self_iff]
    intro x _
    rfl
  have h3 : s.dropWhile (fun c => !([] : List Char).contains c) = [] := by
    have := List.takeWhile_append_dropWhile (fun c => !([] : List Char).contains c) s
    rw [h2] at this
    exact List.append_right_eq_self.mp this
  unfold strtok
  simp only [h1, h2, h3, if_neg h]
  rfl

theorem isalpha_ne_blank {c : Char} (h : isalpha c = true) : c ≠ ' ' := by
  rintro rfl
  exact absurd h (by decide)

theorem loop_line_tokens (c : Char) (rest : CStr) (hc : isalpha c = true) :
    strtok ("@loop ".toList ++ c :: rest) [' '] = (some "@loop".toList, c :: rest)
    ∧ strtok (c :: rest) [' ']
        = (some (fieldHead ' ' (c :: rest)), fieldTail ' ' (c :: rest)) := by
  constructor
  · show strtok ('@' :: ('l' :: 'o' :: 'o' :: 'p' :: ' ' :: c :: rest)) [' '] = _
    rw [strtok_cons_ne ' ' '@' _ (by decide)]
    simp [fieldHead, fieldTail, List.takeWhile, List.dropWhile]
  · exact strtok_cons_ne ' ' c rest (isalpha_ne_blank hc)

theorem loop_line_condition (c : Char) (rest : CStr) (hc : isalpha c = true) :
    ("@loop ".toList ++ c :: rest).length > LOOP_LENGTH
      ∧ cstrAt ("@loop ".toList ++ c :: rest) 0 = '@'
      ∧ cstrAt ("@loop ".toList ++ c :: rest) 1 = 'l'
      ∧ cstrAt ("@loop ".toList ++ c :: rest) 2 = 'o'
      ∧ cstrAt ("@loop ".toList ++ c :: rest) 3 = 'o'
      ∧ cstrAt ("@loop ".toList ++ c :: rest) 4 = 'p'
      ∧ cstrAt ("@loop ".toList ++ c :: rest) 5 = ' '
      ∧ isalpha (cstrAt ("@loop ".toList ++ c :: rest) LOOP_LENGTH) = true := by
  refine ⟨by simp [LOOP_LENGTH], rfl, rfl, rfl, rfl, rfl, rfl, ?_⟩
  exact hc

theorem loop_search_no_match {n : CStr} {ls : List Loop} (h : n ∉ ls.map (fun l => l.name))
    (i : Nat) (f : Option Nat) : loop_search n i ls f = (f, ls) := by
  induction ls generalizing i f with
  | nil => rfl
  | cons l ls ih =>
    simp only [List.map_cons, List.mem_cons, not_or] at h
    unfold loop_search
    rw [if_neg (fun e => h.1 e.symm), ih h.2]

theorem loop_search_some (n : CStr) (ls : List Loop) (i k : Nat) :
    ∃ j, (loop_search n i ls (some k)).1 = some j := by
  induction ls generalizing i k with
  | nil => exact ⟨k, rfl⟩
  | cons l ls ih =>
    unfold loop_search
    by_cases hl : l.name = n
    · rw [if_pos hl]
      exact ih (i + 1) i
    · rw [if_neg hl]
      exact ih (i + 1) k

theorem loop_search_of_mem {n : CStr} {ls : List Loop} (h : n ∈ ls.map (fun l => l.name))
    (i : Nat) (f : Option Nat) : ∃ j, (loop_search n i ls f).1 = some j := by
  induction ls generalizing i f with
  | nil => simp at h
  | cons l ls ih =>
    unfold loop_search
    by_cases hl : l.name = n
    · rw [if_pos hl]
      exact loop_search_some n ls (i + 1) i
    · rw [if_neg hl]
      simp only [List.map_cons, List.mem_cons] at h
      rcases h with h | h
      · exact absurd h.symm hl
      · exact ih h (i + 1) f

theorem detect_range_print_loop_line (c : Char) (rest : CStr) (st : Stores) (sf : Nat)
    (h0 : '\x00' ∉ "@loop ".toList ++ c :: rest) :
    detect_range_print ("@loop ".toList ++ c :: rest) st sf = some ⟨0, st, []⟩ := by
  have hts := testString_of_at ("@loop ".toList ++ c :: rest) h0 rfl
  have htok : strtok ("@loop ".toList ++ c :: rest) [' '] = (some "@loop".toList, c :: rest) := by
    show strtok ('@' :: ('l' :: 'o' :: 'o' :: 'p' :: ' ' :: c :: rest)) [' '] = _
    rw [strtok_cons_ne ' ' '@' _ (by decide)]
    simp [fieldHead, fieldTail, List.takeWhile, List.dropWhile]
  rw [detect_range_print_def, hts, if_neg (by simp), htok]
  simp only []
  rw [if_neg (by
    rintro ⟨h, -⟩
    exact absurd h (by decide))]

theorem loop_of_unknown_name (te : CStr → Table → Option ℚ) (st : Stores) (sf : Nat)
    (c : Char) (rest : CStr) (hc : isalpha c = true)
    (hn : fieldHead ' ' (c :: rest) ∉ loopNames st) :
    loop te ("@loop ".toList ++ c :: rest) st sf = some ⟨1, st, []⟩ := by
  obtain ⟨h1, h2⟩ := loop_line_tokens c rest hc
  unfold loop
  simp only [h1, h2, loop_search_no_match hn]

/-- C17. A line `@loop name ...` (the name starts with a letter and ends before the next
blank) whose name is not the name of a loop, whether it names a live variable or
nothing: `loop` returns 1 without changing the stores and without a call of the
evaluator, `detect_loops` prints the one diagnostic for it, and the stores and the
output of the whole line (when it is not a comment) are the unchanged stores and
that diagnostic. -/
theorem C17_loop_unknown_name (te : CStr → Table → Option ℚ) (st : Stores) (sf : Nat)
    (c : Char) (rest : CStr) (hc : isalpha c = true)
    (hn : fieldHead ' ' (c :: rest) ∉ loopNames st) :
    loop te ("@loop ".toList ++ c :: rest) st sf = some ⟨1, st, []⟩
    ∧ detect_loops te ("@loop ".toList ++ c :: rest) st sf = some ⟨1, st, [Ev.err]⟩
    ∧ ('#' ∉ "@loop ".toList ++ c :: rest → '\x00' ∉ "@loop ".toList ++ c :: rest →
        download_line te sf st ("@loop ".toList ++ c :: rest) = some (st, [Ev.err])) := by
  have hl := loop_of_unknown_name te st sf c rest hc hn
  have hd : detect_loops te ("@loop ".toList ++ c :: rest) st sf
      = some ⟨1, st, [Ev.err]⟩ := by
    unfold detect_loops
    rw [if_pos (loop_line_condition c rest hc), hl]
    rfl
  refine ⟨hl, hd, fun h1 h0 => ?_⟩
  have hs : ¬ countChar '#' ("@loop ".toList ++ c :: rest) > 0 := by
    intro h
    exact h1 (List.count_pos_iff.mp h)
  unfold download_line download_setup
  simp only [hs, if_false]
  rw [if_neg (by simp)]
  simp only [detect_range_print_loop_line c rest st sf h0, hd]
  rfl

theorem C17_witness :
    (isalpha 'x' = true ∧ fieldHead ' ' "x 1\n".toList ∉ loopNames storesXA)
    ∧ loop teLiteral "@loop x 1\n".toList storesXA 3 = some ⟨1, storesXA, []⟩
    ∧ detect_loops teLiteral "@loop x 1\n".toList storesXA 3
        = some ⟨1, storesXA, [Ev.err]⟩
    ∧ ('#' ∉ "@loop x 1\n".toList → '\x00' ∉ "@loop x 1\n".toList →
        download_line teLiteral 3 storesXA "@loop x 1\n".toList
          = some (storesXA, [Ev.err])) :=
  ⟨⟨by decide, by decide⟩,
    C17_loop_unknown_name teLiteral storesXA 3 'x' " 1\n".toList (by decide) (by decide)⟩

/-- C18. A line `@loop name remainder` whose name (it starts with a letter and ends
before the next blank) is the name of a loop and that has a remainder after the blank.
`loop` finds the loop at an index `k`, resets its current value to its start, and
counts the `=` of the remainder: with none it runs `loop_expression` on the remainder;
with one it runs the assignment form on the first word of the text before the `=` (the
target) and on the text after the `=` (the expression); with two or more it returns
1 with no call of the evaluator and the variable store as it was, and `detect_loops`
prints the diagnostic. -/
theorem C18_loop_dispatch (te : CStr → Table → Option ℚ) (st : Stores) (sf : Nat)
    (c : Char) (rest : CStr) (hc : isalpha c = true)
    (hn : fieldHead ' ' (c :: rest) ∈ loopNames st)
    (hr : fieldTail ' ' (c :: rest) ≠ []) :
    ∃ k, (loop_search (fieldHead ' ' (c :: rest)) 0 st.loops none).1 = some k
      ∧ k < st.loops.length ∧ (loopAt st.loops k).name = fieldHead ' ' (c :: rest)
      ∧ (countChar '=' (fieldTail ' ' (c :: rest)) = 0 →
          loop te ("@loop ".toList ++ c :: rest) st sf
            = loop_expression te
                ⟨st.vars, (loop_search (fieldHead ' ' (c :: rest)) 0 st.loops none).2⟩
                (fieldTail ' ' (c :: rest)) k sf)
      ∧ (countChar '=' (fieldTail ' ' (c :: rest)) = 1 →
          ∀ target, (strtok (fieldHead '=' (fieldTail ' ' (c :: rest))) [' ']).1 = some target →
          fieldTail '=' (fieldTail ' ' (c :: rest)) ≠ [] →
          loop te ("@loop ".toList ++ c :: rest) st sf
            = loop_assignment_form te
                ⟨st.vars, (loop_search (fieldHead ' ' (c :: rest)) 0 st.loops none).2⟩
                sf k target (fieldTail '=' (fieldTail ' ' (c :: rest))))
      ∧ (2 ≤ countChar '=' (fieldTail ' ' (c :: rest)) →
          loop te ("@loop ".toList ++ c :: rest) st sf
            = some ⟨1, ⟨st.vars, (loop_search (fieldHead ' ' (c :: rest)) 0 st.loops none).2⟩, []⟩
          ∧ detect_loops te ("@loop ".toList ++ c :: rest) st sf
            = some ⟨1, ⟨st.vars, (loop_search (fieldHead ' ' (c :: rest)) 0 st.loops none).2⟩,
                [Ev.err]⟩) := by
  obtain ⟨h1, h2⟩ := loop_line_tokens c rest hc
  obtain ⟨k, hk⟩ := loop_search_of_mem hn 0 none
  have hf : k < st.loops.length ∧ (loopAt st.loops k).name = fieldHead ' ' (c :: rest) := by
    rcases loop_search_found hk with h | h
    · exact absurd h (by simp)
    · simpa using h
  have hloop : ∀ r : Option Res,
      (if countChar '=' (fieldTail ' ' (c :: rest)) = 0 then
          loop_expression te
            ⟨st.vars, (loop_search (fieldHead ' ' (c :: rest)) 0 st.loops none).2⟩
            (fieldTail ' ' (c :: rest)) k sf
        else if countChar '=' (fieldTail ' ' (c :: rest)) = 1 then
          (match loop_assignment_setup
              (match (strtok (fieldTail ' ' (c :: rest)) ['=']).1 with
                | some ev => strtok ev [' ']
                | none => strtok (strtok (strtok (fieldTail ' ' (c :: rest)) ['=']).2 []).2
                    [' ']).1
              ⟨st.vars, (loop_search (fieldHead ' ' (c :: rest)) 0 st.loops none).2⟩ with
            | none => none
            | some (result, variableIndex, loopIndex, st2) =>
              if result ≠ 0 then some ⟨result, st2, []⟩
              else
                loop_assignment te st2 sf loopIndex variableIndex
                  ((match (strtok (fieldTail ' ' (c :: rest)) ['=']).1 with
                    | some ev => strtok ev [' ']
                    | none => strtok (strtok (strtok (fieldTail ' ' (c :: rest)) ['=']).2 []).2
                        [' ']).1.getD []) k
                  (strtok (strtok (fieldTail ' ' (c :: rest)) ['=']).2 []).1)
        else some ⟨1, ⟨st.vars, (loop_search (fieldHead ' ' (c :: rest)) 0 st.loops none).2⟩,
          []⟩) = r →
      loop te ("@loop ".toList ++ c :: rest) st sf = r := by
    intro r h
    rw [← h]
    unfold loop
    simp only [h1, h2, hk, strtok_no_delim _ hr]
  refine ⟨k, hk, hf.1, hf.2, fun h0 => ?_, fun h1e target ht hne => ?_, fun h2e => ?_⟩
  · apply hloop
    rw [if_pos h0]
  · apply hloop
    rw [if_neg (by omega), if_pos h1e]
    have hfh : fieldHead '=' (fieldTail ' ' (c :: rest)) ≠ [] := by
      intro he
      rw [he, strtok_nil] at ht
      exact absurd ht (by simp)
    rw [strtok_of_fieldHead hfh]
    simp only [strtok_no_delim _ hne, ht, Option.getD_some]
    rfl
  · have hl : loop te ("@loop ".toList ++ c :: rest) st sf
        = some ⟨1, ⟨st.vars, (loop_search (fieldHead ' ' (c :: rest)) 0 st.loops none).2⟩,
            []⟩ := by
      apply hloop
      rw [if_neg (by omega), if_neg (by omega)]
    refine ⟨hl, ?_⟩
    unfold detect_loops
    rw [if_pos (loop_line_condition c rest hc), hl]
    rfl

theorem C18_witness :
    (isalpha 'a' = true ∧ fieldHead ' ' ('a' :: " y = 1\n".toList) ∈ loopNames storesXA
      ∧ fieldTail ' ' ('a' :: " y = 1\n".toList) ≠ [])
    ∧ ∃ k, (loop_search ['a'] 0 storesXA.loops none).1 = some k
      ∧ loop teLiteral "@loop a y = 1\n".toList storesXA 3
          = loop_assignment_form teLiteral storesXA 3 k ['y'] " 1\n".toList := by
  obtain ⟨k, hk, -, -, -, h1, -⟩ := C18_loop_dispatch teLiteral storesXA 3 'a'
    " y = 1\n".toList (by decide) (by decide) (by decide)
  exact ⟨⟨by decide, by decide, by decide⟩, k, hk,
    h1 (by decide) ['y'] (by decide) (by decide)⟩

/-! ## Lines that start with `@range` and do not go to `range` -/

theorem isspace_ne {x c : Char} (hx : isspace x = true) (hc : isspace c = false) : x ≠ c := by
  rintro rfl
  rw [hx] at hc
  exact absurd hc (by decide)

theorem cstrAt_zero_of_space (w t : CStr) (hw : ∀ x ∈ w, isspace x = true)
    (h : cstrAt (w ++ t) 0 = '@') : w = [] := by
  cases w with
  | nil => rfl
  | cons x w =>
    have hx := hw x (List.mem_cons_self _ _)
    have : cstrAt (x :: w ++ t) 0 = x := rfl
    rw [this] at h
    rw [h] at hx
    exact absurd hx (by decide)

theorem fieldHead_nil_iff (d : Char) (u : CStr) :
    fieldHead d u = [] ↔ u = [] ∨ ∃ r, u = d :: r := by
  cases u with
  | nil => simp [fieldHead]
  | cons a r =>
    by_cases ha : a = d
    · subst ha
      simp [fieldHead, List.takeWhile]
    · simp [fieldHead, List.takeWhile, ha]

theorem detect_range_print_not_routed (w u : CStr) (st : Stores) (sf : Nat)
    (h0 : '\x00' ∉ w ++ ("@range".toList ++ u)) (hw : ∀ x ∈ w, isspace x = true)
    (hn : ¬ (w = [] ∧ ∃ arg, u = ' ' :: arg ∧ ' ' ∉ arg)) :
    detect_range_print (w ++ ("@range".toList ++ u)) st sf = some ⟨0, st, []⟩ := by
  have hts : testString (w ++ ("@range".toList ++ u)) = "@range".toList ++ u :=
    testString_eq w _ h0 hw rfl
  have htok : (strtok ("@range".toList ++ u) [' ']).1
      = some ("@range".toList ++ fieldHead ' ' u) := by
    show (strtok ('@' :: ('r' :: 'a' :: 'n' :: 'g' :: 'e' :: u)) [' ']).1 = _
    rw [strtok_cons_ne ' ' '@' _ (by decide)]
    simp [fieldHead, List.takeWhile]
  rw [detect_range_print_def, hts, if_neg (by simp), htok]
  simp only []
  rw [if_neg]
  rintro ⟨h1, h2, h3⟩
  apply hn
  have hw0 : w = [] := cstrAt_zero_of_space w _ hw h3
  refine ⟨hw0, ?_⟩
  have hf : fieldHead ' ' u = [] := by simpa using h1
  have hcu : countChar ' ' u = 1 := by
    have : countChar ' ' ("@range".toList ++ u) = countChar ' ' u := by
      unfold countChar
      rw [List.count_append]
      simp
    rw [← this]
    exact h2
  rcases (fieldHead_nil_iff ' ' u).mp hf with hu | ⟨r, hu⟩
  · rw [hu] at hcu
    exact absurd hcu (by decide)
  · refine ⟨r, hu, ?_⟩
    rw [hu] at hcu
    unfold countChar at hcu
    rw [List.count_cons_self] at hcu
    exact List.count_eq_zero.mp (by omega)

theorem detect_loops_range_line (te : CStr → Table → Option ℚ) (w u : CStr) (st : Stores)
    (sf : Nat) (hw : ∀ x ∈ w, isspace x = true) :
    detect_loops te (w ++ ("@range".toList ++ u)) st sf = some ⟨0, st, []⟩ := by
  unfold detect_loops
  rw [if_neg]
  rintro ⟨-, h0, h1, -⟩
  have hw0 : w = [] := cstrAt_zero_of_space w _ hw h0
  subst hw0
  have h2 : cstrAt ([] ++ ("@range".toList ++ u)) 1 = 'r' := rfl
  rw [h2] at h1
  exact absurd h1 (by decide)

theorem check_valid_at_key (w v : CStr) (hw : ∀ x ∈ w, isspace x = true) :
    download_assignment_check_valid (trimKey (w ++ '@' :: v)) = (1, [Ev.err]) := by
  have hs : trimStart (w ++ '@' :: v) ((w ++ '@' :: v).length - 1)
      ((w ++ '@' :: v).length - 1 + 1) 0 = w.length :=
    trimStart_leading w ('@' :: v) _ hw rfl (by simp) _ 0 (by omega) (by simp; omega)
  have hk : ∃ r, trimKey (w ++ '@' :: v) = '@' :: r := by
    unfold trimKey
    simp only [hs]
    rw [List.drop_left, List.take_succ_cons]
    exact ⟨_, rfl⟩
  obtain ⟨r, hr⟩ := hk
  unfold download_assignment_check_valid
  rw [hr, if_pos]
  left
  simp [List.all_cons, isalpha]

theorem download_line_not_comment (te : CStr → Table → Option ℚ) (sf : Nat) (st : Stores)
    (line : CStr) (h : '#' ∉ line) :
    download_line te sf st line
      = match detect_range_print line st sf with
        | none => none
        | some r1 =>
          if r1.ret ≠ 0 then some (r1.st, r1.out)
          else
            match detect_loops te line r1.st sf with
            | none => none
            | some r2 =>
              if r2.ret ≠ 0 then some (r2.st, r1.out ++ r2.out)
              else if countChar '=' line = 1 then
                match (strtok line ['=']).1 with
                | none => none
                | some variableName =>
                  if (download_assignment_check_valid (trimKey variableName)).1 ≠ 0 then
                    some (r2.st, r1.out ++ r2.out
                      ++ (download_assignment_check_valid (trimKey variableName)).2)
                  else
                    match (strtok (strtok line ['=']).2 ['=']).1 with
                    | none => none
                    | some expression =>
                      some ((download_assignment te r2.st expression
                          (trimKey variableName) sf).st,
                        r1.out ++ r2.out ++ (download_assignment te r2.st expression
                          (trimKey variableName) sf).out)
              else if countChar '=' line = 0 then
                some ((download_expression te r2.st line sf).st,
                  r1.out ++ r2.out ++ (download_expression te r2.st line sf).out)
              else some (r2.st, r1.out ++ r2.out) := by
  have hs : ¬ countChar '#' line > 0 := fun hc => h (List.count_pos_iff.mp hc)
  unfold download_line download_setup
  simp only [hs, if_false]
  rw [if_neg (by simp)]

theorem download_line_routed (te : CStr → Table → Option ℚ) (sf : Nat) (st : Stores)
    (arg : CStr) (h0 : '\x00' ∉ arg) (hs : ' ' ∉ arg) (ha : arg ≠ []) (hc : '#' ∉ arg) :
    download_line te sf st ("@range ".toList ++ arg)
      = some ((range arg st sf).st,
          (range arg st sf).out ++ (if (range arg st sf).ret ≠ 0 then [Ev.err] else [])) := by
  rw [download_line_not_comment te sf st _ (by simpa using hc),
    detect_range_print_routed arg st sf h0 hs ha]
  simp

theorem download_line_range_not_routed (te : CStr → Table → Option ℚ) (sf : Nat)
    (st : Stores) (w u : CStr) (h0 : '\x00' ∉ w ++ ("@range".toList ++ u))
    (hw : ∀ x ∈ w, isspace x = true)
    (hn : ¬ (w = [] ∧ ∃ arg, u = ' ' :: arg ∧ ' ' ∉ arg))
    (hc : '#' ∉ w ++ ("@range".toList ++ u)) :
    (countChar '=' (w ++ ("@range".toList ++ u)) = 1 →
      download_line te sf st (w ++ ("@range".toList ++ u)) = some (st, [Ev.err]))
    ∧ (countChar '=' (w ++ ("@range".toList ++ u)) = 0 →
      te (w ++ ("@range".toList ++ u)) (tableVL st) = none →
      download_line te sf st (w ++ ("@range".toList ++ u))
        = some (st, [Ev.compile (w ++ ("@range".toList ++ u)) (tableVL st) st, Ev.err])) := by
  have hd := download_line_not_comment te sf st _ hc
  rw [detect_range_print_not_routed w u st sf h0 hw hn] at hd
  simp only [detect_loops_range_line te w u st sf hw] at hd
  rw [if_neg (by simp), if_neg (by simp)] at hd
  constructor
  · intro h1
    rw [hd, if_pos h1]
    have hfh : fieldHead '=' (w ++ ("@range".toList ++ u))
        = w ++ '@' :: ("range".toList ++ fieldHead '=' u) := by
      unfold fieldHead
      rw [List.takeWhile_append_of_pos]
      · simp [List.takeWhile]
      · intro x hx
        have := isspace_ne (hw x hx) (show isspace '=' = false by decide)
        simpa using this
    rw [strtok_of_fieldHead (by rw [hfh]; simp)]
    simp only [hfh, check_valid_at_key w _ hw]
    simp
  · intro h1 hte
    rw [hd, if_neg (by omega), if_pos h1]
    unfold download_expression
    simp only [hte]
    simp

/-- C16, the case that fails. The line `@range b,0,1,5` with one blank in front of it
is not handed to `range`: `detect_range_print` returns 0, the line is given to the
evaluator as an expression, and no loop is declared; without the blank the loop `b`
is declared. -/
theorem C16_leading_blank_not_routed :
    detect_range_print " @range b,0,1,5\n".toList storesXA 3 = some ⟨0, storesXA, []⟩
    ∧ download_line teLiteral 3 storesXA " @range b,0,1,5\n".toList
        = some (storesXA,
            [Ev.compile " @range b,0,1,5\n".toList [(['x'], 1), (['a'], 0)] storesXA, Ev.err])
    ∧ download_line teLiteral 3 storesXA "@range b,0,1,5\n".toList
        = some (⟨storesXA.vars, storesXA.loops ++ [⟨['b'], 0, 0, 1, 5⟩]⟩,
            [Ev.loopLine 3 ['b'] 0 0 1 5]) := by
  decide!

/-- C16, as the code has it. A line that is `@range`, one blank and one argument
without a blank, from its first character on, is handed to `range` (and a diagnostic
follows when `range` rejects the argument). Every other line that starts with `@range`,
possibly after white space — so also the line above with white space in front of it —
is not handed to `range`; when it is not a comment it leaves the stores as they are
and gives one diagnostic: with one `=` the one for the invalid name, with no `=` the one
for the expression the evaluator rejects. (Lines with two or more `=` are left
aside.) -/
theorem C16_range_routing (te : CStr → Table → Option ℚ) (sf : Nat) (st : Stores) :
    (∀ arg : CStr, '\x00' ∉ arg → ' ' ∉ arg → arg ≠ [] →
      detect_range_print ("@range ".toList ++ arg) st sf
        = some ⟨1, (range arg st sf).st,
            (range arg st sf).out ++ (if (range arg st sf).ret ≠ 0 then [Ev.err] else [])⟩
      ∧ ('#' ∉ arg →
          download_line te sf st ("@range ".toList ++ arg)
            = some ((range arg st sf).st,
                (range arg st sf).out
                  ++ (if (range arg st sf).ret ≠ 0 then [Ev.err] else []))))
    ∧ (∀ w u : CStr, '\x00' ∉ w ++ ("@range".toList ++ u) → (∀ x ∈ w, isspace x = true) →
        ¬ (w = [] ∧ ∃ arg, u = ' ' :: arg ∧ ' ' ∉ arg) →
      detect_range_print (w ++ ("@range".toList ++ u)) st sf = some ⟨0, st, []⟩
      ∧ ('#' ∉ w ++ ("@range".toList ++ u) →
          (countChar '=' (w ++ ("@range".toList ++ u)) = 1 →
            download_line te sf st (w ++ ("@range".toList ++ u)) = some (st, [Ev.err]))
          ∧ (countChar '=' (w ++ ("@range".toList ++ u)) = 0 →
            te (w ++ ("@range".toList ++ u)) (tableVL st) = none →
            download_line te sf st (w ++ ("@range".toList ++ u))
              = some (st, [Ev.compile (w ++ ("@range".toList ++ u)) (tableVL st) st,
                  Ev.err])))) :=
  ⟨fun arg h0 hs ha => ⟨detect_range_print_routed arg st sf h0 hs ha,
      fun hc => download_line_routed te sf st arg h0 hs ha hc⟩,
    fun w u h0 hw hn => ⟨detect_range_print_not_routed w u st sf h0 hw hn,
      fun hc => download_line_range_not_routed te sf st w u h0 hw hn hc⟩⟩

theorem C16_witness :
    (('\x00' ∉ "b,0,1,5\n".toList ∧ ' ' ∉ "b,0,1,5\n".toList ∧ "b,0,1,5\n".toList ≠ []
        ∧ '#' ∉ "b,0,1,5\n".toList)
      ∧ download_line teLiteral 3 storesXA ("@range ".toList ++ "b,0,1,5\n".toList)
          = some ((range "b,0,1,5\n".toList storesXA 3).st,
              (range "b,0,1,5\n".toList storesXA 3).out
                ++ (if (range "b,0,1,5\n".toList storesXA 3).ret ≠ 0 then [Ev.err] else [])))
    ∧ (('\x00' ∉ " ".toList ++ ("@range".toList ++ " b,0,1,5 c\n".toList)
        ∧ (∀ x ∈ " ".toList, isspace x = true)
        ∧ ¬ (" ".toList = [] ∧ ∃ arg, " b,0,1,5 c\n".toList = ' ' :: arg ∧ ' ' ∉ arg)
        ∧ '#' ∉ " ".toList ++ ("@range".toList ++ " b,0,1,5 c\n".toList)
        ∧ countChar '=' (" ".toList ++ ("@range".toList ++ " b,0,1,5 c\n".toList)) = 0
        ∧ teLiteral (" ".toList ++ ("@range".toList ++ " b,0,1,5 c\n".toList))
            (tableVL storesXA) = none)
      ∧ download_line teLiteral 3 storesXA
          (" ".toList ++ ("@range".toList ++ " b,0,1,5 c\n".toList))
          = some (storesXA,
              [Ev.compile (" ".toList ++ ("@range".toList ++ " b,0,1,5 c\n".toList))
                (tableVL storesXA) storesXA, Ev.err])) :=
  ⟨⟨⟨by decide, by decide, by decide, by decide⟩,
      ((C16_range_routing teLiteral 3 storesXA).1 "b,0,1,5\n".toList (by decide) (by decide)
        (by decide)).2 (by decide)⟩,
    ⟨⟨by decide, by decide, by simp, by decide, by decide, by decide!⟩,
      (((C16_range_routing teLiteral 3 storesXA).2 " ".toList " b,0,1,5 c\n".toList
        (by decide) (by decide) (by simp)).2 (by decide)).2 (by decide) (by decide!)⟩⟩

/-! ## `strtod` and the fields of a string with a newline after it -/

theorem takeWhile_append_nl (p : Char → Bool) (x : CStr) (hp : p '\n' = false) :
    (x ++ ['\n']).takeWhile p = x.takeWhile p := by
  induction x with
  | nil => simp [List.takeWhile, hp]
  | cons a x ih =>
    by_cases ha : p a = true
    · simp [List.takeWhile, ha, ih]
    · simp [List.takeWhile, ha]

theorem dropWhile_append_nl (p : Char → Bool) (x : CStr) (hp : p '\n' = false) :
    (x ++ ['\n']).dropWhile p = x.dropWhile p ++ ['\n'] := by
  induction x with
  | nil => simp [List.dropWhile, hp]
  | cons a x ih =>
    by_cases ha : p a = true
    · simp [List.dropWhile, ha, ih]
    · simp [List.dropWhile, ha]

theorem dropWhile_isspace_append_nl (x : CStr) :
    (x ++ ['\n']).dropWhile isspace
      = if x.dropWhile isspace = [] then [] else x.dropWhile isspace ++ ['\n'] := by
  induction x with
  | nil => rfl
  | cons a x ih =>
    by_cases ha : isspace a = true
    · simp only [List.cons_append, List.dropWhile_cons_of_pos ha, ih]
    · simp [List.dropWhile, ha]

theorem takeSign_append_nl (x : CStr) :
    takeSign (x ++ ['\n']) = ((takeSign x).1, (takeSign x).2 ++ ['\n']) := by
  cases x with
  | nil => rfl
  | cons a x =>
    by_cases h1 : a = '-'
    · subst h1; rfl
    · by_cases h2 : a = '+'
      · subst h2; rfl
      · have e1 : takeSign (a :: x) = (false, a :: x) := by
          unfold takeSign
          split
          · rename_i h; exact absurd (List.cons.inj h).1 h1
          · rename_i h; exact absurd (List.cons.inj h).1 h2
          · rfl
        have e2 : takeSign (a :: x ++ ['\n']) = (false, a :: x ++ ['\n']) := by
          unfold takeSign
          split
          · rename_i h; exact absurd (List.cons.inj h).1 h1
          · rename_i h; exact absurd (List.cons.inj h).1 h2
          · rfl
        rw [e1, e2]

theorem takeExponent_append_nl (x : CStr) :
    takeExponent (x ++ ['\n']) = ((takeExponent x).1, (takeExponent x).2 ++ ['\n']) := by
  cases x with
  | nil => rfl
  | cons a x =>
    show takeExponent (a :: (x ++ ['\n'])) = _
    unfold takeExponent
    by_cases h : a = 'e' ∨ a = 'E'
    · simp only [if_pos h, takeSign_append_nl,
        takeWhile_append_nl isdigit _ (by decide), dropWhile_append_nl isdigit _ (by decide)]
      split_ifs <;> rfl
    · simp only [if_neg h]
      rfl

theorem strtod_def (s : CStr) :
    strtod s
      = if (takeSign (s.dropWhile isspace)).2.takeWhile isdigit = []
            ∧ (takeFraction ((takeSign (s.dropWhile isspace)).2.dropWhile isdigit)).1 = [] then
          (0, s)
        else
          ((if (takeSign (s.dropWhile isspace)).1 then
              -((digitsVal ((takeSign (s.dropWhile isspace)).2.takeWhile isdigit
                    ++ (takeFraction ((takeSign (s.dropWhile isspace)).2.dropWhile isdigit)).1) : ℚ)
                  / (10 : ℚ) ^ (takeFraction
                      ((takeSign (s.dropWhile isspace)).2.dropWhile isdigit)).1.length
                * (takeExponent (takeFraction
                    ((takeSign (s.dropWhile isspace)).2.dropWhile isdigit)).2).1)
            else
              (digitsVal ((takeSign (s.dropWhile isspace)).2.takeWhile isdigit
                    ++ (takeFraction ((takeSign (s.dropWhile isspace)).2.dropWhile isdigit)).1) : ℚ)
                  / (10 : ℚ) ^ (takeFraction
                      ((takeSign (s.dropWhile isspace)).2.dropWhile isdigit)).1.length
                * (takeExponent (takeFraction
                    ((takeSign (s.dropWhile isspace)).2.dropWhile isdigit)).2).1),
            (takeExponent (takeFraction
              ((takeSign (s.dropWhile isspace)).2.dropWhile isdigit)).2).2) := rfl

theorem takeFraction_append_nl (x : CStr) :
    takeFraction (x ++ ['\n']) = ((takeFraction x).1, (takeFraction x).2 ++ ['\n']) := by
  cases x with
  | nil => rfl
  | cons a x =>
    by_cases h1 : a = '.'
    · subst h1
      show (List.takeWhile isdigit (x ++ ['\n']), List.dropWhile isdigit (x ++ ['\n']))
        = (List.takeWhile isdigit x, List.dropWhile isdigit x ++ ['\n'])
      rw [takeWhile_append_nl isdigit _ (by decide), dropWhile_append_nl isdigit _ (by decide)]
    · have e1 : takeFraction (a :: x) = ([], a :: x) := by
        unfold takeFraction
        split
        · rename_i h; exact absurd (List.cons.inj h).1 h1
        · rfl
      have e2 : takeFraction (a :: x ++ ['\n']) = ([], a :: x ++ ['\n']) := by
        unfold takeFraction
        split
        · rename_i h; exact absurd (List.cons.inj h).1 h1
        · rfl
      rw [e1, e2]

/-- Where `strtod` stops and what it reads do not depend on a newline written after the
text. -/
theorem strtod_append_nl (f : CStr) :
    strtod (f ++ ['\n']) = ((strtod f).1, (strtod f).2 ++ ['\n']) := by
  rw [strtod_def, strtod_def, dropWhile_isspace_append_nl]
  by_cases hd : f.dropWhile isspace = []
  · rw [if_pos hd, hd]
    rfl
  · rw [if_neg hd]
    simp only [takeSign_append_nl, takeWhile_append_nl isdigit _ (show isdigit '\n' = false by decide),
      dropWhile_append_nl isdigit _ (show isdigit '\n' = false by decide),
      takeFraction_append_nl, takeExponent_append_nl]
    split_ifs <;> rfl

theorem takeSign_suffix (x : CStr) : (takeSign x).2 <:+ x := by
  unfold takeSign
  split
  · exact List.suffix_cons _ _
  · exact List.suffix_cons _ _
  · exact List.suffix_refl _

theorem takeFraction_suffix (x : CStr) : (takeFraction x).2 <:+ x := by
  unfold takeFraction
  split
  · exact (List.dropWhile_suffix _).trans (List.suffix_cons _ _)
  · exact List.suffix_refl _

theorem takeExponent_suffix (x : CStr) : (takeExponent x).2 <:+ x := by
  cases x with
  | nil => exact List.suffix_refl _
  | cons a x =>
    unfold takeExponent
    simp only []
    split_ifs
    all_goals first
      | exact List.suffix_refl _
      | exact ((List.dropWhile_suffix _).trans (takeSign_suffix x)).trans (List.suffix_cons _ _)

theorem strtod_suffix (f : CStr) : (strtod f).2 <:+ f := by
  rw [strtod_def]
  split_ifs
  all_goals first
    | exact List.suffix_refl _
    | exact (takeExponent_suffix _).trans ((takeFraction_suffix _).trans
        ((List.dropWhile_suffix _).trans ((takeSign_suffix _).trans (List.dropWhile_suffix _))))

theorem numericLine_append_nl (f : CStr) (hn : '\n' ∉ f) :
    NumericLine (f ++ ['\n']) ↔ (strtod f).2 = [] := by
  unfold NumericLine
  rw [strtod_append_nl]
  constructor
  · rintro ⟨-, h⟩
    cases hr : (strtod f).2 with
    | nil => rfl
    | cons a r =>
      exfalso
      rw [hr] at h
      have ha : a ∈ f := (strtod_suffix f).subset (by rw [hr]; exact List.mem_cons_self _ _)
      have : a = '\n' := h
      rw [this] at ha
      exact hn ha
  · intro h
    refine ⟨by simp, ?_⟩
    simp only [h]
    rfl

theorem fieldHead_append_nl {d : Char} {s : CStr} (h : d ∈ s) :
    fieldHead d (s ++ ['\n']) = fieldHead d s ∧ fieldTail d (s ++ ['\n']) = fieldTail d s ++ ['\n'] := by
  induction s with
  | nil => simp at h
  | cons a s ih =>
    by_cases ha : a = d
    · subst ha
      simp [fieldHead, fieldTail, List.takeWhile, List.dropWhile]
    · have hs : d ∈ s := by
        rcases List.mem_cons.mp h with h | h
        · exact absurd h.symm ha
        · exact h
      have := ih hs
      unfold fieldHead fieldTail at this ⊢
      simp [List.takeWhile, List.dropWhile, ha, this.1, this.2]

theorem fieldHead_append_nl_of_not_mem {d : Char} {s : CStr} (h : d ∉ s) (hd : d ≠ '\n') :
    fieldHead d (s ++ ['\n']) = s ++ ['\n'] ∧ fieldHead d s = s := by
  refine ⟨fieldHead_of_not_mem ?_, fieldHead_of_not_mem h⟩
  simp only [List.mem_append, List.mem_singleton, not_or]
  exact ⟨h, hd⟩

theorem countChar_fieldTail_of_mem {d : Char} {s : CStr} (h : d ∈ s) :
    countChar d s = countChar d (fieldTail d s) + 1 := by
  induction s with
  | nil => simp at h
  | cons a s ih =>
    by_cases ha : a = d
    · subst ha
      simp [countChar, fieldTail, List.dropWhile]
    · have hs : d ∈ s := by
        rcases List.mem_cons.mp h with h | h
        · exact absurd h.symm ha
        · exact h
      have := ih hs
      unfold countChar fieldTail at this ⊢
      rw [List.count_cons_of_ne (fun h => ha h.symm)]
      simpa [List.dropWhile, ha] using this

theorem mem_of_countChar_pos {d : Char} {s : CStr} (h : 0 < countChar d s) : d ∈ s :=
  List.count_pos_iff.mp h

theorem fields_append_nl {s : CStr} (hc : countChar ',' s = 3) :
    field ',' 0 (s ++ ['\n']) = field ',' 0 s ∧ field ',' 1 (s ++ ['\n']) = field ',' 1 s
    ∧ field ',' 2 (s ++ ['\n']) = field ',' 2 s
    ∧ field ',' 3 (s ++ ['\n']) = field ',' 3 s ++ ['\n'] := by
  have m0 : ',' ∈ s := mem_of_countChar_pos (by omega)
  have c1 := countChar_fieldTail_of_mem m0
  have m1 : ',' ∈ fieldTail ',' s := mem_of_countChar_pos (by omega)
  have c2 := countChar_fieldTail_of_mem m1
  have m2 : ',' ∈ fieldTail ',' (fieldTail ',' s) := mem_of_countChar_pos (by omega)
  have c3 := countChar_fieldTail_of_mem m2
  have m3 : ',' ∉ fieldTail ',' (fieldTail ',' (fieldTail ',' s)) := by
    intro h
    have := List.count_pos_iff.mpr h
    unfold countChar at c1 c2 c3 hc
    omega
  obtain ⟨a0, b0⟩ := fieldHead_append_nl m0
  obtain ⟨a1, b1⟩ := fieldHead_append_nl m1
  obtain ⟨a2, b2⟩ := fieldHead_append_nl m2
  obtain ⟨a3, b3⟩ := fieldHead_append_nl_of_not_mem m3 (by decide)
  refine ⟨a0, ?_, ?_, ?_⟩
  · show fieldHead ',' (fieldTail ',' (s ++ ['\n'])) = fieldHead ',' (fieldTail ',' s)
    rw [b0, a1]
  · show fieldHead ',' (fieldTail ',' (fieldTail ',' (s ++ ['\n'])))
      = fieldHead ',' (fieldTail ',' (fieldTail ',' s))
    rw [b0, b1, a2]
  · show fieldHead ',' (fieldTail ',' (fieldTail ',' (fieldTail ',' (s ++ ['\n']))))
      = fieldHead ',' (fieldTail ',' (fieldTail ',' (fieldTail ',' s))) ++ ['\n']
    rw [b0, b1, b2, a3, b3]

theorem countChar_append_nl (s : CStr) : countChar ',' (s ++ ['\n']) = countChar ',' s := by
  unfold countChar
  rw [List.count_append]
  rfl

/-- A `--loopable` string without a newline and with text after its third comma is
valid exactly when, with a newline after it, it passes the checks of `range`; the
fields and the numbers read from them are the same. -/
theorem loopableValid_iff_accepted {s : CStr} (hn : '\n' ∉ s)
    (he : countChar ',' s = 3 → field ',' 3 s ≠ []) :
    (LoopableValid s ↔ RangeArgAccepted (s ++ ['\n']))
    ∧ (countChar ',' s = 3 →
        field ',' 0 (s ++ ['\n']) = field ',' 0 s ∧ numField 1 (s ++ ['\n']) = numField 1 s
        ∧ numField 2 (s ++ ['\n']) = numField 2 s
        ∧ numField 3 (s ++ ['\n']) = numField 3 s) := by
  have key : countChar ',' s = 3 →
      field ',' 0 (s ++ ['\n']) = field ',' 0 s ∧ numField 1 (s ++ ['\n']) = numField 1 s
      ∧ numField 2 (s ++ ['\n']) = numField 2 s
      ∧ numField 3 (s ++ ['\n']) = numField 3 s := by
    intro hc
    obtain ⟨f0, f1, f2, f3⟩ := fields_append_nl hc
    refine ⟨f0, ?_, ?_, ?_⟩
    · unfold numField; rw [f1]
    · unfold numField; rw [f2]
    · unfold numField; rw [f3, strtod_append_nl]
  refine ⟨?_, key⟩
  unfold LoopableValid RangeArgAccepted
  rw [countChar_append_nl]
  by_cases hc : countChar ',' s = 3
  · obtain ⟨f0, f1, f2, f3⟩ := fields_append_nl hc
    obtain ⟨-, n1, n2, n3⟩ := key hc
    have hn3 : '\n' ∉ field ',' 3 s := by
      intro h
      apply hn
      have h1 : field ',' 3 s <:+ s := by
        show fieldHead ',' (fieldTail ',' (fieldTail ',' (fieldTail ',' s))) <:+ s
        have m3 : ',' ∉ fieldTail ',' (fieldTail ',' (fieldTail ',' s)) := by
          intro h
          have := List.count_pos_iff.mpr h
          have c1 := countChar_fieldTail_of_mem (mem_of_countChar_pos (by omega) : ',' ∈ s)
          have c2 := countChar_fieldTail_of_mem
            (mem_of_countChar_pos (by omega) : ',' ∈ fieldTail ',' s)
          have c3 := countChar_fieldTail_of_mem
            (mem_of_countChar_pos (by omega) : ',' ∈ fieldTail ',' (fieldTail ',' s))
          unfold countChar at c1 c2 c3 hc
          omega
        rw [fieldHead_of_not_mem m3]
        unfold fieldTail
        exact ((List.drop_suffix _ _).trans (List.dropWhile_suffix _)).trans
          (((List.drop_suffix _ _).trans (List.dropWhile_suffix _)).trans
            ((List.drop_suffix _ _).trans (List.dropWhile_suffix _)))
      exact h1.subset h
    rw [f0, f1, f2, f3, n1, n2, n3, numericLine_append_nl _ hn3]
    unfold Numeric
    constructor
    · rintro ⟨h1, h2, h3, h4, h5, h6⟩
      exact ⟨h1, h2, h3, h4, h5.2, h6⟩
    · rintro ⟨h1, h2, h3, h4, h5, h6⟩
      exact ⟨h1, h2, h3, h4, ⟨he hc, h5⟩, h6⟩
  · exact ⟨fun h => absurd h.1 hc, fun h => absurd h.1 hc⟩

theorem decode_single_loopable (s : CStr) :
    decode_loops_strings [s] ⟨[], 0⟩
      = if LoopableValid s then (0, [loopableEntry s]) else (INVALID_VARIABLES_ERROR, []) := by
  unfold decode_loops_strings decode_loops_strings_from
  by_cases hv : LoopableValid s
  · rw [if_pos hv, if_neg (by simpa [LOOP_COMMAS] using hv.1)]
    simp only [extend_loops_of_valid hv]
    rw [if_neg (by simp)]
    simp [decode_loops_strings_from]
  · rw [if_neg hv]
    by_cases hc : countChar ',' s = 3
    · rw [if_neg (by simpa [LOOP_COMMAS] using hc)]
      simp only [extend_loops_of_not_valid hc hv]
      rw [if_pos (by simp [INVALID_VARIABLES_ERROR])]
    · rw [if_pos (by simpa [LOOP_COMMAS] using hc)]

/-- C12, the case that fails. The string `a,0,1, 5` (a blank before the end value) is
accepted by the initial decoder, which declares the loop `a` from 0 by 1 to 5; the line
`@range a,0,1, 5` is not handed to `range` at all, because it has two blanks: it is
given to the evaluator as an expression and no loop is declared. -/
theorem C12_blank_in_field :
    '\n' ∉ "a,0,1, 5".toList
    ∧ decode_loops_strings ["a,0,1, 5".toList] ⟨[], 0⟩ = (0, [⟨['a'], 0, 0, 1, 5⟩])
    ∧ detect_range_print "@range a,0,1, 5\n".toList storesEmpty 3
        = some ⟨0, storesEmpty, []⟩
    ∧ download_line teLiteral 3 storesEmpty "@range a,0,1, 5\n".toList
        = some (storesEmpty, [Ev.compile "@range a,0,1, 5\n".toList [] storesEmpty, Ev.err]) := by
  decide!

/-- C12, as the code has it. For a string `s` without a newline, without a blank and
with some text after its third comma: the initial decoder accepts `s` exactly when the
line `@range s` + newline is handed to `range` and accepted there, and both then
declare the same loop (name, start, increment and end). Both are decided by
`LoopableValid s`; from empty stores the decoder gives the loop `loopableEntry s` and
the line gives the same loop and prints it, and for an invalid `s` the decoder
returns 12 and the line gives the diagnostic. In any stores `range` declares the loop
of `s` or rejects the argument. -/
theorem C12_loopable_as_range (s : CStr) (sf : Nat) (hn : '\n' ∉ s) (hs : ' ' ∉ s)
    (h0 : '\x00' ∉ s) (he : countChar ',' s = 3 → field ',' 3 s ≠ []) :
    decode_loops_strings [s] ⟨[], 0⟩
      = (if LoopableValid s then (0, [loopableEntry s]) else (INVALID_VARIABLES_ERROR, []))
    ∧ detect_range_print ("@range ".toList ++ (s ++ ['\n'])) storesEmpty sf
      = some (if LoopableValid s then
            ⟨1, ⟨⟨[], 0⟩, [loopableEntry s]⟩, [loopLine sf (loopableEntry s)]⟩
          else ⟨1, storesEmpty, [Ev.err]⟩)
    ∧ ∀ st : Stores, range (s ++ ['\n']) st sf
      = if LoopableValid s then
          range_new_loop st (loopableEntry s).name (loopableEntry s).startingValue
            (loopableEntry s).increment (loopableEntry s).endValue sf
        else ⟨INVALID_VARIABLES_ERROR, st, []⟩ := by
  obtain ⟨hiff, hf⟩ := loopableValid_iff_accepted hn he
  have hr : ∀ st : Stores, range (s ++ ['\n']) st sf
      = if LoopableValid s then
          range_new_loop st (loopableEntry s).name (loopableEntry s).startingValue
            (loopableEntry s).increment (loopableEntry s).endValue sf
        else ⟨INVALID_VARIABLES_ERROR, st, []⟩ := by
    intro st
    by_cases hv : LoopableValid s
    · obtain ⟨f0, f1, f2, f3⟩ := hf hv.1
      rw [if_pos hv, range_of_accepted (hiff.mp hv), f0, f1, f2, f3]
      rfl
    · rw [if_neg hv, range_of_not_accepted (fun h => hv (hiff.mpr h))]
  refine ⟨decode_single_loopable s, ?_, hr⟩
  rw [detect_range_print_routed (s ++ ['\n']) storesEmpty sf
    (by
      simp only [List.mem_append, List.mem_singleton, not_or]
      exact ⟨h0, by decide⟩)
    (by
      simp only [List.mem_append, List.mem_singleton, not_or]
      exact ⟨hs, by decide⟩)
    (by simp), hr]
  by_cases hv : LoopableValid s
  · simp only [if_pos hv]
    rfl
  · simp only [if_neg hv]
    rfl

theorem C12_witness :
    ('\n' ∉ "a,0,1,5".toList ∧ ' ' ∉ "a,0,1,5".toList ∧ '\x00' ∉ "a,0,1,5".toList
      ∧ (countChar ',' "a,0,1,5".toList = 3 → field ',' 3 "a,0,1,5".toList ≠ []))
    ∧ decode_loops_strings ["a,0,1,5".toList] ⟨[], 0⟩
      = (if LoopableValid "a,0,1,5".toList then (0, [loopableEntry "a,0,1,5".toList])
          else (INVALID_VARIABLES_ERROR, []))
    ∧ detect_range_print ("@range ".toList ++ ("a,0,1,5".toList ++ ['\n'])) storesEmpty 3
      = some (if LoopableValid "a,0,1,5".toList then
            ⟨1, ⟨⟨[], 0⟩, [loopableEntry "a,0,1,5".toList]⟩,
              [loopLine 3 (loopableEntry "a,0,1,5".toList)]⟩
          else ⟨1, storesEmpty, [Ev.err]⟩) :=
  ⟨⟨by decide, by decide, by decide, fun _ => by decide⟩,
    (C12_loopable_as_range "a,0,1,5".toList 3 (by decide) (by decide) (by decide)
      (fun _ => by decide)).1,
    (C12_loopable_as_range "a,0,1,5".toList 3 (by decide) (by decide) (by decide)
      (fun _ => by decide)).2.1⟩

/-! ## The stores from one iteration of `loop_assignment` to the next -/

theorem getLast?_cons_of_ne_nil {α : Type} (a : α) {l : List α} (h : l ≠ []) :
    (a :: l).getLast? = l.getLast? := by
  cases l with
  | nil => exact absurd rfl h
  | cons b l => exact List.getLast?_cons_cons

theorem loop_assignment_from_calls_ne_nil (te : CStr → Table → Option ℚ) (sf : Nat)
    (li vi : Option Nat) (ev : CStr) (k : Nat) (e : CStr) (n i : Nat) (st : Stores) :
    calls (loop_assignment_from te sf li vi ev k e (n + 1) i st).out ≠ [] := by
  unfold loop_assignment_from
  simp only []
  split <;> simp [calls]

theorem loop_assignment_from_head (te : CStr → Table → Option ℚ) (sf : Nat)
    (li vi : Option Nat) (ev : CStr) (k : Nat) (e : CStr) (n i : Nat) (st : Stores)
    (c : CStr × Table × Stores)
    (h : (calls (loop_assignment_from te sf li vi ev k e n i st).out)[0]? = some c) :
    c = (e, tableLV (advance st k i), advance st k i) := by
  cases n with
  | zero => simp [loop_assignment_from, calls] at h
  | succ n =>
    unfold loop_assignment_from at h
    simp only [] at h
    split at h
    · simp only [calls, List.getElem?_cons_zero, Option.some.injEq] at h
      exact h.symm
    · simp only [calls, List.getElem?_cons_zero, Option.some.injEq] at h
      exact h.symm

theorem loop_assignment_from_next (te : CStr → Table → Option ℚ) (sf : Nat)
    (li vi : Option Nat) (ev : CStr) (k : Nat) (e : CStr) (n i : Nat) (st : Stores)
    (j : Nat) (c c1 : CStr × Table × Stores)
    (h : (calls (loop_assignment_from te sf li vi ev k e n i st).out)[j]? = some c)
    (h1 : (calls (loop_assignment_from te sf li vi ev k e n i st).out)[j + 1]? = some c1) :
    ∃ v, te e c.2.1 = some v
      ∧ c1.2.2 = advance (loop_print_assignment v c.2.2 ev li vi sf k (i + j)).1 k
          (i + j + 1) := by
  induction n generalizing i st j with
  | zero => simp [loop_assignment_from, calls] at h
  | succ n ih =>
    unfold loop_assignment_from at h h1
    simp only [] at h h1
    split at h
    · rename_i value hv
      simp only [hv, calls] at h h1
      cases j with
      | zero =>
        simp only [List.getElem?_cons_zero, Option.some.injEq] at h
        simp only [Nat.zero_add, List.getElem?_cons_succ] at h1
        have hc1 := loop_assignment_from_head te sf li vi ev k e n (i + 1) _ c1 h1
        subst h
        exact ⟨value, hv, by rw [hc1]; rfl⟩
      | succ j =>
        simp only [List.getElem?_cons_succ] at h h1
        obtain ⟨v, hv1, hv2⟩ := ih (i + 1) _ j h h1
        have e1 : i + 1 + j = i + (j + 1) := by omega
        rw [e1] at hv2
        exact ⟨v, hv1, hv2⟩
    · rename_i hv
      simp only [hv, calls] at h1
      simp at h1

theorem loop_assignment_from_last (te : CStr → Table → Option ℚ) (sf : Nat)
    (li vi : Option Nat) (ev : CStr) (k : Nat) (e : CStr) (n i : Nat) (st : Stores)
    (c : CStr × Table × Stores)
    (h0 : (loop_assignment_from te sf li vi ev k e n i st).ret = 0)
    (h : (calls (loop_assignment_from te sf li vi ev k e n i st).out).getLast? = some c) :
    ∃ v i1, te e c.2.1 = some v
      ∧ (loop_assignment_from te sf li vi ev k e n i st).st
          = (loop_print_assignment v c.2.2 ev li vi sf k i1).1 := by
  induction n generalizing i st with
  | zero => simp [loop_assignment_from, calls] at h
  | succ n ih =>
    unfold loop_assignment_from at h h0 ⊢
    simp only [] at h h0 ⊢
    split at h
    · rename_i value hv
      simp only [hv] at h0 ⊢
      simp only [calls] at h
      cases n with
      | zero =>
        simp only [loop_assignment_from, calls, List.getLast?_singleton,
          Option.some.injEq] at h ⊢
        subst h
        exact ⟨value, i, hv, rfl⟩
      | succ m =>
        rw [getLast?_cons_of_ne_nil _
          (loop_assignment_from_calls_ne_nil te sf li vi ev k e m _ _)] at h
        exact ih (i + 1) _ h0 h
    · rename_i hv
      simp only [hv] at h0
      simp at h0

theorem findVariable_some {n : CStr} {xs : List Variable} {i : Nat}
    (h : findVariable n xs = some i) : (xs.map (fun v => v.name))[i]? = some n := by
  induction xs generalizing i with
  | nil => simp [findVariable] at h
  | cons x xs ih =>
    unfold findVariable at h
    by_cases hx : x.name = n
    · rw [if_pos hx] at h
      simp only [Option.some.injEq] at h
      subst h
      simp [hx]
    · rw [if_neg hx] at h
      cases hf : findVariable n xs with
      | none => simp [hf] at h
      | some j =>
        simp only [hf, Option.map_some', Option.some.injEq] at h
        subst h
        simpa using ih hf

theorem findLoop_some {n : CStr} {ls : List Loop} {i : Nat}
    (h : findLoop n ls = some i) : (ls.map (fun l => l.name))[i]? = some n := by
  induction ls generalizing i with
  | nil => simp [findLoop] at h
  | cons x xs ih =>
    unfold findLoop at h
    by_cases hx : x.name = n
    · rw [if_pos hx] at h
      simp only [Option.some.injEq] at h
      subst h
      simp [hx]
    · rw [if_neg hx] at h
      cases hf : findLoop n xs with
      | none => simp [hf] at h
      | some j =>
        simp only [hf, Option.map_some', Option.some.injEq] at h
        subst h
        simpa using ih hf

theorem loop_print_assignment_loop (v : ℚ) (s : Stores) (ev : CStr) (li sf k i : Nat) :
    (loop_print_assignment v s ev (some li) none sf k i).1 = writeLoop s li v := rfl

theorem loop_print_assignment_var (v : ℚ) (s : Stores) (ev : CStr) (li : Option Nat)
    (vi sf k i : Nat) :
    (loop_print_assignment v s ev li (some vi) sf k i).1 = writeVariable s vi v := rfl

theorem loop_assignment_iterates {te : CStr → Table → Option ℚ} {st : Stores} {sf : Nat}
    {li vi : Option Nat} {ev : CStr} {k : Nat} {e : CStr} {r : Res}
    (h : loop_assignment te st sf li vi ev k (some e) = some r)
    (write : Stores → ℚ → Stores)
    (hw : ∀ v s i, (loop_print_assignment v s ev li vi sf k i).1 = write s v) :
    IteratesWith te e k write r
    ∧ ∀ c, (calls r.out)[0]? = some c → c = (e, tableLV (advance st k 0), advance st k 0) := by
  unfold loop_assignment at h
  cases hl : st.loops[k]? with
  | none => simp [hl] at h
  | some l =>
    cases hreps : repetitions l with
    | none => simp [hl, hreps] at h
    | some reps =>
      simp only [hl, hreps, Option.some.injEq] at h
      subst h
      refine ⟨⟨fun j c c1 hc hc1 => ?_, fun h0 c hc => ?_⟩, fun c hc => ?_⟩
      · obtain ⟨v, hv, hst⟩ := loop_assignment_from_next te sf li vi ev k e _ 0 st j c c1 hc hc1
        rw [hw] at hst
        simp only [Nat.zero_add] at hst
        exact ⟨v, hv, hst⟩
      · obtain ⟨v, i1, hv, hst⟩ := loop_assignment_from_last te sf li vi ev k e _ 0 st c h0 hc
        rw [hw] at hst
        exact ⟨v, hv, hst⟩
      · exact loop_assignment_from_head te sf li vi ev k e _ 0 st c hc

/-- The assignment form of `@loop` over the loop at index `k`, with target `t` (a
word, so not the single blank) and expression `e`, from stores that satisfy the
invariant. The target is looked up once, before the iterations. If `t` names a loop,
no variable is created and every iteration writes the value it evaluates into the
current value of that loop; if `t` names a live variable, no variable is created and
every iteration writes the value of that variable; if `t` names neither, one variable
`t` with the value 0 is appended (the evaluator sees it with that value at its first
call), the store has exactly that one slot more at the end, and every iteration writes
the value of that slot. -/
theorem loop_assignment_form_resolved (te : CStr → Table → Option ℚ) (st : Stores) (sf k : Nat)
    (t e : CStr) (r : Res) (hi : Inv st) (hs : t ≠ sentinel)
    (h : loop_assignment_form te st sf k t e = some r) :
    (t ∈ loopNames st →
      ∃ li, (loopNames st)[li]? = some t ∧ varNames r.st = varNames st
        ∧ IteratesWith te e k (fun s v => writeLoop s li v) r)
    ∧ (t ∈ liveNames st →
      ∃ vi, (varNames st)[vi]? = some t ∧ varNames r.st = varNames st
        ∧ IteratesWith te e k (fun s v => writeVariable s vi v) r)
    ∧ (t ∉ loopNames st → t ∉ liveNames st →
      varNames r.st = varNames st ++ [t]
      ∧ (∀ c, (calls r.out)[0]? = some c →
          c.2.2.vars.entries = st.vars.entries ++ [⟨t, 0⟩])
      ∧ IteratesWith te e k (fun s v => writeVariable s st.vars.entries.length v) r) := by
  have hlive : t ∈ liveNames st ↔ t ∈ st.vars.entries.map (fun v => v.name) := by
    unfold liveNames varNames
    simp only [List.mem_filter, decide_eq_true_eq, ne_eq]
    exact ⟨fun h => h.1, fun h => ⟨h, hs⟩⟩
  have hdisj : t ∈ loopNames st → t ∉ st.vars.entries.map (fun v => v.name) := by
    intro hl hv
    exact (List.nodup_append.mp hi.2).2.2 (hlive.mpr hv) hl
  unfold loop_assignment_form loop_assignment_setup at h
  simp only [if_neg hs] at h
  refine ⟨fun hl => ?_, fun hv => ?_, fun hl hv => ?_⟩
  · have hfv : findVariable t st.vars.entries = none := findVariable_none.mpr (hdisj hl)
    cases hfl : findLoop t st.loops with
    | none => exact absurd hl (findLoop_none.mp hfl)
    | some li =>
      simp only [hfv, hfl, true_and] at h
      rw [if_neg (by simp)] at h
      simp only [ne_eq, not_true_eq_false, if_false] at h
      exact ⟨li, findLoop_some hfl, (loop_assignment_shape h).1,
        (loop_assignment_iterates h _ (fun v s i => loop_print_assignment_loop v s t li sf k i)).1⟩
  · cases hfv : findVariable t st.vars.entries with
    | none => exact absurd (hlive.mp hv) (findVariable_none.mp hfv)
    | some vi =>
      simp only [hfv] at h
      rw [if_neg (by simp)] at h
      simp only [ne_eq, not_true_eq_false, if_false] at h
      exact ⟨vi, findVariable_some hfv, (loop_assignment_shape h).1,
        (loop_assignment_iterates h _
          (fun v s i => loop_print_assignment_var v s t _ vi sf k i)).1⟩
  · have hfv : findVariable t st.vars.entries = none :=
      findVariable_none.mpr (fun hm => hv (hlive.mpr hm))
    have hfl : findLoop t st.loops = none := findLoop_none.mpr hl
    simp only [hfv, hfl, and_self, if_true] at h
    simp only [ne_eq, not_true_eq_false, if_false] at h
    obtain ⟨hit, hhead⟩ := loop_assignment_iterates h _
      (fun v s i => loop_print_assignment_var v s t none st.vars.entries.length sf k i)
    refine ⟨?_, fun c hc => ?_, hit⟩
    · rw [(loop_assignment_shape h).1]
      simp [varNames]
    · rw [hhead c hc]
      rfl

/-! ## The value a binding table has for the target of a loop assignment -/

theorem table_unique {tab : Table} {t : CStr} {v : ℚ} (hd : (tab.map Prod.fst).Nodup)
    (hm : (t, v) ∈ tab) : ∀ p ∈ tab, p.1 = t → p.2 = v := by
  induction tab with
  | nil => simp at hm
  | cons q tab ih =>
    simp only [List.map_cons, List.nodup_cons, List.mem_map, not_exists, not_and] at hd
    intro p hp hpt
    rcases List.mem_cons.mp hm with hm1 | hm1
    · rcases List.mem_cons.mp hp with hp1 | hp1
      · rw [hp1, ← hm1]
      · exact absurd (hpt.trans (by rw [← hm1])) (hd.1 p hp1)
    · rcases List.mem_cons.mp hp with hp1 | hp1
      · rw [hp1] at hpt
        exact absurd (show (t, v).1 = q.1 from hpt.symm) (hd.1 (t, v) hm1)
      · exact ih hd.2 hm1 p hp1 hpt

theorem mem_bind_vars_iff {xs : List Variable} {t : CStr} {v : ℚ} :
    (t, v) ∈ bind_vars xs ↔ ∃ x ∈ xs, x.name ≠ sentinel ∧ x.name = t ∧ x.value = v := by
  unfold bind_vars
  simp only [List.mem_map, List.mem_filter, decide_eq_true_eq, Prod.mk.injEq]
  constructor
  · rintro ⟨x, ⟨hx, hs⟩, hn, hv⟩
    exact ⟨x, hx, hs, hn, hv⟩
  · rintro ⟨x, hx, hs, hn, hv⟩
    exact ⟨x, ⟨hx, hs⟩, hn, hv⟩

theorem mem_bind_loops_iff {ls : List Loop} {t : CStr} {v : ℚ} :
    (t, v) ∈ bind_loops ls
      ↔ ∃ l ∈ ls, l.name ≠ sentinel ∧ l.name = t ∧ l.currentValue = v := by
  unfold bind_loops
  simp only [List.mem_map, List.mem_filter, decide_eq_true_eq, Prod.mk.injEq]
  constructor
  · rintro ⟨x, ⟨hx, hs⟩, hn, hv⟩
    exact ⟨x, hx, hs, hn, hv⟩
  · rintro ⟨x, hx, hs, hn, hv⟩
    exact ⟨x, ⟨hx, hs⟩, hn, hv⟩

theorem mem_bind_vars_setValue {xs : List Variable} {i : Nat} {t : CStr} (v : ℚ)
    (h : (xs.map (fun x => x.name))[i]? = some t) (hs : t ≠ sentinel) :
    (t, v) ∈ bind_vars (setValue xs i v) := by
  rw [mem_bind_vars_iff]
  induction xs generalizing i with
  | nil => simp at h
  | cons x xs ih =>
    cases i with
    | zero =>
      simp only [List.map_cons, List.getElem?_cons_zero, Option.some.injEq] at h
      exact ⟨⟨x.name, v⟩, List.mem_cons_self _ _, by rw [h]; exact hs, h, rfl⟩
    | succ i =>
      simp only [List.map_cons, List.getElem?_cons_succ] at h
      obtain ⟨y, hy, hy2⟩ := ih h
      exact ⟨y, List.mem_cons_of_mem _ hy, hy2⟩

theorem mem_bind_loops_setCurrentValue {ls : List Loop} {i : Nat} {t : CStr} (v : ℚ)
    (h : (ls.map (fun l => l.name))[i]? = some t) (hs : t ≠ sentinel) :
    (t, v) ∈ bind_loops (setCurrentValue ls i v) := by
  rw [mem_bind_loops_iff]
  induction ls generalizing i with
  | nil => simp at h
  | cons x xs ih =>
    cases i with
    | zero =>
      simp only [List.map_cons, List.getElem?_cons_zero, Option.some.injEq] at h
      exact ⟨{ x with currentValue := v }, List.mem_cons_self _ _, by rw [h]; exact hs, h, rfl⟩
    | succ i =>
      simp only [List.map_cons, List.getElem?_cons_succ] at h
      obtain ⟨y, hy, hy2⟩ := ih h
      exact ⟨y, List.mem_cons_of_mem _ hy, hy2⟩

theorem mem_bind_loops_setCurrentValue_ne {ls : List Loop} {k : Nat} {t : CStr} {x : ℚ}
    (y : ℚ) (h : (t, x) ∈ bind_loops ls) (hk : (loopAt ls k).name ≠ t) :
    (t, x) ∈ bind_loops (setCurrentValue ls k y) := by
  rw [mem_bind_loops_iff] at h ⊢
  induction ls generalizing k with
  | nil => simp at h
  | cons l ls ih =>
    obtain ⟨m, hm, hm2⟩ := h
    cases k with
    | zero =>
      rcases List.mem_cons.mp hm with hm | hm
      · subst hm
        exact absurd hm2.2.1 hk
      · exact ⟨m, List.mem_cons_of_mem _ hm, hm2⟩
    | succ k =>
      rcases List.mem_cons.mp hm with hm | hm
      · subst hm
        exact ⟨m, List.mem_cons_self _ _, hm2⟩
      · obtain ⟨z, hz, hz2⟩ := ih (k := k) ⟨m, hm, hm2⟩ hk
        exact ⟨z, List.mem_cons_of_mem _ hz, hz2⟩

theorem loop_assignment_target_next {te : CStr → Table → Option ℚ} {st : Stores} {sf : Nat}
    {li vi : Option Nat} {t : CStr} {k : Nat} {e : CStr} {r : Res} (hi : Inv st)
    (hk : k < st.loops.length) (hs : t ≠ sentinel) (ht : (loopAt st.loops k).name ≠ t)
    (hslot : (∃ v0, vi = some v0 ∧ (varNames st)[v0]? = some t)
      ∨ (vi = none ∧ ∃ l0, li = some l0 ∧ (loopNames st)[l0]? = some t))
    (h : loop_assignment te st sf li vi t k (some e) = some r) :
    (∀ (j : Nat) (c : CStr × Table × Stores),
        (calls r.out)[j]? = some c → c.1 = e ∧ c.2.1 = tableLV c.2.2)
    ∧ (∀ (j : Nat) (c c1 : CStr × Table × Stores),
        (calls r.out)[j]? = some c → (calls r.out)[j + 1]? = some c1 →
        ∃ v, te e c.2.1 = some v ∧ (t, v) ∈ c1.2.1 ∧ ∀ p ∈ c1.2.1, p.1 = t → p.2 = v)
    ∧ (∀ c : CStr × Table × Stores, (calls r.out)[0]? = some c →
        ∀ x, (t, x) ∈ tableLV st → (t, x) ∈ c.2.1) := by
  unfold loop_assignment at h
  cases hl : st.loops[k]? with
  | none => simp [hl] at h
  | some l =>
    cases hreps : repetitions l with
    | none => simp [hl, hreps] at h
    | some reps =>
      simp only [hl, hreps, Option.some.injEq] at h
      subst h
      have hshape := (loop_assignment_from_calls te sf li vi t k e reps.toNat 0 st hk).2.2
      refine ⟨fun j c hc => ⟨(hshape j c hc).1, (hshape j c hc).2.1⟩,
        fun j c c1 hc hc1 => ?_, fun c hc x hx => ?_⟩
      · obtain ⟨v, hv, hst⟩ :=
          loop_assignment_from_next te sf li vi t k e _ 0 st j c c1 hc hc1
        obtain ⟨-, -, cv, ckey, -⟩ := hshape j c hc
        obtain ⟨-, c1tab, c1v, c1key, -⟩ := hshape (j + 1) c1 hc1
        have hinv : Inv c1.2.2 := Inv_of_shape c1v c1key hi
        have hmem : (t, v) ∈ c1.2.1 := by
          rw [c1tab, hst]
          unfold advance tableLV
          simp only [List.mem_append]
          rcases hslot with ⟨v0, rfl, hv0⟩ | ⟨rfl, l0, rfl, hl0⟩
          · right
            rw [loop_print_assignment_var]
            apply mem_bind_vars_setValue v _ hs
            have : c.2.2.vars.entries.map (fun x => x.name) = varNames st := cv
            rw [this]
            exact hv0
          · left
            rw [loop_print_assignment_loop]
            apply mem_bind_loops_setCurrentValue_ne
            · apply mem_bind_loops_setCurrentValue v _ hs
              have : c.2.2.loops.map (fun l => l.name) = loopNames st :=
                loopNames_eq_of_key ckey
              rw [this]
              exact hl0
            · have hkk := loopAt_key_of_keys
                ((setCurrentValue_key c.2.2.loops l0 v).trans ckey) k
              have hn : (loopAt (setCurrentValue c.2.2.loops l0 v) k).name
                  = (loopAt st.loops k).name := congrArg Prod.fst hkk
              show (loopAt (setCurrentValue c.2.2.loops l0 v) k).name ≠ t
              rw [hn]
              exact ht
        refine ⟨v, hv, hmem, table_unique ?_ hmem⟩
        rw [c1tab]
        exact tableLV_nodup hinv
      · rw [loop_assignment_from_head te sf li vi t k e _ 0 st c hc]
        show (t, x) ∈ tableLV (advance st k 0)
        unfold tableLV at hx ⊢
        unfold advance
        simp only [List.mem_append] at hx ⊢
        rcases hx with hx | hx
        · exact Or.inl (mem_bind_loops_setCurrentValue_ne _ hx ht)
        · exact Or.inr hx

theorem loop_assignment_form_target {te : CStr → Table → Option ℚ} {st : Stores}
    {sf k : Nat} {t e : CStr} {r : Res} (hi : Inv st) (hk : k < st.loops.length)
    (hs : t ≠ sentinel) (ht : (loopAt st.loops k).name ≠ t)
    (h : loop_assignment_form te st sf k t e = some r) :
    (∀ (j : Nat) (c : CStr × Table × Stores),
        (calls r.out)[j]? = some c → c.1 = e ∧ c.2.1 = tableLV c.2.2)
    ∧ (∀ (j : Nat) (c c1 : CStr × Table × Stores),
        (calls r.out)[j]? = some c → (calls r.out)[j + 1]? = some c1 →
        ∃ v, te e c.2.1 = some v ∧ (t, v) ∈ c1.2.1 ∧ ∀ p ∈ c1.2.1, p.1 = t → p.2 = v)
    ∧ (∀ c : CStr × Table × Stores, (calls r.out)[0]? = some c →
        (∀ x, (t, x) ∈ tableLV st → (t, x) ∈ c.2.1)
        ∧ (t ∉ loopNames st → t ∉ liveNames st → (t, 0) ∈ c.2.1)) := by
  have hlive : t ∈ liveNames st ↔ t ∈ st.vars.entries.map (fun v => v.name) := by
    unfold liveNames varNames
    simp only [List.mem_filter, decide_eq_true_eq, ne_eq]
    exact ⟨fun h => h.1, fun h => ⟨h, hs⟩⟩
  unfold loop_assignment_form loop_assignment_setup at h
  simp only [if_neg hs] at h
  by_cases hboth : findVariable t st.vars.entries = none ∧ findLoop t st.loops = none
  · simp only [hboth.1, hboth.2, and_self, if_true, ne_eq, not_true_eq_false, if_false] at h
    have hv : t ∉ varNames st := findVariable_none.mp hboth.1
    have hl : t ∉ loopNames st := findLoop_none.mp hboth.2
    have hi2 := @Inv_append_var st t 0 hi hs hv hl
    obtain ⟨g1, g2, g3⟩ := loop_assignment_target_next hi2 hk hs ht
      (Or.inl ⟨st.vars.entries.length, rfl, by simp [varNames]⟩) h
    refine ⟨g1, g2, fun c hc => ⟨fun x hx => g3 c hc x ?_, fun _ _ => g3 c hc 0 ?_⟩⟩
    · unfold tableLV at hx ⊢
      simp only [List.mem_append] at hx ⊢
      rcases hx with hx | hx
      · exact Or.inl hx
      · right
        rw [mem_bind_vars_iff] at hx ⊢
        obtain ⟨y, hy, hy2⟩ := hx
        exact ⟨y, List.mem_append_left _ hy, hy2⟩
    · unfold tableLV
      simp only [List.mem_append]
      right
      rw [mem_bind_vars_iff]
      exact ⟨⟨t, 0⟩, by simp, hs, rfl, rfl⟩
  · have hslot : (∃ v0, findVariable t st.vars.entries = some v0 ∧ (varNames st)[v0]? = some t)
        ∨ (findVariable t st.vars.entries = none
          ∧ ∃ l0, findLoop t st.loops = some l0 ∧ (loopNames st)[l0]? = some t) := by
      cases hfv : findVariable t st.vars.entries with
      | some v0 => exact Or.inl ⟨v0, rfl, findVariable_some hfv⟩
      | none =>
        cases hfl : findLoop t st.loops with
        | some l0 => exact Or.inr ⟨rfl, l0, rfl, findLoop_some hfl⟩
        | none => exact absurd ⟨hfv, hfl⟩ hboth
    rw [if_neg hboth] at h
    simp only [ne_eq, not_true_eq_false, if_false] at h
    obtain ⟨g1, g2, g3⟩ := loop_assignment_target_next hi hk hs ht hslot h
    refine ⟨g1, g2, fun c hc => ⟨g3 c hc, fun hl hv => ?_⟩⟩
    exfalso
    apply hboth
    exact ⟨findVariable_none.mpr (fun hm => hv (hlive.mpr hm)), findLoop_none.mpr hl⟩

/-- C20, the case that fails. `@loop a a = 5` with `a` sweeping 0, 1, .., 5: the target
is the swept loop itself. Every iteration writes 5 into `a`, but at every call of the
evaluator the table binds `a` to the sweep value 0, 1, .., 5 and not to the 5 written
by the iteration before. -/
theorem C20_target_is_swept_loop :
    (download_line teLiteral 3 storesXA "@loop a a = 5\n".toList).map
        (fun p => ((calls p.2).map (fun c => c.2.1), p.2.filter Ev.isStdout))
      = some ([[(['a'], 0), (['x'], 1)], [(['a'], 1), (['x'], 1)], [(['a'], 2), (['x'], 1)],
            [(['a'], 3), (['x'], 1)], [(['a'], 4), (['x'], 1)], [(['a'], 5), (['x'], 1)]],
          [Ev.assignWhen 3 ['a'] 5 ['a'] 0, Ev.assignWhen 3 ['a'] 5 ['a'] 1,
            Ev.assignWhen 3 ['a'] 5 ['a'] 2, Ev.assignWhen 3 ['a'] 5 ['a'] 3,
            Ev.assignWhen 3 ['a'] 5 ['a'] 4, Ev.assignWhen 3 ['a'] 5 ['a'] 5]) := by
  decide!

/-- C20, as the code has it. In the assignment form of `@loop` over the loop at index
`k`, with a target `t` that is not the swept loop itself, every call of the evaluator
gets the table built from the stores as they are at that call; at every call but the
first the table binds `t` to the value evaluated (and written) by the iteration before,
and to nothing else; at the first call it binds `t` to the value `t` had before the
command, and to 0 when `t` named nothing. So `@loop a x = x + 1`, with `a` sweeping
0, 1, 3 and no variable `x`, calls the evaluator 4 times, prints `x` = 1, 2, 3, 4 with
`a` = 0, 1, 2, 3, and leaves the one variable `x` with the value 4. -/
theorem C20_target_bound_to_last_write :
    (∀ (te : CStr → Table → Option ℚ) (st : Stores) (sf k : Nat) (t e : CStr) (r : Res),
      Inv st → k < st.loops.length → t ≠ sentinel → (loopAt st.loops k).name ≠ t →
      loop_assignment_form te st sf k t e = some r →
      (∀ (j : Nat) (c : CStr × Table × Stores),
          (calls r.out)[j]? = some c → c.1 = e ∧ c.2.1 = tableLV c.2.2)
      ∧ (∀ (j : Nat) (c c1 : CStr × Table × Stores),
          (calls r.out)[j]? = some c → (calls r.out)[j + 1]? = some c1 →
          ∃ v, te e c.2.1 = some v ∧ (t, v) ∈ c1.2.1 ∧ ∀ p ∈ c1.2.1, p.1 = t → p.2 = v)
      ∧ (∀ c : CStr × Table × Stores, (calls r.out)[0]? = some c →
          (∀ x, (t, x) ∈ tableLV st → (t, x) ∈ c.2.1)
          ∧ (t ∉ loopNames st → t ∉ liveNames st → (t, 0) ∈ c.2.1)))
    ∧ (download_line teIncr 3 storesA "@loop a x = x + 1\n".toList).map
        (fun p => (p.1, (calls p.2).length, p.2.filter Ev.isStdout))
      = some (⟨⟨[⟨['x'], 4⟩], 0⟩, [⟨['a'], 3, 0, 1, 3⟩]⟩, 4,
          [Ev.assignWhen 3 ['x'] 1 ['a'] 0, Ev.assignWhen 3 ['x'] 2 ['a'] 1,
            Ev.assignWhen 3 ['x'] 3 ['a'] 2, Ev.assignWhen 3 ['x'] 4 ['a'] 3]) :=
  ⟨fun _ _ _ _ _ _ _ hi hk hs ht h => loop_assignment_form_target hi hk hs ht h,
    by decide!⟩

theorem C20_witness :
    (Inv storesA ∧ 0 < storesA.loops.length ∧ ['x'] ≠ sentinel
      ∧ (loopAt storesA.loops 0).name ≠ ['x'])
    ∧ ∃ r, loop_assignment_form teIncr storesA 3 0 ['x'] " x + 1\n".toList = some r
      ∧ ∀ (j : Nat) (c c1 : CStr × Table × Stores),
          (calls r.out)[j]? = some c → (calls r.out)[j + 1]? = some c1 →
          ∃ v, teIncr " x + 1\n".toList c.2.1 = some v ∧ (['x'], v) ∈ c1.2.1
            ∧ ∀ p ∈ c1.2.1, p.1 = ['x'] → p.2 = v := by
  have hi : Inv storesA := initial_inv (show initialStores [] ["a,0,1,3".toList] = some storesA
    by decide!)
  have hs : (loop_assignment_form teIncr storesA 3 0 ['x'] " x + 1\n".toList).isSome
      = true := by decide!
  obtain ⟨r, hr⟩ := Option.isSome_iff_exists.mp hs
  exact ⟨⟨hi, by decide, by decide, by decide⟩, r, hr,
    (C20_target_bound_to_last_write.1 teIncr storesA 3 0 ['x'] " x + 1\n".toList r hi
      (by decide) (by decide) (by decide) hr).2.1⟩

/-! ## A `@range` for a new name -/

theorem range_new_loop_of_new {st : Stores} {n : CStr} (s i e : ℚ) (sf : Nat)
    (hl : n ∉ st.loops.map (fun l => l.name))
    (hv : n ∉ st.vars.entries.map (fun v => v.name)) :
    range_new_loop st n s i e sf
      = ⟨0, ⟨st.vars, st.loops ++ [⟨n, s, s, i, e⟩]⟩, [Ev.loopLine sf n s s i e]⟩ := by
  unfold range_new_loop
  rw [range_redefine_none.mpr hl]
  simp only [range_promote_none.mpr hv]
  rfl

/-- C29. A `@range` argument that passes the checks of `range` and whose name is neither
the name of a loop nor the name of a live variable: `range` returns 0, the loop store
is the old one with one loop more at its end, whose current value is the start and
whose start, increment and end are the values given, and the variable store, the
count of promoted variables included, is unchanged; the line of the new loop is
printed. -/
theorem C29_new_loop_appended (e : CStr) (st : Stores) (sf : Nat) (ha : RangeArgAccepted e)
    (hl : field ',' 0 e ∉ loopNames st) (hv : field ',' 0 e ∉ liveNames st) :
    range e st sf
      = ⟨0, ⟨st.vars, st.loops
            ++ [⟨field ',' 0 e, numField 1 e, numField 1 e, numField 2 e, numField 3 e⟩]⟩,
          [Ev.loopLine sf (field ',' 0 e) (numField 1 e) (numField 1 e) (numField 2 e)
            (numField 3 e)]⟩ := by
  rw [range_of_accepted ha]
  apply range_new_loop_of_new _ _ _ _ hl
  intro hm
  apply hv
  unfold liveNames varNames
  simp only [List.mem_filter, decide_eq_true_eq]
  exact ⟨hm, validName_ne_sentinel ha.2.1⟩

theorem C29_witness :
    (RangeArgAccepted "b,1,2,9\n".toList ∧ field ',' 0 "b,1,2,9\n".toList ∉ loopNames storesXA
      ∧ field ',' 0 "b,1,2,9\n".toList ∉ liveNames storesXA)
    ∧ range "b,1,2,9\n".toList storesXA 3
      = ⟨0, ⟨storesXA.vars, storesXA.loops
            ++ [⟨field ',' 0 "b,1,2,9\n".toList, numField 1 "b,1,2,9\n".toList,
              numField 1 "b,1,2,9\n".toList, numField 2 "b,1,2,9\n".toList,
              numField 3 "b,1,2,9\n".toList⟩]⟩,
          [Ev.loopLine 3 (field ',' 0 "b,1,2,9\n".toList) (numField 1 "b,1,2,9\n".toList)
            (numField 1 "b,1,2,9\n".toList) (numField 2 "b,1,2,9\n".toList)
            (numField 3 "b,1,2,9\n".toList)]⟩ :=
  ⟨⟨by decide!, by decide, by decide⟩,
    C29_new_loop_appended "b,1,2,9\n".toList storesXA 3 (by decide!) (by decide) (by decide)⟩

/-! ## The three ways a `@loop` command ends -/

theorem loop_assignment_setup_error {ev : Option CStr} {st st2 : Stores} {res : Int}
    {vi li : Option Nat} (h : loop_assignment_setup ev st = some (res, vi, li, st2))
    (hr : res ≠ 0) : st2 = st := by
  unfold loop_assignment_setup at h
  cases ev with
  | none => simp at h
  | some t =>
    simp only [] at h
    by_cases h1 : t = sentinel
    · rw [if_pos h1] at h
      simp only [Option.some.injEq, Prod.mk.injEq] at h
      exact h.2.2.2.symm
    · rw [if_neg h1] at h
      by_cases h2 : findVariable t st.vars.entries = none ∧ findLoop t st.loops = none
      · rw [if_pos h2] at h
        simp only [Option.some.injEq, Prod.mk.injEq] at h
        exact absurd h.1.symm hr
      · rw [if_neg h2] at h
        simp only [Option.some.injEq, Prod.mk.injEq] at h
        exact absurd h.1.symm hr

/-- A `@loop` command from stores with the invariant either stops before any
evaluation (with an error code, an empty trace, and stores that differ from the
old ones at most in current values), or is a run of `loop_expression`, or is a run of
`loop_assignment` after `loop_assignment_setup`; in the last two cases the swept loop
is at an index `k` and carries the name on the line. -/
theorem loop_cases {te : CStr → Table → Option ℚ} {line : CStr} {st : Stores} {sf : Nat}
    {r : Res} (hi : Inv st) (h : loop te line st sf = some r) :
    (r.ret ≠ 0 ∧ r.out = [] ∧ r.st.vars = st.vars
      ∧ r.st.loops.map Loop.key = st.loops.map Loop.key)
    ∨ ∃ (st1 : Stores) (k : Nat), st1.vars = st.vars
        ∧ st1.loops.map Loop.key = st.loops.map Loop.key ∧ Inv st1 ∧ k < st1.loops.length
        ∧ (strtok (strtok line [' ']).2 [' ']).1 = some (loopAt st.loops k).name
        ∧ ((∃ e, loop_expression te st1 e k sf = some r)
          ∨ ∃ (st2 : Stores) (li vi : Option Nat) (t : CStr) (eo : Option CStr),
              loop_assignment_setup (some t) st1 = some (0, vi, li, st2) ∧ Inv st2
              ∧ st2.loops = st1.loops ∧ loop_assignment te st2 sf li vi t k eo = some r) := by
  unfold loop at h
  cases hname : (strtok (strtok line [' ']).2 [' ']).1 with
  | none =>
    simp only [hname] at h
    by_cases hl : st.loops = []
    · rw [if_pos hl] at h
      simp only [Option.some.injEq] at h
      subst h
      exact Or.inl ⟨by simp, rfl, rfl, rfl⟩
    · rw [if_neg hl] at h
      simp at h
  | some name =>
    simp only [hname] at h
    have hkeys := loop_search_key name 0 st.loops none
    have hi1 : Inv ⟨st.vars, (loop_search name 0 st.loops none).2⟩ :=
      @Inv_of_shape st _ rfl hkeys hi
    cases hf : (loop_search name 0 st.loops none).1 with
    | none =>
      simp only [hf, Option.some.injEq] at h
      subst h
      exact Or.inl ⟨by simp, rfl, rfl, hkeys⟩
    | some k =>
      simp only [hf] at h
      rcases loop_search_found hf with h0 | ⟨-, h1, h2⟩
      · simp at h0
      simp only [Nat.sub_zero] at h1 h2
      have hk1 : k < (loop_search name 0 st.loops none).2.length := by
        have := congrArg List.length hkeys
        simp only [List.length_map] at this
        omega
      cases hex : (strtok (strtok (strtok line [' ']).2 [' ']).2 []).1 with
      | none => simp [hex] at h
      | some expression =>
        simp only [hex] at h
        by_cases hz : countChar '=' expression = 0
        · rw [if_pos hz] at h
          exact Or.inr ⟨⟨st.vars, (loop_search name 0 st.loops none).2⟩, k, rfl, hkeys, hi1, hk1,
            by rw [h2], Or.inl ⟨_, h⟩⟩
        rw [if_neg hz] at h
        by_cases ho : countChar '=' expression = 1
        · rw [if_pos ho] at h
          split at h
          · simp at h
          · rename_i result variableIndex loopIndex st2 hsetup
            obtain ⟨i2, l2⟩ := loop_assignment_setup_inv hi1 hsetup
            simp only at l2
            by_cases hres : result ≠ 0
            · rw [if_pos hres] at h
              simp only [Option.some.injEq] at h
              subst h
              have hst2 : st2 = ⟨st.vars, (loop_search name 0 st.loops none).2⟩ :=
                loop_assignment_setup_error hsetup hres
              refine Or.inl ⟨hres, rfl, ?_, ?_⟩
              · show st2.vars = st.vars
                rw [hst2]
              · show st2.loops.map Loop.key = st.loops.map Loop.key
                rw [hst2]
                exact hkeys
            rw [if_neg hres] at h
            have hres0 : result = 0 := not_not.mp hres
            subst hres0
            cases ht : (match (strtok expression ['=']).1 with
                | some ev => strtok ev [' ']
                | none => strtok (strtok (strtok expression ['=']).2 []).2 [' ']).1 with
            | none =>
              rw [ht] at hsetup
              simp [loop_assignment_setup] at hsetup
            | some t =>
              rw [ht] at hsetup h
              exact Or.inr ⟨⟨st.vars, (loop_search name 0 st.loops none).2⟩, k, rfl, hkeys, hi1, hk1,
                by rw [h2],
                Or.inr ⟨st2, loopIndex, variableIndex, t, _, hsetup, i2, l2, h⟩⟩
        · rw [if_neg ho] at h
          simp only [Option.some.injEq] at h
          subst h
          exact Or.inl ⟨by simp, rfl, rfl, hkeys⟩

/-! ## The swept values stay inside the range -/

theorem repetitions_eq {l : Loop} {reps : Int} (h : repetitions l = some reps) :
    l.increment ≠ 0 ∧ reps = 1 + ⌊(l.endValue - l.startingValue) / l.increment⌋ := by
  unfold repetitions at h
  by_cases hz : l.increment = 0
  · rw [if_pos hz] at h
    simp at h
  · rw [if_neg hz] at h
    refine ⟨hz, ?_⟩
    obtain ⟨f, hf, hg⟩ := Option.bind_eq_some.mp h
    unfold toInt at hf hg
    split_ifs at hf hg
    simp only [Option.some.injEq] at hf hg
    rw [← hg, ← hf]

theorem detect_range_print_zero {line : CStr} {st : Stores} {sf : Nat} {r : Res}
    (h : detect_range_print line st sf = some r) (h0 : ¬ r.ret ≠ 0) : r = ⟨0, st, []⟩ := by
  rw [detect_range_print_def] at h
  by_cases h1 : testString line = "@print\n".toList
  · rw [if_pos h1] at h
    simp only [Option.some.injEq] at h
    subst h
    exact absurd (show (1 : Int) ≠ 0 by decide) h0
  · rw [if_neg h1] at h
    cases ht : (strtok (testString line) [' ']).1 with
    | none => simp [ht] at h
    | some rangeTest =>
      simp only [ht] at h
      by_cases h2 : rangeTest = "@range".toList ∧ countChar ' ' (testString line) = 1
          ∧ cstrAt line 0 = '@'
      · rw [if_pos h2] at h
        cases hx : (strtok (strtok (testString line) [' ']).2 [' ']).1 with
        | none => simp [hx] at h
        | some rangeExpression =>
          simp only [hx, Option.some.injEq] at h
          subst h
          exact absurd (show (1 : Int) ≠ 0 by decide) h0
      · rw [if_neg h2] at h
        simp only [Option.some.injEq] at h
        exact h.symm

theorem detect_loops_zero {te : CStr → Table → Option ℚ} {line : CStr} {st : Stores}
    {sf : Nat} {r : Res} (h : detect_loops te line st sf = some r) (h0 : ¬ r.ret ≠ 0) :
    r = ⟨0, st, []⟩ := by
  unfold detect_loops at h
  split_ifs at h
  · cases hl : loop te line st sf with
    | none => simp [hl] at h
    | some r1 =>
      simp only [hl, Option.some.injEq] at h
      subst h
      exact absurd (show (1 : Int) ≠ 0 by decide) h0
  · simp only [Option.some.injEq] at h
    exact h.symm

theorem check_valid_eq (n : CStr) :
    download_assignment_check_valid n = if ValidName n then (0, []) else (1, [Ev.err]) := by
  unfold download_assignment_check_valid ValidName
  by_cases h : ¬ n.all isalpha ∨ n.length < 1 ∨ n.length > MAX_VARIABLE_LENGTH
  · rw [if_pos h, if_neg]
    rintro ⟨h1, h2, h3⟩
    rcases h with h | h | h
    · exact h h3
    · omega
    · omega
  · rw [if_neg h, if_pos]
    push_neg at h
    exact ⟨by omega, by omega, by simpa using h.1⟩

/-- What a line does, by the way it is processed: nothing (a comment, or a line with
two or more `=` that is not a directive); a `@print` or `@range` directive; a `@loop`
directive; an assignment with an invalid key; an assignment; a bare expression. -/
theorem download_line_cases {te : CStr → Table → Option ℚ} {sf : Nat} {st st1 : Stores}
    {line : CStr} {out : List Ev} (h : download_line te sf st line = some (st1, out)) :
    (st1 = st ∧ out = [] ∧ ('#' ∈ line ∨ 2 ≤ countChar '=' line))
    ∨ (∃ r, detect_range_print line st sf = some r ∧ r.ret ≠ 0 ∧ st1 = r.st ∧ out = r.out)
    ∨ (∃ r, detect_loops te line st sf = some r ∧ r.ret ≠ 0 ∧ st1 = r.st ∧ out = r.out)
    ∨ (st1 = st ∧ out = [Ev.err] ∧ countChar '=' line = 1
        ∧ ∃ tok, (strtok line ['=']).1 = some tok ∧ ¬ ValidName (trimKey tok))
    ∨ (∃ tok expression, countChar '=' line = 1 ∧ (strtok line ['=']).1 = some tok
        ∧ ValidName (trimKey tok)
        ∧ (strtok (strtok line ['=']).2 ['=']).1 = some expression
        ∧ st1 = (download_assignment te st expression (trimKey tok) sf).st
        ∧ out = (download_assignment te st expression (trimKey tok) sf).out)
    ∨ (countChar '=' line = 0 ∧ st1 = (download_expression te st line sf).st
        ∧ out = (download_expression te st line sf).out) := by
  unfold download_line at h
  simp only [] at h
  by_cases h0 : (download_setup line).1 ≠ 0
  · rw [if_pos h0] at h
    simp only [Option.some.injEq, Prod.mk.injEq] at h
    refine Or.inl ⟨h.1.symm, h.2.symm, Or.inl ?_⟩
    unfold download_setup at h0
    simp only [] at h0
    by_cases hc : countChar '#' line > 0
    · exact List.count_pos_iff.mp hc
    · rw [if_neg hc] at h0
      exact absurd rfl h0
  rw [if_neg h0] at h
  cases hr1 : detect_range_print line st sf with
  | none => simp [hr1] at h
  | some r1 =>
    simp only [hr1] at h
    by_cases h1 : r1.ret ≠ 0
    · rw [if_pos h1] at h
      simp only [Option.some.injEq, Prod.mk.injEq] at h
      exact Or.inr (Or.inl ⟨r1, rfl, h1, h.1.symm, h.2.symm⟩)
    rw [if_neg h1] at h
    have e1 := detect_range_print_zero hr1 h1
    subst e1
    simp only [] at h
    cases hr2 : detect_loops te line st sf with
    | none => simp [hr2] at h
    | some r2 =>
      simp only [hr2] at h
      by_cases h2 : r2.ret ≠ 0
      · rw [if_pos h2] at h
        simp only [Option.some.injEq, Prod.mk.injEq, List.nil_append] at h
        exact Or.inr (Or.inr (Or.inl ⟨r2, rfl, h2, h.1.symm, h.2.symm⟩))
      rw [if_neg h2] at h
      have e2 := detect_loops_zero hr2 h2
      subst e2
      simp only [List.nil_append, List.append_nil] at h
      have hsetup : (download_setup line).2 = countChar '=' line := rfl
      rw [hsetup] at h
      by_cases h3 : countChar '=' line = 1
      · rw [if_pos h3] at h
        cases hvn : (strtok line ['=']).1 with
        | none => simp [hvn] at h
        | some tok =>
          simp only [hvn] at h
          rw [check_valid_eq] at h
          by_cases hv : ValidName (trimKey tok)
          · simp only [if_pos hv, ne_eq, not_true_eq_false, if_false] at h
            cases hex : (strtok (strtok line ['=']).2 ['=']).1 with
            | none => simp [hex] at h
            | some expression =>
              simp only [hex, Option.some.injEq, Prod.mk.injEq] at h
              exact Or.inr (Or.inr (Or.inr (Or.inr (Or.inl
                ⟨tok, expression, h3, rfl, hv, rfl, h.1.symm, h.2.symm⟩))))
          · simp only [if_neg hv] at h
            rw [if_pos (by decide)] at h
            simp only [Option.some.injEq, Prod.mk.injEq] at h
            exact Or.inr (Or.inr (Or.inr (Or.inl
              ⟨h.1.symm, h.2.symm, h3, tok, rfl, hv⟩)))
      rw [if_neg h3] at h
      by_cases h4 : countChar '=' line = 0
      · rw [if_pos h4] at h
        simp only [Option.some.injEq, Prod.mk.injEq] at h
        exact Or.inr (Or.inr (Or.inr (Or.inr (Or.inr ⟨h4, h.1.symm, h.2.symm⟩))))
      rw [if_neg h4] at h
      simp only [Option.some.injEq, Prod.mk.injEq] at h
      exact Or.inl ⟨h.1.symm, h.2.symm, Or.inr (by omega)⟩
/-! ## The number of significant figures -/

theorem digit_bounds (c : Char) (h1 : '2' ≤ c) (h2 : c ≤ '8') :
    2 ≤ c.toNat - '0'.toNat ∧ c.toNat - '0'.toNat ≤ 8 := by
  have a1 : '2'.toNat ≤ c.toNat := h1
  have a2 : c.toNat ≤ '8'.toNat := h2
  have e0 : '0'.toNat = 48 := rfl
  have e2 : '2'.toNat = 50 := rfl
  have e8 : '8'.toNat = 56 := rfl
  omega

theorem download_command_line_from_sigFigs (n : Nat) :
    ∀ (arguments : List CStr), arguments.length ≤ n →
    ∀ (sigFigs : Nat) (information : Information),
      (download_command_line_from arguments sigFigs information).1 = 0 →
      (download_command_line_from arguments sigFigs information).2.1 = sigFigs
      ∨ (sigFigs = 0 ∧ ∃ (before after : List CStr) (v : CStr),
          arguments = before ++ "--significantfigures".toList :: v :: after
          ∧ v.length = 1 ∧ '2' ≤ cstrAt v 0 ∧ cstrAt v 0 ≤ '8'
          ∧ (download_command_line_from arguments sigFigs information).2.1
              = (cstrAt v 0).toNat - '0'.toNat) := by
  induction n with
  | zero =>
    intro arguments hl sigFigs information _
    have : arguments = [] := List.length_eq_zero.mp (by omega)
    subst this
    exact Or.inl rfl
  | succ n ih =>
    intro arguments hl sigFigs information h
    have four : (INVALID_COMMAND_LINE_ERROR : Int) ≠ 0 := by decide
    cases arguments with
    | nil => exact Or.inl rfl
    | cons a rest =>
      unfold download_command_line_from at h ⊢
      have hpair : ∀ (v : CStr) (rest1 : List CStr) (info1 : Information),
          rest = v :: rest1 →
          (download_command_line_from rest1 sigFigs info1).1 = 0 →
          (download_command_line_from rest1 sigFigs info1).2.1 = sigFigs
          ∨ (sigFigs = 0 ∧ ∃ (before after : List CStr) (w : CStr),
              a :: rest = before ++ "--significantfigures".toList :: w :: after
              ∧ w.length = 1 ∧ '2' ≤ cstrAt w 0 ∧ cstrAt w 0 ≤ '8'
              ∧ (download_command_line_from rest1 sigFigs info1).2.1
                  = (cstrAt w 0).toNat - '0'.toNat) := by
        intro v rest1 info1 hr h1
        subst hr
        have hl1 : rest1.length ≤ n := by
          simp only [List.length_cons] at hl
          omega
        rcases ih rest1 hl1 sigFigs info1 h1 with h2 | ⟨h0, before, after, w, he, hw⟩
        · exact Or.inl h2
        · exact Or.inr ⟨h0, a :: v :: before, after, w, by rw [he]; rfl, hw⟩
      by_cases ha : a = "--define".toList
      · simp only [if_pos ha] at h ⊢
        cases rest with
        | nil => exact absurd h four
        | cons v rest1 =>
          simp only [] at h ⊢
          by_cases hv : v ≠ []
          · rw [if_pos hv] at h ⊢
            exact hpair v rest1 _ rfl h
          · rw [if_neg hv] at h
            exact absurd h four
      · simp only [if_neg ha] at h ⊢
        by_cases hb : a = "--loopable".toList
        · simp only [if_pos hb] at h ⊢
          cases rest with
          | nil => exact absurd h four
          | cons v rest1 =>
            simp only [] at h ⊢
            by_cases hv : v ≠ []
            · rw [if_pos hv] at h ⊢
              exact hpair v rest1 _ rfl h
            · rw [if_neg hv] at h
              exact absurd h four
        · simp only [if_neg hb] at h ⊢
          by_cases hc : a = "--significantfigures".toList
          · simp only [if_pos hc] at h ⊢
            cases rest with
            | nil => exact absurd h four
            | cons v rest1 =>
              simp only [] at h ⊢
              by_cases hs : sigFigs ≠ 0
              · rw [if_pos hs] at h
                exact absurd h four
              · rw [if_neg hs] at h ⊢
                have hs0 : sigFigs = 0 := not_not.mp hs
                by_cases hd : v.length = 1 ∧ '2' ≤ cstrAt v 0 ∧ cstrAt v 0 ≤ '8'
                · rw [if_pos hd] at h ⊢
                  have hl1 : rest1.length ≤ n := by
                    simp only [List.length_cons] at hl
                    omega
                  right
                  refine ⟨hs0, ?_⟩
                  rcases ih rest1 hl1 _ information h with h2 | ⟨h0, before, after, w, he, hw⟩
                  · exact ⟨[], rest1, v, by rw [hc]; rfl, hd.1, hd.2.1, hd.2.2, h2⟩
                  · exact ⟨a :: v :: before, after, w, by rw [he]; rfl, hw⟩
                · rw [if_neg hd] at h
                  exact absurd h four
          · simp only [if_neg hc] at h ⊢
            by_cases hf : rest = [] ∧ a ≠ []
                ∧ (a.length < 2 ∨ ('-' ≠ cstrAt a 0 ∧ '-' ≠ cstrAt a 1))
            · rw [if_pos hf] at h ⊢
              rw [hf.1]
              exact Or.inl rfl
            · rw [if_neg hf] at h
              exact absurd h four

theorem formattedWith_nil (sf : Nat) : FormattedWith sf [] := by
  intro e he
  simp at he

theorem formattedWith_cons {sf : Nat} {e : Ev} {out : List Ev} :
    FormattedWith sf (e :: out) ↔ (∀ n, e.sigFigs = some n → n = sf) ∧ FormattedWith sf out := by
  unfold FormattedWith
  simp only [List.mem_cons, forall_eq_or_imp]

theorem formattedWith_append {sf : Nat} {a b : List Ev} :
    FormattedWith sf (a ++ b) ↔ FormattedWith sf a ∧ FormattedWith sf b := by
  unfold FormattedWith
  simp only [List.mem_append]
  constructor
  · intro h
    exact ⟨fun e he => h e (Or.inl he), fun e he => h e (Or.inr he)⟩
  · rintro ⟨h1, h2⟩ e (he | he)
    · exact h1 e he
    · exact h2 e he

theorem formattedWith_map {α : Type} (sf : Nat) (f : α → Ev) (l : List α)
    (h : ∀ a, ∀ n, (f a).sigFigs = some n → n = sf) : FormattedWith sf (l.map f) := by
  intro e he
  obtain ⟨a, -, rfl⟩ := List.mem_map.mp he
  exact h a

theorem formattedWith_print_variables (st : Stores) (sf : Nat) :
    FormattedWith sf (print_variables st sf) := by
  unfold print_variables
  rw [formattedWith_append]
  constructor
  · split_ifs
    · simp [formattedWith_cons, formattedWith_nil, Ev.sigFigs]
    · rw [formattedWith_cons]
      refine ⟨by simp [Ev.sigFigs], formattedWith_map sf _ _ ?_⟩
      intro a n h
      simpa [Ev.sigFigs] using h.symm
  · split_ifs
    · simp [formattedWith_cons, formattedWith_nil, Ev.sigFigs]
    · rw [formattedWith_cons]
      refine ⟨by simp [Ev.sigFigs], formattedWith_map sf _ _ ?_⟩
      intro a n h
      simpa [Ev.sigFigs, loopLine] using h.symm

theorem formattedWith_range_new_loop (st : Stores) (n : CStr) (s i e : ℚ) (sf : Nat) :
    FormattedWith sf (range_new_loop st n s i e sf).out := by
  unfold range_new_loop
  split
  · simp only [formattedWith_cons, formattedWith_nil, and_true]
    intro m h
    simpa [Ev.sigFigs, loopLine] using h.symm
  · simp only [range_allocate_loop, formattedWith_cons, formattedWith_nil, and_true]
    intro m h
    simpa [Ev.sigFigs, loopLine] using h.symm

theorem formattedWith_range (e : CStr) (st : Stores) (sf : Nat) :
    FormattedWith sf (range e st sf).out := by
  by_cases h : RangeArgAccepted e
  · rw [range_of_accepted h]
    exact formattedWith_range_new_loop _ _ _ _ _ _
  · rw [range_of_not_accepted h]
    exact formattedWith_nil sf

theorem formattedWith_loop_expression_from (te : CStr → Table → Option ℚ) (e : CStr)
    (k sf : Nat) (names : List CStr) (n i : Nat) (st : Stores) (values : List ℚ) :
    FormattedWith sf (loop_expression_from te e k sf names n i st values).out := by
  induction n generalizing i st values with
  | zero => exact formattedWith_nil sf
  | succ n ih =>
    unfold loop_expression_from
    simp only []
    split
    · simp only [formattedWith_cons]
      refine ⟨by simp [Ev.sigFigs], ?_, ih _ _ _⟩
      intro m h
      simpa [Ev.sigFigs] using h.symm
    · simp [formattedWith_cons, formattedWith_nil, Ev.sigFigs]

theorem formattedWith_loop_assignment_from (te : CStr → Table → Option ℚ) (sf : Nat)
    (li vi : Option Nat) (ev : CStr) (k : Nat) (e : CStr) (n i : Nat) (st : Stores) :
    FormattedWith sf (loop_assignment_from te sf li vi ev k e n i st).out := by
  induction n generalizing i st with
  | zero => exact formattedWith_nil sf
  | succ n ih =>
    unfold loop_assignment_from
    simp only []
    split
    · simp only [formattedWith_cons]
      refine ⟨by simp [Ev.sigFigs], ?_, ih _ _⟩
      intro m h
      simpa [Ev.sigFigs, loop_print_assignment] using h.symm
    · simp [formattedWith_cons, formattedWith_nil, Ev.sigFigs]

theorem formattedWith_loop_expression {te : CStr → Table → Option ℚ} {st : Stores}
    {e : CStr} {k sf : Nat} {r : Res} (h : loop_expression te st e k sf = some r) :
    FormattedWith sf r.out := by
  unfold loop_expression at h
  split at h
  · simp at h
  · split at h
    · simp at h
    · simp only [Option.some.injEq] at h
      subst h
      exact formattedWith_loop_expression_from _ _ _ _ _ _ _ _ _

theorem formattedWith_loop_assignment {te : CStr → Table → Option ℚ} {st : Stores}
    {sf : Nat} {li vi : Option Nat} {ev : CStr} {k : Nat} {e : Option CStr} {r : Res}
    (h : loop_assignment te st sf li vi ev k e = some r) : FormattedWith sf r.out := by
  unfold loop_assignment at h
  split at h
  · simp at h
  · split at h
    · simp at h
    · split at h
      · split_ifs at h
        · simp only [Option.some.injEq] at h
          subst h
          exact formattedWith_nil sf
      · simp only [Option.some.injEq] at h
        subst h
        exact formattedWith_loop_assignment_from _ _ _ _ _ _ _ _ _ _

/-- The trace and the end of a `@loop` command: it stops before any evaluation, or it
is a run of `loop_expression`, or it is a run of `loop_assignment`. -/
theorem loop_run_cases {te : CStr → Table → Option ℚ} {line : CStr} {st : Stores} {sf : Nat}
    {r : Res} (h : loop te line st sf = some r) :
    (r.ret ≠ 0 ∧ r.out = [])
    ∨ (∃ st1 e k, loop_expression te st1 e k sf = some r)
    ∨ ∃ st2 li vi t k eo, loop_assignment te st2 sf li vi t k eo = some r := by
  unfold loop at h
  cases hname : (strtok (strtok line [' ']).2 [' ']).1 with
  | none =>
    simp only [hname] at h
    by_cases hl : st.loops = []
    · rw [if_pos hl] at h
      simp only [Option.some.injEq] at h
      subst h
      exact Or.inl ⟨by simp, rfl⟩
    · rw [if_neg hl] at h
      simp at h
  | some name =>
    simp only [hname] at h
    cases hf : (loop_search name 0 st.loops none).1 with
    | none =>
      simp only [hf, Option.some.injEq] at h
      subst h
      exact Or.inl ⟨by simp, rfl⟩
    | some k =>
      simp only [hf] at h
      cases hex : (strtok (strtok (strtok line [' ']).2 [' ']).2 []).1 with
      | none => simp [hex] at h
      | some expression =>
        simp only [hex] at h
        by_cases hz : countChar '=' expression = 0
        · rw [if_pos hz] at h
          exact Or.inr (Or.inl ⟨_, _, _, h⟩)
        rw [if_neg hz] at h
        by_cases ho : countChar '=' expression = 1
        · rw [if_pos ho] at h
          split at h
          · simp at h
          · rename_i result variableIndex loopIndex st2 hsetup
            by_cases hres : result ≠ 0
            · rw [if_pos hres] at h
              simp only [Option.some.injEq] at h
              subst h
              exact Or.inl ⟨hres, rfl⟩
            · rw [if_neg hres] at h
              exact Or.inr (Or.inr ⟨_, _, _, _, _, _, h⟩)
        · rw [if_neg ho] at h
          simp only [Option.some.injEq] at h
          subst h
          exact Or.inl ⟨by simp, rfl⟩

theorem formattedWith_loop {te : CStr → Table → Option ℚ} {line : CStr} {st : Stores}
    {sf : Nat} {r : Res} (h : loop te line st sf = some r) : FormattedWith sf r.out := by
  rcases loop_run_cases h with ⟨-, h0⟩ | ⟨_, _, _, h1⟩ | ⟨_, _, _, _, _, _, h2⟩
  · rw [h0]
    exact formattedWith_nil sf
  · exact formattedWith_loop_expression h1
  · exact formattedWith_loop_assignment h2

theorem formattedWith_err (sf : Nat) (b : Prop) [Decidable b] :
    FormattedWith sf (if b then [Ev.err] else []) := by
  split_ifs
  · simp [formattedWith_cons, formattedWith_nil, Ev.sigFigs]
  · exact formattedWith_nil sf

theorem formattedWith_detect_range_print {line : CStr} {st : Stores} {sf : Nat} {r : Res}
    (h : detect_range_print line st sf = some r) : FormattedWith sf r.out := by
  rw [detect_range_print_def] at h
  split_ifs at h
  · simp only [Option.some.injEq] at h
    subst h
    exact formattedWith_print_variables st sf
  · split at h
    · simp at h
    · split_ifs at h
      · split at h
        · simp at h
        · simp only [Option.some.injEq] at h
          subst h
          exact formattedWith_append.mpr ⟨formattedWith_range _ _ _, formattedWith_err sf _⟩
      · simp only [Option.some.injEq] at h
        subst h
        exact formattedWith_nil sf

theorem formattedWith_detect_loops {te : CStr → Table → Option ℚ} {line : CStr}
    {st : Stores} {sf : Nat} {r : Res} (h : detect_loops te line st sf = some r) :
    FormattedWith sf r.out := by
  unfold detect_loops at h
  split_ifs at h
  · split at h
    · simp at h
    · rename_i r1 hr1
      simp only [Option.some.injEq] at h
      subst h
      exact formattedWith_append.mpr ⟨formattedWith_loop hr1, formattedWith_err sf _⟩
  · simp only [Option.some.injEq] at h
    subst h
    exact formattedWith_nil sf

theorem formattedWith_download_assignment (te : CStr → Table → Option ℚ) (st : Stores)
    (e n : CStr) (sf : Nat) : FormattedWith sf (download_assignment te st e n sf).out := by
  have hp : FormattedWith sf (download_assignment_print n st sf
      ((te e (tableVL st)).getD 0)).2.2 ∧ ∀ value,
      FormattedWith sf (download_assignment_print n st sf value).2.2 := by
    have : ∀ value, FormattedWith sf (download_assignment_print n st sf value).2.2 := by
      intro value
      unfold download_assignment_print
      simp only []
      rw [formattedWith_append]
      constructor <;> split <;>
        simp [formattedWith_cons, formattedWith_nil, Ev.sigFigs]
    exact ⟨this _, this⟩
  unfold download_assignment
  simp only []
  split
  · rename_i value hv
    split_ifs
    · rw [formattedWith_cons]
      exact ⟨by simp [Ev.sigFigs], hp.2 value⟩
    · rw [formattedWith_cons, formattedWith_append]
      refine ⟨by simp [Ev.sigFigs], hp.2 value, ?_⟩
      simp [download_allocate_variable, formattedWith_cons, formattedWith_nil, Ev.sigFigs]
  · simp [formattedWith_cons, formattedWith_nil, Ev.sigFigs]

theorem formattedWith_download_expression (te : CStr → Table → Option ℚ) (st : Stores)
    (line : CStr) (sf : Nat) : FormattedWith sf (download_expression te st line sf).out := by
  unfold download_expression
  simp only []
  split <;> simp [formattedWith_cons, formattedWith_nil, Ev.sigFigs]

theorem formattedWith_download_line {te : CStr → Table → Option ℚ} {sf : Nat}
    {st st1 : Stores} {line : CStr} {out : List Ev}
    (h : download_line te sf st line = some (st1, out)) : FormattedWith sf out := by
  rcases download_line_cases h with ⟨-, ho, -⟩ | ⟨r, hr, -, -, ho⟩ | ⟨r, hr, -, -, ho⟩
    | ⟨-, ho, -⟩ | ⟨tok, e, -, -, -, -, -, ho⟩ | ⟨-, -, ho⟩
  · rw [ho]
    exact formattedWith_nil sf
  · rw [ho]
    exact formattedWith_detect_range_print hr
  · rw [ho]
    exact formattedWith_detect_loops hr
  · rw [ho]
    simp [formattedWith_cons, formattedWith_nil, Ev.sigFigs]
  · rw [ho]
    exact formattedWith_download_assignment _ _ _ _ _
  · rw [ho]
    exact formattedWith_download_expression _ _ _ _

theorem formattedWith_download_lines {te : CStr → Table → Option ℚ} {sf : Nat}
    {lines : List CStr} {st st2 : Stores} {out : List Ev}
    (h : download_lines te sf st lines = some (st2, out)) : FormattedWith sf out := by
  induction lines generalizing st st2 out with
  | nil =>
    simp only [download_lines, Option.some.injEq, Prod.mk.injEq] at h
    rw [← h.2]
    exact formattedWith_nil sf
  | cons line rest ih =>
    unfold download_lines at h
    cases h1 : download_line te sf st line with
    | none => simp [h1] at h
    | some p =>
      obtain ⟨st1, out1⟩ := p
      simp only [h1] at h
      cases h2 : download_lines te sf st1 rest with
      | none => simp [h2] at h
      | some q =>
        obtain ⟨st3, out2⟩ := q
        simp only [h2, Option.some.injEq, Prod.mk.injEq] at h
        rw [← h.2]
        exact formattedWith_append.mpr ⟨formattedWith_download_line h1, ih h2⟩

theorem formattedWith_run_program {te : CStr → Table → Option ℚ} {st : Stores}
    {sigFigs : Nat} {information : Information} {input : List CStr} {code : Int}
    {out : List Ev} (h : run_program te st sigFigs information input = some (code, out)) :
    FormattedWith sigFigs out := by
  unfold run_program at h
  simp only [] at h
  cases hl : download_lines te sigFigs st input with
  | none => simp [hl] at h
  | some p =>
    obtain ⟨st2, out2⟩ := p
    simp only [hl] at h
    by_cases hf : st2.vars.entries.any (fun v => v.name = sentinel) = true
    · rw [if_pos hf] at h
      exact absurd h (by simp)
    rw [if_neg hf] at h
    simp only [Option.some.injEq, Prod.mk.injEq] at h
    rw [← h.2]
    refine formattedWith_append.mpr ⟨formattedWith_append.mpr ⟨?_, formattedWith_download_lines hl⟩,
      by simp [formattedWith_cons, formattedWith_nil, Ev.sigFigs]⟩
    refine formattedWith_append.mpr ⟨formattedWith_append.mpr ⟨formattedWith_append.mpr
      ⟨by simp [formattedWith_cons, formattedWith_nil, Ev.sigFigs], ?_⟩, ?_⟩, ?_⟩
    · split_ifs
      · simp [formattedWith_cons, formattedWith_nil, Ev.sigFigs]
      · rw [formattedWith_cons]
        refine ⟨by simp [Ev.sigFigs], formattedWith_map _ _ _ ?_⟩
        intro a n hn
        simpa [Ev.sigFigs] using hn.symm
    · split_ifs
      · simp [formattedWith_cons, formattedWith_nil, Ev.sigFigs]
      · rw [formattedWith_cons]
        refine ⟨by simp [Ev.sigFigs], formattedWith_map _ _ _ ?_⟩
        intro a n hn
        simpa [Ev.sigFigs, loopLine] using hn.symm
    · split_ifs <;> simp [formattedWith_cons, formattedWith_nil, Ev.sigFigs]

theorem formattedWith_main {te : CStr → Table → Option ℚ} {canOpen : CStr → Bool}
    {arguments input : List CStr} {code : Int} {out : List Ev}
    (h : main te canOpen arguments input = some (code, out)) :
    FormattedWith (download_command_line arguments).2.1 out := by
  have hinit : FormattedWith (download_command_line arguments).2.1
      (run_initial_command_line canOpen arguments).out := by
    intro e he n hn
    have := run_initial_out_not_stdout canOpen arguments e he
    cases e <;> simp [Ev.sigFigs, Ev.isStdout] at hn this
  have hsf : (run_initial_command_line canOpen arguments).sigFigs
      = (download_command_line arguments).2.1 := by
    unfold run_initial_command_line
    simp only []
    split_ifs <;> rfl
  unfold main at h
  simp only [] at h
  by_cases h0 : (run_initial_command_line canOpen arguments).ret ≠ 0
  · rw [if_pos h0] at h
    simp only [Option.some.injEq, Prod.mk.injEq] at h
    rw [← h.2]
    exact hinit
  · rw [if_neg h0] at h
    cases hp : run_program te (run_initial_command_line canOpen arguments).st
        (run_initial_command_line canOpen arguments).sigFigs
        (run_initial_command_line canOpen arguments).information input with
    | none => simp [hp] at h
    | some p =>
      obtain ⟨c2, out2⟩ := p
      simp only [hp, Option.some.injEq, Prod.mk.injEq] at h
      rw [← h.2]
      have := formattedWith_run_program hp
      rw [hsf] at this
      exact formattedWith_append.mpr ⟨hinit, this⟩

theorem download_command_line_sigFigs (arguments : List CStr)
    (h : (download_command_line arguments).1 = 0) :
    ((download_command_line arguments).2.1 = DEFAULT_SIG_FIGS
      ∧ (download_command_line_from arguments 0 ⟨[], [], []⟩).2.1 = 0)
    ∨ ∃ (before after : List CStr) (v : CStr),
        arguments = before ++ "--significantfigures".toList :: v :: after
        ∧ v.length = 1 ∧ '2' ≤ cstrAt v 0 ∧ cstrAt v 0 ≤ '8'
        ∧ (download_command_line arguments).2.1 = (cstrAt v 0).toNat - '0'.toNat := by
  unfold download_command_line at h ⊢
  simp only [] at h ⊢
  rcases download_command_line_from_sigFigs arguments.length arguments (le_refl _) 0
      ⟨[], [], []⟩ h with h1 | ⟨-, before, after, v, he, h2, h3, h4, h5⟩
  · left
    rw [if_pos ⟨h, h1⟩]
    exact ⟨rfl, h1⟩
  · right
    refine ⟨before, after, v, he, h2, h3, h4, ?_⟩
    have hb := digit_bounds _ h3 h4
    rw [if_neg (by rw [h5]; omega), h5]

theorem download_command_line_from_keeps (arguments : List CStr) (sigFigs : Nat)
    (information : Information) (hs : sigFigs ≠ 0)
    (h : (download_command_line_from arguments sigFigs information).1 = 0) :
    (download_command_line_from arguments sigFigs information).2.1 = sigFigs := by
  rcases download_command_line_from_sigFigs arguments.length arguments (le_refl _) sigFigs
    information h with h1 | ⟨h0, -⟩
  · exact h1
  · exact absurd h0 hs

theorem download_command_line_from_option (n : Nat) :
    ∀ (before : List CStr), before.length ≤ n →
    ∀ (sigFigs : Nat) (information : Information) (v : CStr) (after : List CStr),
      (download_command_line_from (before ++ "--significantfigures".toList :: v :: after)
        sigFigs information).1 = 0 →
      (download_command_line_from before sigFigs information).1 = 0 →
      v.length = 1 ∧ '2' ≤ cstrAt v 0 ∧ cstrAt v 0 ≤ '8'
      ∧ (download_command_line_from (before ++ "--significantfigures".toList :: v :: after)
          sigFigs information).2.1 = (cstrAt v 0).toNat - '0'.toNat := by
  have four : (INVALID_COMMAND_LINE_ERROR : Int) ≠ 0 := by decide
  have hopt : ∀ (sigFigs : Nat) (information : Information) (v : CStr) (after : List CStr),
      (download_command_line_from ("--significantfigures".toList :: v :: after)
        sigFigs information).1 = 0 →
      sigFigs = 0 ∧ v.length = 1 ∧ '2' ≤ cstrAt v 0 ∧ cstrAt v 0 ≤ '8'
      ∧ (download_command_line_from ("--significantfigures".toList :: v :: after)
          sigFigs information).2.1 = (cstrAt v 0).toNat - '0'.toNat := by
    intro sigFigs information v after h
    unfold download_command_line_from at h ⊢
    rw [if_neg (by decide), if_neg (by decide), if_pos rfl] at h ⊢
    simp only [] at h ⊢
    by_cases hs : sigFigs ≠ 0
    · rw [if_pos hs] at h
      exact absurd h four
    · rw [if_neg hs] at h ⊢
      by_cases hd : v.length = 1 ∧ '2' ≤ cstrAt v 0 ∧ cstrAt v 0 ≤ '8'
      · rw [if_pos hd] at h ⊢
        have hb := digit_bounds _ hd.2.1 hd.2.2
        exact ⟨not_not.mp hs, hd.1, hd.2.1, hd.2.2,
          download_command_line_from_keeps _ _ _ (by omega) h⟩
      · rw [if_neg hd] at h
        exact absurd h four
  induction n using Nat.strong_induction_on with
  | _ n ih =>
    intro before hl sigFigs information v after h hb
    cases before with
    | nil =>
      exact (hopt sigFigs information v after h).2
    | cons a rest =>
      have hpair : ∀ (w : CStr) (rest1 : List CStr) (s1 : Nat) (info1 : Information),
          rest = w :: rest1 →
          (download_command_line_from
            (rest1 ++ "--significantfigures".toList :: v :: after) s1 info1).1 = 0 →
          (download_command_line_from rest1 s1 info1).1 = 0 →
          v.length = 1 ∧ '2' ≤ cstrAt v 0 ∧ cstrAt v 0 ≤ '8'
          ∧ (download_command_line_from
              (rest1 ++ "--significantfigures".toList :: v :: after) s1 info1).2.1
              = (cstrAt v 0).toNat - '0'.toNat := by
        intro w rest1 s1 info1 hr h1 h2
        subst hr
        have hl1 : rest1.length < n := by
          simp only [List.length_cons] at hl
          omega
        exact ih rest1.length hl1 rest1 (le_refl _) s1 info1 v after h1 h2
      rw [List.cons_append] at h ⊢
      unfold download_command_line_from at h hb ⊢
      by_cases ha : a = "--define".toList
      · simp only [if_pos ha] at h hb ⊢
        cases rest with
        | nil => exact absurd hb four
        | cons w rest1 =>
          simp only [List.cons_append] at h hb ⊢
          by_cases hw : w ≠ []
          · rw [if_pos hw] at h hb ⊢
            exact hpair w rest1 _ _ rfl h hb
          · rw [if_neg hw] at hb
            exact absurd hb four
      · simp only [if_neg ha] at h hb ⊢
        by_cases hb2 : a = "--loopable".toList
        · simp only [if_pos hb2] at h hb ⊢
          cases rest with
          | nil => exact absurd hb four
          | cons w rest1 =>
            simp only [List.cons_append] at h hb ⊢
            by_cases hw : w ≠ []
            · rw [if_pos hw] at h hb ⊢
              exact hpair w rest1 _ _ rfl h hb
            · rw [if_neg hw] at hb
              exact absurd hb four
        · simp only [if_neg hb2] at h hb ⊢
          by_cases hc : a = "--significantfigures".toList
          · simp only [if_pos hc] at h hb ⊢
            cases rest with
            | nil => exact absurd hb four
            | cons w rest1 =>
              simp only [List.cons_append] at h hb ⊢
              by_cases hs : sigFigs ≠ 0
              · rw [if_pos hs] at hb
                exact absurd hb four
              · rw [if_neg hs] at h hb ⊢
                by_cases hd : w.length = 1 ∧ '2' ≤ cstrAt w 0 ∧ cstrAt w 0 ≤ '8'
                · rw [if_pos hd] at h hb ⊢
                  exact hpair w rest1 _ _ rfl h hb
                · rw [if_neg hd] at hb
                  exact absurd hb four
          · simp only [if_neg hc] at h hb ⊢
            rw [if_neg] at h
            · exact absurd h four
            · intro hf
              cases rest <;> simp at hf

theorem download_command_line_option (before after : List CStr) (v : CStr)
    (h : (download_command_line (before ++ "--significantfigures".toList :: v :: after)).1
      = 0)
    (hb : (download_command_line before).1 = 0) :
    v.length = 1 ∧ '2' ≤ cstrAt v 0 ∧ cstrAt v 0 ≤ '8'
    ∧ (download_command_line (before ++ "--significantfigures".toList :: v :: after)).2.1
        = (cstrAt v 0).toNat - '0'.toNat := by
  unfold download_command_line at h hb ⊢
  simp only [] at h hb ⊢
  obtain ⟨h1, h2, h3, h4⟩ := download_command_line_from_option before.length before
    (le_refl _) 0 ⟨[], [], []⟩ v after h hb
  have hd := digit_bounds _ h2 h3
  refine ⟨h1, h2, h3, ?_⟩
  rw [if_neg (by rw [h4]; omega), h4]

theorem download_command_line_from_read (n : Nat) :
    ∀ (arguments : List CStr), arguments.length ≤ n →
    ∀ (sigFigs : Nat) (information : Information),
      (download_command_line_from arguments sigFigs information).1 = 0 →
      (download_command_line_from arguments sigFigs information).2.1 = sigFigs
      ∨ ∃ (before after : List CStr) (v : CStr),
          arguments = before ++ "--significantfigures".toList :: v :: after
          ∧ (download_command_line_from before sigFigs information).1 = 0 := by
  induction n with
  | zero =>
    intro arguments hl sigFigs information _
    have : arguments = [] := List.length_eq_zero.mp (by omega)
    subst this
    exact Or.inl rfl
  | succ n ih =>
    intro arguments hl sigFigs information h
    have four : (INVALID_COMMAND_LINE_ERROR : Int) ≠ 0 := by decide
    cases arguments with
    | nil => exact Or.inl rfl
    | cons a rest =>
      by_cases hc : a = "--significantfigures".toList
      · cases rest with
        | nil =>
          unfold download_command_line_from at h
          rw [hc, if_neg (by decide), if_neg (by decide), if_pos rfl] at h
          exact absurd h four
        | cons v rest1 =>
          exact Or.inr ⟨[], rest1, v, by rw [hc]; rfl, rfl⟩
      · have hpair : ∀ (w : CStr) (rest1 : List CStr) (info1 : Information),
            rest = w :: rest1 →
            (download_command_line_from (a :: w :: rest1) sigFigs information)
              = download_command_line_from rest1 sigFigs info1 →
            (∀ before : List CStr,
              (download_command_line_from (a :: w :: before) sigFigs information)
                = download_command_line_from before sigFigs info1) →
            (download_command_line_from (a :: rest) sigFigs information).2.1 = sigFigs
            ∨ ∃ (before after : List CStr) (v : CStr),
                a :: rest = before ++ "--significantfigures".toList :: v :: after
                ∧ (download_command_line_from before sigFigs information).1 = 0 := by
          intro w rest1 info1 hr hstep hall
          subst hr
          have hl1 : rest1.length ≤ n := by
            simp only [List.length_cons] at hl
            omega
          rw [hstep] at h ⊢
          rcases ih rest1 hl1 sigFigs info1 h with h2 | ⟨before, after, v, he, hb⟩
          · exact Or.inl h2
          · exact Or.inr ⟨a :: w :: before, after, v, by rw [he]; rfl, by rw [hall]; exact hb⟩
        by_cases ha : a = "--define".toList
        · cases rest with
          | nil =>
            unfold download_command_line_from at h
            rw [if_pos ha] at h
            exact absurd h four
          | cons w rest1 =>
            by_cases hw : w ≠ []
            · refine hpair w rest1
                { information with variableStrings := information.variableStrings ++ [w] }
                rfl ?_ (fun before => ?_)
              · conv_lhs => unfold download_command_line_from
                rw [if_pos ha]
                simp only []
                rw [if_pos hw]
              · conv_lhs => unfold download_command_line_from
                rw [if_pos ha]
                simp only []
                rw [if_pos hw]
            · unfold download_command_line_from at h
              rw [if_pos ha] at h
              simp only [] at h
              rw [if_neg hw] at h
              exact absurd h four
        · by_cases hb : a = "--loopable".toList
          · cases rest with
            | nil =>
              unfold download_command_line_from at h
              rw [if_neg ha, if_pos hb] at h
              exact absurd h four
            | cons w rest1 =>
              by_cases hw : w ≠ []
              · refine hpair w rest1
                  { information with loopsStrings := information.loopsStrings ++ [w] }
                  rfl ?_ (fun before => ?_)
                · conv_lhs => unfold download_command_line_from
                  rw [if_neg ha, if_pos hb]
                  simp only []
                  rw [if_pos hw]
                · conv_lhs => unfold download_command_line_from
                  rw [if_neg ha, if_pos hb]
                  simp only []
                  rw [if_pos hw]
              · unfold download_command_line_from at h
                rw [if_neg ha, if_pos hb] at h
                simp only [] at h
                rw [if_neg hw] at h
                exact absurd h four
          · unfold download_command_line_from at h ⊢
            rw [if_neg ha, if_neg hb, if_neg hc] at h ⊢
            by_cases hf : rest = [] ∧ a ≠ []
                ∧ (a.length < 2 ∨ ('-' ≠ cstrAt a 0 ∧ '-' ≠ cstrAt a 1))
            · rw [if_pos hf] at h ⊢
              rw [hf.1]
              exact Or.inl rfl
            · rw [if_neg hf] at h
              exact absurd h four

theorem download_command_line_default (arguments : List CStr)
    (h : (download_command_line arguments).1 = 0)
    (hn : ∀ (before after : List CStr) (v : CStr),
      arguments = before ++ "--significantfigures".toList :: v :: after →
      (download_command_line before).1 ≠ 0) :
    (download_command_line arguments).2.1 = DEFAULT_SIG_FIGS := by
  have h1 : (download_command_line_from arguments 0 ⟨[], [], []⟩).1 = 0 := h
  rcases download_command_line_from_read arguments.length arguments (le_refl _) 0
      ⟨[], [], []⟩ h1 with h2 | ⟨before, after, v, he, hb⟩
  · unfold download_command_line
    simp only []
    rw [if_pos ⟨h1, h2⟩]
  · exact absurd hb (hn before after v he)

/-- C30. Whenever `download_command_line` returns 0 the number of significant figures
is between 2 and 8, and it is 3 when no argument is `--significantfigures`. When the
arguments are accepted and `--significantfigures` stands after arguments that are
accepted on their own (so that it is read as the option, not as the value of another
one), the argument `v` after it is one character from `2` to `8` and the number of
significant figures is that digit; when it stands at no such place, the number is 3;
the option alone with a digit `d` from `2` to `8` is accepted and gives `d`. In the remaining case of an accepted command line the
number is 3 or such a digit. At `--significantfigures` any other value, a missing
value and a second `--significantfigures` make the function return
`INVALID_COMMAND_LINE_ERROR`. Every number printed in a whole run is printed with
that number of significant figures: the functions that process the lines take it as an
argument and none returns another. -/
theorem C30_significant_figures :
    (∀ arguments : List CStr, (download_command_line arguments).1 = 0 →
      2 ≤ (download_command_line arguments).2.1 ∧ (download_command_line arguments).2.1 ≤ 8
      ∧ ("--significantfigures".toList ∉ arguments →
          (download_command_line arguments).2.1 = DEFAULT_SIG_FIGS)
      ∧ ((download_command_line arguments).2.1 = DEFAULT_SIG_FIGS
        ∨ ∃ (before after : List CStr) (v : CStr),
            arguments = before ++ "--significantfigures".toList :: v :: after
            ∧ v.length = 1 ∧ '2' ≤ cstrAt v 0 ∧ cstrAt v 0 ≤ '8'
            ∧ (download_command_line arguments).2.1 = (cstrAt v 0).toNat - '0'.toNat))
    ∧ (∀ (before after : List CStr) (v : CStr),
        (download_command_line (before ++ "--significantfigures".toList :: v :: after)).1
          = 0 →
        (download_command_line before).1 = 0 →
        v.length = 1 ∧ '2' ≤ cstrAt v 0 ∧ cstrAt v 0 ≤ '8'
        ∧ (download_command_line
            (before ++ "--significantfigures".toList :: v :: after)).2.1
            = (cstrAt v 0).toNat - '0'.toNat)
    ∧ (∀ arguments : List CStr, (download_command_line arguments).1 = 0 →
        (∀ (before after : List CStr) (v : CStr),
          arguments = before ++ "--significantfigures".toList :: v :: after →
          (download_command_line before).1 ≠ 0) →
        (download_command_line arguments).2.1 = DEFAULT_SIG_FIGS)
    ∧ (∀ d : Char, '2' ≤ d → d ≤ '8' →
        download_command_line ["--significantfigures".toList, [d]]
          = (0, d.toNat - '0'.toNat, ⟨[], [], []⟩))
    ∧ (∀ (v : CStr) (rest : List CStr) (sigFigs : Nat) (information : Information),
        (¬ (v.length = 1 ∧ '2' ≤ cstrAt v 0 ∧ cstrAt v 0 ≤ '8') ∨ sigFigs ≠ 0) →
        (download_command_line_from ("--significantfigures".toList :: v :: rest) sigFigs
          information).1 = INVALID_COMMAND_LINE_ERROR)
    ∧ (∀ (sigFigs : Nat) (information : Information),
        (download_command_line_from ["--significantfigures".toList] sigFigs
          information).1 = INVALID_COMMAND_LINE_ERROR)
    ∧ (∀ (te : CStr → Table → Option ℚ) (canOpen : CStr → Bool) (arguments input : List CStr)
        (code : Int) (out : List Ev), main te canOpen arguments input = some (code, out) →
        FormattedWith (download_command_line arguments).2.1 out)
    ∧ (∀ (te : CStr → Table → Option ℚ) (sf : Nat) (st st1 : Stores) (lines : List CStr)
        (out : List Ev), download_lines te sf st lines = some (st1, out) →
        FormattedWith sf out) := by
  refine ⟨fun arguments h => ?_,
    fun before after v h hb => download_command_line_option before after v h hb,
    fun arguments h hn => download_command_line_default arguments h hn,
    fun d h2 h8 => ?_, fun v rest sigFigs information h => ?_,
    fun sigFigs information => ?_, fun te canOpen arguments input code out h =>
      formattedWith_main h, fun te sf st st1 lines out h => formattedWith_download_lines h⟩
  · rcases download_command_line_sigFigs arguments h with ⟨h1, -⟩
        | ⟨before, after, v, he, h2, h3, h4, h5⟩
    · refine ⟨by rw [h1]; decide, by rw [h1]; decide, fun _ => h1, Or.inl h1⟩
    · have hb := digit_bounds _ h3 h4
      refine ⟨by rw [h5]; exact hb.1, by rw [h5]; exact hb.2, fun hn => ?_,
        Or.inr ⟨before, after, v, he, h2, h3, h4, h5⟩⟩
      exfalso
      apply hn
      rw [he]
      simp
  · have hb := digit_bounds d h2 h8
    have hd : ([d] : CStr).length = 1 ∧ '2' ≤ cstrAt [d] 0 ∧ cstrAt [d] 0 ≤ '8' :=
      ⟨rfl, h2, h8⟩
    have hc : cstrAt [d] 0 = d := rfl
    unfold download_command_line download_command_line_from
    rw [if_neg (by decide), if_neg (by decide), if_pos rfl]
    simp only []
    rw [if_neg (by decide), if_pos hd, hc]
    unfold download_command_line_from
    simp only []
    rw [if_neg (by omega)]
  · unfold download_command_line_from
    rw [if_neg (by decide), if_neg (by decide), if_pos rfl]
    simp only []
    by_cases hs : sigFigs ≠ 0
    · rw [if_pos hs]
    · rw [if_neg hs]
      rcases h with h | h
      · rw [if_neg h]
      · exact absurd h hs
  · unfold download_command_line_from
    rw [if_neg (by decide), if_neg (by decide), if_pos rfl]

theorem C30_witness :
    ((download_command_line ["--define".toList, "x=1".toList,
        "--significantfigures".toList, "5".toList,
        "--loopable".toList, "a,0,1,5".toList]).1 = 0
      ∧ (download_command_line ["--define".toList, "x=1".toList]).1 = 0)
    ∧ (download_command_line ["--define".toList, "x=1".toList,
        "--significantfigures".toList, "5".toList,
        "--loopable".toList, "a,0,1,5".toList]).2.1 = 5
    ∧ main teLiteral (fun _ => true) ["--significantfigures".toList, "5".toList]
        ["1\n".toList]
      = some (0, [Ev.text "Welcome to uqexpr!\nWritten by s4809233.\n",
          Ev.text "No variables were defined.\n",
          Ev.text "No loop variables were defined.\n",
          Ev.text "Please enter your expressions and assignment operations.\n",
          Ev.compile "1\n".toList [] ⟨⟨[], 0⟩, []⟩, Ev.result 5 1,
          Ev.text "Thank you for using uqexpr.\n"]) :=
  ⟨⟨by decide, by decide⟩,
    (C30_significant_figures.2.1 ["--define".toList, "x=1".toList]
      ["--loopable".toList, "a,0,1,5".toList] "5".toList (by decide)
      (by decide)).2.2.2.trans (by decide),
    by decide!⟩

/-! ## Lines on which a `NULL` token is read -/

/-- C27. An empty line (a newline alone), a line of white space, `@range ` without an
argument and `x=` without an expression as a last line without a newline, and
`@loop a` without a remainder for a loop `a`: on each of them a token that `strtok`
did not find is read (`strcmp`, `strlen` or the evaluator on `NULL`), so the line has
no defined outcome, and the run of the lines after it does not continue. -/
theorem C27_absent_token_read :
    (∀ (te : CStr → Table → Option ℚ) (sf : Nat) (st : Stores),
      (strtok (testString "\n".toList) [' ']).1 = none
      ∧ detect_range_print "\n".toList st sf = none
      ∧ download_line te sf st "\n".toList = none
      ∧ download_line te sf st "  \t\n".toList = none
      ∧ download_line te sf st "@range ".toList = none
      ∧ download_line te sf st "x=".toList = none
      ∧ download_lines te sf st ["\n".toList, "1\n".toList] = none)
    ∧ download_line teLiteral 3 storesXA "@loop a".toList = none
    ∧ download_lines teLiteral 3 storesXA ["1\n".toList, "\n".toList, "2\n".toList] = none := by
  refine ⟨fun te sf st => ?_, by decide!, by decide!⟩
  have h1 : detect_range_print "\n".toList st sf = none := by
    unfold detect_range_print
    rfl
  have h2 : detect_range_print "  \t\n".toList st sf = none := by
    unfold detect_range_print
    rfl
  have h3 : detect_range_print "@range ".toList st sf = none := by
    unfold detect_range_print
    rfl
  have h4 : detect_range_print "x=".toList st sf = some ⟨0, st, []⟩ := by
    unfold detect_range_print
    rfl
  have h5 : detect_loops te "x=".toList st sf = some ⟨0, st, []⟩ := by
    unfold detect_loops
    rfl
  have l1 : download_line te sf st "\n".toList = none := by
    unfold download_line
    simp only [h1]
    rfl
  refine ⟨by decide, h1, l1, ?_, ?_, ?_, ?_⟩
  · unfold download_line
    simp only [h2]
    rfl
  · unfold download_line
    simp only [h3]
    rfl
  · unfold download_line
    simp only [h4, h5]
    rfl
  · unfold download_lines
    simp only [l1]

/-! ## An assignment with an invalid key -/

theorem invalid_key_line (te : CStr → Table → Option ℚ) (sf : Nat) (st : Stores)
    (line tok : CStr) (hc : '#' ∉ line) (he : countChar '=' line = 1)
    (hr : detect_range_print line st sf = some ⟨0, st, []⟩)
    (hl : detect_loops te line st sf = some ⟨0, st, []⟩)
    (ht : (strtok line ['=']).1 = some tok) (hk : ¬ ValidName (trimKey tok)) :
    download_line te sf st line = some (st, [Ev.err])
    ∧ (fieldHead '=' line ≠ [] → tok = fieldHead '=' line) := by
  constructor
  · rw [download_line_not_comment te sf st line hc, hr]
    simp only [hl]
    rw [if_neg (by simp), if_neg (by simp), if_pos he]
    simp only [ht, check_valid_eq, if_neg hk]
    rw [if_pos (by decide)]
    rfl
  · intro hf
    rw [strtok_of_fieldHead hf] at ht
    exact (Option.some.inj ht).symm

/-- C25. The line `=abc` has no `#`, exactly one `=`, is not a directive, and has no
text before its `=`, so its key is not 1 to 22 letters. On it `strtok` skips the
leading `=` and the code takes `abc`, the text after the `=`, for the key; this passes
the check, and the expression token, which `strtok` does not find, goes to the
evaluator: no diagnostic is printed and the line has no defined outcome. For the lines
on which it does not happen the claim holds: a line without `#`, with exactly one `=`,
that is not a directive, whose first token `tok` at `=` (the text before the `=` when
there is some) gives, after the trimming loops, a key that is not 1 to 22 letters,
leaves the stores as they are and its whole trace is the one diagnostic, so the
evaluator is not called and no variable is created. -/
theorem C25_invalid_key :
    (∀ (te : CStr → Table → Option ℚ) (sf : Nat) (st : Stores),
      '#' ∉ "=abc\n".toList ∧ countChar '=' "=abc\n".toList = 1
      ∧ fieldHead '=' "=abc\n".toList = [] ∧ ¬ ValidName (fieldHead '=' "=abc\n".toList)
      ∧ detect_range_print "=abc\n".toList st sf = some ⟨0, st, []⟩
      ∧ detect_loops te "=abc\n".toList st sf = some ⟨0, st, []⟩
      ∧ (strtok "=abc\n".toList ['=']).1 = some "abc\n".toList
      ∧ trimKey "abc\n".toList = "abc".toList
      ∧ download_assignment_check_valid "abc".toList = (0, [])
      ∧ (strtok (strtok "=abc\n".toList ['=']).2 ['=']).1 = none
      ∧ download_line te sf st "=abc\n".toList = none)
    ∧ (∀ (te : CStr → Table → Option ℚ) (sf : Nat) (st : Stores) (line tok : CStr),
      '#' ∉ line → countChar '=' line = 1 →
      detect_range_print line st sf = some ⟨0, st, []⟩ →
      detect_loops te line st sf = some ⟨0, st, []⟩ →
      (strtok line ['=']).1 = some tok → ¬ ValidName (trimKey tok) →
      download_line te sf st line = some (st, [Ev.err])
      ∧ (fieldHead '=' line ≠ [] → tok = fieldHead '=' line)) := by
  constructor
  · intro te sf st
    exact ⟨by decide, by decide, by decide, by decide, rfl, rfl, by decide, by decide,
      by decide, by decide, rfl⟩
  · intro te sf st line tok hc he hr hl ht hk
    exact invalid_key_line te sf st line tok hc he hr hl ht hk

theorem C25_witness :
    ('#' ∉ " x1 = 5\n".toList ∧ countChar '=' " x1 = 5\n".toList = 1
      ∧ detect_range_print " x1 = 5\n".toList storesXA 3 = some ⟨0, storesXA, []⟩
      ∧ detect_loops teLiteral " x1 = 5\n".toList storesXA 3 = some ⟨0, storesXA, []⟩
      ∧ (strtok " x1 = 5\n".toList ['=']).1 = some " x1 ".toList
      ∧ ¬ ValidName (trimKey " x1 ".toList))
    ∧ download_line teLiteral 3 storesXA " x1 = 5\n".toList = some (storesXA, [Ev.err]) :=
  ⟨⟨by decide, by decide, by decide!, by decide!, by decide, by decide⟩,
    (C25_invalid_key.2 teLiteral 3 storesXA " x1 = 5\n".toList " x1 ".toList (by decide)
      (by decide) (by decide!) (by decide!) (by decide) (by decide)).1⟩

/-! ## A `@loop` command stops at the first expression the evaluator rejects -/

theorem loop_expression_from_abort (te : CStr → Table → Option ℚ) (e : CStr) (k sf : Nat)
    (names : List CStr) (n i : Nat) (st : Stores) (values : List ℚ) :
    (Ev.err ∉ (loop_expression_from te e k sf names n i st values).out)
    ∧ ((loop_expression_from te e k sf names n i st values).ret = 0 →
        ((loop_expression_from te e k sf names n i st values).out.filter Ev.isStdout).length
          = n
        ∧ ∀ c ∈ calls (loop_expression_from te e k sf names n i st values).out,
            te c.1 c.2.1 ≠ none)
    ∧ ∀ (j : Nat) (c : CStr × Table × Stores),
        (calls (loop_expression_from te e k sf names n i st values).out)[j]? = some c →
        te c.1 c.2.1 = none →
        (calls (loop_expression_from te e k sf names n i st values).out).length = j + 1
        ∧ ((loop_expression_from te e k sf names n i st values).out.filter
            Ev.isStdout).length = j
        ∧ (loop_expression_from te e k sf names n i st values).ret = 1
        ∧ (loop_expression_from te e k sf names n i st values).st = c.2.2 := by
  induction n generalizing i st values with
  | zero => simp [loop_expression_from, calls]
  | succ n ih =>
    unfold loop_expression_from
    simp only []
    split
    · rename_i value hv
      obtain ⟨a, b, c⟩ := ih (i + 1)
        ⟨st.vars, setCurrentValue st.loops k
          ((loopAt st.loops k).startingValue + (i : ℚ) * (loopAt st.loops k).increment)⟩
        (values.set k
          ((loopAt st.loops k).startingValue + (i : ℚ) * (loopAt st.loops k).increment))
      refine ⟨?_, fun h0 => ?_, fun j cc hj hrej => ?_⟩
      · simp only [List.mem_cons, not_or]
        exact ⟨by simp, by simp, a⟩
      · obtain ⟨b1, b2⟩ := b h0
        refine ⟨?_, ?_⟩
        · rw [List.filter_cons_of_neg (by simp [Ev.isStdout]),
            List.filter_cons_of_pos (by simp [Ev.isStdout]), List.length_cons, b1]
        · intro cc hcc
          simp only [calls, List.mem_cons] at hcc
          rcases hcc with rfl | hcc
          · simp only
            rw [hv]
            simp
          · exact b2 cc hcc
      · simp only [calls] at hj ⊢
        cases j with
        | zero =>
          simp only [List.getElem?_cons_zero, Option.some.injEq] at hj
          subst hj
          simp only at hrej
          rw [hv] at hrej
          simp at hrej
        | succ j =>
          simp only [List.getElem?_cons_succ] at hj
          obtain ⟨c1, c2, c3, c4⟩ := c j cc hj hrej
          refine ⟨by simp only [List.length_cons]; omega, ?_, c3, c4⟩
          rw [List.filter_cons_of_neg (by simp [Ev.isStdout]),
            List.filter_cons_of_pos (by simp [Ev.isStdout]), List.length_cons, c2]
    · rename_i hv
      refine ⟨by simp, fun h0 => by simp at h0, fun j cc hj hrej => ?_⟩
      simp only [calls] at hj ⊢
      cases j with
      | zero =>
        simp only [List.getElem?_cons_zero, Option.some.injEq] at hj
        subst hj
        refine ⟨?_, ?_, ?_, ?_⟩ <;> first | rfl | trivial
      | succ j => simp at hj

theorem loop_assignment_from_abort (te : CStr → Table → Option ℚ) (sf : Nat)
    (li vi : Option Nat) (ev : CStr) (k : Nat) (e : CStr) (n i : Nat) (st : Stores) :
    (Ev.err ∉ (loop_assignment_from te sf li vi ev k e n i st).out)
    ∧ ((loop_assignment_from te sf li vi ev k e n i st).ret = 0 →
        ((loop_assignment_from te sf li vi ev k e n i st).out.filter Ev.isStdout).length = n
        ∧ ∀ c ∈ calls (loop_assignment_from te sf li vi ev k e n i st).out,
            te c.1 c.2.1 ≠ none)
    ∧ ∀ (j : Nat) (c : CStr × Table × Stores),
        (calls (loop_assignment_from te sf li vi ev k e n i st).out)[j]? = some c →
        te c.1 c.2.1 = none →
        (calls (loop_assignment_from te sf li vi ev k e n i st).out).length = j + 1
        ∧ ((loop_assignment_from te sf li vi ev k e n i st).out.filter Ev.isStdout).length = j
        ∧ (loop_assignment_from te sf li vi ev k e n i st).ret = 1
        ∧ (loop_assignment_from te sf li vi ev k e n i st).st = c.2.2 := by
  induction n generalizing i st with
  | zero => simp [loop_assignment_from, calls]
  | succ n ih =>
    unfold loop_assignment_from
    simp only []
    split
    · rename_i value hv
      obtain ⟨a, b, c⟩ := ih (i + 1)
        (loop_print_assignment value ⟨st.vars, setCurrentValue st.loops k
          ((loopAt st.loops k).startingValue + (i : ℚ) * (loopAt st.loops k).increment)⟩
          ev li vi sf k i).1
      refine ⟨?_, fun h0 => ?_, fun j cc hj hrej => ?_⟩
      · simp only [List.mem_cons, not_or]
        exact ⟨by simp, by simp [loop_print_assignment], a⟩
      · obtain ⟨b1, b2⟩ := b h0
        refine ⟨?_, ?_⟩
        · rw [List.filter_cons_of_neg (by simp [Ev.isStdout]),
            List.filter_cons_of_pos (by simp [Ev.isStdout, loop_print_assignment]),
            List.length_cons, b1]
        · intro cc hcc
          simp only [calls, List.mem_cons] at hcc
          rcases hcc with rfl | hcc
          · simp only
            rw [hv]
            simp
          · exact b2 cc hcc
      · simp only [calls] at hj ⊢
        cases j with
        | zero =>
          simp only [List.getElem?_cons_zero, Option.some.injEq] at hj
          subst hj
          simp only at hrej
          rw [hv] at hrej
          simp at hrej
        | succ j =>
          simp only [List.getElem?_cons_succ] at hj
          obtain ⟨c1, c2, c3, c4⟩ := c j cc hj hrej
          refine ⟨by simp only [List.length_cons]; omega, ?_, c3, c4⟩
          rw [List.filter_cons_of_neg (by simp [Ev.isStdout]),
            List.filter_cons_of_pos (by simp [Ev.isStdout, loop_print_assignment]),
            List.length_cons, c2]
    · rename_i hv
      refine ⟨by simp, fun h0 => by simp at h0, fun j cc hj hrej => ?_⟩
      simp only [calls] at hj ⊢
      cases j with
      | zero =>
        simp only [List.getElem?_cons_zero, Option.some.injEq] at hj
        subst hj
        refine ⟨?_, ?_, ?_, ?_⟩ <;> first | rfl | trivial
      | succ j => simp at hj

/-- A run of `loop` whose call number `j` of the evaluator is rejected: that call is
the last one, `j` lines were printed, the return value is not 0, the stores are
those of the rejected call, and `loop` itself prints no diagnostic. -/
theorem loop_abort {te : CStr → Table → Option ℚ} {line : CStr} {st : Stores} {sf : Nat}
    {r : Res} (h : loop te line st sf = some r) :
    Ev.err ∉ r.out
    ∧ (r.ret = 0 → ∀ c ∈ calls r.out, te c.1 c.2.1 ≠ none)
    ∧ ∀ (j : Nat) (c : CStr × Table × Stores), (calls r.out)[j]? = some c →
        te c.1 c.2.1 = none →
        (calls r.out).length = j + 1 ∧ (r.out.filter Ev.isStdout).length = j
        ∧ r.ret ≠ 0 ∧ r.st = c.2.2 := by
  rcases loop_run_cases h with ⟨h1, h0⟩ | ⟨st1, e, k, h1⟩ | ⟨st2, li, vi, t, k, eo, h2⟩
  · rw [h0]
    refine ⟨by simp, fun h => absurd h h1, fun j c hj => ?_⟩
    simp [calls] at hj
  · unfold loop_expression at h1
    cases hl : st1.loops[k]? with
    | none => simp [hl] at h1
    | some l =>
      cases hreps : repetitions l with
      | none => simp [hl, hreps] at h1
      | some reps =>
        simp only [hl, hreps, Option.some.injEq] at h1
        subst h1
        obtain ⟨a, b, c⟩ := loop_expression_from_abort te e k sf
          ((tableLV st1).map Prod.fst) reps.toNat 0 st1
          ((tableLV st1).map Prod.snd ++ List.replicate
            (st1.vars.entries.length + st1.loops.length - (tableLV st1).length) 0)
        refine ⟨a, fun h0 => (b h0).2, fun j cc hj hrej => ?_⟩
        obtain ⟨c1, c2, c3, c4⟩ := c j cc hj hrej
        exact ⟨c1, c2, by rw [c3]; decide, c4⟩
  · unfold loop_assignment at h2
    cases hl : st2.loops[k]? with
    | none => simp [hl] at h2
    | some l =>
      cases hreps : repetitions l with
      | none => simp [hl, hreps] at h2
      | some reps =>
        simp only [hl, hreps] at h2
        cases eo with
        | none =>
          simp only [] at h2
          split_ifs at h2
          simp only [Option.some.injEq] at h2
          subst h2
          refine ⟨by simp, fun _ c hc => ?_, fun j c hj => ?_⟩
          · simp [calls] at hc
          · simp [calls] at hj
        | some e =>
          simp only [Option.some.injEq] at h2
          subst h2
          obtain ⟨a, b, c⟩ := loop_assignment_from_abort te sf li vi t k e reps.toNat 0 st2
          refine ⟨a, fun h0 => (b h0).2, fun j cc hj hrej => ?_⟩
          obtain ⟨c1, c2, c3, c4⟩ := c j cc hj hrej
          exact ⟨c1, c2, by rw [c3]; decide, c4⟩

/-- C21. A `@loop` command (either form) in which the evaluator rejects the expression
of the call number `j`: `loop` returns an error code; that call is the last call of the
evaluator; the result lines printed are the `j` lines of the iterations before it and
nothing else is printed by `loop`; the stores at the end are those of the rejected
call, so nothing is written for that iteration; and `detect_loops` adds the one
diagnostic of the command at the end of the trace. -/
theorem C21_loop_stops_at_rejection (te : CStr → Table → Option ℚ) (line : CStr)
    (st : Stores) (sf : Nat) (r : Res) (j : Nat) (c : CStr × Table × Stores)
    (h : detect_loops te line st sf = some r) (hc : (calls r.out)[j]? = some c)
    (hrej : te c.1 c.2.1 = none) :
    (calls r.out).length = j + 1 ∧ (r.out.filter Ev.isStdout).length = j ∧ r.st = c.2.2
    ∧ ∃ r1, loop te line st sf = some r1 ∧ r1.ret ≠ 0 ∧ Ev.err ∉ r1.out
        ∧ r.out = r1.out ++ [Ev.err] ∧ r.st = r1.st := by
  unfold detect_loops at h
  split_ifs at h
  · cases hl : loop te line st sf with
    | none => simp [hl] at h
    | some r1 =>
      simp only [hl, Option.some.injEq] at h
      subst h
      simp only [calls_append] at hc ⊢
      have hce : calls (if r1.ret ≠ 0 then [Ev.err] else []) = [] := by
        split_ifs <;> rfl
      rw [hce, List.append_nil] at hc ⊢
      obtain ⟨a, -, b⟩ := loop_abort hl
      obtain ⟨b1, b2, b3, b4⟩ := b j c hc hrej
      rw [if_pos b3]
      refine ⟨b1, ?_, b4, r1, rfl, b3, a, rfl, rfl⟩
      rw [List.filter_append, List.length_append, b2]
      rfl
  · simp only [Option.some.injEq] at h
    subst h
    simp [calls] at hc

theorem C21_witness :
    (detect_loops teLiteral "@loop a x\n".toList storesXA 3
        = some ⟨1, storesXA,
            [Ev.compile "x\n".toList [(['a'], 0), (['x'], 1)] storesXA, Ev.err]⟩
      ∧ (calls [Ev.compile "x\n".toList [(['a'], 0), (['x'], 1)] storesXA, Ev.err])[0]?
          = some ("x\n".toList, [(['a'], 0), (['x'], 1)], storesXA)
      ∧ teLiteral "x\n".toList [(['a'], 0), (['x'], 1)] = none)
    ∧ (calls [Ev.compile "x\n".toList [(['a'], 0), (['x'], 1)] storesXA, Ev.err]).length = 0 + 1
    ∧ ([Ev.compile "x\n".toList [(['a'], 0), (['x'], 1)] storesXA, Ev.err].filter
        Ev.isStdout).length = 0 :=
  ⟨⟨by decide!, by decide!, by decide!⟩,
    (C21_loop_stops_at_rejection teLiteral "@loop a x\n".toList storesXA 3
      ⟨1, storesXA, [Ev.compile "x\n".toList [(['a'], 0), (['x'], 1)] storesXA, Ev.err]⟩ 0
      ("x\n".toList, [(['a'], 0), (['x'], 1)], storesXA) (by decide!) (by decide!)
      (by decide!)).1,
    (C21_loop_stops_at_rejection teLiteral "@loop a x\n".toList storesXA 3
      ⟨1, storesXA, [Ev.compile "x\n".toList [(['a'], 0), (['x'], 1)] storesXA, Ev.err]⟩ 0
      ("x\n".toList, [(['a'], 0), (['x'], 1)], storesXA) (by decide!) (by decide!)
      (by decide!)).2.1⟩

/-! ## The counter of the tombstones -/

theorem convertedCounts_of_shape {st st1 : Stores} (hv : varNames st1 = varNames st)
    (hc : st1.vars.converted = st.vars.converted) (h : ConvertedCounts st) :
    ConvertedCounts st1 := by
  unfold ConvertedCounts at *
  rw [hv, hc]; exact h

theorem convertedCounts_append {st : Stores} {n : CStr} {v : ℚ} (h : ConvertedCounts st)
    (hs : n ≠ sentinel) :
    ConvertedCounts
      { st with vars := { st.vars with entries := st.vars.entries ++ [⟨n, v⟩] } } := by
  unfold ConvertedCounts at *
  simp only [varNames, List.map_append, List.map_cons, List.map_nil, List.filter_append,
    List.length_append]
  rw [List.filter_cons_of_neg (by simpa using hs)]
  simpa [varNames] using h

theorem range_promote_count {n : CStr} {xs r : List Variable} (hn : n ≠ sentinel)
    (h : range_promote n xs = some r) :
    ((r.map (fun x => x.name)).filter (fun n => n = sentinel)).length
      = ((xs.map (fun x => x.name)).filter (fun n => n = sentinel)).length + 1 := by
  induction xs generalizing r with
  | nil => simp [range_promote] at h
  | cons x xs ih =>
    unfold range_promote at h
    split_ifs at h with hx
    · simp only [Option.some.injEq] at h
      subst h
      have hxs : x.name ≠ sentinel := by rw [hx]; exact hn
      simp [List.filter_cons, hxs]
    · simp only [Option.map_eq_some'] at h
      obtain ⟨r1, h1, h2⟩ := h
      subst h2
      have := ih h1
      by_cases hs : x.name = sentinel
      · simp [List.filter_cons, hs, this]
      · simp [List.filter_cons, hs, this]

theorem range_new_loop_convertedCounts {st : Stores} {n : CStr} (s i e : ℚ) (sf : Nat)
    (hn : n ≠ sentinel) (h : ConvertedCounts st) :
    ConvertedCounts (range_new_loop st n s i e sf).st := by
  unfold range_new_loop
  cases hr : range_redefine n s i e st.loops with
  | some p => exact h
  | none =>
    simp only []
    cases hp : range_promote n st.vars.entries with
    | none => exact h
    | some r =>
      unfold ConvertedCounts at *
      simp only [varNames]
      rw [range_promote_count hn hp, h]
      simp [varNames]

theorem range_convertedCounts {e : CStr} {st : Stores} {sf : Nat} (h : ConvertedCounts st) :
    ConvertedCounts (range e st sf).st := by
  by_cases ha : RangeArgAccepted e
  · rw [range_of_accepted ha]
    exact range_new_loop_convertedCounts _ _ _ _ (validName_ne_sentinel ha.2.1) h
  · rw [range_of_not_accepted ha]
    exact h

theorem detect_range_print_cases {line : CStr} {st : Stores} {sf : Nat} {r : Res}
    (h : detect_range_print line st sf = some r) :
    r = ⟨0, st, []⟩ ∨ r = ⟨1, st, print_variables st sf⟩
    ∨ ∃ e, r = ⟨1, (range e st sf).st,
        (range e st sf).out ++ (if (range e st sf).ret ≠ 0 then [Ev.err] else [])⟩ := by
  rw [detect_range_print_def] at h
  by_cases h1 : testString line = "@print\n".toList
  · rw [if_pos h1] at h
    simp only [Option.some.injEq] at h
    exact Or.inr (Or.inl h.symm)
  · rw [if_neg h1] at h
    cases ht : (strtok (testString line) [' ']).1 with
    | none => simp [ht] at h
    | some rangeTest =>
      simp only [ht] at h
      by_cases h2 : rangeTest = "@range".toList ∧ countChar ' ' (testString line) = 1
          ∧ cstrAt line 0 = '@'
      · rw [if_pos h2] at h
        cases hx : (strtok (strtok (testString line) [' ']).2 [' ']).1 with
        | none => simp [hx] at h
        | some rangeExpression =>
          simp only [hx, Option.some.injEq] at h
          exact Or.inr (Or.inr ⟨rangeExpression, h.symm⟩)
      · rw [if_neg h2] at h
        simp only [Option.some.injEq] at h
        exact Or.inl h.symm

theorem detect_loops_cases {te : CStr → Table → Option ℚ} {line : CStr} {st : Stores}
    {sf : Nat} {r : Res} (h : detect_loops te line st sf = some r) :
    r = ⟨0, st, []⟩ ∨ ∃ r1, loop te line st sf = some r1
      ∧ r = ⟨1, r1.st, r1.out ++ (if r1.ret ≠ 0 then [Ev.err] else [])⟩ := by
  unfold detect_loops at h
  split_ifs at h
  · cases hl : loop te line st sf with
    | none => simp [hl] at h
    | some r1 =>
      simp only [hl, Option.some.injEq] at h
      exact Or.inr ⟨r1, rfl, h.symm⟩
  · simp only [Option.some.injEq] at h
    exact Or.inl h.symm

theorem loop_assignment_setup_convertedCounts {t : CStr} {st st2 : Stores} {res : Int}
    {vi li : Option Nat} (h : ConvertedCounts st)
    (hs : loop_assignment_setup (some t) st = some (res, vi, li, st2)) :
    ConvertedCounts st2 := by
  unfold loop_assignment_setup at hs
  simp only [] at hs
  split_ifs at hs with h1 h2
  · simp only [Option.some.injEq, Prod.mk.injEq] at hs
    obtain ⟨-, -, -, rfl⟩ := hs
    exact h
  · simp only [Option.some.injEq, Prod.mk.injEq] at hs
    obtain ⟨-, -, -, rfl⟩ := hs
    exact convertedCounts_append h h1
  · simp only [Option.some.injEq, Prod.mk.injEq] at hs
    obtain ⟨-, -, -, rfl⟩ := hs
    exact h

theorem loop_convertedCounts {te : CStr → Table → Option ℚ} {line : CStr} {st : Stores}
    {sf : Nat} {r : Res} (hi : Inv st) (hc : ConvertedCounts st)
    (h : loop te line st sf = some r) : ConvertedCounts r.st := by
  rcases loop_cases hi h with ⟨-, -, a, -⟩ | ⟨st1, k, a, -, -, -, -, h1 | h1⟩
  · exact convertedCounts_of_shape (by simp [varNames, a]) (by rw [a]) hc
  · obtain ⟨e, he⟩ := h1
    have b := (loop_expression_shape he).1
    exact convertedCounts_of_shape (by simp [varNames, a, b]) (by rw [b, a]) hc
  · obtain ⟨st2, li, vi, t, eo, hs, -, -, hl⟩ := h1
    have c1 : ConvertedCounts st1 :=
      convertedCounts_of_shape (by simp [varNames, a]) (by rw [a]) hc
    have c2 := loop_assignment_setup_convertedCounts c1 hs
    obtain ⟨b1, b2, -⟩ := loop_assignment_shape hl
    exact convertedCounts_of_shape b1 b2 c2

theorem download_assignment_convertedCounts {te : CStr → Table → Option ℚ} {st : Stores}
    {e n : CStr} {sf : Nat} (hc : ConvertedCounts st) (hn : ValidName n) :
    ConvertedCounts (download_assignment te st e n sf).st := by
  unfold download_assignment
  simp only []
  split
  · rename_i value hv
    obtain ⟨a, b, -, -⟩ := download_assignment_print_shape n st sf value
    have c1 := convertedCounts_of_shape a b hc
    split_ifs with hf
    · exact c1
    · simp only [download_allocate_variable]
      exact convertedCounts_append c1 (validName_ne_sentinel hn)
  · exact hc

theorem download_expression_st (te : CStr → Table → Option ℚ) (st : Stores) (line : CStr)
    (sf : Nat) : (download_expression te st line sf).st = st := by
  unfold download_expression; simp only []; split <;> rfl

theorem download_line_convertedCounts {te : CStr → Table → Option ℚ} {sf : Nat}
    {st st1 : Stores} {line : CStr} {out : List Ev} (hi : Inv st) (hc : ConvertedCounts st)
    (h : download_line te sf st line = some (st1, out)) : ConvertedCounts st1 := by
  rcases download_line_cases h with ⟨rfl, -, -⟩ | ⟨r, hr, -, rfl, -⟩ | ⟨r, hr, -, rfl, -⟩
    | ⟨rfl, -, -, -⟩ | ⟨tok, ex, -, -, hv, -, rfl, -⟩ | ⟨-, rfl, -⟩
  · exact hc
  · rcases detect_range_print_cases hr with rfl | rfl | ⟨e, rfl⟩
    · exact hc
    · exact hc
    · exact range_convertedCounts hc
  · rcases detect_loops_cases hr with rfl | ⟨r1, hl, rfl⟩
    · exact hc
    · exact @loop_convertedCounts te line st sf r1 hi hc hl
  · exact hc
  · exact download_assignment_convertedCounts hc hv
  · rw [download_expression_st]; exact hc

theorem initial_convertedCounts {vs ls : List CStr} {st : Stores}
    (h : initialStores vs ls = some st) : ConvertedCounts st := by
  unfold initialStores at h
  simp only [] at h
  split_ifs at h with h1
  simp only [Option.some.injEq] at h
  obtain ⟨a, c, d⟩ := (initial_decode_iff vs ls).mp h1
  have e1 : (decode_variable_strings vs).2 = ⟨vs.map defineEntry, 0⟩ := by
    unfold decode_variable_strings
    rw [decode_variable_strings_from_result _ _ _ a]; simp
  rw [e1] at h
  subst h
  unfold ConvertedCounts
  simp only [varNames, List.map_map]
  rw [List.filter_eq_nil_iff.mpr]
  · rfl
  · intro n hn
    simp only [List.mem_map, Function.comp_apply] at hn
    obtain ⟨s, hs, rfl⟩ := hn
    simpa [defineEntry] using validName_ne_sentinel (a s hs).2.1

theorem reachable_convertedCounts {te : CStr → Table → Option ℚ} {st : Stores}
    (h : Reachable te st) : ConvertedCounts st := by
  induction h with
  | init vs ls st h => exact initial_convertedCounts h
  | step sf line st st1 out hr h ih =>
    exact download_line_convertedCounts (reachable_inv hr) ih h
/-! ## The slots of the variable store stay where they are -/

theorem slotsKept_refl (xs : List Variable) : SlotsKept xs xs :=
  fun _ x h => ⟨x, h, Or.inl rfl, fun _ => rfl⟩

theorem slotsKept_trans {xs ys zs : List Variable} (h1 : SlotsKept xs ys)
    (h2 : SlotsKept ys zs) : SlotsKept xs zs := by
  intro i x hx
  obtain ⟨y, hy, a1, a2⟩ := h1 i x hx
  obtain ⟨z, hz, b1, b2⟩ := h2 i y hy
  refine ⟨z, hz, ?_, ?_⟩
  · rcases b1 with b1 | b1
    · rcases a1 with a1 | a1
      · left; rw [b1, a1]
      · right; rw [b1, a1]
    · right; exact b1
  · intro hs
    have hyx := a2 hs
    rw [← hyx]
    apply b2
    rw [hyx]; exact hs

theorem slotsKept_cons {x y : Variable} {xs ys : List Variable}
    (h1 : y.name = x.name ∨ y.name = sentinel) (h2 : x.name = sentinel → y = x)
    (h : SlotsKept xs ys) : SlotsKept (x :: xs) (y :: ys) := by
  intro i a ha
  cases i with
  | zero =>
    simp only [List.getElem?_cons_zero, Option.some.injEq] at ha
    subst ha
    exact ⟨y, by simp, h1, h2⟩
  | succ i =>
    simp only [List.getElem?_cons_succ] at ha ⊢
    exact h i a ha

theorem slotsKept_append (xs zs : List Variable) : SlotsKept xs (xs ++ zs) := by
  intro i x hx
  refine ⟨x, ?_, Or.inl rfl, fun _ => rfl⟩
  rw [List.getElem?_append_left (List.getElem?_eq_some.mp hx).1]
  exact hx

theorem slotsKept_setValue (xs : List Variable) (k : Nat) (v : ℚ)
    (h : (xs.map (fun x => x.name))[k]? ≠ some sentinel) : SlotsKept xs (setValue xs k v) := by
  induction xs generalizing k with
  | nil => exact slotsKept_refl _
  | cons x xs ih =>
    cases k with
    | zero =>
      simp only [setValue]
      refine @slotsKept_cons x ⟨x.name, v⟩ xs xs (Or.inl rfl) ?_ (slotsKept_refl _)
      intro hs
      exfalso; apply h
      simp [hs]
    | succ k =>
      simp only [setValue]
      apply slotsKept_cons (Or.inl rfl) (fun _ => rfl)
      apply ih
      simpa using h

theorem slotsKept_assignVariable {n : CStr} {v : ℚ} {xs r : List Variable}
    (hn : n ≠ sentinel) (h : assignVariable n v xs = some r) : SlotsKept xs r := by
  induction xs generalizing r with
  | nil => simp [assignVariable] at h
  | cons x xs ih =>
    unfold assignVariable at h
    split_ifs at h with hx
    · simp only [Option.some.injEq] at h
      subst h
      refine @slotsKept_cons x ⟨x.name, v⟩ xs xs (Or.inl rfl) ?_ (slotsKept_refl _)
      intro hs
      exact absurd (hx.trans hs) hn
    · simp only [Option.map_eq_some'] at h
      obtain ⟨r1, h1, h2⟩ := h
      subst h2
      exact slotsKept_cons (Or.inl rfl) (fun _ => rfl) (ih h1)

theorem slotsKept_promote {n : CStr} {xs r : List Variable} (hn : n ≠ sentinel)
    (h : range_promote n xs = some r) : SlotsKept xs r := by
  induction xs generalizing r with
  | nil => simp [range_promote] at h
  | cons x xs ih =>
    unfold range_promote at h
    split_ifs at h with hx
    · simp only [Option.some.injEq] at h
      subst h
      refine @slotsKept_cons x ⟨sentinel, x.value⟩ xs xs (Or.inr rfl) ?_ (slotsKept_refl _)
      intro hs
      exact absurd (hx.symm.trans hs) hn
    · simp only [Option.map_eq_some'] at h
      obtain ⟨r1, h1, h2⟩ := h
      subst h2
      exact slotsKept_cons (Or.inl rfl) (fun _ => rfl) (ih h1)

theorem callExact_mono {st st1 : Stores} {c : CStr × Table × Stores}
    (h : SlotsKept st.vars.entries st1.vars.entries) (hc : CallExact st1 c) :
    CallExact st c :=
  ⟨slotsKept_trans h hc.1, hc.2⟩

theorem calls_nil_exact (st : Stores) : ∀ c ∈ calls [], CallExact st c := by
  intro c hc
  simp [calls] at hc

/-! ## The table of every call is the table of the stores at the call -/

theorem zip_fst_snd_append (l : Table) (r : List ℚ) :
    (l.map Prod.fst).zip (l.map Prod.snd ++ r) = l := by
  induction l with
  | nil => simp
  | cons p l ih => simp [ih]

theorem zip_map_loops (ls : List Loop) (rn : List CStr) (rv : List ℚ) :
    (ls.map (fun l => l.name) ++ rn).zip (ls.map (fun l => l.currentValue) ++ rv)
      = ls.map (fun l => (l.name, l.currentValue)) ++ rn.zip rv := by
  induction ls with
  | nil => rfl
  | cons l ls ih => simp [ih]

theorem zip_set_loops (ls : List Loop) (k : Nat) (v : ℚ) (rn : List CStr) (rv : List ℚ)
    (hk : k < ls.length) :
    (ls.map (fun l => l.name) ++ rn).zip ((ls.map (fun l => l.currentValue) ++ rv).set k v)
      = (setCurrentValue ls k v).map (fun l => (l.name, l.currentValue)) ++ rn.zip rv := by
  induction ls generalizing k with
  | nil => simp at hk
  | cons l ls ih =>
    cases k with
    | zero =>
      simp only [List.map_cons, List.cons_append, List.set_cons_zero, List.zip_cons_cons,
        setCurrentValue]
      rw [zip_map_loops]
    | succ k =>
      simp only [List.map_cons, List.cons_append, List.set_cons_succ, List.zip_cons_cons,
        setCurrentValue]
      rw [ih k (by simpa using hk)]

theorem tableLV_set {st : Stores} (hi : Inv st) (k : Nat) (v : ℚ) (hk : k < st.loops.length)
    (n : Nat) :
    ((tableLV st).map Prod.fst).zip
        (((tableLV st).map Prod.snd ++ List.replicate n 0).set k v)
      = tableLV ⟨st.vars, setCurrentValue st.loops k v⟩ := by
  have hs := inv_loop_ne_sentinel hi
  have hs2 : ∀ l ∈ setCurrentValue st.loops k v, l.name ≠ sentinel := by
    intro l hl
    have hm : l.name ∈ (setCurrentValue st.loops k v).map (fun l => l.name) :=
      List.mem_map_of_mem _ hl
    have hkey := congrArg (List.map Prod.fst) (setCurrentValue_key st.loops k v)
    simp only [List.map_map, Loop.key, Function.comp_def] at hkey
    rw [hkey] at hm
    obtain ⟨l0, hl0, he⟩ := List.mem_map.mp hm
    rw [← he]; exact hs l0 hl0
  unfold tableLV
  rw [bind_loops_eq hs, bind_loops_eq hs2]
  simp only [List.map_append, List.map_map, Function.comp_def, List.append_assoc]
  rw [zip_set_loops _ _ _ _ _ hk, zip_fst_snd_append]

theorem loop_expression_exact {te : CStr → Table → Option ℚ} {st : Stores} {e : CStr}
    {k sf : Nat} {r : Res} (hi : Inv st) (hc : ConvertedCounts st)
    (h : loop_expression te st e k sf = some r) : ∀ c ∈ calls r.out, CallExact st c := by
  unfold loop_expression at h
  cases hl : st.loops[k]? with
  | none => simp [hl] at h
  | some l =>
    obtain ⟨-, hk⟩ := loopAt_of_getElem? hl
    simp only [hl] at h
    cases hr : repetitions l with
    | none => simp [hr] at h
    | some reps =>
      simp only [hr, Option.some.injEq] at h
      subst h
      intro c hcm
      obtain ⟨j, hj⟩ := List.mem_iff_getElem?.mp hcm
      rw [(loop_expression_from_calls _ _ _ _ _ _ _ _ _).2.2 j c hj]
      refine ⟨slotsKept_refl _, convertedCounts_of_shape rfl rfl hc, Or.inr ?_⟩
      exact tableLV_set hi k _ hk _

theorem loop_print_assignment_slots (value : ℚ) (st : Stores) (ev : CStr)
    (li vi : Option Nat) (sf k i : Nat)
    (hvi : ∀ j, vi = some j → (varNames st)[j]? ≠ some sentinel) :
    SlotsKept st.vars.entries
      (loop_print_assignment value st ev li vi sf k i).1.vars.entries := by
  unfold loop_print_assignment
  cases vi with
  | none =>
    cases li with
    | none => exact slotsKept_refl _
    | some li => exact slotsKept_refl _
  | some vi => exact slotsKept_setValue _ _ _ (hvi vi rfl)

theorem loop_assignment_from_exact (te : CStr → Table → Option ℚ) (sf : Nat)
    (li vi : Option Nat) (ev : CStr) (k : Nat) (e : CStr) (n i : Nat) (st : Stores)
    (hc : ConvertedCounts st) (hvi : ∀ j, vi = some j → (varNames st)[j]? ≠ some sentinel) :
    SlotsKept st.vars.entries (loop_assignment_from te sf li vi ev k e n i st).st.vars.entries
    ∧ ∀ c ∈ calls (loop_assignment_from te sf li vi ev k e n i st).out, CallExact st c := by
  induction n generalizing i st with
  | zero =>
    simp only [loop_assignment_from]
    exact ⟨slotsKept_refl _, calls_nil_exact st⟩
  | succ n ih =>
    have c0 : CallExact st (e, tableLV ⟨st.vars, setCurrentValue st.loops k
        ((loopAt st.loops k).startingValue + (i : ℚ) * (loopAt st.loops k).increment)⟩,
        ⟨st.vars, setCurrentValue st.loops k
        ((loopAt st.loops k).startingValue + (i : ℚ) * (loopAt st.loops k).increment)⟩) :=
      ⟨slotsKept_refl _, convertedCounts_of_shape rfl rfl hc, Or.inr rfl⟩
    unfold loop_assignment_from
    simp only []
    split
    · rename_i value hv
      obtain ⟨g1, g2, -⟩ := loop_print_assignment_shape value
        ⟨st.vars, setCurrentValue st.loops k
          ((loopAt st.loops k).startingValue + (i : ℚ) * (loopAt st.loops k).increment)⟩
        ev li vi sf k i
      have s1 := loop_print_assignment_slots value
        ⟨st.vars, setCurrentValue st.loops k
          ((loopAt st.loops k).startingValue + (i : ℚ) * (loopAt st.loops k).increment)⟩
        ev li vi sf k i hvi
      have hc1 : ConvertedCounts (loop_print_assignment value
          ⟨st.vars, setCurrentValue st.loops k
            ((loopAt st.loops k).startingValue + (i : ℚ) * (loopAt st.loops k).increment)⟩
          ev li vi sf k i).1 := convertedCounts_of_shape g1 g2 hc
      obtain ⟨a, b⟩ := ih (i + 1) _ hc1 (by rw [g1]; exact hvi)
      refine ⟨slotsKept_trans s1 a, ?_⟩
      intro c hcm
      simp only [calls, List.mem_cons] at hcm
      rcases hcm with rfl | hcm
      · exact c0
      · exact callExact_mono s1 (b c hcm)
    · refine ⟨slotsKept_refl _, ?_⟩
      intro c hcm
      simp only [calls, List.mem_cons, List.mem_nil_iff, or_false] at hcm
      subst hcm
      exact c0

theorem loop_assignment_exact {te : CStr → Table → Option ℚ} {st : Stores} {sf : Nat}
    {li vi : Option Nat} {ev : CStr} {k : Nat} {e : Option CStr} {r : Res}
    (hc : ConvertedCounts st) (hvi : ∀ j, vi = some j → (varNames st)[j]? ≠ some sentinel)
    (h : loop_assignment te st sf li vi ev k e = some r) :
    SlotsKept st.vars.entries r.st.vars.entries ∧ ∀ c ∈ calls r.out, CallExact st c := by
  unfold loop_assignment at h
  cases hl : st.loops[k]? with
  | none => simp [hl] at h
  | some l =>
    simp only [hl] at h
    cases hr : repetitions l with
    | none => simp [hr] at h
    | some reps =>
      simp only [hr] at h
      cases e with
      | none =>
        simp only [] at h
        split_ifs at h
        simp only [Option.some.injEq] at h
        subst h
        exact ⟨slotsKept_refl _, calls_nil_exact st⟩
      | some e =>
        simp only [Option.some.injEq] at h
        subst h
        exact loop_assignment_from_exact _ _ _ _ _ _ _ _ _ _ hc hvi

theorem loop_assignment_setup_slots {t : CStr} {st st2 : Stores} {vi li : Option Nat}
    (hs : loop_assignment_setup (some t) st = some (0, vi, li, st2)) :
    SlotsKept st.vars.entries st2.vars.entries
    ∧ (∀ j, vi = some j → (varNames st2)[j]? ≠ some sentinel) ∧ t ≠ sentinel := by
  unfold loop_assignment_setup at hs
  simp only [] at hs
  by_cases h1 : t = sentinel
  · rw [if_pos h1] at hs
    simp at hs
  rw [if_neg h1] at hs
  have hne : ∀ j : Nat, (varNames st2)[j]? = some t → (varNames st2)[j]? ≠ some sentinel := by
    intro j hj
    rw [hj]
    simpa using h1
  by_cases h2 : findVariable t st.vars.entries = none ∧ findLoop t st.loops = none
  · rw [if_pos h2] at hs
    simp only [Option.some.injEq, Prod.mk.injEq, true_and] at hs
    obtain ⟨rfl, -, rfl⟩ := hs
    refine ⟨slotsKept_append _ _, ?_, h1⟩
    intro j hj
    simp only [Option.some.injEq] at hj
    subst hj
    apply hne
    simp [varNames]
  · rw [if_neg h2] at hs
    simp only [Option.some.injEq, Prod.mk.injEq, true_and] at hs
    obtain ⟨rfl, -, rfl⟩ := hs
    refine ⟨slotsKept_refl _, ?_, h1⟩
    intro j hj
    apply hne
    exact findVariable_some hj

theorem loop_exact {te : CStr → Table → Option ℚ} {line : CStr} {st : Stores} {sf : Nat}
    {r : Res} (hi : Inv st) (hc : ConvertedCounts st) (h : loop te line st sf = some r) :
    SlotsKept st.vars.entries r.st.vars.entries ∧ ∀ c ∈ calls r.out, CallExact st c := by
  rcases loop_cases hi h with ⟨-, b, a, -⟩ | ⟨st1, k, a, -, i1, -, -, h1 | h1⟩
  · rw [a, b]
    exact ⟨slotsKept_refl _, calls_nil_exact st⟩
  · obtain ⟨e, he⟩ := h1
    have b := (loop_expression_shape he).1
    have c1 : ConvertedCounts st1 :=
      convertedCounts_of_shape (by simp [varNames, a]) (by rw [a]) hc
    rw [b, a]
    refine ⟨slotsKept_refl _, ?_⟩
    intro c hcm
    have := loop_expression_exact i1 c1 he c hcm
    exact callExact_mono (by rw [a]; exact slotsKept_refl _) this
  · obtain ⟨st2, li, vi, t, eo, hs, -, -, hl⟩ := h1
    have c1 : ConvertedCounts st1 :=
      convertedCounts_of_shape (by simp [varNames, a]) (by rw [a]) hc
    have c2 := loop_assignment_setup_convertedCounts c1 hs
    obtain ⟨s1, s2, -⟩ := loop_assignment_setup_slots hs
    rw [a] at s1
    obtain ⟨x1, x2⟩ := loop_assignment_exact c2 s2 hl
    exact ⟨slotsKept_trans s1 x1, fun c hcm => callExact_mono s1 (x2 c hcm)⟩

theorem range_slots (e : CStr) (st : Stores) (sf : Nat) :
    SlotsKept st.vars.entries (range e st sf).st.vars.entries := by
  by_cases ha : RangeArgAccepted e
  · rw [range_of_accepted ha]
    unfold range_new_loop
    cases hr : range_redefine (field ',' 0 e) (numField 1 e) (numField 2 e) (numField 3 e)
        st.loops with
    | some p => exact slotsKept_refl _
    | none =>
      simp only []
      cases hp : range_promote (field ',' 0 e) st.vars.entries with
      | none => exact slotsKept_refl _
      | some r => exact slotsKept_promote (validName_ne_sentinel ha.2.1) hp
  · rw [range_of_not_accepted ha]
    exact slotsKept_refl _

theorem download_assignment_exact {te : CStr → Table → Option ℚ} {st : Stores}
    {e n : CStr} {sf : Nat} (hc : ConvertedCounts st) (hn : ValidName n) :
    SlotsKept st.vars.entries (download_assignment te st e n sf).st.vars.entries
    ∧ ∀ c ∈ calls (download_assignment te st e n sf).out, CallExact st c := by
  have c0 : CallExact st (e, tableVL st, st) := ⟨slotsKept_refl _, hc, Or.inl rfl⟩
  have hs : ∀ value, SlotsKept st.vars.entries
      (download_assignment_print n st sf value).2.1.vars.entries := by
    intro value
    unfold download_assignment_print
    simp only []
    cases ha : assignVariable n value st.vars.entries with
    | none => exact slotsKept_refl _
    | some r => exact slotsKept_assignVariable (validName_ne_sentinel hn) ha
  unfold download_assignment
  simp only []
  split
  · rename_i value hv
    split_ifs with hf
    · refine ⟨hs value, ?_⟩
      intro c hcm
      simp only [calls, download_assignment_print_calls, List.mem_cons, List.mem_nil_iff,
        or_false] at hcm
      subst hcm; exact c0
    · refine ⟨?_, ?_⟩
      · simp only [download_allocate_variable]
        exact slotsKept_trans (hs value) (slotsKept_append _ _)
      · intro c hcm
        simp only [calls, calls_append, download_assignment_print_calls,
          download_allocate_variable, List.mem_cons, List.mem_nil_iff, or_false,
          List.nil_append] at hcm
        subst hcm; exact c0
  · refine ⟨slotsKept_refl _, ?_⟩
    intro c hcm
    simp only [calls, List.mem_cons, List.mem_nil_iff, or_false] at hcm
    subst hcm; exact c0

theorem download_expression_exact (te : CStr → Table → Option ℚ) (st : Stores) (line : CStr)
    (sf : Nat) (hc : ConvertedCounts st) :
    ∀ c ∈ calls (download_expression te st line sf).out, CallExact st c := by
  have c0 : CallExact st (line, tableVL st, st) := ⟨slotsKept_refl _, hc, Or.inl rfl⟩
  unfold download_expression
  simp only []
  split
  · intro c hcm
    simp only [calls, List.mem_cons, List.mem_nil_iff, or_false] at hcm
    subst hcm; exact c0
  · intro c hcm
    simp only [calls, List.mem_cons, List.mem_nil_iff, or_false] at hcm
    subst hcm; exact c0

theorem download_line_exact {te : CStr → Table → Option ℚ} {sf : Nat} {st st1 : Stores}
    {line : CStr} {out : List Ev} (hi : Inv st) (hc : ConvertedCounts st)
    (h : download_line te sf st line = some (st1, out)) :
    SlotsKept st.vars.entries st1.vars.entries ∧ ∀ c ∈ calls out, CallExact st c := by
  rcases download_line_cases h with ⟨rfl, rfl, -⟩ | ⟨r, hr, -, rfl, rfl⟩
    | ⟨r, hr, -, rfl, rfl⟩ | ⟨rfl, rfl, -, -⟩ | ⟨tok, ex, -, -, hv, -, rfl, rfl⟩
    | ⟨-, rfl, rfl⟩
  · exact ⟨slotsKept_refl _, calls_nil_exact _⟩
  · have hcalls := detect_range_print_calls hr
    refine ⟨?_, by rw [hcalls]; exact calls_nil_exact st⟩
    rcases detect_range_print_cases hr with rfl | rfl | ⟨e, rfl⟩
    · exact slotsKept_refl _
    · exact slotsKept_refl _
    · exact range_slots e st sf
  · rcases detect_loops_cases hr with rfl | ⟨r1, hl, rfl⟩
    · exact ⟨slotsKept_refl _, calls_nil_exact st⟩
    · obtain ⟨a, b⟩ := @loop_exact te line st sf r1 hi hc hl
      refine ⟨a, ?_⟩
      intro c hcm
      rw [calls_append] at hcm
      have he : calls (if r1.ret ≠ 0 then [Ev.err] else []) = [] := by
        split_ifs <;> rfl
      rw [he, List.append_nil] at hcm
      exact b c hcm
  · exact ⟨slotsKept_refl _, by intro c hcm; simp [calls] at hcm⟩
  · exact download_assignment_exact hc hv
  · rw [download_expression_st]
    exact ⟨slotsKept_refl _, download_expression_exact te st line sf hc⟩

theorem download_lines_exact {te : CStr → Table → Option ℚ} {sf : Nat} {lines : List CStr}
    {st st2 : Stores} {out : List Ev} (hi : Inv st) (hc : ConvertedCounts st)
    (h : download_lines te sf st lines = some (st2, out)) :
    Inv st2 ∧ ConvertedCounts st2 ∧ SlotsKept st.vars.entries st2.vars.entries
    ∧ ∀ c ∈ calls out, CallExact st c := by
  induction lines generalizing st st2 out with
  | nil =>
    simp only [download_lines, Option.some.injEq, Prod.mk.injEq] at h
    obtain ⟨rfl, rfl⟩ := h
    exact ⟨hi, hc, slotsKept_refl _, calls_nil_exact st⟩
  | cons line rest ih =>
    unfold download_lines at h
    cases h1 : download_line te sf st line with
    | none => simp [h1] at h
    | some p1 =>
      obtain ⟨st1, out1⟩ := p1
      simp only [h1] at h
      cases h2 : download_lines te sf st1 rest with
      | none => simp [h2] at h
      | some p2 =>
        obtain ⟨st3, out2⟩ := p2
        simp only [h2, Option.some.injEq, Prod.mk.injEq] at h
        obtain ⟨rfl, rfl⟩ := h
        have i1 := (download_line_inv hi h1).1
        have c1 := download_line_convertedCounts hi hc h1
        obtain ⟨a, b⟩ := download_line_exact hi hc h1
        obtain ⟨x1, x2, x3, x4⟩ := ih i1 c1 h2
        refine ⟨x1, x2, slotsKept_trans a x3, ?_⟩
        intro c hcm
        rw [calls_append, List.mem_append] at hcm
        rcases hcm with hcm | hcm
        · exact b c hcm
        · exact callExact_mono a (x4 c hcm)

/-! ## What `@print` lists -/

theorem live_count {st : Stores} (h : ConvertedCounts st) :
    (st.vars.entries.length : Int) - st.vars.converted = ((liveNames st).length : Int) := by
  unfold ConvertedCounts at h
  have h1 := @List.length_eq_length_filter_add _ (varNames st) (fun n => decide (n = sentinel))
  have h2 : (varNames st).length = st.vars.entries.length := by simp [varNames]
  have h3 : (varNames st).filter (fun x => !decide (x = sentinel)) = liveNames st := by
    unfold liveNames
    congr 1
    funext x
    simp
  rw [h3, h2] at h1
  rw [h, h1]
  push_cast
  ring

theorem liveNames_eq_nil_iff (st : Stores) :
    liveNames st = [] ↔ st.vars.entries.filter (fun v => v.name ≠ sentinel) = [] := by
  unfold liveNames varNames
  simp [List.filter_eq_nil_iff]

theorem print_line (te : CStr → Table → Option ℚ) (sf : Nat) (st : Stores) :
    download_line te sf st "@print\n".toList = some (st, print_variables st sf) := by
  rfl

theorem reachable_storesPromoted (te : CStr → Table → Option ℚ) :
    Reachable te storesPromoted :=
  Reachable.step 3 ("@range ".toList ++ "x,0,1,3\n".toList) storesXA storesPromoted
    [Ev.loopLine 3 ['x'] 0 0 1 3] (reachable_storesXA te)
    ((download_line_routed te 3 storesXA "x,0,1,3\n".toList (by decide) (by decide)
      (by decide) (by decide)).trans (by decide!))

/-- C23. In every reachable state the counter `converted` is the number of slots of
the variable store whose name is the sentinel. So the line `@print` prints the listing
of `print_variables`, and this listing has the line "No variables were defined."
exactly when no slot is live, whatever the number of slots; when a slot is live the
listing is "Variables:", one line for each live slot with its name and its value, in
the order of the slots, and then the listing of the loops. The order of the slots is
the order of insertion: whatever a line does, every slot is afterwards at the index it
had, with the name it had or as a tombstone. -/
theorem C23_converted_counts_tombstones (te : CStr → Table → Option ℚ) (st : Stores)
    (h : Reachable te st) :
    st.vars.converted = (((varNames st).filter (fun n => n = sentinel)).length : Int)
    ∧ (∀ sf, download_line te sf st "@print\n".toList = some (st, print_variables st sf))
    ∧ (∀ sf, Ev.text "No variables were defined.\n" ∈ print_variables st sf
        ↔ liveNames st = [])
    ∧ (∀ sf, liveNames st ≠ [] →
        print_variables st sf
          = Ev.text "Variables:\n"
            :: ((st.vars.entries.filter (fun v => v.name ≠ sentinel)).map
                  (fun v => Ev.varLine sf v.name v.value)
                ++ (if st.loops.length = 0 then [Ev.text "No loop variables were defined.\n"]
                    else Ev.text "Loop variables:\n" :: st.loops.map (loopLine sf))))
    ∧ (∀ sf line st1 out, download_line te sf st line = some (st1, out) →
        SlotsKept st.vars.entries st1.vars.entries) := by
  have hc := reachable_convertedCounts h
  have hi := reachable_inv h
  have hlc := live_count hc
  refine ⟨hc, fun sf => print_line te sf st, ?_, ?_, ?_⟩
  · intro sf
    unfold print_variables
    by_cases h0 : (st.vars.entries.length : Int) - st.vars.converted = 0
    · rw [if_pos h0]
      rw [hlc] at h0
      have : liveNames st = [] := List.length_eq_zero.mp (by exact_mod_cast h0)
      simp [this]
    · rw [if_neg h0]
      rw [hlc] at h0
      have hne : liveNames st ≠ [] := by
        intro he
        rw [he] at h0
        exact h0 rfl
      simp only [hne, iff_false, List.mem_append, List.mem_cons, List.mem_map, not_or]
      refine ⟨⟨by decide, ?_⟩, ?_⟩
      · rintro ⟨v, -, hv⟩
        simp at hv
      · split_ifs
        · simp
        · simp [loopLine]
  · intro sf hne
    unfold print_variables
    rw [if_neg]
    · rfl
    · rw [hlc]
      intro h0
      exact hne (List.length_eq_zero.mp (by exact_mod_cast h0))
  · intro sf line st1 out hd
    exact (download_line_exact hi hc hd).1

theorem C23_witness :
    Reachable teLiteral storesPromoted
    ∧ storesPromoted.vars.converted = 1
    ∧ print_variables storesPromoted 3
        = [Ev.text "No variables were defined.\n", Ev.text "Loop variables:\n",
            Ev.loopLine 3 ['a'] 0 0 1 5, Ev.loopLine 3 ['x'] 0 0 1 3]
    ∧ (Ev.text "No variables were defined.\n" ∈ print_variables storesPromoted 3
        ↔ liveNames storesPromoted = []) :=
  ⟨reachable_storesPromoted teLiteral, rfl, by decide!,
    (C23_converted_counts_tombstones teLiteral storesPromoted
      (reachable_storesPromoted teLiteral)).2.2.1 3⟩

/-! ## The binding table of an evaluation -/

theorem bind_vars_length {st : Stores} (hc : ConvertedCounts st) :
    ((bind_vars st.vars.entries).length : Int)
      = (st.vars.entries.length : Int) - st.vars.converted := by
  rw [live_count hc]
  have := congrArg List.length (bind_vars_names st.vars.entries)
  simp only [List.length_map] at this
  rw [this]
  rfl

theorem table_of_stores {s : Stores} {tab : Table} (hi : Inv s) (hc : ConvertedCounts s)
    (ht : tab = tableVL s ∨ tab = tableLV s) :
    (tab.map Prod.fst).Nodup
    ∧ (∀ x ∈ s.vars.entries, x.name ≠ sentinel → (x.name, x.value) ∈ tab)
    ∧ (∀ l ∈ s.loops, (l.name, l.currentValue) ∈ tab)
    ∧ (∀ p ∈ tab, (∃ x ∈ s.vars.entries, x.name ≠ sentinel ∧ p = (x.name, x.value))
        ∨ ∃ l ∈ s.loops, p = (l.name, l.currentValue))
    ∧ (∀ p ∈ tab, p.1 ≠ sentinel)
    ∧ (tab.length : Int)
        = ((s.vars.entries.length : Int) - s.vars.converted) + (s.loops.length : Int) := by
  have hs := inv_loop_ne_sentinel hi
  have hmem : ∀ p, p ∈ tab ↔ (p ∈ bind_vars s.vars.entries ∨ p ∈ bind_loops s.loops) := by
    intro p
    rcases ht with rfl | rfl
    · simp [tableVL]
    · simp only [tableLV, List.mem_append]
      exact Or.comm
  have hv : ∀ p, p ∈ bind_vars s.vars.entries
      ↔ ∃ x ∈ s.vars.entries, x.name ≠ sentinel ∧ p = (x.name, x.value) := by
    intro p
    simp only [bind_vars, List.mem_map, List.mem_filter, decide_eq_true_eq]
    constructor
    · rintro ⟨x, ⟨h1, h2⟩, h3⟩
      exact ⟨x, h1, h2, h3.symm⟩
    · rintro ⟨x, h1, h2, h3⟩
      exact ⟨x, ⟨h1, h2⟩, h3.symm⟩
  have hl : ∀ p, p ∈ bind_loops s.loops ↔ ∃ l ∈ s.loops, p = (l.name, l.currentValue) := by
    intro p
    rw [bind_loops_eq hs]
    simp only [List.mem_map]
    constructor
    · rintro ⟨l, h1, h3⟩
      exact ⟨l, h1, h3.symm⟩
    · rintro ⟨l, h1, h3⟩
      exact ⟨l, h1, h3.symm⟩
  have hlen : (bind_loops s.loops).length = s.loops.length := by
    rw [bind_loops_eq hs, List.length_map]
  refine ⟨?_, ?_, ?_, ?_, ?_, ?_⟩
  · rcases ht with rfl | rfl
    · rw [tableVL_names hi]; exact hi.2
    · exact tableLV_nodup hi
  · intro x hx hn
    exact (hmem _).mpr (Or.inl ((hv _).mpr ⟨x, hx, hn, rfl⟩))
  · intro l hm
    exact (hmem _).mpr (Or.inr ((hl _).mpr ⟨l, hm, rfl⟩))
  · intro p hp
    rcases (hmem p).mp hp with h1 | h1
    · exact Or.inl ((hv p).mp h1)
    · exact Or.inr ((hl p).mp h1)
  · intro p hp
    rcases (hmem p).mp hp with h1 | h1
    · obtain ⟨x, -, hn, rfl⟩ := (hv p).mp h1
      exact hn
    · obtain ⟨l, hm, rfl⟩ := (hl p).mp h1
      exact hs l hm
  · have hb := bind_vars_length hc
    rcases ht with rfl | rfl
    · simp only [tableVL, List.length_append, hlen]
      push_cast
      rw [hb]
    · simp only [tableLV, List.length_append, hlen]
      push_cast
      rw [hb]
      ring

/-- C22. For every call of the evaluator made by lines processed from a reachable
state (by a bare expression, an assignment, a loop over an expression or a loop over
an assignment), with the table of the call and the stores as they are at the call:
the table is the one the binding loops make from these stores, variables first or
loops first; no name occurs twice in it; it has the entry (name, value) of every
variable slot whose name is not the sentinel and the entry (name, current value) of
every loop; every entry of it is one of these; no entry has the sentinel as its name;
and its length is (variables.size - variables.converted) + loops.size. -/
theorem C22_binding_table (te : CStr → Table → Option ℚ) (st : Stores) (sf : Nat)
    (lines : List CStr) (st2 : Stores) (out : List Ev) (h : Reachable te st)
    (hd : download_lines te sf st lines = some (st2, out)) :
    ∀ c ∈ calls out,
      (c.2.1 = tableVL c.2.2 ∨ c.2.1 = tableLV c.2.2)
      ∧ (c.2.1.map Prod.fst).Nodup
      ∧ (∀ x ∈ c.2.2.vars.entries, x.name ≠ sentinel → (x.name, x.value) ∈ c.2.1)
      ∧ (∀ l ∈ c.2.2.loops, (l.name, l.currentValue) ∈ c.2.1)
      ∧ (∀ p ∈ c.2.1,
          (∃ x ∈ c.2.2.vars.entries, x.name ≠ sentinel ∧ p = (x.name, x.value))
          ∨ ∃ l ∈ c.2.2.loops, p = (l.name, l.currentValue))
      ∧ (∀ p ∈ c.2.1, p.1 ≠ sentinel)
      ∧ (c.2.1.length : Int)
          = ((c.2.2.vars.entries.length : Int) - c.2.2.vars.converted)
            + (c.2.2.loops.length : Int) := by
  intro c hc
  have hi := reachable_inv h
  have hcc := reachable_convertedCounts h
  have h1 := ((download_lines_callOk hi hd).2.2 c hc).1
  obtain ⟨-, h2, h3⟩ := (download_lines_exact hi hcc hd).2.2.2 c hc
  exact ⟨h3, table_of_stores h1 h2 h3⟩

theorem C22_witness :
    (Reachable teLiteral storesPromoted
      ∧ download_lines teLiteral 3 storesPromoted ["1\n".toList]
          = some (storesPromoted,
              [Ev.compile "1\n".toList [(['a'], 0), (['x'], 0)] storesPromoted,
                Ev.result 3 1]))
    ∧ ∀ c ∈ calls [Ev.compile "1\n".toList [(['a'], 0), (['x'], 0)] storesPromoted,
          Ev.result 3 1],
        (c.2.1 = tableVL c.2.2 ∨ c.2.1 = tableLV c.2.2)
        ∧ (c.2.1.length : Int)
          = ((c.2.2.vars.entries.length : Int) - c.2.2.vars.converted)
            + (c.2.2.loops.length : Int) :=
  ⟨⟨reachable_storesPromoted teLiteral, by decide!⟩,
    fun c hc =>
      ⟨(C22_binding_table teLiteral storesPromoted 3 ["1\n".toList] storesPromoted
        [Ev.compile "1\n".toList [(['a'], 0), (['x'], 0)] storesPromoted, Ev.result 3 1]
        (reachable_storesPromoted teLiteral) (by decide!) c hc).1,
      (C22_binding_table teLiteral storesPromoted 3 ["1\n".toList] storesPromoted
        [Ev.compile "1\n".toList [(['a'], 0), (['x'], 0)] storesPromoted, Ev.result 3 1]
        (reachable_storesPromoted teLiteral) (by decide!) c hc).2.2.2.2.2.2⟩⟩

/-! ## No printed line shows the sentinel -/

theorem sentinelFree_nil : SentinelFree [] := by
  intro e he
  simp at he

theorem sentinelFree_cons {e : Ev} {out : List Ev} :
    SentinelFree (e :: out) ↔ sentinel ∉ e.names ∧ SentinelFree out := by
  unfold SentinelFree
  simp only [List.mem_cons, forall_eq_or_imp]

theorem sentinelFree_append {a b : List Ev} :
    SentinelFree (a ++ b) ↔ SentinelFree a ∧ SentinelFree b := by
  unfold SentinelFree
  simp only [List.mem_append]
  constructor
  · intro h
    exact ⟨fun e he => h e (Or.inl he), fun e he => h e (Or.inr he)⟩
  · rintro ⟨h1, h2⟩ e (he | he)
    · exact h1 e he
    · exact h2 e he

theorem sentinelFree_err (b : Prop) [Decidable b] :
    SentinelFree (if b then [Ev.err] else []) := by
  split_ifs
  · simp [sentinelFree_cons, sentinelFree_nil, Ev.names]
  · exact sentinelFree_nil

theorem sentinelFree_print_variables {st : Stores} (hi : Inv st) (sf : Nat) :
    SentinelFree (print_variables st sf) := by
  unfold print_variables
  rw [sentinelFree_append]
  constructor
  · split_ifs
    · simp [sentinelFree_cons, sentinelFree_nil, Ev.names]
    · rw [sentinelFree_cons]
      refine ⟨by simp [Ev.names], ?_⟩
      intro e he
      obtain ⟨v, hv, rfl⟩ := List.mem_map.mp he
      have := (List.mem_filter.mp hv).2
      simp only [Ev.names, List.mem_singleton]
      intro hs
      simp [← hs] at this
  · split_ifs
    · simp [sentinelFree_cons, sentinelFree_nil, Ev.names]
    · rw [sentinelFree_cons]
      refine ⟨by simp [Ev.names], ?_⟩
      intro e he
      obtain ⟨l, hl, rfl⟩ := List.mem_map.mp he
      simp only [loopLine, Ev.names, List.mem_singleton]
      intro hs
      exact inv_loop_ne_sentinel hi l hl hs.symm

theorem range_redefine_name {n : CStr} {s i e : ℚ} {ls ls1 : List Loop} {l1 : Loop}
    (h : range_redefine n s i e ls = some (ls1, l1)) : l1.name = n := by
  induction ls generalizing ls1 with
  | nil => simp [range_redefine] at h
  | cons l ls ih =>
    unfold range_redefine at h
    split_ifs at h with hx
    · simp only [Option.some.injEq, Prod.mk.injEq] at h
      rw [← h.2]; exact hx
    · simp only [Option.map_eq_some', Prod.mk.injEq] at h
      obtain ⟨p, hp, -, rfl⟩ := h
      exact ih hp

theorem sentinelFree_range (e : CStr) (st : Stores) (sf : Nat) :
    SentinelFree (range e st sf).out := by
  by_cases ha : RangeArgAccepted e
  · rw [range_of_accepted ha]
    have hn := validName_ne_sentinel ha.2.1
    unfold range_new_loop
    cases hr : range_redefine (field ',' 0 e) (numField 1 e) (numField 2 e) (numField 3 e)
        st.loops with
    | some p =>
      obtain ⟨ls1, l1⟩ := p
      have := range_redefine_name hr
      simp only [sentinelFree_cons, sentinelFree_nil, and_true, loopLine, Ev.names,
        List.mem_singleton, this]
      exact fun hs => hn hs.symm
    | none =>
      simp only [range_allocate_loop, sentinelFree_cons, sentinelFree_nil, and_true,
        loopLine, Ev.names, List.mem_singleton]
      exact fun hs => hn hs.symm
  · rw [range_of_not_accepted ha]
    exact sentinelFree_nil

theorem sentinelFree_loop_expression_from (te : CStr → Table → Option ℚ) (e : CStr)
    (k sf : Nat) (names : List CStr) (n i : Nat) (st : Stores) (values : List ℚ)
    (hn : (loopAt st.loops k).name ≠ sentinel) :
    SentinelFree (loop_expression_from te e k sf names n i st values).out := by
  induction n generalizing i st values with
  | zero => exact sentinelFree_nil
  | succ n ih =>
    unfold loop_expression_from
    simp only []
    split
    · simp only [sentinelFree_cons]
      refine ⟨by simp [Ev.names], ?_, ih _ _ _ ?_⟩
      · simp only [Ev.names, List.mem_singleton]
        exact fun hs => hn hs.symm
      · have hkey := loopAt_key_of_keys (setCurrentValue_key st.loops k
          ((loopAt st.loops k).startingValue + (i : ℚ) * (loopAt st.loops k).increment)) k
        simp only [Loop.key, Prod.mk.injEq] at hkey
        rw [hkey.1]; exact hn
    · simp [sentinelFree_cons, sentinelFree_nil, Ev.names]

theorem sentinelFree_loop_assignment_from (te : CStr → Table → Option ℚ) (sf : Nat)
    (li vi : Option Nat) (ev : CStr) (k : Nat) (e : CStr) (n i : Nat) (st : Stores)
    (ht : ev ≠ sentinel) (hn : (loopAt st.loops k).name ≠ sentinel) :
    SentinelFree (loop_assignment_from te sf li vi ev k e n i st).out := by
  induction n generalizing i st with
  | zero => exact sentinelFree_nil
  | succ n ih =>
    unfold loop_assignment_from
    simp only []
    split
    · rename_i value hv
      have hkey := loopAt_key_of_keys ((loop_print_assignment_shape value
        ⟨st.vars, setCurrentValue st.loops k
          ((loopAt st.loops k).startingValue + (i : ℚ) * (loopAt st.loops k).increment)⟩
        ev li vi sf k i).2.2.trans (setCurrentValue_key st.loops k
          ((loopAt st.loops k).startingValue + (i : ℚ) * (loopAt st.loops k).increment))) k
      simp only [Loop.key, Prod.mk.injEq] at hkey
      simp only [sentinelFree_cons]
      refine ⟨by simp [Ev.names], ?_, ih _ _ ?_⟩
      · have hw : (loop_print_assignment value
            ⟨st.vars, setCurrentValue st.loops k
              ((loopAt st.loops k).startingValue + (i : ℚ) * (loopAt st.loops k).increment)⟩
            ev li vi sf k i).2.names
            = [ev, (loopAt (loop_print_assignment value
                ⟨st.vars, setCurrentValue st.loops k
                  ((loopAt st.loops k).startingValue
                    + (i : ℚ) * (loopAt st.loops k).increment)⟩
                ev li vi sf k i).1.loops k).name] := rfl
        rw [hw, hkey.1]
        simp only [List.mem_cons, List.mem_nil_iff, or_false, not_or]
        exact ⟨fun hs => ht hs.symm, fun hs => hn hs.symm⟩
      · rw [hkey.1]; exact hn
    · simp [sentinelFree_cons, sentinelFree_nil, Ev.names]

theorem sentinelFree_loop {te : CStr → Table → Option ℚ} {line : CStr} {st : Stores}
    {sf : Nat} {r : Res} (hi : Inv st) (h : loop te line st sf = some r) :
    SentinelFree r.out := by
  rcases loop_cases hi h with ⟨-, b, -, -⟩ | ⟨st1, k, -, -, i1, hk, -, h1 | h1⟩
  · rw [b]; exact sentinelFree_nil
  · obtain ⟨e, he⟩ := h1
    have hn : (loopAt st1.loops k).name ≠ sentinel :=
      inv_loop_ne_sentinel i1 _ (loopAt_mem _ _ hk)
    unfold loop_expression at he
    cases hl : st1.loops[k]? with
    | none => simp [hl] at he
    | some l =>
      simp only [hl] at he
      cases hr : repetitions l with
      | none => simp [hr] at he
      | some reps =>
        simp only [hr, Option.some.injEq] at he
        subst he
        exact sentinelFree_loop_expression_from _ _ _ _ _ _ _ _ _ hn
  · obtain ⟨st2, li, vi, t, eo, hs, -, l2, hl⟩ := h1
    have hn : (loopAt st2.loops k).name ≠ sentinel := by
      rw [l2]
      exact inv_loop_ne_sentinel i1 _ (loopAt_mem _ _ hk)
    have ht := (loop_assignment_setup_slots hs).2.2
    unfold loop_assignment at hl
    cases hg : st2.loops[k]? with
    | none => simp [hg] at hl
    | some l =>
      simp only [hg] at hl
      cases hr : repetitions l with
      | none => simp [hr] at hl
      | some reps =>
        simp only [hr] at hl
        cases eo with
        | none =>
          simp only [] at hl
          split_ifs at hl
          simp only [Option.some.injEq] at hl
          subst hl
          exact sentinelFree_nil
        | some e =>
          simp only [Option.some.injEq] at hl
          subst hl
          exact sentinelFree_loop_assignment_from _ _ _ _ _ _ _ _ _ _ ht hn

theorem sentinelFree_download_assignment (te : CStr → Table → Option ℚ) (st : Stores)
    (e n : CStr) (sf : Nat) (hn : n ≠ sentinel) :
    SentinelFree (download_assignment te st e n sf).out := by
  have hs : sentinel ∉ (Ev.varLine sf n (0 : ℚ)).names → ∀ value,
      SentinelFree (download_assignment_print n st sf value).2.2 := by
    intro _ value
    unfold download_assignment_print
    simp only []
    rw [sentinelFree_append]
    constructor <;> split <;>
      simp [sentinelFree_cons, sentinelFree_nil, Ev.names, Ne.symm hn]
  have h0 : sentinel ∉ (Ev.varLine sf n (0 : ℚ)).names := by
    simp [Ev.names, Ne.symm hn]
  unfold download_assignment
  simp only []
  split
  · rename_i value hv
    split_ifs
    · rw [sentinelFree_cons]
      exact ⟨by simp [Ev.names], hs h0 value⟩
    · rw [sentinelFree_cons, sentinelFree_append]
      refine ⟨by simp [Ev.names], hs h0 value, ?_⟩
      simp [download_allocate_variable, sentinelFree_cons, sentinelFree_nil, Ev.names,
        Ne.symm hn]
  · simp [sentinelFree_cons, sentinelFree_nil, Ev.names]

theorem sentinelFree_download_expression (te : CStr → Table → Option ℚ) (st : Stores)
    (line : CStr) (sf : Nat) : SentinelFree (download_expression te st line sf).out := by
  unfold download_expression
  simp only []
  split <;> simp [sentinelFree_cons, sentinelFree_nil, Ev.names]

theorem sentinelFree_download_line {te : CStr → Table → Option ℚ} {sf : Nat}
    {st st1 : Stores} {line : CStr} {out : List Ev} (hi : Inv st)
    (h : download_line te sf st line = some (st1, out)) : SentinelFree out := by
  rcases download_line_cases h with ⟨-, ho, -⟩ | ⟨r, hr, -, -, ho⟩ | ⟨r, hr, -, -, ho⟩
    | ⟨-, ho, -⟩ | ⟨tok, e, -, -, hv, -, -, ho⟩ | ⟨-, -, ho⟩
  · rw [ho]
    exact sentinelFree_nil
  · rw [ho]
    rcases detect_range_print_cases hr with rfl | rfl | ⟨e, rfl⟩
    · exact sentinelFree_nil
    · exact sentinelFree_print_variables hi sf
    · exact sentinelFree_append.mpr ⟨sentinelFree_range _ _ _, sentinelFree_err _⟩
  · rw [ho]
    rcases detect_loops_cases hr with rfl | ⟨r1, hl, rfl⟩
    · exact sentinelFree_nil
    · exact sentinelFree_append.mpr
        ⟨@sentinelFree_loop te line st sf r1 hi hl, sentinelFree_err _⟩
  · rw [ho]
    simp [sentinelFree_cons, sentinelFree_nil, Ev.names]
  · rw [ho]
    exact sentinelFree_download_assignment _ _ _ _ _ (validName_ne_sentinel hv)
  · rw [ho]
    exact sentinelFree_download_expression _ _ _ _

theorem sentinelFree_download_lines {te : CStr → Table → Option ℚ} {sf : Nat}
    {lines : List CStr} {st st2 : Stores} {out : List Ev} (hi : Inv st)
    (h : download_lines te sf st lines = some (st2, out)) : SentinelFree out := by
  induction lines generalizing st st2 out with
  | nil =>
    simp only [download_lines, Option.some.injEq, Prod.mk.injEq] at h
    rw [← h.2]
    exact sentinelFree_nil
  | cons line rest ih =>
    unfold download_lines at h
    cases h1 : download_line te sf st line with
    | none => simp [h1] at h
    | some p =>
      obtain ⟨st1, out1⟩ := p
      simp only [h1] at h
      cases h2 : download_lines te sf st1 rest with
      | none => simp [h2] at h
      | some q =>
        obtain ⟨st3, out2⟩ := q
        simp only [h2, Option.some.injEq, Prod.mk.injEq] at h
        rw [← h.2]
        exact sentinelFree_append.mpr
          ⟨sentinelFree_download_line hi h1, ih (download_line_inv hi h1).1 h2⟩
/-! ## A tombstone is out of reach -/

theorem strtok_ne_sentinel (s : CStr) : (strtok s [' ']).1 ≠ some sentinel := by
  unfold strtok
  simp only []
  split_ifs with h
  · simp
  · intro hs
    simp only [Option.some.injEq] at hs
    have hm : ' ' ∈ List.takeWhile (fun c => !([' '] : List Char).contains c)
        (List.dropWhile (fun c => ([' '] : List Char).contains c) s) := by
      rw [hs]; simp [sentinel]
    have := List.mem_takeWhile_imp hm
    exact absurd this (by decide)

theorem range_of_sentinel (e : CStr) (st : Stores) (sf : Nat)
    (h : (strtok e [',']).1 = some sentinel) :
    range e st sf = ⟨INVALID_VARIABLES_ERROR, st, []⟩ := by
  unfold range
  by_cases hc : countChar ',' e ≠ LOOP_COMMAS
  · rw [if_pos hc]
  rw [if_neg hc]
  simp only [h]
  split
  · rename_i name s1 s2 s3 a b c heq
    simp only [Option.some.injEq] at a
    subst a
    rw [if_neg (by decide), if_pos (by decide)]
  · rfl

/-- C24. From a reachable state whose variable slot `i` is a tombstone with the value
`v`, whatever lines are processed afterwards: the slot `i` is the same tombstone with
the same value after the lines and in the stores at every call of the evaluator made
by the lines; every entry of the table of such a call comes from a variable slot
whose name is not the sentinel or from a loop, and no entry has the sentinel as its
name; no printed line shows the sentinel as a name. The look-ups cannot be made with
the sentinel: a key that passes `download_assignment_check_valid` is not the sentinel;
`range` rejects an argument whose name token is the sentinel before it looks a name
up; no token cut at blanks, as the loop name and the target of a loop assignment are,
is the sentinel; and `loop_assignment_setup` rejects the sentinel as a target and
leaves the stores as they are. -/
theorem C24_tombstone_out_of_reach (te : CStr → Table → Option ℚ) (st : Stores) (sf : Nat)
    (lines : List CStr) (st2 : Stores) (out : List Ev) (h : Reachable te st)
    (hd : download_lines te sf st lines = some (st2, out)) :
    (∀ (i : Nat) (v : ℚ), st.vars.entries[i]? = some ⟨sentinel, v⟩ →
        st2.vars.entries[i]? = some ⟨sentinel, v⟩
        ∧ ∀ c ∈ calls out, c.2.2.vars.entries[i]? = some ⟨sentinel, v⟩)
    ∧ (∀ c ∈ calls out, ∀ p ∈ c.2.1,
        p.1 ≠ sentinel
        ∧ ((∃ x ∈ c.2.2.vars.entries, x.name ≠ sentinel ∧ p = (x.name, x.value))
          ∨ ∃ l ∈ c.2.2.loops, p = (l.name, l.currentValue)))
    ∧ (∀ e ∈ out, sentinel ∉ e.names)
    ∧ (∀ n, (download_assignment_check_valid n).1 = 0 → n ≠ sentinel)
    ∧ (∀ e s f, (strtok e [',']).1 = some sentinel →
        range e s f = ⟨INVALID_VARIABLES_ERROR, s, []⟩)
    ∧ (∀ s, (strtok s [' ']).1 ≠ some sentinel)
    ∧ (∀ s, loop_assignment_setup (some sentinel) s = some (1, none, none, s)) := by
  have hi := reachable_inv h
  have hcc := reachable_convertedCounts h
  obtain ⟨-, -, x3, x4⟩ := download_lines_exact hi hcc hd
  have keep : ∀ {ys : List Variable}, SlotsKept st.vars.entries ys →
      ∀ (i : Nat) (v : ℚ), st.vars.entries[i]? = some ⟨sentinel, v⟩ →
        ys[i]? = some ⟨sentinel, v⟩ := by
    intro ys hk i v hv
    obtain ⟨y, hy, -, he⟩ := hk i _ hv
    rw [hy, he rfl]
  refine ⟨?_, ?_, sentinelFree_download_lines hi hd, ?_, ?_, strtok_ne_sentinel, ?_⟩
  · intro i v hv
    exact ⟨keep x3 i v hv, fun c hc => keep (x4 c hc).1 i v hv⟩
  · intro c hc p hp
    have h1 := ((download_lines_callOk hi hd).2.2 c hc).1
    obtain ⟨-, h2, h3⟩ := x4 c hc
    obtain ⟨-, -, -, t4, t5, -⟩ := table_of_stores h1 h2 h3
    exact ⟨t5 p hp, t4 p hp⟩
  · intro n hn
    exact validName_ne_sentinel (check_valid_zero (by rw [hn]; simp))
  · intro e s f he
    exact range_of_sentinel e s f he
  · intro s
    rfl

theorem C24_witness :
    (Reachable teLiteral storesPromoted
      ∧ download_lines teLiteral 3 storesPromoted ["x = 5\n".toList, "@print\n".toList]
          = some (⟨⟨[⟨sentinel, 1⟩], 1⟩, [⟨['a'], 0, 0, 1, 5⟩, ⟨['x'], 5, 0, 1, 3⟩]⟩,
              [Ev.compile " 5\n".toList [(['a'], 0), (['x'], 0)] storesPromoted,
                Ev.varLine 3 ['x'] 5, Ev.text "No variables were defined.\n",
                Ev.text "Loop variables:\n", Ev.loopLine 3 ['a'] 0 0 1 5,
                Ev.loopLine 3 ['x'] 5 0 1 3])
      ∧ storesPromoted.vars.entries[0]? = some ⟨sentinel, 1⟩)
    ∧ (⟨⟨[⟨sentinel, 1⟩], 1⟩, [⟨['a'], 0, 0, 1, 5⟩, ⟨['x'], 5, 0, 1, 3⟩]⟩ :
        Stores).vars.entries[0]? = some ⟨sentinel, 1⟩ :=
  ⟨⟨reachable_storesPromoted teLiteral, by decide!, rfl⟩,
    ((C24_tombstone_out_of_reach teLiteral storesPromoted 3
      ["x = 5\n".toList, "@print\n".toList]
      ⟨⟨[⟨sentinel, 1⟩], 1⟩, [⟨['a'], 0, 0, 1, 5⟩, ⟨['x'], 5, 0, 1, 3⟩]⟩
      [Ev.compile " 5\n".toList [(['a'], 0), (['x'], 0)] storesPromoted,
        Ev.varLine 3 ['x'] 5, Ev.text "No variables were defined.\n",
        Ev.text "Loop variables:\n", Ev.loopLine 3 ['a'] 0 0 1 5,
        Ev.loopLine 3 ['x'] 5 0 1 3]
      (reachable_storesPromoted teLiteral) (by decide!)).1 0 1 rfl).1⟩

/-! ## A line with a valid key is not taken for a directive -/

theorem isalpha_not_isspace {c : Char} (h : isalpha c = true) : isspace c = false := by
  cases hs : isspace c with
  | false => rfl
  | true =>
    exfalso
    unfold isspace at hs
    simp only [Bool.or_eq_true, decide_eq_true_eq] at hs
    rcases hs with ((((rfl | rfl) | rfl) | rfl) | rfl) | rfl <;> exact absurd h (by decide)

theorem trimKey_mem {tok : CStr} {c : Char} (h : c ∈ trimKey tok) : c ∈ tok := by
  unfold trimKey at h
  exact List.mem_of_mem_drop (List.mem_of_mem_take h)

theorem strtok_token_mem {s t : CStr} {d : List Char} {c : Char}
    (h : (strtok s d).1 = some t) (hc : c ∈ t) : c ∈ s := by
  unfold strtok at h
  simp only [] at h
  split_ifs at h
  simp only [Option.some.injEq] at h
  subst h
  exact (List.dropWhile_sublist _).subset ((List.takeWhile_sublist _).subset hc)

theorem key_alpha {line tok : CStr} (ht : (strtok line ['=']).1 = some tok)
    (hk : ValidName (trimKey tok)) : ∃ c ∈ line, isalpha c = true := by
  obtain ⟨h1, -, h3⟩ := hk
  cases hkey : trimKey tok with
  | nil => rw [hkey] at h1; simp at h1
  | cons c rest =>
    rw [hkey] at h3
    simp only [List.all_cons, Bool.and_eq_true] at h3
    refine ⟨c, strtok_token_mem ht (trimKey_mem ?_), h3.1⟩
    rw [hkey]
    exact List.mem_cons_self _ _

theorem key_at_invalid {w v tok : CStr} (hw : ∀ x ∈ w, isspace x = true)
    (ht : (strtok (w ++ '@' :: v) ['=']).1 = some tok) : ¬ ValidName (trimKey tok) := by
  have hf : fieldHead '=' (w ++ '@' :: v) = w ++ '@' :: fieldHead '=' v := by
    unfold fieldHead
    rw [List.takeWhile_append_of_pos, List.takeWhile_cons_of_pos (by decide)]
    intro a ha
    have : a ≠ '=' := isspace_ne (hw a ha) (by decide)
    simpa using this
  have hne : fieldHead '=' (w ++ '@' :: v) ≠ [] := by
    rw [hf]; simp
  rw [strtok_of_fieldHead hne, hf] at ht
  simp only [Option.some.injEq] at ht
  subst ht
  intro hk
  have := check_valid_at_key w (fieldHead '=' v) hw
  rw [check_valid_eq, if_pos hk] at this
  simp at this

theorem cstrAt_zero_at {line : CStr} (h : cstrAt line 0 = '@') : ∃ v, line = '@' :: v := by
  cases line with
  | nil => exact absurd h (by decide)
  | cons c v =>
    refine ⟨v, ?_⟩
    have : c = '@' := h
    rw [this]

theorem valid_key_not_directive (te : CStr → Table → Option ℚ) (st : Stores) (sf : Nat)
    {line tok : CStr} (h0 : '\x00' ∉ line) (ht : (strtok line ['=']).1 = some tok)
    (hk : ValidName (trimKey tok)) :
    detect_range_print line st sf = some ⟨0, st, []⟩
    ∧ detect_loops te line st sf = some ⟨0, st, []⟩ := by
  have hat : cstrAt line 0 ≠ '@' := by
    intro h
    obtain ⟨v, rfl⟩ := cstrAt_zero_at h
    exact @key_at_invalid [] v tok (by simp) ht hk
  constructor
  · rw [detect_range_print_def]
    have hts := testString_eq_dropWhile line h0
    have hsplit : line.takeWhile isspace ++ line.dropWhile isspace = line :=
      List.takeWhile_append_dropWhile _ _
    by_cases h1 : testString line = "@print\n".toList
    · exfalso
      rw [hts] at h1
      rw [h1] at hsplit
      rw [← hsplit] at ht
      exact key_at_invalid (fun x hx => List.mem_takeWhile_imp hx) ht hk
    rw [if_neg h1]
    obtain ⟨c, hc, ha⟩ := key_alpha ht hk
    have hcts : c ∈ testString line := by
      rw [hts]
      rw [← hsplit, List.mem_append] at hc
      rcases hc with hc | hc
      · have := List.mem_takeWhile_imp hc
        rw [isalpha_not_isspace ha] at this
        exact absurd this (by decide)
      · exact hc
    cases hrt : (strtok (testString line) [' ']).1 with
    | none =>
      exfalso
      unfold strtok at hrt
      simp only [] at hrt
      split_ifs at hrt with hnil
      have := List.dropWhile_eq_nil_iff.mp hnil c hcts
      simp only [List.contains_cons, List.contains_nil, Bool.or_false, beq_iff_eq] at this
      exact isalpha_ne_blank ha this
    | some rangeTest =>
      simp only []
      rw [if_neg]
      rintro ⟨-, -, h⟩
      exact hat h
  · unfold detect_loops
    rw [if_neg]
    rintro ⟨-, h, -⟩
    exact hat h

theorem assignment_line (te : CStr → Table → Option ℚ) (st : Stores) (sf : Nat)
    {line tok e : CStr} (h0 : '\x00' ∉ line) (hc : '#' ∉ line)
    (he : countChar '=' line = 1) (ht : (strtok line ['=']).1 = some tok)
    (hk : ValidName (trimKey tok)) (hx : (strtok (strtok line ['=']).2 ['=']).1 = some e) :
    download_line te sf st line
      = some ((download_assignment te st e (trimKey tok) sf).st,
          (download_assignment te st e (trimKey tok) sf).out) := by
  obtain ⟨h1, h2⟩ := valid_key_not_directive te st sf h0 ht hk
  rw [download_line_not_comment te sf st line hc, h1]
  simp only [ne_eq, not_true_eq_false, if_false, h2, he, ht, hx, List.nil_append]
  rw [check_valid_eq, if_pos hk]
  simp

/-! ## The value an assignment leaves for the next evaluation -/

theorem assignVariable_mem {n : CStr} {v : ℚ} {xs r : List Variable}
    (h : assignVariable n v xs = some r) : (⟨n, v⟩ : Variable) ∈ r := by
  induction xs generalizing r with
  | nil => simp [assignVariable] at h
  | cons x xs ih =>
    unfold assignVariable at h
    split_ifs at h with hx
    · simp only [Option.some.injEq] at h
      subst h
      rw [← hx]
      exact List.mem_cons_self _ _
    · simp only [Option.map_eq_some'] at h
      obtain ⟨r1, h1, h2⟩ := h
      subst h2
      exact List.mem_cons_of_mem _ (ih h1)

theorem assignLoop_mem {n : CStr} {v : ℚ} {ls r : List Loop}
    (h : assignLoop n v ls = some r) : ∃ l ∈ r, l.name = n ∧ l.currentValue = v := by
  induction ls generalizing r with
  | nil => simp [assignLoop] at h
  | cons x xs ih =>
    unfold assignLoop at h
    split_ifs at h with hx
    · simp only [Option.some.injEq] at h
      subst h
      exact ⟨_, List.mem_cons_self _ _, hx.symm, rfl⟩
    · simp only [Option.map_eq_some'] at h
      obtain ⟨r1, h1, h2⟩ := h
      subst h2
      obtain ⟨l, hl, a, b⟩ := ih h1
      exact ⟨l, List.mem_cons_of_mem _ hl, a, b⟩

theorem download_assignment_binds {te : CStr → Table → Option ℚ} {st : Stores}
    {e n : CStr} {sf : Nat} {v : ℚ} (hn : n ≠ sentinel) (hv : te e (tableVL st) = some v) :
    (n, v) ∈ bind_vars (download_assignment te st e n sf).st.vars.entries
    ∨ (n, v) ∈ bind_loops (download_assignment te st e n sf).st.loops := by
  unfold download_assignment
  simp only [hv]
  cases ha : assignVariable n v st.vars.entries with
  | some r1 =>
    left
    have hp : (download_assignment_print n st sf v).1 = true := by
      simp [download_assignment_print, ha]
    have hs : (download_assignment_print n st sf v).2.1.vars.entries = r1 := by
      simp [download_assignment_print, ha]
    rw [if_pos hp]
    simp only [hs]
    exact mem_bind_vars_iff.mpr ⟨_, assignVariable_mem ha, hn, rfl, rfl⟩
  | none =>
    cases hb : assignLoop n v st.loops with
    | some r2 =>
      right
      have hp : (download_assignment_print n st sf v).1 = true := by
        simp [download_assignment_print, ha, hb]
      have hs : (download_assignment_print n st sf v).2.1.loops = r2 := by
        simp [download_assignment_print, hb]
      rw [if_pos hp]
      simp only [hs]
      obtain ⟨l, hl, a, b⟩ := assignLoop_mem hb
      exact mem_bind_loops_iff.mpr ⟨l, hl, by rw [a]; exact hn, a, b⟩
    | none =>
      left
      have hp : ¬ (download_assignment_print n st sf v).1 = true := by
        simp [download_assignment_print, ha, hb]
      rw [if_neg hp]
      simp only [download_allocate_variable]
      exact mem_bind_vars_iff.mpr ⟨⟨n, v⟩, by simp, hn, rfl, rfl⟩

theorem mem_table {s : Stores} {tab : Table} (ht : tab = tableVL s ∨ tab = tableLV s)
    (p : CStr × ℚ) :
    p ∈ tab ↔ (p ∈ bind_vars s.vars.entries ∨ p ∈ bind_loops s.loops) := by
  rcases ht with rfl | rfl
  · simp [tableVL]
  · simp only [tableLV, List.mem_append]
    exact Or.comm

theorem table_count_one {s : Stores} {tab : Table} (hi : Inv s)
    (ht : tab = tableVL s ∨ tab = tableLV s) {n : CStr} {v : ℚ} (hm : (n, v) ∈ tab) :
    (tab.map Prod.fst).count n = 1 := by
  have hd : (tab.map Prod.fst).Nodup := by
    rcases ht with rfl | rfl
    · rw [tableVL_names hi]; exact hi.2
    · exact tableLV_nodup hi
  exact count_eq_one_of_nodup hd (List.mem_map.mpr ⟨(n, v), hm, rfl⟩)

theorem loop_search_keeps (n : CStr) (i : Nat) (ls : List Loop) (f : Option Nat) {l : Loop}
    (hl : l ∈ ls) (hn : l.name ≠ n) : l ∈ (loop_search n i ls f).2 := by
  induction ls generalizing i f with
  | nil => simp at hl
  | cons x xs ih =>
    unfold loop_search
    rcases List.mem_cons.mp hl with rfl | hl
    · rw [if_neg hn]
      exact List.mem_cons_self _ _
    · split_ifs
      · exact List.mem_cons_of_mem _ (ih _ _ hl)
      · exact List.mem_cons_of_mem _ (ih _ _ hl)

theorem mem_bind_loops_search {n t : CStr} {x : ℚ} (i : Nat) {ls : List Loop} (f : Option Nat)
    (h : (t, x) ∈ bind_loops ls) (hn : t ≠ n) :
    (t, x) ∈ bind_loops (loop_search n i ls f).2 := by
  rw [mem_bind_loops_iff] at h ⊢
  obtain ⟨l, hl, a, b, c⟩ := h
  exact ⟨l, loop_search_keeps n i ls f hl (by rw [b]; exact hn), a, b, c⟩

theorem loop_assignment_setup_append {t : CStr} {st st2 : Stores} {res : Int}
    {vi li : Option Nat} (hs : loop_assignment_setup (some t) st = some (res, vi, li, st2)) :
    st2.loops = st.loops ∧ ∃ zs, st2.vars.entries = st.vars.entries ++ zs := by
  unfold loop_assignment_setup at hs
  simp only [] at hs
  split_ifs at hs with h1 h2
  · simp only [Option.some.injEq, Prod.mk.injEq] at hs
    obtain ⟨-, -, -, rfl⟩ := hs
    exact ⟨rfl, [], by simp⟩
  · simp only [Option.some.injEq, Prod.mk.injEq] at hs
    obtain ⟨-, -, -, rfl⟩ := hs
    exact ⟨rfl, _, rfl⟩
  · simp only [Option.some.injEq, Prod.mk.injEq] at hs
    obtain ⟨-, -, -, rfl⟩ := hs
    exact ⟨rfl, [], by simp⟩

/-- The same cases as `loop_cases`, with the stores the sweep starts from: the loops
after the search loop of `loop`. -/
theorem loop_cases_search {te : CStr → Table → Option ℚ} {line : CStr} {st : Stores}
    {sf : Nat} {r : Res} (h : loop te line st sf = some r) :
    r.out = []
    ∨ ∃ (name : CStr) (k : Nat), (strtok (strtok line [' ']).2 [' ']).1 = some name
        ∧ k < st.loops.length ∧ (loopAt st.loops k).name = name
        ∧ ((∃ e, loop_expression te ⟨st.vars, (loop_search name 0 st.loops none).2⟩ e k sf
              = some r)
          ∨ ∃ (st2 : Stores) (li vi : Option Nat) (t : CStr) (eo : Option CStr),
              loop_assignment_setup (some t) ⟨st.vars, (loop_search name 0 st.loops none).2⟩
                = some (0, vi, li, st2)
              ∧ loop_assignment te st2 sf li vi t k eo = some r) := by
  unfold loop at h
  cases hname : (strtok (strtok line [' ']).2 [' ']).1 with
  | none =>
    simp only [hname] at h
    by_cases hl : st.loops = []
    · rw [if_pos hl] at h
      simp only [Option.some.injEq] at h
      subst h
      exact Or.inl rfl
    · rw [if_neg hl] at h
      simp at h
  | some name =>
    simp only [hname] at h
    cases hf : (loop_search name 0 st.loops none).1 with
    | none =>
      simp only [hf, Option.some.injEq] at h
      subst h
      exact Or.inl rfl
    | some k =>
      simp only [hf] at h
      rcases loop_search_found hf with h0 | ⟨-, h1, h2⟩
      · simp at h0
      simp only [Nat.sub_zero] at h1 h2
      cases hex : (strtok (strtok (strtok line [' ']).2 [' ']).2 []).1 with
      | none => simp [hex] at h
      | some expression =>
        simp only [hex] at h
        by_cases hz : countChar '=' expression = 0
        · rw [if_pos hz] at h
          exact Or.inr ⟨name, k, rfl, h1, h2, Or.inl ⟨_, h⟩⟩
        rw [if_neg hz] at h
        by_cases ho : countChar '=' expression = 1
        · rw [if_pos ho] at h
          split at h
          · simp at h
          · rename_i result variableIndex loopIndex st2 hsetup
            by_cases hres : result ≠ 0
            · rw [if_pos hres] at h
              simp only [Option.some.injEq] at h
              subst h
              exact Or.inl rfl
            rw [if_neg hres] at h
            have hres0 : result = 0 := not_not.mp hres
            subst hres0
            cases ht : (match (strtok expression ['=']).1 with
                | some ev => strtok ev [' ']
                | none => strtok (strtok (strtok expression ['=']).2 []).2 [' ']).1 with
            | none =>
              rw [ht] at hsetup
              simp [loop_assignment_setup] at hsetup
            | some t =>
              rw [ht] at hsetup h
              exact Or.inr ⟨name, k, rfl, h1, h2,
                Or.inr ⟨st2, loopIndex, variableIndex, t, _, hsetup, h⟩⟩
        · rw [if_neg ho] at h
          simp only [Option.some.injEq] at h
          subst h
          exact Or.inl rfl

theorem bind_vars_append (xs ys : List Variable) :
    bind_vars (xs ++ ys) = bind_vars xs ++ bind_vars ys := by
  simp [bind_vars]

theorem loop_first_call_binds {te : CStr → Table → Option ℚ} {line : CStr} {st : Stores}
    {sf : Nat} {r : Res} (hi : Inv st) (h : loop te line st sf = some r) {t : CStr} {x : ℚ}
    (hm : (t, x) ∈ bind_vars st.vars.entries ∨ (t, x) ∈ bind_loops st.loops)
    (hne : (strtok (strtok line [' ']).2 [' ']).1 ≠ some t)
    (c : CStr × Table × Stores) (hc : (calls r.out)[0]? = some c) : (t, x) ∈ c.2.1 := by
  rcases loop_cases_search h with h0 | ⟨name, k, hname, hk, hkn, h1 | h1⟩
  · rw [h0] at hc
    simp [calls] at hc
  all_goals
    have hnt : t ≠ name := by
      intro he
      apply hne
      rw [hname, he]
    have hkeys := loop_search_key name 0 st.loops none
    have hi1 : Inv ⟨st.vars, (loop_search name 0 st.loops none).2⟩ :=
      @Inv_of_shape st _ rfl hkeys hi
    have hk1 : k < (loop_search name 0 st.loops none).2.length := by
      have := congrArg List.length hkeys
      simp only [List.length_map] at this
      omega
    have hkn1 : (loopAt (loop_search name 0 st.loops none).2 k).name ≠ t := by
      have := loopAt_key_of_keys hkeys k
      simp only [Loop.key, Prod.mk.injEq] at this
      rw [this.1, hkn]
      exact fun he => hnt he.symm
    have hm1 : (t, x) ∈ bind_vars st.vars.entries
        ∨ (t, x) ∈ bind_loops (loop_search name 0 st.loops none).2 := by
      rcases hm with hm | hm
      · exact Or.inl hm
      · exact Or.inr (mem_bind_loops_search 0 none hm hnt)
  · obtain ⟨e, he⟩ := h1
    unfold loop_expression at he
    cases hl : (loop_search name 0 st.loops none).2[k]? with
    | none => simp [hl] at he
    | some l =>
      simp only [hl] at he
      cases hr : repetitions l with
      | none => simp [hr] at he
      | some reps =>
        simp only [hr, Option.some.injEq] at he
        subst he
        rw [(loop_expression_from_calls _ _ _ _ _ _ _ _ _).2.2 0 c hc]
        simp only []
        rw [tableLV_set hi1 k _ hk1]
        rw [mem_table (Or.inr rfl)]
        rcases hm1 with hm1 | hm1
        · exact Or.inl hm1
        · exact Or.inr (mem_bind_loops_setCurrentValue_ne _ hm1 hkn1)
  · obtain ⟨st2, li, vi, tgt, eo, hs, hl⟩ := h1
    obtain ⟨l2, zs, hz⟩ := loop_assignment_setup_append hs
    simp only at l2 hz
    unfold loop_assignment at hl
    cases hg : st2.loops[k]? with
    | none => simp [hg] at hl
    | some l =>
      simp only [hg] at hl
      cases hr : repetitions l with
      | none => simp [hr] at hl
      | some reps =>
        simp only [hr] at hl
        cases eo with
        | none =>
          simp only [] at hl
          split_ifs at hl
          simp only [Option.some.injEq] at hl
          subst hl
          simp [calls] at hc
        | some e =>
          simp only [Option.some.injEq] at hl
          subst hl
          rw [loop_assignment_from_head _ _ _ _ _ _ _ _ _ _ c hc]
          simp only []
          rw [mem_table (Or.inr rfl)]
          simp only [advance, l2, hz, bind_vars_append, List.mem_append]
          rcases hm1 with hm1 | hm1
          · exact Or.inl (Or.inl hm1)
          · exact Or.inr (mem_bind_loops_setCurrentValue_ne _ hm1 hkn1)

theorem download_assignment_calls (te : CStr → Table → Option ℚ) (st : Stores) (e n : CStr)
    (sf : Nat) : calls (download_assignment te st e n sf).out = [(e, tableVL st, st)] := by
  unfold download_assignment
  simp only []
  split
  · split_ifs
    · simp only [calls, download_assignment_print_calls]
    · simp only [calls, calls_append, download_assignment_print_calls,
        download_allocate_variable, List.nil_append]
  · simp only [calls]

theorem download_expression_calls (te : CStr → Table → Option ℚ) (st : Stores) (line : CStr)
    (sf : Nat) : calls (download_expression te st line sf).out = [(line, tableVL st, st)] := by
  unfold download_expression
  simp only []
  split <;> simp only [calls]

theorem callOk_count_one {st : Stores} {c : CStr × Table × Stores} (hc : CallOk st c)
    {t : CStr} {x : ℚ} (hm : (t, x) ∈ c.2.1) : (c.2.1.map Prod.fst).count t = 1 := by
  obtain ⟨hi, -, hn⟩ := hc
  have hd : (c.2.1.map Prod.fst).Nodup := by
    rcases hn with hn | hn
    · rw [hn]; exact List.nodup_append_comm.mp hi.2
    · rw [hn]; exact hi.2
  exact count_eq_one_of_nodup hd (List.mem_map.mpr ⟨(t, x), hm, rfl⟩)

theorem next_first_call_binds {te : CStr → Table → Option ℚ} {sf : Nat} {st st1 : Stores}
    {line : CStr} {out : List Ev} (hi : Inv st)
    (h : download_line te sf st line = some (st1, out)) {t : CStr} {x : ℚ}
    (hm : (t, x) ∈ bind_vars st.vars.entries ∨ (t, x) ∈ bind_loops st.loops)
    (hne : ∀ r, detect_loops te line st sf = some r → r.ret ≠ 0 →
      (strtok (strtok line [' ']).2 [' ']).1 ≠ some t)
    (c : CStr × Table × Stores) (hc : (calls out)[0]? = some c) :
    (t, x) ∈ c.2.1 ∧ (c.2.1.map Prod.fst).count t = 1 := by
  have hmem : (t, x) ∈ c.2.1 := by
    rcases download_line_cases h with ⟨-, ho, -⟩ | ⟨r, hr, -, -, ho⟩ | ⟨r, hr, h0, -, ho⟩
      | ⟨-, ho, -⟩ | ⟨tok, e, -, -, -, -, -, ho⟩ | ⟨-, -, ho⟩
    · rw [ho] at hc
      simp [calls] at hc
    · rw [ho, detect_range_print_calls hr] at hc
      simp at hc
    · have hne1 := hne r hr h0
      rcases detect_loops_cases hr with rfl | ⟨r1, hl, rfl⟩
      · exact absurd rfl h0
      · rw [ho, calls_append] at hc
        have he : calls (if r1.ret ≠ 0 then [Ev.err] else []) = [] := by
          split_ifs <;> rfl
        simp only [he, List.append_nil] at hc
        exact @loop_first_call_binds te line st sf r1 hi hl t x hm hne1 c hc
    · rw [ho] at hc
      simp [calls] at hc
    · rw [ho, download_assignment_calls] at hc
      simp only [List.getElem?_cons_zero, Option.some.injEq] at hc
      rw [← hc]
      exact (mem_table (Or.inl rfl) _).mpr hm
    · rw [ho, download_expression_calls] at hc
      simp only [List.getElem?_cons_zero, Option.some.injEq] at hc
      rw [← hc]
      exact (mem_table (Or.inl rfl) _).mpr hm
  exact ⟨hmem, callOk_count_one (download_line_callOk hi h c (List.getElem?_mem hc)) hmem⟩

theorem lookup_of_mem {tab : Table} {n : CStr} {v : ℚ} (hd : (tab.map Prod.fst).Nodup)
    (hm : (n, v) ∈ tab) : tab.lookup n = some v := by
  induction tab with
  | nil => simp at hm
  | cons p tab ih =>
    obtain ⟨a, b⟩ := p
    simp only [List.map_cons, List.nodup_cons] at hd
    rw [List.lookup_cons]
    rcases List.mem_cons.mp hm with he | hm1
    · simp only [Prod.mk.injEq] at he
      obtain ⟨rfl, rfl⟩ := he
      simp
    · have hne : n ≠ a := by
        rintro rfl
        exact hd.1 (List.mem_map.mpr ⟨(n, v), hm1, rfl⟩)
      have : (n == a) = false := by simpa using hne
      rw [this]
      exact ih hd.2 hm1

/-- C26, the case it does not hold in. After the line `a = 7` on the stores of
`--define x=1 --loopable a,0,1,5`, the loop `a` has the current value 7; the next
evaluation, the first one of the line `@loop a 1`, gets a table in which `a` carries
0, the start of its range, and not 7. -/
theorem C26_sweep_restarts_assigned_loop :
    download_line teLiteral 3 storesXA "a = 7\n".toList
      = some (⟨storesXA.vars, [⟨['a'], 7, 0, 1, 5⟩]⟩,
          [Ev.compile " 7\n".toList [(['x'], 1), (['a'], 0)] storesXA, Ev.varLine 3 ['a'] 7])
    ∧ teLiteral " 7\n".toList [(['x'], 1), (['a'], 0)] = some 7
    ∧ (download_line teLiteral 3 ⟨storesXA.vars, [⟨['a'], 7, 0, 1, 5⟩]⟩
          "@loop a 1\n".toList).isSome = true
    ∧ (calls ((download_line teLiteral 3 ⟨storesXA.vars, [⟨['a'], 7, 0, 1, 5⟩]⟩
          "@loop a 1\n".toList).getD (storesXA, [])).2)[0]?
        = some ("1\n".toList, [(['a'], 0), (['x'], 1)],
            ⟨storesXA.vars, [⟨['a'], 0, 0, 1, 5⟩]⟩)
    ∧ ((['a'], (7 : ℚ)) ∉ [((['a'] : CStr), (0 : ℚ)), (['x'], 1)]) := by
  refine ⟨?_, ?_, ?_, ?_, ?_⟩ <;> decide!

/-- C26, amended. In a reachable state, take a line without `#` and with exactly one
`=`, whose key (the first token cut at `=`, trimmed) is a valid name and whose
expression (the second token) the evaluator accepts with the value `v`. The line is
processed, and in the stores after it: the table of a bare expression or of an
assignment, which is the table of the variables and loops of these stores, has the
entry of the key with `v` and no other entry under the key; and the first evaluation
of any next line that is not a `@loop` command over the key gets a table with this
entry and no other entry under the key. Hence, for an evaluator that gives ` 2+2` the
value 4 and `name*2` twice the value the table has for `name`, the line `name = 2+2`
followed by the line `name*2` prints `Result = 8`. -/
theorem C26_round_trip :
    (∀ (te : CStr → Table → Option ℚ) (st : Stores) (sf : Nat) (line tok e : CStr) (v : ℚ),
      Reachable te st → '\x00' ∉ line → '#' ∉ line → countChar '=' line = 1 →
      (strtok line ['=']).1 = some tok → ValidName (trimKey tok) →
      (strtok (strtok line ['=']).2 ['=']).1 = some e → te e (tableVL st) = some v →
      ∃ st1 out, download_line te sf st line = some (st1, out)
        ∧ (trimKey tok, v) ∈ tableVL st1
        ∧ ((tableVL st1).map Prod.fst).count (trimKey tok) = 1
        ∧ (∀ e2 sf2, calls (download_expression te st1 e2 sf2).out
            = [(e2, tableVL st1, st1)])
        ∧ (∀ e2 n2 sf2, calls (download_assignment te st1 e2 n2 sf2).out
            = [(e2, tableVL st1, st1)])
        ∧ (∀ sf2 line2 st2 out2 c, download_line te sf2 st1 line2 = some (st2, out2) →
            (calls out2)[0]? = some c →
            (∀ r, detect_loops te line2 st1 sf2 = some r → r.ret ≠ 0 →
              (strtok (strtok line2 [' ']).2 [' ']).1 ≠ some (trimKey tok)) →
            (trimKey tok, v) ∈ c.2.1 ∧ (c.2.1.map Prod.fst).count (trimKey tok) = 1))
    ∧ (∀ (te : CStr → Table → Option ℚ) (st : Stores) (sf : Nat),
      Reachable te st → te " 2+2\n".toList (tableVL st) = some 4 →
      (∀ tab x, tab.lookup "name".toList = some x →
        te "name*2\n".toList tab = some (x * 2)) →
      ∃ st1 out, download_line te sf st "name = 2+2\n".toList = some (st1, out)
        ∧ download_line te sf st1 "name*2\n".toList
            = some (st1, [Ev.compile "name*2\n".toList (tableVL st1) st1, Ev.result sf 8])) := by
  have general : ∀ (te : CStr → Table → Option ℚ) (st : Stores) (sf : Nat)
      (line tok e : CStr) (v : ℚ),
      Reachable te st → '\x00' ∉ line → '#' ∉ line → countChar '=' line = 1 →
      (strtok line ['=']).1 = some tok → ValidName (trimKey tok) →
      (strtok (strtok line ['=']).2 ['=']).1 = some e → te e (tableVL st) = some v →
      download_line te sf st line = some ((download_assignment te st e (trimKey tok) sf).st,
          (download_assignment te st e (trimKey tok) sf).out)
        ∧ Inv (download_assignment te st e (trimKey tok) sf).st
        ∧ (trimKey tok, v) ∈ tableVL (download_assignment te st e (trimKey tok) sf).st := by
    intro te st sf line tok e v hr h0 hc he ht hk hx hv
    have hi := reachable_inv hr
    exact ⟨assignment_line te st sf h0 hc he ht hk hx, (download_assignment_inv hi hk).1,
      (mem_table (Or.inl rfl) _).mpr (download_assignment_binds (validName_ne_sentinel hk) hv)⟩
  constructor
  · intro te st sf line tok e v hr h0 hc he ht hk hx hv
    obtain ⟨g1, g2, g3⟩ := general te st sf line tok e v hr h0 hc he ht hk hx hv
    refine ⟨_, _, g1, g3, table_count_one g2 (Or.inl rfl) g3,
      fun e2 sf2 => download_expression_calls _ _ _ _,
      fun e2 n2 sf2 => download_assignment_calls _ _ _ _ _, ?_⟩
    intro sf2 line2 st2 out2 c hd hc0 hne
    exact next_first_call_binds g2 hd ((mem_table (Or.inl rfl) _).mp g3) hne c hc0
  · intro te st sf hr h1 h2
    have hkey : trimKey "name ".toList = "name".toList := by decide
    obtain ⟨g1, g2, g3⟩ := general te st sf "name = 2+2\n".toList "name ".toList
      " 2+2\n".toList 4 hr (by decide) (by decide) (by decide) (by decide)
      (by rw [hkey]; decide) (by decide) h1
    rw [hkey] at g1 g2 g3
    refine ⟨_, _, g1, ?_⟩
    have hl := lookup_of_mem (by rw [tableVL_names g2]; exact g2.2) g3
    have h8 := h2 _ _ hl
    have hline : ∀ s : Stores, download_line te sf s "name*2\n".toList
        = some ((download_expression te s "name*2\n".toList sf).st,
            (download_expression te s "name*2\n".toList sf).out) := fun s => rfl
    rw [hline]
    unfold download_expression
    simp only [h8]
    norm_num

theorem C26_witness :
    (Reachable teRoundTrip storesXA
      ∧ teRoundTrip " 2+2\n".toList (tableVL storesXA) = some 4
      ∧ ∀ tab x, tab.lookup "name".toList = some x →
          teRoundTrip "name*2\n".toList tab = some (x * 2))
    ∧ ∃ st1 out, download_line teRoundTrip 3 storesXA "name = 2+2\n".toList = some (st1, out)
        ∧ download_line teRoundTrip 3 st1 "name*2\n".toList
            = some (st1, [Ev.compile "name*2\n".toList (tableVL st1) st1, Ev.result 3 8]) :=
  ⟨⟨reachable_storesXA teRoundTrip, by decide!,
      fun tab x h => by
        unfold teRoundTrip
        rw [if_neg (by decide), if_pos rfl, h]
        rfl⟩,
    C26_round_trip.2 teRoundTrip storesXA 3 (reachable_storesXA teRoundTrip) (by decide!)
      (fun tab x h => by
        unfold teRoundTrip
        rw [if_neg (by decide), if_pos rfl, h]
        rfl)⟩

/-! ## The iteration count is the largest one that stays in the range -/

theorem loop_line_dispatch (te : CStr → Table → Option ℚ) (st : Stores) (sf : Nat)
    (c : Char) (rest : CStr) (hc : isalpha c = true)
    (hn : fieldHead ' ' (c :: rest) ∈ loopNames st)
    (hr : fieldTail ' ' (c :: rest) ≠ []) :
    ∃ k, (loop_search (fieldHead ' ' (c :: rest)) 0 st.loops none).1 = some k
      ∧ k < st.loops.length ∧ (loopAt st.loops k).name = fieldHead ' ' (c :: rest)
      ∧ (countChar '=' (fieldTail ' ' (c :: rest)) = 0 →
          loop te ("@loop ".toList ++ c :: rest) st sf
            = loop_expression te
                ⟨st.vars, (loop_search (fieldHead ' ' (c :: rest)) 0 st.loops none).2⟩
                (fieldTail ' ' (c :: rest)) k sf)
      ∧ (countChar '=' (fieldTail ' ' (c :: rest)) = 1 →
          ∀ target, (strtok (fieldHead '=' (fieldTail ' ' (c :: rest))) [' ']).1 = some target →
          fieldTail '=' (fieldTail ' ' (c :: rest)) ≠ [] →
          loop te ("@loop ".toList ++ c :: rest) st sf
            = loop_assignment_form te
                ⟨st.vars, (loop_search (fieldHead ' ' (c :: rest)) 0 st.loops none).2⟩
                sf k target (fieldTail '=' (fieldTail ' ' (c :: rest))))
      ∧ (2 ≤ countChar '=' (fieldTail ' ' (c :: rest)) →
          loop te ("@loop ".toList ++ c :: rest) st sf
            = some ⟨1, ⟨st.vars, (loop_search (fieldHead ' ' (c :: rest)) 0 st.loops none).2⟩, []⟩
          ∧ detect_loops te ("@loop ".toList ++ c :: rest) st sf
            = some ⟨1, ⟨st.vars, (loop_search (fieldHead ' ' (c :: rest)) 0 st.loops none).2⟩,
                [Ev.err]⟩) := by
  obtain ⟨h1, h2⟩ := loop_line_tokens c rest hc
  obtain ⟨k, hk⟩ := loop_search_of_mem hn 0 none
  have hf : k < st.loops.length ∧ (loopAt st.loops k).name = fieldHead ' ' (c :: rest) := by
    rcases loop_search_found hk with h | h
    · exact absurd h (by simp)
    · simpa using h
  have hloop : ∀ r : Option Res,
      (if countChar '=' (fieldTail ' ' (c :: rest)) = 0 then
          loop_expression te
            ⟨st.vars, (loop_search (fieldHead ' ' (c :: rest)) 0 st.loops none).2⟩
            (fieldTail ' ' (c :: rest)) k sf
        else if countChar '=' (fieldTail ' ' (c :: rest)) = 1 then
          (match loop_assignment_setup
              (match (strtok (fieldTail ' ' (c :: rest)) ['=']).1 with
                | some ev => strtok ev [' ']
                | none => strtok (strtok (strtok (fieldTail ' ' (c :: rest)) ['=']).2 []).2
                    [' ']).1
              ⟨st.vars, (loop_search (fieldHead ' ' (c :: rest)) 0 st.loops none).2⟩ with
            | none => none
            | some (result, variableIndex, loopIndex, st2) =>
              if result ≠ 0 then some ⟨result, st2, []⟩
              else
                loop_assignment te st2 sf loopIndex variableIndex
                  ((match (strtok (fieldTail ' ' (c :: rest)) ['=']).1 with
                    | some ev => strtok ev [' ']
                    | none => strtok (strtok (strtok (fieldTail ' ' (c :: rest)) ['=']).2 []).2
                        [' ']).1.getD []) k
                  (strtok (strtok (fieldTail ' ' (c :: rest)) ['=']).2 []).1)
        else some ⟨1, ⟨st.vars, (loop_search (fieldHead ' ' (c :: rest)) 0 st.loops none).2⟩,
          []⟩) = r →
      loop te ("@loop ".toList ++ c :: rest) st sf = r := by
    intro r h
    rw [← h]
    unfold loop
    simp only [h1, h2, hk, strtok_no_delim _ hr]
  refine ⟨k, hk, hf.1, hf.2, fun h0 => ?_, fun h1e target ht hne => ?_, fun h2e => ?_⟩
  · apply hloop
    rw [if_pos h0]
  · apply hloop
    rw [if_neg (by omega), if_pos h1e]
    have hfh : fieldHead '=' (fieldTail ' ' (c :: rest)) ≠ [] := by
      intro he
      rw [he, strtok_nil] at ht
      exact absurd ht (by simp)
    rw [strtok_of_fieldHead hfh]
    simp only [strtok_no_delim _ hne, ht, Option.getD_some]
    rfl
  · have hl : loop te ("@loop ".toList ++ c :: rest) st sf
        = some ⟨1, ⟨st.vars, (loop_search (fieldHead ' ' (c :: rest)) 0 st.loops none).2⟩,
            []⟩ := by
      apply hloop
      rw [if_neg (by omega), if_neg (by omega)]
    refine ⟨hl, ?_⟩
    unfold detect_loops
    rw [if_pos (loop_line_condition c rest hc), hl]
    rfl

theorem getElem?_setCurrentValue (ls : List Loop) (k : Nat) (v : ℚ) (j : Nat) :
    (setCurrentValue ls k v)[j]?
      = if j = k then ls[j]?.map (fun l => { l with currentValue := v }) else ls[j]? := by
  induction ls generalizing k j with
  | nil => simp [setCurrentValue]
  | cons l ls ih =>
    cases k with
    | zero =>
      cases j with
      | zero => simp [setCurrentValue]
      | succ j => simp [setCurrentValue]
    | succ k =>
      cases j with
      | zero => simp [setCurrentValue]
      | succ j =>
        simp only [setCurrentValue, List.getElem?_cons_succ, ih k j, Nat.add_right_cancel_iff]

theorem loop_search_unique {n : CStr} {ls : List Loop} {k : Nat} {L : Loop}
    (hd : (ls.map (fun l => l.name)).Nodup) (hk : ls[k]? = some L) (hn : L.name = n)
    (i : Nat) (f : Option Nat) :
    loop_search n i ls f = (some (i + k), setCurrentValue ls k L.startingValue) := by
  induction ls generalizing i f k with
  | nil => simp at hk
  | cons l ls ih =>
    simp only [List.map_cons, List.nodup_cons] at hd
    unfold loop_search
    cases k with
    | zero =>
      simp only [List.getElem?_cons_zero, Option.some.injEq] at hk
      subst hk
      rw [if_pos hn]
      have hnot : n ∉ ls.map (fun l => l.name) := by
        rw [← hn]; exact hd.1
      simp only [loop_search_no_match hnot, setCurrentValue, Nat.add_zero]
    | succ k =>
      simp only [List.getElem?_cons_succ] at hk
      have hne : ¬ l.name = n := by
        intro he
        apply hd.1
        rw [he, ← hn]
        exact List.mem_map.mpr ⟨L, List.getElem?_mem hk, rfl⟩
      rw [if_neg hne]
      simp only [ih hd.2 hk (i + 1) f, setCurrentValue]
      congr 2
      omega

theorem loop_search_inv {st : Stores} (hi : Inv st) {n : CStr} (hn : n ∈ loopNames st) :
    ∃ k L, st.loops[k]? = some L ∧ L.name = n
      ∧ loop_search n 0 st.loops none = (some k, setCurrentValue st.loops k L.startingValue) := by
  obtain ⟨L, hL, hLn⟩ := List.mem_map.mp hn
  obtain ⟨k, hk⟩ := List.mem_iff_getElem?.mp hL
  have hd : (st.loops.map (fun l => l.name)).Nodup := (List.nodup_append.mp hi.2).2.1
  refine ⟨k, L, hk, hLn, ?_⟩
  rw [loop_search_unique hd hk hLn 0 none, Nat.zero_add]

/-! ## A `@loop` command rejected for two or more `=` -/

/-- C36. A line `@loop name remainder` from reachable stores whose name is the name of
a loop `L`, at the index `k`, and whose remainder has two or more `=`: `loop` returns 1
without a call of the evaluator, `detect_loops` prints the one diagnostic, and the
stores after the line (for a line without `#`) are the stores before it with the
current value of `L` set to the start of `L`: the loop `k` is `L` with that current
value, every other loop, the number of loops and the variable store are as they
were. -/
theorem C36_reset_before_analysis (te : CStr → Table → Option ℚ) (st : Stores) (sf : Nat)
    (c : Char) (rest : CStr) (hreach : Reachable te st) (hc : isalpha c = true)
    (hn : fieldHead ' ' (c :: rest) ∈ loopNames st)
    (h2 : 2 ≤ countChar '=' (fieldTail ' ' (c :: rest))) :
    ∃ k L, st.loops[k]? = some L ∧ L.name = fieldHead ' ' (c :: rest)
      ∧ loop te ("@loop ".toList ++ c :: rest) st sf
          = some ⟨1, ⟨st.vars, setCurrentValue st.loops k L.startingValue⟩, []⟩
      ∧ detect_loops te ("@loop ".toList ++ c :: rest) st sf
          = some ⟨1, ⟨st.vars, setCurrentValue st.loops k L.startingValue⟩, [Ev.err]⟩
      ∧ ('#' ∉ "@loop ".toList ++ c :: rest → '\x00' ∉ "@loop ".toList ++ c :: rest →
          download_line te sf st ("@loop ".toList ++ c :: rest)
            = some (⟨st.vars, setCurrentValue st.loops k L.startingValue⟩, [Ev.err]))
      ∧ (setCurrentValue st.loops k L.startingValue)[k]?
          = some { L with currentValue := L.startingValue }
      ∧ (∀ j, j ≠ k → (setCurrentValue st.loops k L.startingValue)[j]? = st.loops[j]?)
      ∧ (setCurrentValue st.loops k L.startingValue).length = st.loops.length := by
  have hi := reachable_inv hreach
  have hr : fieldTail ' ' (c :: rest) ≠ [] := by
    intro he
    rw [he] at h2
    simp [countChar] at h2
  obtain ⟨k, L, hk, hLn, hs⟩ := loop_search_inv hi hn
  obtain ⟨k1, hk1, -, -, -, -, h2e⟩ := loop_line_dispatch te st sf c rest hc hn hr
  obtain ⟨hl, hd⟩ := h2e h2
  rw [hs] at hl hd
  refine ⟨k, L, hk, hLn, hl, hd, ?_, ?_, ?_, setCurrentValue_length _ _ _⟩
  · intro h1 h0
    have hsh : ¬ countChar '#' ("@loop ".toList ++ c :: rest) > 0 := by
      intro h
      exact h1 (List.count_pos_iff.mp h)
    unfold download_line download_setup
    simp only [hsh, if_false]
    rw [if_neg (by simp)]
    simp only [detect_range_print_loop_line c rest st sf h0, hd]
    rfl
  · rw [getElem?_setCurrentValue, if_pos rfl, hk]
    rfl
  · intro j hj
    rw [getElem?_setCurrentValue, if_neg hj]

theorem C36_witness :
    (Reachable teLiteral ⟨storesXA.vars, [⟨['a'], 7, 0, 1, 5⟩]⟩ ∧ isalpha 'a' = true
      ∧ fieldHead ' ' ('a' :: " x = 1 = 2\n".toList)
          ∈ loopNames ⟨storesXA.vars, [⟨['a'], 7, 0, 1, 5⟩]⟩
      ∧ 2 ≤ countChar '=' (fieldTail ' ' ('a' :: " x = 1 = 2\n".toList)))
    ∧ ∃ k L, (⟨storesXA.vars, [⟨['a'], 7, 0, 1, 5⟩]⟩ : Stores).loops[k]? = some L
      ∧ L.name = fieldHead ' ' ('a' :: " x = 1 = 2\n".toList)
      ∧ loop teLiteral ("@loop ".toList ++ 'a' :: " x = 1 = 2\n".toList)
          ⟨storesXA.vars, [⟨['a'], 7, 0, 1, 5⟩]⟩ 3
          = some ⟨1, ⟨storesXA.vars,
              setCurrentValue [⟨['a'], 7, 0, 1, 5⟩] k L.startingValue⟩, []⟩ := by
  have hr : Reachable teLiteral ⟨storesXA.vars, [⟨['a'], 7, 0, 1, 5⟩]⟩ :=
    Reachable.step 3 "a = 7\n".toList storesXA _ _ (reachable_storesXA teLiteral)
      (by decide! : download_line teLiteral 3 storesXA "a = 7\n".toList
        = some (⟨storesXA.vars, [⟨['a'], 7, 0, 1, 5⟩]⟩,
          [Ev.compile " 7\n".toList [(['x'], 1), (['a'], 0)] storesXA, Ev.varLine 3 ['a'] 7]))
  obtain ⟨k, L, a, b, c, -⟩ := C36_reset_before_analysis teLiteral
    ⟨storesXA.vars, [⟨['a'], 7, 0, 1, 5⟩]⟩ 3 'a' " x = 1 = 2\n".toList hr (by decide)
    (by decide) (by decide)
  exact ⟨⟨hr, by decide, by decide, by decide⟩, k, L, a, b, c⟩

/-! ## The stores after a loop over an expression -/

theorem loop_expression_from_final (te : CStr → Table → Option ℚ) (e : CStr) (k sf : Nat)
    (names : List CStr) (m i : Nat) (st : Stores) (values : List ℚ)
    (h : (loop_expression_from te e k sf names (m + 1) i st values).ret = 0) :
    (loop_expression_from te e k sf names (m + 1) i st values).st
      = ⟨st.vars, setCurrentValue st.loops k ((loopAt st.loops k).startingValue
          + ((i + m : ℕ) : ℚ) * (loopAt st.loops k).increment)⟩ := by
  induction m generalizing i st values with
  | zero =>
    unfold loop_expression_from at h ⊢
    simp only [] at h ⊢
    split
    · simp [loop_expression_from]
    · rename_i hv
      simp only [hv] at h
      exact absurd h (by decide)
  | succ m ih =>
    unfold loop_expression_from at h ⊢
    simp only [] at h ⊢
    split
    · rename_i value hv
      simp only [hv] at h
      rw [ih _ _ _ h]
      have hkey := loopAt_key_of_keys (setCurrentValue_key st.loops k
        ((loopAt st.loops k).startingValue + (i : ℚ) * (loopAt st.loops k).increment)) k
      simp only [Loop.key, Prod.mk.injEq] at hkey
      rw [hkey.2.1, hkey.2.2.1, setCurrentValue_twice]
      have : i + 1 + m = i + (m + 1) := by omega
      rw [this]
    · rename_i hv
      simp only [hv] at h
      exact absurd h (by decide)

theorem repetitions_pos {L : Loop} {reps : Int}
    (hv : RangeValid L.startingValue L.increment L.endValue)
    (h : repetitions L = some reps) : 1 ≤ reps := by
  obtain ⟨-, hr⟩ := repetitions_eq h
  have h0 : 0 ≤ ⌊(L.endValue - L.startingValue) / L.increment⌋ :=
    Int.floor_nonneg.mpr (rangeValid_quotient_nonneg hv)
  omega

theorem loop_expression_final {te : CStr → Table → Option ℚ} {st : Stores} {e : CStr}
    {k sf : Nat} {r : Res} {L : Loop} (hk : st.loops[k]? = some L)
    (hv : RangeValid L.startingValue L.increment L.endValue)
    (h : loop_expression te st e k sf = some r) (h0 : r.ret = 0) :
    ∃ reps, repetitions L = some reps ∧ 1 ≤ reps
      ∧ r.st = ⟨st.vars, setCurrentValue st.loops k
          (L.startingValue + ((reps - 1 : Int) : ℚ) * L.increment)⟩ := by
  unfold loop_expression at h
  simp only [hk] at h
  cases hr : repetitions L with
  | none => simp [hr] at h
  | some reps =>
    simp only [hr, Option.some.injEq] at h
    have hp := repetitions_pos hv hr
    obtain ⟨m, hm⟩ : ∃ m : Nat, reps.toNat = m + 1 := ⟨reps.toNat - 1, by omega⟩
    refine ⟨reps, rfl, hp, ?_⟩
    rw [hm] at h
    subst h
    rw [loop_expression_from_final _ _ _ _ _ _ _ _ _ h0, (loopAt_of_getElem? hk).1]
    have hc : ((0 + m : ℕ) : ℚ) = ((reps - 1 : Int) : ℚ) := by
      have : (m : Int) = reps - 1 := by omega
      rw [← this]
      simp
    rw [hc]

/-- C35. A line `@loop name remainder` from reachable stores whose name is the name of
a loop `L`, at the index `k`, and whose remainder has no `=`, when `loop` returns 0: the
iteration count `reps` of `L` is defined and at least 1, and the stores after the
command are the stores before it with `start + (reps - 1) * increment` as the current
value of `L`: the loop `k` is `L` with that current value (its name, start, increment
and end are those of `L`), every other loop, the number of loops and the whole
variable store are as they were. -/
theorem C35_loop_expression_frame (te : CStr → Table → Option ℚ) (st : Stores) (sf : Nat)
    (c : Char) (rest : CStr) (r : Res) (hreach : Reachable te st) (hc : isalpha c = true)
    (hn : fieldHead ' ' (c :: rest) ∈ loopNames st)
    (hr : fieldTail ' ' (c :: rest) ≠ [])
    (he : countChar '=' (fieldTail ' ' (c :: rest)) = 0)
    (h : loop te ("@loop ".toList ++ c :: rest) st sf = some r) (h0 : r.ret = 0) :
    ∃ k L reps, st.loops[k]? = some L ∧ L.name = fieldHead ' ' (c :: rest)
      ∧ repetitions L = some reps ∧ 1 ≤ reps
      ∧ r.st = ⟨st.vars, setCurrentValue st.loops k
          (L.startingValue + ((reps - 1 : Int) : ℚ) * L.increment)⟩
      ∧ r.st.vars = st.vars
      ∧ r.st.loops[k]? = some { L with currentValue :=
          L.startingValue + ((reps - 1 : Int) : ℚ) * L.increment }
      ∧ (∀ j, j ≠ k → r.st.loops[j]? = st.loops[j]?)
      ∧ r.st.loops.length = st.loops.length := by
  have hi := reachable_inv hreach
  obtain ⟨k, L, hk, hLn, hs⟩ := loop_search_inv hi hn
  obtain ⟨k1, hk1, -, -, hex, -, -⟩ := loop_line_dispatch te st sf c rest hc hn hr
  rw [hs] at hk1
  simp only [Option.some.injEq] at hk1
  subst hk1
  have hrun := hex he
  rw [hs, h] at hrun
  have hk2 : (setCurrentValue st.loops k L.startingValue)[k]?
      = some { L with currentValue := L.startingValue } := by
    rw [getElem?_setCurrentValue, if_pos rfl, hk]
    rfl
  have hv : RangeValid L.startingValue L.increment L.endValue :=
    (hi.1 L.key (List.mem_map_of_mem _ (List.getElem?_mem hk))).2
  obtain ⟨reps, hrep, hp, hst⟩ := @loop_expression_final te
    ⟨st.vars, setCurrentValue st.loops k L.startingValue⟩ _ k sf r
    { L with currentValue := L.startingValue } hk2 hv hrun.symm h0
  have hrep2 : repetitions L = some reps := by
    rw [← hrep]
    exact repetitions_of_key rfl
  simp only [setCurrentValue_twice] at hst
  refine ⟨k, L, reps, hk, hLn, hrep2, hp, hst, ?_, ?_, ?_, ?_⟩
  · rw [hst]
  · rw [hst]
    simp only [getElem?_setCurrentValue, if_pos rfl, hk]
    rfl
  · intro j hj
    rw [hst]
    simp only [getElem?_setCurrentValue, if_neg hj]
  · rw [hst]
    exact setCurrentValue_length _ _ _

theorem C35_witness :
    (Reachable teLiteral storesXA ∧ isalpha 'a' = true
      ∧ fieldHead ' ' ('a' :: " 1\n".toList) ∈ loopNames storesXA
      ∧ fieldTail ' ' ('a' :: " 1\n".toList) ≠ []
      ∧ countChar '=' (fieldTail ' ' ('a' :: " 1\n".toList)) = 0
      ∧ loop teLiteral ("@loop ".toList ++ 'a' :: " 1\n".toList) storesXA 3
          = some ((loop teLiteral ("@loop ".toList ++ 'a' :: " 1\n".toList) storesXA 3).getD
              ⟨1, storesEmpty, []⟩)
      ∧ ((loop teLiteral ("@loop ".toList ++ 'a' :: " 1\n".toList) storesXA 3).getD
          ⟨1, storesEmpty, []⟩).ret = 0)
    ∧ ((loop teLiteral ("@loop ".toList ++ 'a' :: " 1\n".toList) storesXA 3).getD
          ⟨1, storesEmpty, []⟩).st = ⟨storesXA.vars, [⟨['a'], 5, 0, 1, 5⟩]⟩
    ∧ ((loop teLiteral ("@loop ".toList ++ 'a' :: " 1\n".toList) storesXA 3).getD
          ⟨1, storesEmpty, []⟩).st.vars = storesXA.vars := by
  refine ⟨⟨reachable_storesXA teLiteral, by decide, by decide, by decide, by decide,
    by decide!, by decide!⟩, by decide!, ?_⟩
  obtain ⟨k, L, reps, -, -, -, -, -, hv, -⟩ := C35_loop_expression_frame teLiteral storesXA 3
    'a' " 1\n".toList _ (reachable_storesXA teLiteral) (by decide) (by decide) (by decide)
    (by decide) (by decide! : loop teLiteral ("@loop ".toList ++ 'a' :: " 1\n".toList)
      storesXA 3 = some ((loop teLiteral ("@loop ".toList ++ 'a' :: " 1\n".toList)
        storesXA 3).getD ⟨1, storesEmpty, []⟩)) (by decide!)
  exact hv

/-! ## A loop over an assignment that fails at its first evaluation -/

theorem loop_line_download (te : CStr → Table → Option ℚ) (st : Stores) (sf : Nat)
    (c : Char) (rest : CStr) (r : Res) (hc : isalpha c = true)
    (h : loop te ("@loop ".toList ++ c :: rest) st sf = some r) :
    detect_loops te ("@loop ".toList ++ c :: rest) st sf
      = some ⟨1, r.st, r.out ++ (if r.ret ≠ 0 then [Ev.err] else [])⟩
    ∧ ('#' ∉ "@loop ".toList ++ c :: rest → '\x00' ∉ "@loop ".toList ++ c :: rest →
        download_line te sf st ("@loop ".toList ++ c :: rest)
          = some (r.st, r.out ++ (if r.ret ≠ 0 then [Ev.err] else []))) := by
  have hd : detect_loops te ("@loop ".toList ++ c :: rest) st sf
      = some ⟨1, r.st, r.out ++ (if r.ret ≠ 0 then [Ev.err] else [])⟩ := by
    unfold detect_loops
    rw [if_pos (loop_line_condition c rest hc), h]
  refine ⟨hd, fun h1 h0 => ?_⟩
  have hsh : ¬ countChar '#' ("@loop ".toList ++ c :: rest) > 0 := by
    intro h
    exact h1 (List.count_pos_iff.mp h)
  unfold download_line download_setup
  simp only [hsh, if_false]
  rw [if_neg (by simp)]
  simp only [detect_range_print_loop_line c rest st sf h0, hd]
  rfl

theorem loop_assignment_form_new_rejected {te : CStr → Table → Option ℚ} {st : Stores}
    {sf k : Nat} {t e : CStr} {L : Loop} {reps : Int} (hk : st.loops[k]? = some L)
    (hrep : repetitions L = some reps) (hp : 1 ≤ reps) (hs : t ≠ sentinel)
    (hv : t ∉ varNames st) (hl : t ∉ loopNames st)
    (hrej : te e (tableLV ⟨⟨st.vars.entries ++ [⟨t, 0⟩], st.vars.converted⟩,
      setCurrentValue st.loops k L.startingValue⟩) = none) :
    loop_assignment_form te st sf k t e
      = some ⟨1, ⟨⟨st.vars.entries ++ [⟨t, 0⟩], st.vars.converted⟩,
            setCurrentValue st.loops k L.startingValue⟩,
          [Ev.compile e (tableLV ⟨⟨st.vars.entries ++ [⟨t, 0⟩], st.vars.converted⟩,
              setCurrentValue st.loops k L.startingValue⟩)
            ⟨⟨st.vars.entries ++ [⟨t, 0⟩], st.vars.converted⟩,
              setCurrentValue st.loops k L.startingValue⟩]⟩ := by
  have hfv : findVariable t st.vars.entries = none := findVariable_none.mpr hv
  have hfl : findLoop t st.loops = none := findLoop_none.mpr hl
  obtain ⟨m, hm⟩ : ∃ m : Nat, reps.toNat = m + 1 := ⟨reps.toNat - 1, by omega⟩
  have hat := (loopAt_of_getElem? hk).1
  unfold loop_assignment_form loop_assignment_setup
  simp only [if_neg hs, hfv, hfl, and_self, if_true]
  rw [if_neg (by simp)]
  unfold loop_assignment
  simp only [hk, hrep, hm]
  unfold loop_assignment_from
  simp only [hat, Nat.cast_zero, zero_mul, add_zero, hrej]

/-- C37. A line `@loop name target = expr` from reachable stores, where `name` is the
name of the loop `L` at the index `k`, whose iteration count is defined, `target` (the
first word before the `=`) names neither a variable slot nor a loop, and the evaluator
rejects `expr` on the table of the first iteration: `loop` returns 1 after that one
call of the evaluator, `detect_loops` prints the one diagnostic, and the stores after
the command still have the variable that was created for the target: the variable
store is the old one with the slot (`target`, 0) appended, which is live and the only
slot of that name, and the loops are the old ones with `L` at its start. -/
theorem C37_failed_loop_assignment_keeps_target (te : CStr → Table → Option ℚ)
    (st : Stores) (sf : Nat) (c : Char) (rest : CStr) (k : Nat) (L : Loop) (reps : Int)
    (target : CStr) (hreach : Reachable te st) (hc : isalpha c = true)
    (hk : st.loops[k]? = some L) (hLn : L.name = fieldHead ' ' (c :: rest))
    (hrep : repetitions L = some reps)
    (h1 : countChar '=' (fieldTail ' ' (c :: rest)) = 1)
    (ht : (strtok (fieldHead '=' (fieldTail ' ' (c :: rest))) [' ']).1 = some target)
    (hx : fieldTail '=' (fieldTail ' ' (c :: rest)) ≠ [])
    (hv : target ∉ varNames st) (hl : target ∉ loopNames st)
    (hrej : te (fieldTail '=' (fieldTail ' ' (c :: rest)))
      (tableLV ⟨⟨st.vars.entries ++ [⟨target, 0⟩], st.vars.converted⟩,
        setCurrentValue st.loops k L.startingValue⟩) = none) :
    loop te ("@loop ".toList ++ c :: rest) st sf
      = some ⟨1, ⟨⟨st.vars.entries ++ [⟨target, 0⟩], st.vars.converted⟩,
            setCurrentValue st.loops k L.startingValue⟩,
          [Ev.compile (fieldTail '=' (fieldTail ' ' (c :: rest)))
            (tableLV ⟨⟨st.vars.entries ++ [⟨target, 0⟩], st.vars.converted⟩,
              setCurrentValue st.loops k L.startingValue⟩)
            ⟨⟨st.vars.entries ++ [⟨target, 0⟩], st.vars.converted⟩,
              setCurrentValue st.loops k L.startingValue⟩]⟩
    ∧ detect_loops te ("@loop ".toList ++ c :: rest) st sf
      = some ⟨1, ⟨⟨st.vars.entries ++ [⟨target, 0⟩], st.vars.converted⟩,
            setCurrentValue st.loops k L.startingValue⟩,
          [Ev.compile (fieldTail '=' (fieldTail ' ' (c :: rest)))
            (tableLV ⟨⟨st.vars.entries ++ [⟨target, 0⟩], st.vars.converted⟩,
              setCurrentValue st.loops k L.startingValue⟩)
            ⟨⟨st.vars.entries ++ [⟨target, 0⟩], st.vars.converted⟩,
              setCurrentValue st.loops k L.startingValue⟩, Ev.err]⟩
    ∧ target ≠ sentinel
    ∧ liveNames ⟨⟨st.vars.entries ++ [⟨target, 0⟩], st.vars.converted⟩,
          setCurrentValue st.loops k L.startingValue⟩ = liveNames st ++ [target]
    ∧ target ∉ liveNames st := by
  have hi := reachable_inv hreach
  have hn : fieldHead ' ' (c :: rest) ∈ loopNames st := by
    rw [← hLn]
    exact List.mem_map.mpr ⟨L, List.getElem?_mem hk, rfl⟩
  have hr : fieldTail ' ' (c :: rest) ≠ [] := by
    intro he
    rw [he] at h1
    simp [countChar] at h1
  have hd : (st.loops.map (fun l => l.name)).Nodup := (List.nodup_append.mp hi.2).2.1
  have hs := loop_search_unique hd hk hLn 0 none
  rw [Nat.zero_add] at hs
  obtain ⟨k1, hk1, -, -, -, hasg, -⟩ := loop_line_dispatch te st sf c rest hc hn hr
  rw [hs] at hk1
  simp only [Option.some.injEq] at hk1
  subst hk1
  have hrun := hasg h1 target ht hx
  rw [hs] at hrun
  have hts : target ≠ sentinel := by
    intro he
    rw [he] at ht
    exact strtok_ne_sentinel _ ht
  have hk2 : (setCurrentValue st.loops k L.startingValue)[k]?
      = some { L with currentValue := L.startingValue } := by
    rw [getElem?_setCurrentValue, if_pos rfl, hk]
    rfl
  have hv2 : RangeValid L.startingValue L.increment L.endValue :=
    (hi.1 L.key (List.mem_map_of_mem _ (List.getElem?_mem hk))).2
  have hl2 : target ∉ loopNames ⟨st.vars, setCurrentValue st.loops k L.startingValue⟩ := by
    rw [loopNames_eq_of_key (setCurrentValue_key _ _ _)]
    exact hl
  have hform := @loop_assignment_form_new_rejected te
    ⟨st.vars, setCurrentValue st.loops k L.startingValue⟩ sf k target
    (fieldTail '=' (fieldTail ' ' (c :: rest))) { L with currentValue := L.startingValue }
    reps hk2 ((repetitions_of_key rfl).trans hrep) (repetitions_pos hv2 hrep) hts hv hl2
    (by simp only [setCurrentValue_twice]; exact hrej)
  simp only [setCurrentValue_twice] at hform
  rw [hform] at hrun
  refine ⟨hrun, ?_, hts, ?_, fun hm => hv (List.mem_of_mem_filter hm)⟩
  · rw [(loop_line_download te st sf c rest _ hc hrun).1]
    rfl
  · simp only [liveNames, varNames, List.map_append, List.map_cons, List.map_nil]
    exact filter_sentinel_append _ _ hts

theorem C37_witness :
    (Reachable teLiteral storesXA ∧ isalpha 'a' = true
      ∧ storesXA.loops[0]? = some ⟨['a'], 0, 0, 1, 5⟩
      ∧ (['a'] : CStr) = fieldHead ' ' ('a' :: " y = z\n".toList)
      ∧ repetitions ⟨['a'], 0, 0, 1, 5⟩ = some 6
      ∧ countChar '=' (fieldTail ' ' ('a' :: " y = z\n".toList)) = 1
      ∧ (strtok (fieldHead '=' (fieldTail ' ' ('a' :: " y = z\n".toList))) [' ']).1
          = some ['y']
      ∧ fieldTail '=' (fieldTail ' ' ('a' :: " y = z\n".toList)) ≠ []
      ∧ ['y'] ∉ varNames storesXA ∧ ['y'] ∉ loopNames storesXA
      ∧ teLiteral (fieldTail '=' (fieldTail ' ' ('a' :: " y = z\n".toList)))
          (tableLV ⟨⟨storesXA.vars.entries ++ [⟨['y'], 0⟩], storesXA.vars.converted⟩,
            setCurrentValue storesXA.loops 0 0⟩) = none)
    ∧ loop teLiteral ("@loop ".toList ++ 'a' :: " y = z\n".toList) storesXA 3
      = some ⟨1, ⟨⟨[⟨['x'], 1⟩, ⟨['y'], 0⟩], 0⟩, [⟨['a'], 0, 0, 1, 5⟩]⟩,
          [Ev.compile " z\n".toList [(['a'], 0), (['x'], 1), (['y'], 0)]
            ⟨⟨[⟨['x'], 1⟩, ⟨['y'], 0⟩], 0⟩, [⟨['a'], 0, 0, 1, 5⟩]⟩]⟩ :=
  ⟨⟨reachable_storesXA teLiteral, by decide, by decide!, by decide, by decide!, by decide,
      by decide, by decide, by decide, by decide, by decide!⟩,
    (C37_failed_loop_assignment_keeps_target teLiteral storesXA 3 'a' " y = z\n".toList 0
      ⟨['a'], 0, 0, 1, 5⟩ 6 ['y'] (reachable_storesXA teLiteral) (by decide) (by decide!)
      (by decide) (by decide!) (by decide) (by decide) (by decide) (by decide) (by decide)
      (by decide!)).1.trans (by decide!)⟩

/-! ## What a plain assignment changes -/

theorem assignVariable_eq (n : CStr) (v : ℚ) (xs : List Variable) :
    assignVariable n v xs = (findVariable n xs).map (fun i => setValue xs i v) := by
  induction xs with
  | nil => rfl
  | cons x xs ih =>
    unfold assignVariable findVariable
    by_cases hx : n = x.name
    · rw [if_pos hx, if_pos hx.symm]
      rfl
    · rw [if_neg hx, if_neg (fun h => hx h.symm), ih]
      cases findVariable n xs <;> simp [setValue]

theorem assignLoop_eq (n : CStr) (v : ℚ) (ls : List Loop) :
    assignLoop n v ls = (findLoop n ls).map (fun i => setCurrentValue ls i v) := by
  induction ls with
  | nil => rfl
  | cons x xs ih =>
    unfold assignLoop findLoop
    by_cases hx : n = x.name
    · rw [if_pos hx, if_pos hx.symm]
      rfl
    · rw [if_neg hx, if_neg (fun h => hx h.symm), ih]
      cases findLoop n xs <;> simp [setCurrentValue]

theorem getElem?_setValue (xs : List Variable) (k : Nat) (v : ℚ) (j : Nat) :
    (setValue xs k v)[j]?
      = if j = k then xs[j]?.map (fun x => { x with value := v }) else xs[j]? := by
  induction xs generalizing k j with
  | nil => simp [setValue]
  | cons x xs ih =>
    cases k with
    | zero =>
      cases j with
      | zero => simp [setValue]
      | succ j => simp [setValue]
    | succ k =>
      cases j with
      | zero => simp [setValue]
      | succ j =>
        simp only [setValue, List.getElem?_cons_succ, ih k j, Nat.add_right_cancel_iff]

theorem download_assignment_frame {te : CStr → Table → Option ℚ} {st : Stores}
    {e n : CStr} {sf : Nat} (hi : Inv st) (hn : n ≠ sentinel) :
    (te e (tableVL st) = none → download_assignment te st e n sf
        = ⟨1, st, [Ev.compile e (tableVL st) st, Ev.err]⟩)
    ∧ ∀ v, te e (tableVL st) = some v →
        (∀ i, findVariable n st.vars.entries = some i →
          download_assignment te st e n sf
            = ⟨0, writeVariable st i v, [Ev.compile e (tableVL st) st, Ev.varLine sf n v]⟩)
        ∧ (∀ k, findLoop n st.loops = some k →
          download_assignment te st e n sf
            = ⟨0, writeLoop st k v, [Ev.compile e (tableVL st) st, Ev.varLine sf n v]⟩)
        ∧ (n ∉ varNames st → n ∉ loopNames st →
          download_assignment te st e n sf
            = ⟨0, ⟨⟨st.vars.entries ++ [⟨n, v⟩], st.vars.converted⟩, st.loops⟩,
                [Ev.compile e (tableVL st) st, Ev.varLine sf n v]⟩) := by
  have hdisj : ∀ x, x ∈ liveNames st → x ∈ loopNames st → False :=
    fun x h1 h2 => (List.nodup_append.mp hi.2).2.2 h1 h2
  have hlive : n ∈ varNames st → n ∈ liveNames st := by
    intro h
    simp only [liveNames, List.mem_filter, decide_eq_true_eq]
    exact ⟨h, hn⟩
  refine ⟨?_, ?_⟩
  · intro hv
    unfold download_assignment
    simp only [hv]
  · intro v hv
    refine ⟨?_, ?_, ?_⟩
    · intro i hf
      have hmem : n ∈ varNames st := by
        by_contra hc
        rw [findVariable_none.mpr hc] at hf
        simp at hf
      have hnl : findLoop n st.loops = none :=
        findLoop_none.mpr (fun h => hdisj n (hlive hmem) h)
      unfold download_assignment download_assignment_print
      simp only [hv, assignVariable_eq, assignLoop_eq, hf, hnl, Option.map_some',
        Option.map_none', Bool.or_false, if_true, List.append_nil]
      rfl
    · intro k hf
      have hmem : n ∈ loopNames st := by
        by_contra hc
        rw [findLoop_none.mpr hc] at hf
        simp at hf
      have hnv : findVariable n st.vars.entries = none :=
        findVariable_none.mpr (fun h => hdisj n (hlive h) hmem)
      unfold download_assignment download_assignment_print
      simp only [hv, assignVariable_eq, assignLoop_eq, hf, hnv, Option.map_some',
        Option.map_none', Bool.false_or, if_true, List.nil_append]
      rfl
    · intro h1 h2
      unfold download_assignment download_assignment_print download_allocate_variable
      simp only [hv, assignVariable_eq, assignLoop_eq, findVariable_none.mpr h1,
        findLoop_none.mpr h2, Option.map_none', Bool.or_false, List.append_nil,
        List.nil_append]
      rfl

/-- C39. In a reachable state, a line without `#` and with exactly one `=`, whose
trimmed key is a valid name and which has an expression after the `=`. If the
evaluator rejects the expression the stores are unchanged and the one diagnostic is
printed. If it gives the value `v`: when the key is the name of a variable slot `i`,
the stores after the line are the old ones with `v` as the value of slot `i`; when
the key is the name of the loop `k`, they are the old ones with `v` as the current
value of loop `k`; when the key names neither, they are the old ones with the slot
(key, `v`) appended; each time one line `key = v` is printed. Writing the value of
slot `i` leaves every other slot, every name, the counter of tombstones and all loops
as they were; writing the current value of loop `k` leaves every other loop, the
name, start, increment and end of loop `k`, the number of loops and the variable
store as they were. -/
theorem C39_assignment_frame (te : CStr → Table → Option ℚ) (st : Stores) (sf : Nat)
    (line tok e : CStr) (hreach : Reachable te st) (h0 : '\x00' ∉ line) (hc : '#' ∉ line)
    (he : countChar '=' line = 1) (ht : (strtok line ['=']).1 = some tok)
    (hk : ValidName (trimKey tok))
    (hx : (strtok (strtok line ['=']).2 ['=']).1 = some e) :
    (te e (tableVL st) = none →
      download_line te sf st line = some (st, [Ev.compile e (tableVL st) st, Ev.err]))
    ∧ (∀ v, te e (tableVL st) = some v →
        (∀ i, findVariable (trimKey tok) st.vars.entries = some i →
          download_line te sf st line
            = some (writeVariable st i v,
                [Ev.compile e (tableVL st) st, Ev.varLine sf (trimKey tok) v]))
        ∧ (∀ k, findLoop (trimKey tok) st.loops = some k →
          download_line te sf st line
            = some (writeLoop st k v,
                [Ev.compile e (tableVL st) st, Ev.varLine sf (trimKey tok) v]))
        ∧ (trimKey tok ∉ varNames st → trimKey tok ∉ loopNames st →
          download_line te sf st line
            = some (⟨⟨st.vars.entries ++ [⟨trimKey tok, v⟩], st.vars.converted⟩, st.loops⟩,
                [Ev.compile e (tableVL st) st, Ev.varLine sf (trimKey tok) v])))
    ∧ (∀ (i : Nat) (v : ℚ),
        (writeVariable st i v).loops = st.loops
        ∧ (writeVariable st i v).vars.converted = st.vars.converted
        ∧ varNames (writeVariable st i v) = varNames st
        ∧ ∀ j, (writeVariable st i v).vars.entries[j]?
            = if j = i then st.vars.entries[j]?.map (fun x => { x with value := v })
              else st.vars.entries[j]?)
    ∧ (∀ (k : Nat) (v : ℚ),
        (writeLoop st k v).vars = st.vars
        ∧ (writeLoop st k v).loops.length = st.loops.length
        ∧ (writeLoop st k v).loops.map Loop.key = st.loops.map Loop.key
        ∧ ∀ j, (writeLoop st k v).loops[j]?
            = if j = k then st.loops[j]?.map (fun l => { l with currentValue := v })
              else st.loops[j]?) := by
  have hi := reachable_inv hreach
  have hline := assignment_line te st sf h0 hc he ht hk hx
  obtain ⟨f1, f2⟩ := @download_assignment_frame te st e (trimKey tok) sf hi
    (validName_ne_sentinel hk)
  refine ⟨?_, ?_, ?_, ?_⟩
  · intro hv
    rw [hline, f1 hv]
  · intro v hv
    obtain ⟨g1, g2, g3⟩ := f2 v hv
    refine ⟨?_, ?_, ?_⟩
    · intro i hf
      rw [hline, g1 i hf]
    · intro k hf
      rw [hline, g2 k hf]
    · intro h1 h2
      rw [hline, g3 h1 h2]
  · intro i v
    refine ⟨rfl, rfl, ?_, fun j => getElem?_setValue _ _ _ _⟩
    simp only [varNames, writeVariable]
    exact setValue_name _ _ _
  · intro k v
    exact ⟨rfl, setCurrentValue_length _ _ _, setCurrentValue_key _ _ _,
      fun j => getElem?_setCurrentValue _ _ _ _⟩

theorem C39_witness :
    (Reachable teLiteral storesXA ∧ '\x00' ∉ "a = 7\n".toList ∧ '#' ∉ "a = 7\n".toList
      ∧ countChar '=' "a = 7\n".toList = 1
      ∧ (strtok "a = 7\n".toList ['=']).1 = some "a ".toList
      ∧ ValidName (trimKey "a ".toList)
      ∧ (strtok (strtok "a = 7\n".toList ['=']).2 ['=']).1 = some " 7\n".toList
      ∧ teLiteral " 7\n".toList (tableVL storesXA) = some 7
      ∧ findLoop (trimKey "a ".toList) storesXA.loops = some 0)
    ∧ download_line teLiteral 3 storesXA "a = 7\n".toList
      = some (⟨storesXA.vars, [⟨['a'], 7, 0, 1, 5⟩]⟩,
          [Ev.compile " 7\n".toList [(['x'], 1), (['a'], 0)] storesXA, Ev.varLine 3 ['a'] 7]) :=
  ⟨⟨reachable_storesXA teLiteral, by decide, by decide, by decide, by decide, by decide,
      by decide, by decide!, by decide⟩,
    (((C39_assignment_frame teLiteral storesXA 3 "a = 7\n".toList "a ".toList " 7\n".toList
      (reachable_storesXA teLiteral) (by decide) (by decide) (by decide) (by decide)
      (by decide) (by decide)).2.1 7 (by decide!)).2.1 0 (by decide)).trans (by decide!)⟩

/-! ## The key of an assignment after the trimming loops -/

theorem cstrAt_append_mem_right {w t : CStr} {i : Nat} (h1 : w.length ≤ i)
    (h2 : i < w.length + t.length) : cstrAt (w ++ t) i ∈ t := by
  have hlt : i - w.length < t.length := by omega
  have : cstrAt (w ++ t) i = t[i - w.length] := by
    simp [cstrAt, List.getD_eq_getElem?_getD, List.getElem?_append_right h1,
      List.getElem?_eq_getElem hlt]
  rw [this]
  exact List.getElem_mem hlt

theorem trimEnd_trailing (p z : CStr) (b : Char) (start : Nat)
    (hz : ∀ x ∈ z, isspace x = true) (hb : isspace b = false) (hs : start ≤ p.length) :
    ∀ (fuel i : Nat), p.length ≤ i → i ≤ p.length + z.length → i - p.length ≤ fuel →
      trimEnd (p ++ b :: z) start fuel i = p.length := by
  intro fuel
  induction fuel with
  | zero =>
    intro i h1 h2 hf
    unfold trimEnd
    omega
  | succ n ih =>
    intro i h1 h2 hf
    unfold trimEnd
    rcases Nat.lt_or_ge p.length i with hlt | hge
    · have hm : cstrAt (p ++ b :: z) i ∈ z := by
        have := @cstrAt_append_mem_right (p ++ [b]) z i (by simp; omega) (by simp; omega)
        simpa using this
      rw [if_pos ⟨hz _ hm, by omega⟩]
      exact ih (i - 1) (by omega) (by omega) (by omega)
    · have hieq : i = p.length := by omega
      subst hieq
      rw [cstrAt_append_right, if_neg]
      rw [show cstrAt (b :: z) 0 = b from rfl, hb]
      simp

theorem trimStart_all (s : CStr) (e : Nat) (hs : ∀ x ∈ s, isspace x = true)
    (he : e < s.length) :
    ∀ (fuel i : Nat), i ≤ e → e - i ≤ fuel → trimStart s e fuel i = e := by
  intro fuel
  induction fuel with
  | zero =>
    intro i hi hf
    unfold trimStart
    omega
  | succ n ih =>
    intro i hi hf
    unfold trimStart
    rcases Nat.lt_or_ge i e with hlt | hge
    · have hm : cstrAt s i ∈ s := by
        have := @cstrAt_append_left s [] i (by omega)
        simpa using this
      rw [if_pos ⟨hs _ hm, hlt⟩]
      exact ih (i + 1) hlt (by omega)
    · rw [if_neg (by omega)]
      omega

theorem trimKey_core (w init z : CStr) (b : Char) (hw : ∀ x ∈ w, isspace x = true)
    (hz : ∀ x ∈ z, isspace x = true) (hb : isspace b = false)
    (hfirst : isspace (cstrAt (init ++ [b]) 0) = false) :
    trimKey (w ++ (init ++ [b]) ++ z) = init ++ [b] := by
  have hlen : (w ++ (init ++ [b]) ++ z).length - 1 = w.length + init.length + z.length := by
    simp only [List.length_append, List.length_cons, List.length_nil]
    omega
  have e1 : w ++ (init ++ [b]) ++ z = w ++ ((init ++ [b]) ++ z) := by
    simp only [List.append_assoc]
  have e2 : w ++ (init ++ [b]) ++ z = (w ++ init) ++ b :: z := by
    simp only [List.append_assoc, List.cons_append, List.nil_append]
  have hfirst2 : isspace (cstrAt ((init ++ [b]) ++ z) 0) = false := by
    cases init with
    | nil => simpa [cstrAt] using hb
    | cons a rest => simpa [cstrAt] using hfirst
  have hstart : trimStart (w ++ (init ++ [b]) ++ z) (w.length + init.length + z.length)
      (w.length + init.length + z.length + 1) 0 = w.length := by
    rw [e1]
    exact trimStart_leading w ((init ++ [b]) ++ z) _ hw hfirst2 (by omega) _ 0 (by omega)
      (by omega)
  have hend : trimEnd (w ++ (init ++ [b]) ++ z) w.length
      (w.length + init.length + z.length + 1) (w.length + init.length + z.length)
      = w.length + init.length := by
    rw [e2]
    have := trimEnd_trailing (w ++ init) z b w.length hz hb (by simp)
      (w.length + init.length + z.length + 1) (w.length + init.length + z.length)
      (by simp) (by simp) (by simp; omega)
    simpa using this
  unfold trimKey
  simp only [hlen, hstart, hend]
  rw [e1, List.drop_left]
  have : w.length + init.length - w.length + 1 = (init ++ [b]).length := by
    simp only [List.length_append, List.length_cons, List.length_nil]
    omega
  rw [this, List.take_left]

theorem strip_decompose {tok : CStr} (h : ∃ c ∈ tok, isspace c = false) :
    ∃ (w init z : CStr) (b : Char), tok = w ++ (init ++ [b]) ++ z
      ∧ (∀ x ∈ w, isspace x = true) ∧ (∀ x ∈ z, isspace x = true) ∧ isspace b = false
      ∧ isspace (cstrAt (init ++ [b]) 0) = false ∧ strip tok = init ++ [b]
      ∧ w = tok.takeWhile isspace := by
  obtain ⟨c, hc, hcs⟩ := h
  have hsplit : tok.takeWhile isspace ++ tok.dropWhile isspace = tok :=
    List.takeWhile_append_dropWhile _ _
  have hct : c ∈ tok.dropWhile isspace := by
    rw [← hsplit, List.mem_append] at hc
    rcases hc with hc | hc
    · have := List.mem_takeWhile_imp hc
      rw [hcs] at this
      exact absurd this (by decide)
    · exact hc
  have hrsplit : (tok.dropWhile isspace).reverse.takeWhile isspace
      ++ (tok.dropWhile isspace).reverse.dropWhile isspace
        = (tok.dropWhile isspace).reverse := List.takeWhile_append_dropWhile _ _
  have hcore : (tok.dropWhile isspace).reverse.dropWhile isspace ≠ [] := by
    intro he
    have := List.dropWhile_eq_nil_iff.mp he c (List.mem_reverse.mpr hct)
    rw [hcs] at this
    exact absurd this (by decide)
  have hb := List.head_dropWhile_not isspace (tok.dropWhile isspace).reverse hcore
  obtain ⟨b, rinit, hbr⟩ : ∃ b rinit,
      (tok.dropWhile isspace).reverse.dropWhile isspace = b :: rinit := by
    cases hd : (tok.dropWhile isspace).reverse.dropWhile isspace with
    | nil => exact absurd hd hcore
    | cons b rinit => exact ⟨b, rinit, rfl⟩
  have hbs : isspace b = false := by
    simp only [hbr, List.head_cons] at hb
    simpa using hb
  have hstrip : strip tok = rinit.reverse ++ [b] := by
    unfold strip
    rw [hbr, List.reverse_cons]
  have ht : tok.dropWhile isspace
      = (rinit.reverse ++ [b]) ++ ((tok.dropWhile isspace).reverse.takeWhile isspace).reverse := by
    have := congrArg List.reverse hrsplit
    rw [List.reverse_append, List.reverse_reverse, hbr, List.reverse_cons] at this
    exact this.symm
  have hne : tok.dropWhile isspace ≠ [] := List.ne_nil_of_mem hct
  have hfirst0 := List.head_dropWhile_not isspace tok hne
  have hfirst : isspace (cstrAt (rinit.reverse ++ [b]) 0) = false := by
    cases hd : tok.dropWhile isspace with
    | nil => exact absurd hd hne
    | cons a rest =>
      have ha : isspace a = false := by
        simp only [hd, List.head_cons] at hfirst0
        simpa using hfirst0
      rw [hd] at ht
      cases hr : rinit.reverse with
      | nil =>
        rw [hr] at ht
        simp only [List.nil_append, List.cons_append, List.cons.injEq] at ht
        rw [← ht.1]
        simpa [cstrAt] using ha
      | cons a1 r1 =>
        rw [hr] at ht
        simp only [List.cons_append, List.cons.injEq] at ht
        rw [← ht.1]
        simpa [cstrAt] using ha
  refine ⟨tok.takeWhile isspace, rinit.reverse,
    ((tok.dropWhile isspace).reverse.takeWhile isspace).reverse, b, ?_,
    fun x hx => List.mem_takeWhile_imp hx,
    fun x hx => List.mem_takeWhile_imp (List.mem_reverse.mp hx), hbs, hfirst, hstrip, rfl⟩
  rw [List.append_assoc, ← ht, hsplit]

theorem trimKey_eq_strip {tok : CStr} (h : ∃ c ∈ tok, isspace c = false) :
    trimKey tok = strip tok := by
  obtain ⟨w, init, z, b, ht, hw, hz, hb, hf, hs, -⟩ := strip_decompose h
  rw [hs, ht]
  exact trimKey_core w init z b hw hz hb hf

theorem trimKey_blank {tok : CStr} (hne : tok ≠ []) (h : ∀ c ∈ tok, isspace c = true) :
    ∃ c, c ∈ tok ∧ isspace c = true ∧ trimKey tok = [c] := by
  obtain ⟨init, b, rfl⟩ : ∃ init b, tok = init ++ [b] :=
    ⟨tok.dropLast, tok.getLast hne, (List.dropLast_append_getLast hne).symm⟩
  have hlen : (init ++ [b]).length - 1 = init.length := by simp
  have hstart : trimStart (init ++ [b]) init.length (init.length + 1) 0 = init.length :=
    trimStart_all (init ++ [b]) init.length h (by simp) _ 0 (by omega) (by omega)
  have hend : trimEnd (init ++ [b]) init.length (init.length + 1) init.length
      = init.length := by
    unfold trimEnd
    rw [if_neg (by omega)]
  refine ⟨b, by simp, h b (by simp), ?_⟩
  unfold trimKey
  simp only [hlen, hstart, hend, Nat.sub_self, Nat.zero_add, List.drop_left]
  rfl

/-- C40. The key `trimKey tok` that the two trimming loops, the `memmove` and the write
of the terminator leave of a token `tok`. When `tok` has a character that is not
white space, the key is `tok` without its leading and trailing white space: `tok` is
white space, then the key, then white space, and the key starts and ends with a
character that is not white space. When `tok` is not empty and all white space, the
key is one white space character of `tok`, and `download_assignment_check_valid`
rejects it with the diagnostic. The token is the text before the `=` when there is
some. So the line `  x  = 5` is an assignment to the key `x`; and a key that passes
the check has no white space in it and is not empty, so it is not the sentinel, which
is white space only. -/
theorem C40_key_trim :
    (∀ tok : CStr, (∃ c ∈ tok, isspace c = false) →
      trimKey tok = strip tok
      ∧ ∃ w z : CStr, tok = w ++ strip tok ++ z ∧ (∀ x ∈ w, isspace x = true)
          ∧ (∀ x ∈ z, isspace x = true) ∧ strip tok ≠ []
          ∧ isspace (cstrAt (strip tok) 0) = false
          ∧ isspace (cstrAt (strip tok) ((strip tok).length - 1)) = false)
    ∧ (∀ tok : CStr, tok ≠ [] → (∀ c ∈ tok, isspace c = true) →
      ∃ c, c ∈ tok ∧ isspace c = true ∧ trimKey tok = [c] ∧ ¬ ValidName (trimKey tok)
        ∧ download_assignment_check_valid (trimKey tok) = (1, [Ev.err]))
    ∧ (∀ line : CStr, fieldHead '=' line ≠ [] →
        (strtok line ['=']).1 = some (fieldHead '=' line))
    ∧ (∀ (te : CStr → Table → Option ℚ) (sf : Nat) (st : Stores),
        fieldHead '=' "  x  = 5\n".toList = "  x  ".toList
        ∧ trimKey "  x  ".toList = ['x']
        ∧ download_line te sf st "  x  = 5\n".toList
          = some ((download_assignment te st " 5\n".toList ['x'] sf).st,
              (download_assignment te st " 5\n".toList ['x'] sf).out))
    ∧ (∀ n : CStr, (download_assignment_check_valid n).1 = 0 →
        n ≠ [] ∧ (∀ c ∈ n, isspace c = false) ∧ n ≠ sentinel)
    ∧ (∀ c ∈ sentinel, isspace c = true) := by
  refine ⟨?_, ?_, ?_, ?_, ?_, by decide⟩
  · intro tok h
    obtain ⟨w, init, z, b, ht, hw, hz, hb, hf, hs, -⟩ := strip_decompose h
    refine ⟨trimKey_eq_strip h, w, z, by rw [hs]; exact ht, hw, hz, ?_, ?_, ?_⟩
    · rw [hs]; simp
    · rw [hs]; exact hf
    · rw [hs]
      have : cstrAt (init ++ [b]) ((init ++ [b]).length - 1) = b := by
        simp [cstrAt]
      rw [this]; exact hb
  · intro tok hne h
    obtain ⟨c, hc, hcs, hk⟩ := trimKey_blank hne h
    have hnv : ¬ ValidName (trimKey tok) := by
      rw [hk]
      rintro ⟨-, -, h3⟩
      simp only [List.all_cons, List.all_nil, Bool.and_true] at h3
      rw [isalpha_not_isspace h3] at hcs
      exact absurd hcs (by decide)
    refine ⟨c, hc, hcs, hk, hnv, ?_⟩
    rw [check_valid_eq, if_neg hnv]
  · intro line hf
    rw [strtok_of_fieldHead hf]
  · intro te sf st
    exact ⟨by decide, by decide, rfl⟩
  · intro n hn
    have hv : ValidName n := check_valid_zero (by rw [hn]; simp)
    refine ⟨?_, ?_, validName_ne_sentinel hv⟩
    · intro he
      have := hv.1
      rw [he] at this
      simp at this
    · intro c hc
      exact isalpha_not_isspace (List.all_eq_true.mp hv.2.2 c hc)

theorem C40_witness :
    (∃ c ∈ "  x  ".toList, isspace c = false)
    ∧ trimKey "  x  ".toList = strip "  x  ".toList ∧ strip "  x  ".toList = ['x'] :=
  ⟨⟨'x', by decide, by decide⟩,
    (C40_key_trim.1 "  x  ".toList ⟨'x', by decide, by decide⟩).1, by decide⟩

/-! ## The table of `loop_expression` is the table of the stores at every iteration -/

theorem values_set_loops (ls : List Loop) (k : Nat) (v : ℚ) (rv : List ℚ)
    (hk : k < ls.length) :
    (ls.map (fun l => l.currentValue) ++ rv).set k v
      = (setCurrentValue ls k v).map (fun l => l.currentValue) ++ rv := by
  induction ls generalizing k with
  | nil => simp at hk
  | cons l ls ih =>
    cases k with
    | zero => simp [setCurrentValue]
    | succ k =>
      simp only [List.map_cons, List.cons_append, List.set_cons_succ, setCurrentValue]
      rw [ih k (by simpa using hk)]

theorem setCurrentValue_ne_sentinel {st : Stores} (hi : Inv st) (k : Nat) (v : ℚ) :
    ∀ l ∈ setCurrentValue st.loops k v, l.name ≠ sentinel :=
  inv_loop_ne_sentinel (@Inv_of_shape st ⟨st.vars, setCurrentValue st.loops k v⟩ rfl
    (setCurrentValue_key _ _ _) hi)

theorem tableLV_values_set {st : Stores} (hi : Inv st) (k : Nat) (v : ℚ)
    (hk : k < st.loops.length) (n : Nat) :
    ((tableLV st).map Prod.snd ++ List.replicate n 0).set k v
      = (tableLV ⟨st.vars, setCurrentValue st.loops k v⟩).map Prod.snd
          ++ List.replicate n 0 := by
  unfold tableLV
  rw [bind_loops_eq (inv_loop_ne_sentinel hi),
    bind_loops_eq (setCurrentValue_ne_sentinel hi k v)]
  simp only [List.map_append, List.map_map, Function.comp_def, List.append_assoc]
  exact values_set_loops _ _ _ _ hk

theorem tableLV_names_set {st : Stores} (hi : Inv st) (k : Nat) (v : ℚ) :
    (tableLV ⟨st.vars, setCurrentValue st.loops k v⟩).map Prod.fst
      = (tableLV st).map Prod.fst := by
  have hi1 : Inv ⟨st.vars, setCurrentValue st.loops k v⟩ :=
    @Inv_of_shape st _ rfl (setCurrentValue_key _ _ _) hi
  rw [tableLV_names hi, tableLV_names hi1,
    @loopNames_eq_of_key st ⟨st.vars, setCurrentValue st.loops k v⟩
      (setCurrentValue_key _ _ _)]
  rfl

theorem loop_expression_from_rebuilt (te : CStr → Table → Option ℚ) (e : CStr) (k sf : Nat)
    (m n i : Nat) (st : Stores) (hi : Inv st) (hk : k < st.loops.length) :
    loop_expression_from te e k sf ((tableLV st).map Prod.fst) n i st
        ((tableLV st).map Prod.snd ++ List.replicate m 0)
      = loop_expression_rebuilt_from te e k sf n i st := by
  induction n generalizing i st with
  | zero => rfl
  | succ n ih =>
    have hi1 : Inv ⟨st.vars, setCurrentValue st.loops k ((loopAt st.loops k).startingValue
        + (i : ℚ) * (loopAt st.loops k).increment)⟩ :=
      @Inv_of_shape st _ rfl (setCurrentValue_key _ _ _) hi
    have hk1 : k < (setCurrentValue st.loops k ((loopAt st.loops k).startingValue
        + (i : ℚ) * (loopAt st.loops k).increment)).length := by
      rw [setCurrentValue_length]; exact hk
    unfold loop_expression_from loop_expression_rebuilt_from
    simp only []
    rw [tableLV_set hi k _ hk, tableLV_values_set hi k _ hk, ← tableLV_names_set hi k
      ((loopAt st.loops k).startingValue + (i : ℚ) * (loopAt st.loops k).increment),
      ih (i + 1) _ hi1 hk1]

theorem loop_expression_eq_rebuilt (te : CStr → Table → Option ℚ) (st : Stores) (e : CStr)
    (k sf : Nat) (hi : Inv st) :
    loop_expression te st e k sf = loop_expression_rebuilt te st e k sf := by
  unfold loop_expression loop_expression_rebuilt
  cases hl : st.loops[k]? with
  | none => rfl
  | some l =>
    simp only []
    cases hr : repetitions l with
    | none => rfl
    | some reps =>
      simp only []
      rw [loop_expression_from_rebuilt te e k sf _ _ _ st hi (loopAt_of_getElem? hl).2]

theorem tableLV_set_getElem? {st : Stores} (hi : Inv st) (k : Nat) (v : ℚ)
    (hk : k < st.loops.length) (j : Nat) :
    (tableLV ⟨st.vars, setCurrentValue st.loops k v⟩)[j]?
      = if j = k then st.loops[j]?.map (fun l => (l.name, v)) else (tableLV st)[j]? := by
  unfold tableLV
  rw [bind_loops_eq (inv_loop_ne_sentinel hi),
    bind_loops_eq (setCurrentValue_ne_sentinel hi k v)]
  rcases Nat.lt_or_ge j st.loops.length with hlt | hge
  · rw [List.getElem?_append_left (by simpa [setCurrentValue_length] using hlt),
      List.getElem?_append_left (by simpa using hlt), List.getElem?_map,
      getElem?_setCurrentValue, List.getElem?_map]
    split_ifs with hjk
    · cases st.loops[j]? <;> rfl
    · rfl
  · rw [List.getElem?_append_right (by simpa [setCurrentValue_length] using hge),
      List.getElem?_append_right (by simpa using hge), if_neg (by omega)]
    simp only [List.length_map, setCurrentValue_length]

theorem loop_expression_call_table {te : CStr → Table → Option ℚ} {st : Stores} {e : CStr}
    {k sf : Nat} {r : Res} {L : Loop} (hi : Inv st) (hk : st.loops[k]? = some L)
    (h : loop_expression te st e k sf = some r) :
    ∀ c ∈ calls r.out, ∃ v, c.2.2 = ⟨st.vars, setCurrentValue st.loops k v⟩
      ∧ c.2.1 = tableLV c.2.2 ∧ c.2.1[k]? = some (L.name, v)
      ∧ ∀ j, j ≠ k → c.2.1[j]? = (tableLV st)[j]? := by
  have hkl := (loopAt_of_getElem? hk).2
  unfold loop_expression at h
  simp only [hk] at h
  cases hr : repetitions L with
  | none => simp [hr] at h
  | some reps =>
    simp only [hr, Option.some.injEq] at h
    subst h
    intro c hcm
    obtain ⟨j, hj⟩ := List.mem_iff_getElem?.mp hcm
    rw [(loop_expression_from_calls _ _ _ _ _ _ _ _ _).2.2 j c hj]
    refine ⟨_, rfl, tableLV_set hi k _ hkl _, ?_, ?_⟩
    · simp only []
      rw [tableLV_set hi k _ hkl, tableLV_set_getElem? hi k _ hkl, if_pos rfl, hk]
      rfl
    · intro j1 hj1
      simp only []
      rw [tableLV_set hi k _ hkl, tableLV_set_getElem? hi k _ hkl, if_neg hj1]

/-- C34. In a reachable state, and in the stores that `loop` hands over after its
search loop, `loop_expression`, which builds the table once and overwrites the slot
`loopVarIndex` of the value array at every iteration, returns what it returns with the
table rebuilt from the stores before every evaluation: the same code, the same stores
and the same trace, calls of the evaluator included. The entry at the position `k` of
the loops-first table is the entry of the loop `k`, whose name is not the sentinel;
and at every call of the command the stores are the old ones with a new current value
`v` of the loop `k`, the table is the table of these stores, its entry `k` is the name
of the loop `k` with `v`, and every other entry is the entry of the table before the
command. -/
theorem C34_table_built_once (te : CStr → Table → Option ℚ) (st : Stores) (e : CStr)
    (k sf : Nat) (hreach : Reachable te st) :
    loop_expression te st e k sf = loop_expression_rebuilt te st e k sf
    ∧ (∀ n, loop_expression te ⟨st.vars, (loop_search n 0 st.loops none).2⟩ e k sf
        = loop_expression_rebuilt te ⟨st.vars, (loop_search n 0 st.loops none).2⟩ e k sf)
    ∧ (∀ L, st.loops[k]? = some L →
        (tableLV st)[k]? = some (L.name, L.currentValue) ∧ L.name ≠ sentinel)
    ∧ (∀ L r, st.loops[k]? = some L → loop_expression te st e k sf = some r →
        ∀ c ∈ calls r.out, ∃ v, c.2.2 = ⟨st.vars, setCurrentValue st.loops k v⟩
          ∧ c.2.1 = tableLV c.2.2 ∧ c.2.1[k]? = some (L.name, v)
          ∧ ∀ j, j ≠ k → c.2.1[j]? = (tableLV st)[j]?) := by
  have hi := reachable_inv hreach
  refine ⟨loop_expression_eq_rebuilt te st e k sf hi, ?_, ?_, ?_⟩
  · intro n
    exact loop_expression_eq_rebuilt te _ e k sf
      (@Inv_of_shape st _ rfl (loop_search_key n 0 st.loops none) hi)
  · intro L hk
    have hkl := (loopAt_of_getElem? hk).2
    refine ⟨?_, inv_loop_ne_sentinel hi L (List.getElem?_mem hk)⟩
    unfold tableLV
    rw [bind_loops_eq (inv_loop_ne_sentinel hi),
      List.getElem?_append_left (by simpa using hkl), List.getElem?_map, hk]
    rfl
  · intro L r hk h
    exact loop_expression_call_table hi hk h

theorem C34_witness :
    Reachable teLiteral storesXA
    ∧ loop_expression teLiteral storesXA "1\n".toList 0 3
        = loop_expression_rebuilt teLiteral storesXA "1\n".toList 0 3
    ∧ (loop_expression_rebuilt teLiteral storesXA "1\n".toList 0 3).map
          (fun r => (r.ret, r.st, (calls r.out).length))
        = some (0, ⟨storesXA.vars, [⟨['a'], 5, 0, 1, 5⟩]⟩, 6) :=
  ⟨reachable_storesXA teLiteral,
    (C34_table_built_once teLiteral storesXA "1\n".toList 0 3
      (reachable_storesXA teLiteral)).1, by decide!⟩

/-! ## A `@loop` command prints all its result lines or none -/

theorem loop_expression_from_outcome (te : CStr → Table → Option ℚ) (e : CStr) (k sf : Nat)
    (names : List CStr) (n i : Nat) (st : Stores) (values : List ℚ) :
    ((loop_expression_from te e k sf names n i st values).ret = 0
      ∧ ((loop_expression_from te e k sf names n i st values).out.filter Ev.isStdout).length
          = n)
    ∨ ∃ (j : Nat) (c : CStr × Table × Stores),
        (calls (loop_expression_from te e k sf names n i st values).out)[j]? = some c
        ∧ te c.1 c.2.1 = none := by
  induction n generalizing i st values with
  | zero => exact Or.inl ⟨rfl, rfl⟩
  | succ n ih =>
    unfold loop_expression_from
    simp only []
    split
    · rcases ih (i + 1) _ _ with ⟨a, b⟩ | ⟨j, c, hj, hc⟩
      · left
        refine ⟨a, ?_⟩
        rw [List.filter_cons_of_neg (by simp [Ev.isStdout]),
          List.filter_cons_of_pos (by simp [Ev.isStdout]), List.length_cons, b]
      · right
        exact ⟨j + 1, c, by simpa [calls] using hj, hc⟩
    · rename_i hv
      right
      exact ⟨0, _, by simp only [calls, List.getElem?_cons_zero]; rfl, hv⟩

theorem loop_assignment_from_outcome (te : CStr → Table → Option ℚ) (sf : Nat)
    (li vi : Option Nat) (ev : CStr) (k : Nat) (e : CStr) (n i : Nat) (st : Stores) :
    ((loop_assignment_from te sf li vi ev k e n i st).ret = 0
      ∧ ((loop_assignment_from te sf li vi ev k e n i st).out.filter Ev.isStdout).length = n)
    ∨ ∃ (j : Nat) (c : CStr × Table × Stores),
        (calls (loop_assignment_from te sf li vi ev k e n i st).out)[j]? = some c
        ∧ te c.1 c.2.1 = none := by
  induction n generalizing i st with
  | zero => exact Or.inl ⟨rfl, rfl⟩
  | succ n ih =>
    unfold loop_assignment_from
    simp only []
    split
    · rcases ih (i + 1) _ with ⟨a, b⟩ | ⟨j, c, hj, hc⟩
      · left
        refine ⟨a, ?_⟩
        rw [List.filter_cons_of_neg (by simp [Ev.isStdout]),
          List.filter_cons_of_pos (by simp [Ev.isStdout, loop_print_assignment]),
          List.length_cons, b]
      · right
        exact ⟨j + 1, c, by simpa [calls] using hj, hc⟩
    · rename_i hv
      right
      exact ⟨0, _, by simp only [calls, List.getElem?_cons_zero]; rfl, hv⟩

theorem loop_expression_outcome {te : CStr → Table → Option ℚ} {st : Stores} {e : CStr}
    {k sf : Nat} {r : Res} (hi : Inv st) (h : loop_expression te st e k sf = some r) :
    (∃ L reps, st.loops[k]? = some L ∧ repetitions L = some reps
      ∧ ((r.ret = 0 ∧ (r.out.filter Ev.isStdout).length = reps.toNat)
        ∨ ∃ (j : Nat) (c : CStr × Table × Stores),
            (calls r.out)[j]? = some c ∧ te c.1 c.2.1 = none))
    ∧ ∀ c ∈ calls r.out, c.1 = e ∧ c.2.1.map Prod.fst = (tableLV st).map Prod.fst := by
  cases hl : st.loops[k]? with
  | none => simp [loop_expression, hl] at h
  | some L =>
    have hcalls := loop_expression_call_table hi hl h
    constructor
    · unfold loop_expression at h
      simp only [hl] at h
      cases hr : repetitions L with
      | none => simp [hr] at h
      | some reps =>
        simp only [hr, Option.some.injEq] at h
        subst h
        exact ⟨L, reps, rfl, hr, loop_expression_from_outcome _ _ _ _ _ _ _ _ _⟩
    · intro c hc
      obtain ⟨v, hs, ht, -, -⟩ := hcalls c hc
      constructor
      · unfold loop_expression at h
        simp only [hl] at h
        cases hr : repetitions L with
        | none => simp [hr] at h
        | some reps =>
          simp only [hr, Option.some.injEq] at h
          subst h
          obtain ⟨j, hj⟩ := List.mem_iff_getElem?.mp hc
          rw [(loop_expression_from_calls _ _ _ _ _ _ _ _ _).2.2 j c hj]
      · rw [ht, hs]
        exact tableLV_names_set hi k v

theorem loop_assignment_outcome {te : CStr → Table → Option ℚ} {st : Stores} {sf : Nat}
    {li vi : Option Nat} {ev : CStr} {k : Nat} {eo : Option CStr} {r : Res} (hi : Inv st)
    (h : loop_assignment te st sf li vi ev k eo = some r) :
    (∃ L reps, st.loops[k]? = some L ∧ repetitions L = some reps
      ∧ ((r.ret = 0 ∧ (r.out.filter Ev.isStdout).length = reps.toNat)
        ∨ ∃ (j : Nat) (c : CStr × Table × Stores),
            (calls r.out)[j]? = some c ∧ te c.1 c.2.1 = none))
    ∧ ∀ c ∈ calls r.out, some c.1 = eo ∧ c.2.1.map Prod.fst = (tableLV st).map Prod.fst := by
  unfold loop_assignment at h
  cases hl : st.loops[k]? with
  | none => simp [hl] at h
  | some L =>
    have hk := (loopAt_of_getElem? hl).2
    simp only [hl] at h
    cases hr : repetitions L with
    | none => simp [hr] at h
    | some reps =>
      simp only [hr] at h
      cases eo with
      | none =>
        simp only [] at h
        split_ifs at h with h0
        simp only [Option.some.injEq] at h
        subst h
        refine ⟨⟨L, reps, rfl, hr, Or.inl ⟨rfl, ?_⟩⟩, ?_⟩
        · rw [h0]; rfl
        · intro c hc
          simp [calls] at hc
      | some e =>
        simp only [Option.some.injEq] at h
        subst h
        refine ⟨⟨L, reps, rfl, hr, loop_assignment_from_outcome _ _ _ _ _ _ _ _ _ _⟩, ?_⟩
        intro c hc
        obtain ⟨j, hj⟩ := List.mem_iff_getElem?.mp hc
        obtain ⟨c1, c2, c3, c4, -⟩ :=
          (loop_assignment_from_calls _ _ _ _ _ _ _ _ _ _ hk).2.2 j c hj
        have hi2 : Inv c.2.2 := Inv_of_shape c3 c4 hi
        refine ⟨by rw [c1], ?_⟩
        rw [c2, tableLV_names hi2, tableLV_names hi, loopNames_eq_of_key c4]
        simp only [liveNames, c3]

theorem loop_outcome {te : CStr → Table → Option ℚ} {line : CStr} {st : Stores} {sf : Nat}
    {r : Res} (hi : Inv st) (h : loop te line st sf = some r) :
    ((r.ret ≠ 0 ∧ r.out = [])
      ∨ ∃ L reps, L ∈ st.loops ∧ (strtok (strtok line [' ']).2 [' ']).1 = some L.name
          ∧ repetitions L = some reps
          ∧ ((r.ret = 0 ∧ (r.out.filter Ev.isStdout).length = reps.toNat)
            ∨ ∃ (j : Nat) (c : CStr × Table × Stores),
                (calls r.out)[j]? = some c ∧ te c.1 c.2.1 = none))
    ∧ ∀ c1 ∈ calls r.out, ∀ c2 ∈ calls r.out,
        c1.1 = c2.1 ∧ c1.2.1.map Prod.fst = c2.2.1.map Prod.fst := by
  rcases loop_cases hi h with ⟨h0, ho, -, -⟩ | ⟨st1, k, hv, hkeys, hi1, hk1, hn, hrun⟩
  · refine ⟨Or.inl ⟨h0, ho⟩, ?_⟩
    intro c1 hc1
    rw [ho] at hc1
    simp [calls] at hc1
  · have hk : k < st.loops.length := by
      have := congrArg List.length hkeys
      simp only [List.length_map] at this
      omega
    have hkey1 : (loopAt st1.loops k).key = (loopAt st.loops k).key :=
      loopAt_key_of_keys hkeys k
    have hfix : ∀ (st2 : Stores) (L : Loop) (reps : Int), st2.loops = st1.loops →
        st2.loops[k]? = some L → repetitions L = some reps →
        repetitions (loopAt st.loops k) = some reps := by
      intro st2 L reps hl2 hL hr
      have hLa : loopAt st1.loops k = L := by
        rw [← hl2]
        exact (loopAt_of_getElem? hL).1
      rw [← hr, ← hLa]
      exact (repetitions_of_key hkey1).symm
    rcases hrun with ⟨e, he⟩ | ⟨st2, li, vi, t, eo, -, hi2, hl2, ha⟩
    · obtain ⟨⟨L, reps, hL, hr, hcase⟩, hsame⟩ := loop_expression_outcome hi1 he
      refine ⟨Or.inr ⟨loopAt st.loops k, reps, loopAt_mem _ _ hk, hn,
        hfix st1 L reps rfl hL hr, hcase⟩, ?_⟩
      intro c1 hc1 c2 hc2
      exact ⟨(hsame c1 hc1).1.trans (hsame c2 hc2).1.symm,
        (hsame c1 hc1).2.trans (hsame c2 hc2).2.symm⟩
    · obtain ⟨⟨L, reps, hL, hr, hcase⟩, hsame⟩ := loop_assignment_outcome hi2 ha
      refine ⟨Or.inr ⟨loopAt st.loops k, reps, loopAt_mem _ _ hk, hn,
        hfix st2 L reps hl2 hL hr, hcase⟩, ?_⟩
      intro c1 hc1 c2 hc2
      exact ⟨Option.some.inj ((hsame c1 hc1).1.trans (hsame c2 hc2).1.symm),
        (hsame c1 hc1).2.trans (hsame c2 hc2).2.symm⟩

/-- C33. Assume the evaluator's acceptance depends only on the expression text and on
the names bound in the table: two tables with the same names are accepted or rejected
together. Then a `@loop` command run from reachable stores prints all its result lines
or none. Either it prints no line on standard output and returns a non-zero result, so
that the line is answered with the error message after no output, or it returns zero,
prints no error message, and prints exactly `repetitions L` lines, where `L` is the
loop named on the line. -/
theorem C33_all_or_nothing (te : CStr → Table → Option ℚ) (st : Stores) (line : CStr)
    (sf : Nat) (r : Res) (hreach : Reachable te st)
    (hte : ∀ (e : CStr) (tab1 tab2 : Table), tab1.map Prod.fst = tab2.map Prod.fst →
      (te e tab1 = none ↔ te e tab2 = none))
    (h : loop te line st sf = some r) :
    (((r.out.filter Ev.isStdout).length = 0 ∧ r.ret ≠ 0)
      ∨ (r.ret = 0 ∧ ∃ L reps, L ∈ st.loops
          ∧ (strtok (strtok line [' ']).2 [' ']).1 = some L.name
          ∧ repetitions L = some reps
          ∧ (r.out.filter Ev.isStdout).length = reps.toNat))
    ∧ ∀ r1 : Res, detect_loops te line st sf = some r1 → r1.ret = 1 →
        (((r1.out.filter Ev.isStdout).length = 0 ∧ r1.out.getLast? = some Ev.err)
          ∨ (Ev.err ∉ r1.out ∧ ∃ L reps, L ∈ st.loops
              ∧ (strtok (strtok line [' ']).2 [' ']).1 = some L.name
              ∧ repetitions L = some reps
              ∧ (r1.out.filter Ev.isStdout).length = reps.toNat)) := by
  have hi := reachable_inv hreach
  obtain ⟨hcase, hsame⟩ := loop_outcome hi h
  obtain ⟨hnoerr, -, habort⟩ := loop_abort h
  have main : ((r.out.filter Ev.isStdout).length = 0 ∧ r.ret ≠ 0)
      ∨ (r.ret = 0 ∧ ∃ L reps, L ∈ st.loops
          ∧ (strtok (strtok line [' ']).2 [' ']).1 = some L.name
          ∧ repetitions L = some reps
          ∧ (r.out.filter Ev.isStdout).length = reps.toNat) := by
    rcases hcase with ⟨h0, ho⟩ | ⟨L, reps, hL, hn, hr, ⟨h0, hcount⟩ | ⟨j, c, hj, hc⟩⟩
    · left
      rw [ho]
      exact ⟨rfl, h0⟩
    · exact Or.inr ⟨h0, L, reps, hL, hn, hr, hcount⟩
    · left
      have hlen : 0 < (calls r.out).length := by
        have := (List.getElem?_eq_some_iff.mp hj).1
        omega
      obtain ⟨c0, hc0⟩ : ∃ c0, (calls r.out)[0]? = some c0 :=
        ⟨(calls r.out)[0], List.getElem?_eq_getElem hlen⟩
      have hs := hsame c0 (List.getElem?_mem hc0) c (List.getElem?_mem hj)
      have hrej : te c0.1 c0.2.1 = none := by
        rw [hs.1]
        exact (hte c.1 c0.2.1 c.2.1 hs.2).mpr hc
      obtain ⟨-, hz, hne, -⟩ := habort 0 c0 hc0 hrej
      exact ⟨hz, hne⟩
  refine ⟨main, ?_⟩
  intro r1 hd h1
  rcases detect_loops_cases hd with h0 | ⟨r2, hl, hr2⟩
  · rw [h0] at h1
    exact absurd h1 (by simp)
  · rw [h] at hl
    have hrr := Option.some.inj hl
    subst hrr
    subst hr2
    rcases main with ⟨hz, hne⟩ | ⟨h0, hex⟩
    · left
      rw [if_pos hne]
      refine ⟨?_, by simp⟩
      rw [List.filter_append, List.length_append, hz]
      rfl
    · right
      rw [if_neg (by simpa using h0), List.append_nil]
      exact ⟨hnoerr, hex⟩

theorem C33_witness :
    (Reachable teLiteral storesXA
      ∧ (∀ (e : CStr) (tab1 tab2 : Table), tab1.map Prod.fst = tab2.map Prod.fst →
          (teLiteral e tab1 = none ↔ teLiteral e tab2 = none))
      ∧ loop teLiteral "@loop a 1\n".toList storesXA 3
          = some ((loop teLiteral "@loop a 1\n".toList storesXA 3).getD ⟨1, storesEmpty, []⟩))
    ∧ ((((loop teLiteral "@loop a 1\n".toList storesXA 3).getD
            ⟨1, storesEmpty, []⟩).out.filter Ev.isStdout).length = 6
        ∧ ((loop teLiteral "@loop a 1\n".toList storesXA 3).getD
            ⟨1, storesEmpty, []⟩).ret = 0)
    ∧ ∀ r1 : Res, detect_loops teLiteral "@loop a 1\n".toList storesXA 3 = some r1 →
        r1.ret = 1 →
        (((r1.out.filter Ev.isStdout).length = 0 ∧ r1.out.getLast? = some Ev.err)
          ∨ (Ev.err ∉ r1.out ∧ ∃ L reps, L ∈ storesXA.loops
              ∧ (strtok (strtok "@loop a 1\n".toList [' ']).2 [' ']).1 = some L.name
              ∧ repetitions L = some reps
              ∧ (r1.out.filter Ev.isStdout).length = reps.toNat)) :=
  ⟨⟨reachable_storesXA teLiteral, fun _ _ _ _ => Iff.rfl, by decide!⟩,
    ⟨by decide!, by decide!⟩,
    (C33_all_or_nothing teLiteral storesXA "@loop a 1\n".toList 3 _
      (reachable_storesXA teLiteral) (fun _ _ _ _ => Iff.rfl)
      (by decide! : loop teLiteral "@loop a 1\n".toList storesXA 3
        = some ((loop teLiteral "@loop a 1\n".toList storesXA 3).getD
            ⟨1, storesEmpty, []⟩))).2⟩

/-! ## A loop that assigns to the loop it sweeps -/

theorem loop_assignment_from_echo (te : CStr → Table → Option ℚ) (sf : Nat)
    (li vi : Option Nat) (ev : CStr) (k : Nat) (e : CStr) (n i : Nat) (st : Stores) :
    ∀ (j : Nat) (c : CStr × Table × Stores) (v : ℚ),
      (calls (loop_assignment_from te sf li vi ev k e n i st).out)[j]? = some c →
      te c.1 c.2.1 = some v →
      ((loop_assignment_from te sf li vi ev k e n i st).out.filter Ev.isStdout)[j]?
        = some (Ev.assignWhen sf ev v (loopAt st.loops k).name
            ((loopAt st.loops k).startingValue
              + ((i + j : ℕ) : ℚ) * (loopAt st.loops k).increment)) := by
  induction n generalizing i st with
  | zero =>
    intro j c v hj
    simp [loop_assignment_from, calls] at hj
  | succ n ih =>
    have hkey := setCurrentValue_key st.loops k
      ((loopAt st.loops k).startingValue + (i : ℚ) * (loopAt st.loops k).increment)
    unfold loop_assignment_from
    simp only []
    split
    · rename_i value hv
      obtain ⟨-, -, g3⟩ := loop_print_assignment_shape value
        ⟨st.vars, setCurrentValue st.loops k
          ((loopAt st.loops k).startingValue + (i : ℚ) * (loopAt st.loops k).increment)⟩
        ev li vi sf k i
      have hkey2 := loopAt_key_of_keys (g3.trans hkey) k
      simp only [Loop.key, Prod.mk.injEq] at hkey2
      intro j c v hj hte
      rw [List.filter_cons_of_neg (by simp [Ev.isStdout]),
        List.filter_cons_of_pos (by simp [Ev.isStdout, loop_print_assignment])]
      cases j with
      | zero =>
        simp only [calls, List.getElem?_cons_zero, Option.some.injEq] at hj
        subst hj
        simp only [] at hte
        rw [hv] at hte
        have hvv := Option.some.inj hte
        subst hvv
        simp only [List.getElem?_cons_zero, Nat.add_zero, Option.some.injEq]
        have hw2 : (loop_print_assignment value
            ⟨st.vars, setCurrentValue st.loops k
              ((loopAt st.loops k).startingValue + (i : ℚ) * (loopAt st.loops k).increment)⟩
            ev li vi sf k i).2
            = Ev.assignWhen sf ev value
                (loopAt (loop_print_assignment value
                  ⟨st.vars, setCurrentValue st.loops k
                    ((loopAt st.loops k).startingValue
                      + (i : ℚ) * (loopAt st.loops k).increment)⟩
                  ev li vi sf k i).1.loops k).name
                ((loopAt (loop_print_assignment value
                  ⟨st.vars, setCurrentValue st.loops k
                    ((loopAt st.loops k).startingValue
                      + (i : ℚ) * (loopAt st.loops k).increment)⟩
                  ev li vi sf k i).1.loops k).startingValue
                  + (i : ℚ) * (loopAt (loop_print_assignment value
                  ⟨st.vars, setCurrentValue st.loops k
                    ((loopAt st.loops k).startingValue
                      + (i : ℚ) * (loopAt st.loops k).increment)⟩
                  ev li vi sf k i).1.loops k).increment) := rfl
        rw [hw2, hkey2.1, hkey2.2.1, hkey2.2.2.1]
      | succ j =>
        simp only [calls, List.getElem?_cons_succ] at hj
        simp only [List.getElem?_cons_succ]
        rw [ih (i + 1) _ j c v hj hte, hkey2.1, hkey2.2.1, hkey2.2.2.1]
        have : i + 1 + j = i + (j + 1) := by omega
        rw [this]
    · rename_i hv
      intro j c v hj hte
      cases j with
      | zero =>
        simp only [calls, List.getElem?_cons_zero, Option.some.injEq] at hj
        subst hj
        simp only [] at hte
        rw [hv] at hte
        exact absurd hte (by simp)
      | succ j => simp [calls] at hj

theorem loop_assignment_from_self_frame (te : CStr → Table → Option ℚ) (sf : Nat)
    (ev : CStr) (k : Nat) (e : CStr) (n i : Nat) (st : Stores) :
    (loop_assignment_from te sf (some k) none ev k e n i st).st.vars = st.vars
    ∧ ∀ m : Nat, m ≠ k →
        (loop_assignment_from te sf (some k) none ev k e n i st).st.loops[m]?
          = st.loops[m]? := by
  induction n generalizing i st with
  | zero => exact ⟨rfl, fun _ _ => rfl⟩
  | succ n ih =>
    unfold loop_assignment_from
    simp only []
    split
    · obtain ⟨a, b⟩ := ih (i + 1) (loop_print_assignment _
        ⟨st.vars, setCurrentValue st.loops k
          ((loopAt st.loops k).startingValue + (i : ℚ) * (loopAt st.loops k).increment)⟩
        ev (some k) none sf k i).1
      refine ⟨a.trans rfl, fun m hm => ?_⟩
      rw [b m hm, loop_print_assignment_loop]
      simp only [writeLoop, getElem?_setCurrentValue, if_neg hm]
    · refine ⟨rfl, fun m hm => ?_⟩
      simp only [getElem?_setCurrentValue, if_neg hm]

theorem loop_name_not_var {st : Stores} (hi : Inv st) {L : Loop} (hL : L ∈ st.loops) :
    L.name ∉ varNames st := by
  intro hm
  have hs := inv_loop_ne_sentinel hi L hL
  have hlive : L.name ∈ liveNames st :=
    List.mem_filter.mpr ⟨hm, by simpa using hs⟩
  have hloop : L.name ∈ loopNames st := List.mem_map.mpr ⟨L, hL, rfl⟩
  exact (List.nodup_append.mp hi.2).2.2 hlive hloop

theorem findLoop_unique {ls : List Loop} {k : Nat} {L : Loop}
    (hd : (ls.map (fun l => l.name)).Nodup) (hk : ls[k]? = some L) :
    findLoop L.name ls = some k := by
  induction ls generalizing k with
  | nil => simp at hk
  | cons x xs ih =>
    simp only [List.map_cons] at hd
    unfold findLoop
    cases k with
    | zero =>
      simp only [List.getElem?_cons_zero, Option.some.injEq] at hk
      subst hk
      rw [if_pos rfl]
    | succ k =>
      simp only [List.getElem?_cons_succ] at hk
      have hx : x.name ≠ L.name := by
        intro he
        exact (List.nodup_cons.mp hd).1
          (he ▸ List.mem_map.mpr ⟨L, List.getElem?_mem hk, rfl⟩)
      rw [if_neg hx, ih (List.nodup_cons.mp hd).2 hk]
      rfl

theorem loop_self_assignment_run {te : CStr → Table → Option ℚ} {st : Stores} {sf : Nat}
    {c : Char} {rest : CStr} {k : Nat} {L : Loop} (hi : Inv st) (hc : isalpha c = true)
    (hk : st.loops[k]? = some L) (hLn : L.name = fieldHead ' ' (c :: rest))
    (h1 : countChar '=' (fieldTail ' ' (c :: rest)) = 1)
    (ht : (strtok (fieldHead '=' (fieldTail ' ' (c :: rest))) [' ']).1 = some L.name)
    (hx : fieldTail '=' (fieldTail ' ' (c :: rest)) ≠ []) :
    loop te ("@loop ".toList ++ c :: rest) st sf
      = loop_assignment te ⟨st.vars, setCurrentValue st.loops k L.startingValue⟩ sf
          (some k) none L.name k (some (fieldTail '=' (fieldTail ' ' (c :: rest)))) := by
  have hL : L ∈ st.loops := List.getElem?_mem hk
  have hn : fieldHead ' ' (c :: rest) ∈ loopNames st := by
    rw [← hLn]
    exact List.mem_map.mpr ⟨L, hL, rfl⟩
  have hr : fieldTail ' ' (c :: rest) ≠ [] := by
    intro he
    rw [he] at h1
    simp [countChar] at h1
  have hd : (st.loops.map (fun l => l.name)).Nodup := (List.nodup_append.mp hi.2).2.1
  have hs := loop_search_unique hd hk hLn 0 none
  rw [Nat.zero_add] at hs
  obtain ⟨k1, hk1, -, -, -, hasg, -⟩ := loop_line_dispatch te st sf c rest hc hn hr
  rw [hs] at hk1
  simp only [Option.some.injEq] at hk1
  subst hk1
  have hrun := hasg h1 L.name ht hx
  rw [hs] at hrun
  rw [hrun]
  have hts : L.name ≠ sentinel := inv_loop_ne_sentinel hi L hL
  have hfv : findVariable L.name st.vars.entries = none :=
    findVariable_none.mpr (loop_name_not_var hi hL)
  have hk2 : (setCurrentValue st.loops k L.startingValue)[k]?
      = some { L with currentValue := L.startingValue } := by
    rw [getElem?_setCurrentValue, if_pos rfl, hk]
    rfl
  have hd2 : ((setCurrentValue st.loops k L.startingValue).map (fun l => l.name)).Nodup := by
    have := @loopNames_eq_of_key st ⟨st.vars, setCurrentValue st.loops k L.startingValue⟩
      (setCurrentValue_key st.loops k L.startingValue)
    simp only [loopNames] at this
    rw [this]
    exact hd
  have hfl : findLoop L.name (setCurrentValue st.loops k L.startingValue) = some k := by
    have hf := findLoop_unique hd2 hk2
    exact hf
  unfold loop_assignment_form loop_assignment_setup
  simp only [if_neg hts, hfv, hfl]
  rw [if_neg (by simp)]
  simp

/-- C38. A line `@loop name name = expr` from reachable stores, where `name` is the name
of the loop `L` at the index `k`, so that the target of the assignment is the swept
loop itself. The iteration count of `L` is defined and at least 1. Every call `j` of
the evaluator is made on `expr` with `L` bound to `start + j * increment`, whatever
the iteration before assigned to `L`, and when the call yields the value `v` the line
number `j` of the output echoes `name = v when name = start + j * increment`, with the
swept value and not the assigned one. When the command succeeds there are exactly
`repetitions L` calls, and afterwards the loop at `k` is `L` with the value evaluated
in the last call as its current value and its start, increment and end as before.
In every case the variable store, the keys of all loops and every other loop are as
before the command. -/
theorem C38_self_assignment (te : CStr → Table → Option ℚ) (st : Stores) (sf : Nat)
    (c : Char) (rest : CStr) (k : Nat) (L : Loop) (r : Res) (hreach : Reachable te st)
    (hc : isalpha c = true) (hk : st.loops[k]? = some L)
    (hLn : L.name = fieldHead ' ' (c :: rest))
    (h1 : countChar '=' (fieldTail ' ' (c :: rest)) = 1)
    (ht : (strtok (fieldHead '=' (fieldTail ' ' (c :: rest))) [' ']).1 = some L.name)
    (hx : fieldTail '=' (fieldTail ' ' (c :: rest)) ≠ [])
    (h : loop te ("@loop ".toList ++ c :: rest) st sf = some r) :
    ∃ reps, repetitions L = some reps ∧ 1 ≤ reps
      ∧ (calls r.out).length ≤ reps.toNat
      ∧ (r.ret = 0 → (calls r.out).length = reps.toNat)
      ∧ (∀ (j : Nat) (c1 : CStr × Table × Stores), (calls r.out)[j]? = some c1 →
          c1.1 = fieldTail '=' (fieldTail ' ' (c :: rest)) ∧ SweepCall L j c1)
      ∧ (∀ (j : Nat) (c1 : CStr × Table × Stores) (v : ℚ), (calls r.out)[j]? = some c1 →
          te c1.1 c1.2.1 = some v →
          (r.out.filter Ev.isStdout)[j]?
            = some (Ev.assignWhen sf L.name v L.name
                (L.startingValue + (j : ℚ) * L.increment)))
      ∧ (r.ret = 0 → ∃ (c1 : CStr × Table × Stores) (v : ℚ),
          (calls r.out)[reps.toNat - 1]? = some c1 ∧ te c1.1 c1.2.1 = some v
          ∧ r.st.loops[k]? = some { L with currentValue := v })
      ∧ r.st.vars = st.vars
      ∧ r.st.loops.map Loop.key = st.loops.map Loop.key
      ∧ ∀ m : Nat, m ≠ k → r.st.loops[m]? = st.loops[m]? := by
  have hi := reachable_inv hreach
  have hL : L ∈ st.loops := List.getElem?_mem hk
  have hrun := @loop_self_assignment_run te st sf c rest k L hi hc hk hLn h1 ht hx
  rw [h] at hrun
  have ha := hrun.symm
  have hkeys : (setCurrentValue st.loops k L.startingValue).map Loop.key
      = st.loops.map Loop.key := setCurrentValue_key _ _ _
  have hi1 : Inv ⟨st.vars, setCurrentValue st.loops k L.startingValue⟩ :=
    @Inv_of_shape st ⟨st.vars, setCurrentValue st.loops k L.startingValue⟩ rfl hkeys hi
  have hklt : k < st.loops.length := (loopAt_of_getElem? hk).2
  have hk1 : k < (setCurrentValue st.loops k L.startingValue).length := by
    rw [setCurrentValue_length]
    exact hklt
  have hk2 : (setCurrentValue st.loops k L.startingValue)[k]?
      = some { L with currentValue := L.startingValue } := by
    rw [getElem?_setCurrentValue, if_pos rfl, hk]
    rfl
  have hat : loopAt (setCurrentValue st.loops k L.startingValue) k
      = { L with currentValue := L.startingValue } := (loopAt_of_getElem? hk2).1
  have hkey1 : (loopAt (setCurrentValue st.loops k L.startingValue) k).key = L.key := by
    rw [hat]
    rfl
  obtain ⟨reps, hrep, hle, hlen, hsweep⟩ := loop_assignment_sweep hi1 hk1 hkey1 ha
  have hv2 : RangeValid L.startingValue L.increment L.endValue :=
    (hi.1 L.key (List.mem_map_of_mem _ hL)).2
  have hpos := repetitions_pos hv2 hrep
  obtain ⟨hiter, -⟩ := loop_assignment_iterates ha (fun s v => writeLoop s k v)
    (fun v s i => loop_print_assignment_loop v s L.name k sf k i)
  obtain ⟨-, -, hshape⟩ := loop_assignment_shape ha
  have hfrom : r = loop_assignment_from te sf (some k) none L.name k
      (fieldTail '=' (fieldTail ' ' (c :: rest))) reps.toNat 0
      ⟨st.vars, setCurrentValue st.loops k L.startingValue⟩ := by
    have hrep2 : repetitions { L with currentValue := L.startingValue } = some reps :=
      (repetitions_of_key rfl).trans hrep
    unfold loop_assignment at ha
    simp only [hk2, hrep2] at ha
    exact (Option.some.inj ha).symm
  have hcalls := (loop_assignment_from_calls te sf (some k) none L.name k
    (fieldTail '=' (fieldTail ' ' (c :: rest))) reps.toNat 0
    ⟨st.vars, setCurrentValue st.loops k L.startingValue⟩ hk1).2.2
  have hecho := loop_assignment_from_echo te sf (some k) none L.name k
    (fieldTail '=' (fieldTail ' ' (c :: rest))) reps.toNat 0
    ⟨st.vars, setCurrentValue st.loops k L.startingValue⟩
  have hframe := loop_assignment_from_self_frame te sf L.name k
    (fieldTail '=' (fieldTail ' ' (c :: rest))) reps.toNat 0
    ⟨st.vars, setCurrentValue st.loops k L.startingValue⟩
  rw [← hfrom] at hcalls hecho hframe
  refine ⟨reps, hrep, hpos, hle, hlen, fun j c1 hj => ⟨(hcalls j c1 hj).1, hsweep j c1 hj⟩,
    ?_, ?_, hframe.1, hshape.trans hkeys, ?_⟩
  · intro j c1 v hj hv
    rw [hecho j c1 v hj hv, hat, Nat.zero_add]
  · intro h0
    have hn := hlen h0
    have hlast : (calls r.out).getLast? = (calls r.out)[reps.toNat - 1]? := by
      rw [List.getLast?_eq_getElem?, hn]
    obtain ⟨c1, hc1⟩ : ∃ c1, (calls r.out)[reps.toNat - 1]? = some c1 :=
      ⟨(calls r.out)[reps.toNat - 1], List.getElem?_eq_getElem (by omega)⟩
    obtain ⟨v, hv, hst⟩ := hiter.2 h0 c1 (hlast.trans hc1)
    obtain ⟨q1, -, -, q4, -⟩ := hcalls _ c1 hc1
    refine ⟨c1, v, hc1, by rw [q1]; exact hv, ?_⟩
    have hkc : k < c1.2.2.loops.length := by
      have := congrArg List.length q4
      simp only [List.length_map] at this
      omega
    have hkeyc : (loopAt c1.2.2.loops k).key = L.key :=
      (loopAt_key_of_keys q4 k).trans hkey1
    rw [hst]
    simp only [writeLoop, getElem?_setCurrentValue, if_pos]
    have hget : c1.2.2.loops[k]? = some (loopAt c1.2.2.loops k) := by
      rw [List.getElem?_eq_getElem hkc]
      exact congrArg some (loopAt_of_getElem? (List.getElem?_eq_getElem hkc)).1.symm
    rw [hget]
    simp only [Loop.key, Prod.mk.injEq] at hkeyc
    simp only [Option.map_some', Option.some.injEq, Loop.mk.injEq]
    exact ⟨hkeyc.1, trivial, hkeyc.2.1, hkeyc.2.2.1, hkeyc.2.2.2⟩
  · intro m hm
    rw [hframe.2 m hm]
    simp only [getElem?_setCurrentValue, if_neg hm]

theorem C38_witness :
    (Reachable teLiteral storesXA ∧ isalpha 'a' = true
      ∧ storesXA.loops[0]? = some ⟨['a'], 0, 0, 1, 5⟩
      ∧ (['a'] : CStr) = fieldHead ' ' ('a' :: " a = 7\n".toList)
      ∧ countChar '=' (fieldTail ' ' ('a' :: " a = 7\n".toList)) = 1
      ∧ (strtok (fieldHead '=' (fieldTail ' ' ('a' :: " a = 7\n".toList))) [' ']).1
          = some ['a']
      ∧ fieldTail '=' (fieldTail ' ' ('a' :: " a = 7\n".toList)) ≠ []
      ∧ loop teLiteral ("@loop ".toList ++ 'a' :: " a = 7\n".toList) storesXA 3
          = some ((loop teLiteral ("@loop ".toList ++ 'a' :: " a = 7\n".toList) storesXA
              3).getD ⟨1, storesEmpty, []⟩))
    ∧ ((loop teLiteral ("@loop ".toList ++ 'a' :: " a = 7\n".toList) storesXA 3).getD
          ⟨1, storesEmpty, []⟩).st = ⟨storesXA.vars, [⟨['a'], 7, 0, 1, 5⟩]⟩
    ∧ ((loop teLiteral ("@loop ".toList ++ 'a' :: " a = 7\n".toList) storesXA 3).getD
          ⟨1, storesEmpty, []⟩).st.vars = storesXA.vars := by
  refine ⟨⟨reachable_storesXA teLiteral, by decide, by decide!, by decide, by decide,
    by decide, by decide, by decide!⟩, by decide!, ?_⟩
  obtain ⟨reps, -, -, -, -, -, -, -, hv, -⟩ := C38_self_assignment teLiteral storesXA 3
    'a' " a = 7\n".toList 0 ⟨['a'], 0, 0, 1, 5⟩ _ (reachable_storesXA teLiteral) (by decide)
    (by decide!) (by decide) (by decide) (by decide) (by decide)
    (by decide! : loop teLiteral ("@loop ".toList ++ 'a' :: " a = 7\n".toList)
      storesXA 3 = some ((loop teLiteral ("@loop ".toList ++ 'a' :: " a = 7\n".toList)
        storesXA 3).getD ⟨1, storesEmpty, []⟩))
  exact hv

/-! ## One third on every output path -/

theorem formatG_one_third (N : Nat) (h2 : 2 ≤ N) (h8 : N ≤ 8) :
    formatG N (1 / 3) = '0' :: '.' :: List.replicate N '3' := by
  interval_cases N <;> decide!

theorem formatG_oneThirdDouble (N : Nat) (h2 : 2 ≤ N) (h8 : N ≤ 8) :
    formatG N oneThirdDouble = '0' :: '.' :: List.replicate N '3' := by
  interval_cases N <;> decide!

theorem loop_expression_from_echo (te : CStr → Table → Option ℚ) (e : CStr) (k sf : Nat)
    (names : List CStr) (n i : Nat) (st : Stores) (values : List ℚ) :
    ∀ (j : Nat) (c : CStr × Table × Stores) (v : ℚ),
      (calls (loop_expression_from te e k sf names n i st values).out)[j]? = some c →
      te c.1 c.2.1 = some v →
      ((loop_expression_from te e k sf names n i st values).out.filter Ev.isStdout)[j]?
        = some (Ev.resultWhen sf v (loopAt st.loops k).name
            ((loopAt st.loops k).startingValue
              + ((i + j : ℕ) : ℚ) * (loopAt st.loops k).increment)) := by
  induction n generalizing i st values with
  | zero =>
    intro j c v hj
    simp [loop_expression_from, calls] at hj
  | succ n ih =>
    have hkey := setCurrentValue_key st.loops k
      ((loopAt st.loops k).startingValue + (i : ℚ) * (loopAt st.loops k).increment)
    have hkey2 := loopAt_key_of_keys hkey k
    simp only [Loop.key, Prod.mk.injEq] at hkey2
    unfold loop_expression_from
    simp only []
    split
    · rename_i value hv
      intro j c v hj hte
      rw [List.filter_cons_of_neg (by simp [Ev.isStdout]),
        List.filter_cons_of_pos (by simp [Ev.isStdout])]
      cases j with
      | zero =>
        simp only [calls, List.getElem?_cons_zero, Option.some.injEq] at hj
        subst hj
        simp only [] at hte
        rw [hv] at hte
        have hvv := Option.some.inj hte
        subst hvv
        simp only [List.getElem?_cons_zero, Nat.add_zero]
      | succ j =>
        simp only [calls, List.getElem?_cons_succ] at hj
        simp only [List.getElem?_cons_succ]
        rw [ih (i + 1) _ _ j c v hj hte, hkey2.1, hkey2.2.1, hkey2.2.2.1]
        have : i + 1 + j = i + (j + 1) := by omega
        rw [this]
    · rename_i hv
      intro j c v hj hte
      cases j with
      | zero =>
        simp only [calls, List.getElem?_cons_zero, Option.some.injEq] at hj
        subst hj
        simp only [] at hte
        rw [hv] at hte
        exact absurd hte (by simp)
      | succ j => simp [calls] at hj

theorem download_assignment_echo (te : CStr → Table → Option ℚ) (st : Stores)
    (e n : CStr) (sf : Nat) (v : ℚ) (h : te e (tableVL st) = some v) :
    (download_assignment te st e n sf).out.filter Ev.isStdout ≠ []
    ∧ ∀ ev ∈ (download_assignment te st e n sf).out.filter Ev.isStdout,
        ev = Ev.varLine sf n v := by
  unfold download_assignment download_assignment_print download_allocate_variable
  simp only [h]
  cases assignVariable n v st.vars.entries <;> cases assignLoop n v st.loops <;>
    simp [Ev.isStdout]

theorem print_variables_var_mem {st : Stores} (hc : ConvertedCounts st) (sf : Nat)
    {x : Variable} (hx : x ∈ st.vars.entries) (hn : x.name ≠ sentinel) :
    Ev.varLine sf x.name x.value ∈ print_variables st sf := by
  have hlc := live_count hc
  have hlive : x.name ∈ liveNames st :=
    List.mem_filter.mpr ⟨List.mem_map.mpr ⟨x, hx, rfl⟩, by simpa using hn⟩
  unfold print_variables
  rw [if_neg]
  · refine List.mem_append_left _ (List.mem_cons_of_mem _ ?_)
    exact List.mem_map.mpr ⟨x, List.mem_filter.mpr ⟨hx, by simpa using hn⟩, rfl⟩
  · rw [hlc]
    intro h0
    have : liveNames st = [] := List.length_eq_zero.mp (by exact_mod_cast h0)
    rw [this] at hlive
    simp at hlive

theorem print_variables_loop_mem (st : Stores) (sf : Nat) {l : Loop} (hl : l ∈ st.loops) :
    loopLine sf l ∈ print_variables st sf := by
  unfold print_variables
  rw [if_neg (c := st.loops.length = 0)]
  · exact List.mem_append_right _ (List.mem_cons_of_mem _ (List.mem_map_of_mem _ hl))
  · intro h0
    rw [List.length_eq_zero.mp h0] at hl
    simp at hl

/-- C31. Let the significant-figure setting `N` be between 2 and 8 and let `v` be one
third, as the exact number or as the `double` nearest to it. The conversion `%.Ng`
prints `v` as `0.` followed by `N` digits 3, so with `N` significant digits, and every
output path prints it so, each number of each line going through that one conversion:
the result line of a bare expression that evaluates to `v`; every line an assignment
of the value `v` prints, of which there is one at least; the line of `@print` for a
live variable with the value `v` and the one for a loop whose current value is `v`; and
the line of the iteration whose call of the evaluator yields `v`, in the expression
form and in the assignment form of `@loop`. -/
theorem C31_one_third_every_path (N : Nat) (h2 : 2 ≤ N) (h8 : N ≤ 8) (v : ℚ)
    (hv : v = 1 / 3 ∨ v = oneThirdDouble) :
    formatG N v = '0' :: '.' :: List.replicate N '3'
    ∧ (∀ (te : CStr → Table → Option ℚ) (st : Stores) (line : CStr),
        te line (tableVL st) = some v →
        ((download_expression te st line N).out.filter Ev.isStdout).map Ev.stdoutText
          = ["Result = ".toList ++ ('0' :: '.' :: List.replicate N '3') ++ ['\n']])
    ∧ (∀ (te : CStr → Table → Option ℚ) (st : Stores) (e name : CStr),
        te e (tableVL st) = some v →
        (download_assignment te st e name N).out.filter Ev.isStdout ≠ []
        ∧ ∀ ev ∈ (download_assignment te st e name N).out.filter Ev.isStdout,
            ev.stdoutText
              = name ++ " = ".toList ++ ('0' :: '.' :: List.replicate N '3') ++ ['\n'])
    ∧ (∀ (te : CStr → Table → Option ℚ) (st : Stores), Reachable te st →
        ∀ x ∈ st.vars.entries, x.name ≠ sentinel → x.value = v →
        ∃ ev ∈ print_variables st N,
          ev.stdoutText
            = x.name ++ " = ".toList ++ ('0' :: '.' :: List.replicate N '3') ++ ['\n'])
    ∧ (∀ (st : Stores) (l : Loop), l ∈ st.loops → l.currentValue = v →
        ∃ ev ∈ print_variables st N,
          ev.stdoutText
            = l.name ++ " = ".toList ++ ('0' :: '.' :: List.replicate N '3')
              ++ " (".toList ++ formatG N l.startingValue ++ ", ".toList
              ++ formatG N l.increment ++ ", ".toList ++ formatG N l.endValue
              ++ ")\n".toList)
    ∧ (∀ (te : CStr → Table → Option ℚ) (e : CStr) (k : Nat) (names : List CStr)
        (n i : Nat) (st : Stores) (values : List ℚ) (j : Nat) (c : CStr × Table × Stores),
        (calls (loop_expression_from te e k N names n i st values).out)[j]? = some c →
        te c.1 c.2.1 = some v →
        ∃ ev, ((loop_expression_from te e k N names n i st values).out.filter
            Ev.isStdout)[j]? = some ev
          ∧ ev.stdoutText
            = "Result = ".toList ++ ('0' :: '.' :: List.replicate N '3') ++ " when ".toList
              ++ (loopAt st.loops k).name ++ " = ".toList
              ++ formatG N ((loopAt st.loops k).startingValue
                  + ((i + j : ℕ) : ℚ) * (loopAt st.loops k).increment) ++ ['\n'])
    ∧ (∀ (te : CStr → Table → Option ℚ) (li vi : Option Nat) (target : CStr) (k : Nat)
        (e : CStr) (n i : Nat) (st : Stores) (j : Nat) (c : CStr × Table × Stores),
        (calls (loop_assignment_from te N li vi target k e n i st).out)[j]? = some c →
        te c.1 c.2.1 = some v →
        ∃ ev, ((loop_assignment_from te N li vi target k e n i st).out.filter
            Ev.isStdout)[j]? = some ev
          ∧ ev.stdoutText
            = target ++ " = ".toList ++ ('0' :: '.' :: List.replicate N '3')
              ++ " when ".toList ++ (loopAt st.loops k).name ++ " = ".toList
              ++ formatG N ((loopAt st.loops k).startingValue
                  + ((i + j : ℕ) : ℚ) * (loopAt st.loops k).increment) ++ ['\n']) := by
  have hf : formatG N v = '0' :: '.' :: List.replicate N '3' := by
    rcases hv with rfl | rfl
    · exact formatG_one_third N h2 h8
    · exact formatG_oneThirdDouble N h2 h8
  refine ⟨hf, ?_, ?_, ?_, ?_, ?_, ?_⟩
  · intro te st line hte
    unfold download_expression
    simp only [hte]
    rw [List.filter_cons_of_neg (by simp [Ev.isStdout]),
      List.filter_cons_of_pos (by simp [Ev.isStdout])]
    simp only [List.filter_nil, List.map_cons, List.map_nil, Ev.stdoutText, hf]
  · intro te st e name hte
    obtain ⟨hne, hall⟩ := download_assignment_echo te st e name N v hte
    refine ⟨hne, fun ev hev => ?_⟩
    rw [hall ev hev]
    simp only [Ev.stdoutText, hf]
  · intro te st hreach x hx hn hxv
    refine ⟨_, print_variables_var_mem (reachable_convertedCounts hreach) N hx hn, ?_⟩
    simp only [Ev.stdoutText, hxv, hf]
  · intro st l hl hlv
    refine ⟨_, print_variables_loop_mem st N hl, ?_⟩
    simp only [loopLine, Ev.stdoutText, hlv, hf]
  · intro te e k names n i st values j c hj hte
    refine ⟨_, loop_expression_from_echo te e k N names n i st values j c v hj hte, ?_⟩
    simp only [Ev.stdoutText, hf]
  · intro te li vi target k e n i st j c hj hte
    refine ⟨_, loop_assignment_from_echo te N li vi target k e n i st j c v hj hte, ?_⟩
    simp only [Ev.stdoutText, hf]

theorem C31_witness :
    (2 ≤ 3 ∧ 3 ≤ 8 ∧ ((1 / 3 : ℚ) = 1 / 3 ∨ (1 / 3 : ℚ) = oneThirdDouble))
    ∧ formatG 3 (1 / 3) = '0' :: '.' :: List.replicate 3 '3'
    ∧ ((download_expression (fun _ _ => some (1 / 3)) storesXA "1/3\n".toList 3).out.filter
          Ev.isStdout).map Ev.stdoutText
        = ["Result = ".toList ++ ('0' :: '.' :: List.replicate 3 '3') ++ ['\n']] :=
  ⟨⟨by decide, by decide, Or.inl rfl⟩,
    (C31_one_third_every_path 3 (by decide) (by decide) (1 / 3) (Or.inl rfl)).1,
    (C31_one_third_every_path 3 (by decide) (by decide) (1 / 3) (Or.inl rfl)).2.1
      (fun _ _ => some (1 / 3)) storesXA "1/3\n".toList rfl⟩

/-! ## A `@loop` command runs: the first call is always made -/

theorem getLast?_of_length {α : Type} {l : List α} {j : Nat} {c : α}
    (hj : l[j]? = some c) (hl : l.length = j + 1) : l.getLast? = some c := by
  rw [List.getLast?_eq_getElem?, hl]
  exact hj

theorem loop_expression_from_progress (te : CStr → Table → Option ℚ) (e : CStr) (k sf : Nat)
    (names : List CStr) (n i : Nat) (st : Stores) (values : List ℚ) (hn : 1 ≤ n) :
    1 ≤ (calls (loop_expression_from te e k sf names n i st values).out).length
    ∧ (((loop_expression_from te e k sf names n i st values).ret = 0
        ∧ (calls (loop_expression_from te e k sf names n i st values).out).length = n
        ∧ ∀ c ∈ calls (loop_expression_from te e k sf names n i st values).out,
            te c.1 c.2.1 ≠ none)
      ∨ ((loop_expression_from te e k sf names n i st values).ret ≠ 0
        ∧ ∃ c, (calls (loop_expression_from te e k sf names n i st values).out).getLast?
            = some c ∧ te c.1 c.2.1 = none)) := by
  obtain ⟨-, hok, hrej⟩ := loop_expression_from_abort te e k sf names n i st values
  obtain ⟨-, hlen, -⟩ := loop_expression_from_calls te e k sf names n i st values
  rcases loop_expression_from_outcome te e k sf names n i st values with ⟨h0, -⟩ | ⟨j, c, hj, hc⟩
  · exact ⟨by rw [hlen h0]; exact hn, Or.inl ⟨h0, hlen h0, (hok h0).2⟩⟩
  · obtain ⟨a1, -, a3, -⟩ := hrej j c hj hc
    exact ⟨by omega, Or.inr ⟨by rw [a3]; decide, c, getLast?_of_length hj a1, hc⟩⟩

theorem loop_assignment_from_progress (te : CStr → Table → Option ℚ) (sf : Nat)
    (li vi : Option Nat) (ev : CStr) (k : Nat) (e : CStr) (n i : Nat) (st : Stores)
    (hk : k < st.loops.length) (hn : 1 ≤ n) :
    1 ≤ (calls (loop_assignment_from te sf li vi ev k e n i st).out).length
    ∧ (((loop_assignment_from te sf li vi ev k e n i st).ret = 0
        ∧ (calls (loop_assignment_from te sf li vi ev k e n i st).out).length = n
        ∧ ∀ c ∈ calls (loop_assignment_from te sf li vi ev k e n i st).out,
            te c.1 c.2.1 ≠ none)
      ∨ ((loop_assignment_from te sf li vi ev k e n i st).ret ≠ 0
        ∧ ∃ c, (calls (loop_assignment_from te sf li vi ev k e n i st).out).getLast?
            = some c ∧ te c.1 c.2.1 = none)) := by
  obtain ⟨-, hok, hrej⟩ := loop_assignment_from_abort te sf li vi ev k e n i st
  obtain ⟨-, hlen, -⟩ := loop_assignment_from_calls te sf li vi ev k e n i st hk
  rcases loop_assignment_from_outcome te sf li vi ev k e n i st with ⟨h0, -⟩ | ⟨j, c, hj, hc⟩
  · exact ⟨by rw [hlen h0]; exact hn, Or.inl ⟨h0, hlen h0, (hok h0).2⟩⟩
  · obtain ⟨a1, -, a3, -⟩ := hrej j c hj hc
    exact ⟨by omega, Or.inr ⟨by rw [a3]; decide, c, getLast?_of_length hj a1, hc⟩⟩

theorem loop_assignment_form_runs {te : CStr → Table → Option ℚ} {st : Stores} {sf k : Nat}
    {t e : CStr} {L : Loop} {reps : Int} (hs : t ≠ sentinel) (hk : st.loops[k]? = some L)
    (hrep : repetitions L = some reps) (hp : 1 ≤ reps) :
    ∃ r, loop_assignment_form te st sf k t e = some r
      ∧ 1 ≤ (calls r.out).length
      ∧ ((r.ret = 0 ∧ (calls r.out).length = reps.toNat
          ∧ ∀ c ∈ calls r.out, te c.1 c.2.1 ≠ none)
        ∨ (r.ret ≠ 0 ∧ ∃ c, (calls r.out).getLast? = some c ∧ te c.1 c.2.1 = none)) := by
  have hklt := (loopAt_of_getElem? hk).2
  have hn : 1 ≤ reps.toNat := by omega
  unfold loop_assignment_form loop_assignment_setup
  simp only [if_neg hs]
  by_cases hnew : findVariable t st.vars.entries = none ∧ findLoop t st.loops = none
  · rw [if_pos hnew]
    simp only [ne_eq, not_true_eq_false, if_false]
    unfold loop_assignment
    simp only [hk, hrep]
    exact ⟨_, rfl, loop_assignment_from_progress te sf _ _ t k e _ 0 _ hklt hn⟩
  · rw [if_neg hnew]
    simp only [ne_eq, not_true_eq_false, if_false]
    unfold loop_assignment
    simp only [hk, hrep]
    exact ⟨_, rfl, loop_assignment_from_progress te sf _ _ t k e _ 0 _ hklt hn⟩

theorem loop_expression_runs {te : CStr → Table → Option ℚ} {st : Stores} {sf k : Nat}
    {e : CStr} {L : Loop} {reps : Int} (hk : st.loops[k]? = some L)
    (hrep : repetitions L = some reps) (hp : 1 ≤ reps) :
    ∃ r, loop_expression te st e k sf = some r
      ∧ 1 ≤ (calls r.out).length
      ∧ ((r.ret = 0 ∧ (calls r.out).length = reps.toNat
          ∧ ∀ c ∈ calls r.out, te c.1 c.2.1 ≠ none)
        ∨ (r.ret ≠ 0 ∧ ∃ c, (calls r.out).getLast? = some c ∧ te c.1 c.2.1 = none)) := by
  have hn : 1 ≤ reps.toNat := by omega
  unfold loop_expression
  simp only [hk, hrep]
  exact ⟨_, rfl, loop_expression_from_progress te e k sf _ _ 0 _ _ hn⟩

/-- The two forms of a `@loop` line that reach the iterations: a remainder without
`=`, or a remainder with one `=`, a word before it and a text after it. -/
theorem loop_line_runs (te : CStr → Table → Option ℚ) (st : Stores) (sf : Nat) (c : Char)
    (rest : CStr) (k : Nat) (L : Loop) (reps : Int) (hi : Inv st) (hc : isalpha c = true)
    (hk : st.loops[k]? = some L) (hLn : L.name = fieldHead ' ' (c :: rest))
    (hrep : repetitions L = some reps)
    (hform : (countChar '=' (fieldTail ' ' (c :: rest)) = 0 ∧ fieldTail ' ' (c :: rest) ≠ [])
      ∨ (countChar '=' (fieldTail ' ' (c :: rest)) = 1
        ∧ (strtok (fieldHead '=' (fieldTail ' ' (c :: rest))) [' ']).1 ≠ none
        ∧ fieldTail '=' (fieldTail ' ' (c :: rest)) ≠ [])) :
    (strtok (strtok ("@loop ".toList ++ c :: rest) [' ']).2 [' ']).1 = some L.name
    ∧ 1 ≤ reps
    ∧ ∃ r, loop te ("@loop ".toList ++ c :: rest) st sf = some r
      ∧ 1 ≤ (calls r.out).length
      ∧ ((r.ret = 0 ∧ (calls r.out).length = reps.toNat
          ∧ ∀ c1 ∈ calls r.out, te c1.1 c1.2.1 ≠ none)
        ∨ (r.ret ≠ 0 ∧ ∃ c1, (calls r.out).getLast? = some c1 ∧ te c1.1 c1.2.1 = none)) := by
  have hL : L ∈ st.loops := List.getElem?_mem hk
  have hn : fieldHead ' ' (c :: rest) ∈ loopNames st := by
    rw [← hLn]
    exact List.mem_map.mpr ⟨L, hL, rfl⟩
  have hr : fieldTail ' ' (c :: rest) ≠ [] := by
    rcases hform with h | h
    · exact h.2
    · intro he
      rw [he] at h
      simp [countChar] at h
  have hv2 : RangeValid L.startingValue L.increment L.endValue :=
    (hi.1 L.key (List.mem_map_of_mem _ hL)).2
  have hp := repetitions_pos hv2 hrep
  have hd : (st.loops.map (fun l => l.name)).Nodup := (List.nodup_append.mp hi.2).2.1
  have hs := loop_search_unique hd hk hLn 0 none
  rw [Nat.zero_add] at hs
  have hk2 : (setCurrentValue st.loops k L.startingValue)[k]?
      = some { L with currentValue := L.startingValue } := by
    rw [getElem?_setCurrentValue, if_pos rfl, hk]
    rfl
  have hrep2 : repetitions { L with currentValue := L.startingValue } = some reps :=
    (repetitions_of_key rfl).trans hrep
  obtain ⟨k1, hk1, -, -, hexp, hasg, -⟩ := loop_line_dispatch te st sf c rest hc hn hr
  rw [hs] at hk1
  simp only [Option.some.injEq] at hk1
  subst hk1
  refine ⟨?_, hp, ?_⟩
  · obtain ⟨t1, t2⟩ := loop_line_tokens c rest hc
    rw [t1]
    simp only []
    rw [t2, hLn]
  · rcases hform with ⟨h0, -⟩ | ⟨h1, ht, hx⟩
    · rw [hexp h0, hs]
      exact loop_expression_runs hk2 hrep2 hp
    · cases htt : (strtok (fieldHead '=' (fieldTail ' ' (c :: rest))) [' ']).1 with
      | none => exact absurd htt ht
      | some t =>
        rw [hasg h1 t htt hx, hs]
        have hts : t ≠ sentinel := by
          intro he
          rw [he] at htt
          exact strtok_ne_sentinel _ htt
        exact loop_assignment_form_runs hts hk2 hrep2 hp

/-! ## The sweep of a `@loop` command, from the line to the calls -/

/-- C2. In every `@loop` command over a loop `L` of a reachable state, in the
expression form and in the assignment form alike, the call number `j` of the
evaluator (counted from 0) is made with `j` below the iteration count, with
`start + j * increment` stored as the current value of `L`, and with a table whose
entry for the name of `L` carries exactly that value; and when the command succeeds
there was one such call for every `j` below the iteration count. The calls are made: a
line `@loop name rest` whose name is the name of `L`, with a defined iteration count
`reps`, and whose remainder is an expression (no `=`) or an assignment (one `=`, a word
before it and a text after it), has a result; the first call is always made, and the
calls go on up to call `reps - 1` unless the evaluator rejects one, which is then the
last and makes the command fail. -/
theorem C2_sweep_value_bound :
    (∀ (te : CStr → Table → Option ℚ) (st : Stores) (line : CStr) (sf : Nat) (r : Res)
        (L : Loop), Reachable te st → loop te line st sf = some r → L ∈ st.loops →
        (strtok (strtok line [' ']).2 [' ']).1 = some L.name →
        (r.ret = 0 → ∃ reps, repetitions L = some reps ∧ (calls r.out).length = reps.toNat)
        ∧ ∀ (j : Nat) (c : CStr × Table × Stores), (calls r.out)[j]? = some c →
            (∃ reps, repetitions L = some reps ∧ (j : Int) < reps) ∧ SweepCall L j c)
    ∧ ∀ (te : CStr → Table → Option ℚ) (st : Stores) (sf : Nat) (c : Char) (rest : CStr)
        (k : Nat) (L : Loop) (reps : Int), Reachable te st → isalpha c = true →
        st.loops[k]? = some L → L.name = fieldHead ' ' (c :: rest) →
        repetitions L = some reps →
        ((countChar '=' (fieldTail ' ' (c :: rest)) = 0 ∧ fieldTail ' ' (c :: rest) ≠ [])
          ∨ (countChar '=' (fieldTail ' ' (c :: rest)) = 1
            ∧ (strtok (fieldHead '=' (fieldTail ' ' (c :: rest))) [' ']).1 ≠ none
            ∧ fieldTail '=' (fieldTail ' ' (c :: rest)) ≠ [])) →
        ∃ r, loop te ("@loop ".toList ++ c :: rest) st sf = some r
          ∧ 1 ≤ (calls r.out).length ∧ (calls r.out).length ≤ reps.toNat
          ∧ ((r.ret = 0 ∧ (calls r.out).length = reps.toNat)
            ∨ (r.ret ≠ 0 ∧ ∃ c1, (calls r.out).getLast? = some c1 ∧ te c1.1 c1.2.1 = none))
          ∧ ∀ (j : Nat) (c1 : CStr × Table × Stores), (calls r.out)[j]? = some c1 →
              (j : Int) < reps ∧ SweepCall L j c1 := by
  refine ⟨fun te st line sf r L hreach h hL hname =>
    loop_sweep_value_bound te st line sf r L hreach h hL hname, ?_⟩
  intro te st sf c rest k L reps hreach hc hk hLn hrep hform
  have hi := reachable_inv hreach
  have hL : L ∈ st.loops := List.getElem?_mem hk
  obtain ⟨hname, -, r, h, h1, hcase⟩ :=
    loop_line_runs te st sf c rest k L reps hi hc hk hLn hrep hform
  have hold := loop_sweep_value_bound te st _ sf r L hreach h hL hname
  have hcalls : ∀ (j : Nat) (c1 : CStr × Table × Stores), (calls r.out)[j]? = some c1 →
      (j : Int) < reps ∧ SweepCall L j c1 := by
    intro j c1 hj
    obtain ⟨⟨reps1, hr1, hlt⟩, hs⟩ := hold.2 j c1 hj
    rw [hrep] at hr1
    rw [Option.some.inj hr1]
    exact ⟨hlt, hs⟩
  refine ⟨r, h, h1, ?_, ?_, hcalls⟩
  · have hlast : ((calls r.out).length - 1 : Nat) < (calls r.out).length := by omega
    have := (hcalls _ _ (List.getElem?_eq_getElem hlast)).1
    omega
  · rcases hcase with ⟨h0, hlen, -⟩ | hrej
    · exact Or.inl ⟨h0, hlen⟩
    · exact Or.inr hrej

theorem C2_witness :
    (Reachable teLiteral storesXA ∧ isalpha 'a' = true
      ∧ storesXA.loops[0]? = some ⟨['a'], 0, 0, 1, 5⟩
      ∧ (['a'] : CStr) = fieldHead ' ' ('a' :: " 1\n".toList)
      ∧ repetitions ⟨['a'], 0, 0, 1, 5⟩ = some 6
      ∧ ((countChar '=' (fieldTail ' ' ('a' :: " 1\n".toList)) = 0
          ∧ fieldTail ' ' ('a' :: " 1\n".toList) ≠ [])
        ∨ (countChar '=' (fieldTail ' ' ('a' :: " 1\n".toList)) = 1
          ∧ (strtok (fieldHead '=' (fieldTail ' ' ('a' :: " 1\n".toList))) [' ']).1 ≠ none
          ∧ fieldTail '=' (fieldTail ' ' ('a' :: " 1\n".toList)) ≠ [])))
    ∧ (∃ r, loop teLiteral ("@loop ".toList ++ 'a' :: " 1\n".toList) storesXA 3 = some r
        ∧ 1 ≤ (calls r.out).length ∧ (calls r.out).length ≤ (6 : Int).toNat
        ∧ ((r.ret = 0 ∧ (calls r.out).length = (6 : Int).toNat)
          ∨ (r.ret ≠ 0 ∧ ∃ c1, (calls r.out).getLast? = some c1
              ∧ teLiteral c1.1 c1.2.1 = none))
        ∧ ∀ (j : Nat) (c1 : CStr × Table × Stores), (calls r.out)[j]? = some c1 →
            (j : Int) < 6 ∧ SweepCall ⟨['a'], 0, 0, 1, 5⟩ j c1)
    ∧ (calls ((loop teLiteral ("@loop ".toList ++ 'a' :: " 1\n".toList) storesXA 3).getD
          ⟨1, storesEmpty, []⟩).out).map (fun c => c.2.1)
        = [[(['a'], 0), (['x'], 1)], [(['a'], 1), (['x'], 1)], [(['a'], 2), (['x'], 1)],
            [(['a'], 3), (['x'], 1)], [(['a'], 4), (['x'], 1)], [(['a'], 5), (['x'], 1)]] :=
  ⟨⟨reachable_storesXA teLiteral, by decide, by decide!, by decide, by decide!,
      Or.inl ⟨by decide, by decide⟩⟩,
    C2_sweep_value_bound.2 teLiteral storesXA 3 'a' " 1\n".toList 0 ⟨['a'], 0, 0, 1, 5⟩ 6
      (reachable_storesXA teLiteral) (by decide) (by decide!) (by decide) (by decide!)
      (Or.inl ⟨by decide, by decide⟩),
    by decide!⟩

/-- C19. The assignment form of `@loop` over the loop at index `k`, with target `t` (a
word, so not the single blank) and expression `e`, from stores that satisfy the
invariant. The target is looked up once, before the iterations. If `t` names a loop,
no variable is created and every iteration writes the value it evaluates into the
current value of that loop; if `t` names a live variable, no variable is created and
every iteration writes the value of that variable; if `t` names neither, one variable
`t` with the value 0 is appended (the evaluator sees it with that value at its first
call), the store has exactly that one slot more at the end, and every iteration writes
the value of that slot. The iterations are made: when the loop at `k` exists and has a
defined iteration count `reps`, the command has a result, the first call of the
evaluator is always made, and either the command succeeds after exactly `reps` calls,
none of them rejected, or it fails at a rejected call, which is the last. -/
theorem C19_target_resolved_once :
    (∀ (te : CStr → Table → Option ℚ) (st : Stores) (sf k : Nat) (t e : CStr) (r : Res),
      Inv st → t ≠ sentinel → loop_assignment_form te st sf k t e = some r →
      (t ∈ loopNames st →
        ∃ li, (loopNames st)[li]? = some t ∧ varNames r.st = varNames st
          ∧ IteratesWith te e k (fun s v => writeLoop s li v) r)
      ∧ (t ∈ liveNames st →
        ∃ vi, (varNames st)[vi]? = some t ∧ varNames r.st = varNames st
          ∧ IteratesWith te e k (fun s v => writeVariable s vi v) r)
      ∧ (t ∉ loopNames st → t ∉ liveNames st →
        varNames r.st = varNames st ++ [t]
        ∧ (∀ c, (calls r.out)[0]? = some c →
            c.2.2.vars.entries = st.vars.entries ++ [⟨t, 0⟩])
        ∧ IteratesWith te e k (fun s v => writeVariable s st.vars.entries.length v) r))
    ∧ ∀ (te : CStr → Table → Option ℚ) (st : Stores) (sf k : Nat) (t e : CStr) (L : Loop)
        (reps : Int), Inv st → t ≠ sentinel → st.loops[k]? = some L →
        repetitions L = some reps →
        ∃ r, loop_assignment_form te st sf k t e = some r
          ∧ 1 ≤ (calls r.out).length
          ∧ ((r.ret = 0 ∧ (calls r.out).length = reps.toNat
              ∧ ∀ c ∈ calls r.out, te c.1 c.2.1 ≠ none)
            ∨ (r.ret ≠ 0 ∧ ∃ c, (calls r.out).getLast? = some c ∧ te c.1 c.2.1 = none)) := by
  refine ⟨fun te st sf k t e r hi hs h => loop_assignment_form_resolved te st sf k t e r hi hs h,
    ?_⟩
  intro te st sf k t e L reps hi hs hk hrep
  have hv2 : RangeValid L.startingValue L.increment L.endValue :=
    (hi.1 L.key (List.mem_map_of_mem _ (List.getElem?_mem hk))).2
  exact loop_assignment_form_runs hs hk hrep (repetitions_pos hv2 hrep)

theorem C19_witness :
    (Inv storesXA ∧ ['y'] ≠ sentinel ∧ storesXA.loops[0]? = some ⟨['a'], 0, 0, 1, 5⟩
      ∧ repetitions ⟨['a'], 0, 0, 1, 5⟩ = some 6)
    ∧ (∃ r, loop_assignment_form teLiteral storesXA 3 0 ['y'] " 1\n".toList = some r
        ∧ 1 ≤ (calls r.out).length
        ∧ ((r.ret = 0 ∧ (calls r.out).length = (6 : Int).toNat
            ∧ ∀ c ∈ calls r.out, teLiteral c.1 c.2.1 ≠ none)
          ∨ (r.ret ≠ 0 ∧ ∃ c, (calls r.out).getLast? = some c
              ∧ teLiteral c.1 c.2.1 = none)))
    ∧ ((loop_assignment_form teLiteral storesXA 3 0 ['y'] " 1\n".toList).getD
          ⟨1, storesEmpty, []⟩).st = ⟨⟨[⟨['x'], 1⟩, ⟨['y'], 1⟩], 0⟩, [⟨['a'], 5, 0, 1, 5⟩]⟩
    ∧ (calls ((loop_assignment_form teLiteral storesXA 3 0 ['y'] " 1\n".toList).getD
          ⟨1, storesEmpty, []⟩).out).map (fun c => c.2.2.vars.entries)
        = [[⟨['x'], 1⟩, ⟨['y'], 0⟩], [⟨['x'], 1⟩, ⟨['y'], 1⟩], [⟨['x'], 1⟩, ⟨['y'], 1⟩],
            [⟨['x'], 1⟩, ⟨['y'], 1⟩], [⟨['x'], 1⟩, ⟨['y'], 1⟩], [⟨['x'], 1⟩, ⟨['y'], 1⟩]] :=
  ⟨⟨reachable_inv (reachable_storesXA teLiteral), by decide, by decide!, by decide!⟩,
    C19_target_resolved_once.2 teLiteral storesXA 3 0 ['y'] " 1\n".toList
      ⟨['a'], 0, 0, 1, 5⟩ 6 (reachable_inv (reachable_storesXA teLiteral)) (by decide)
      (by decide!) (by decide!),
    by decide!, by decide!⟩

theorem rangeRejectedD_nan (s e : Dbl) : rangeRejectedD s .nan e = false := by
  unfold rangeRejectedD
  cases s <;> cases e <;> simp [Dbl.lt, Dbl.eq]

/-- C5, on the arithmetic of the machine. The range test of `extend_loops` and `range`
rejects no range whose increment is a NaN, whatever the start and the end, because
every comparison with a NaN is false. The command line `--loopable a,0,nan,5` is
decoded without an error, and the loop store then holds the loop `a` with the start 0,
the end 5 and a NaN as increment: the start is below the end and the increment is not
positive, so the loop does not satisfy the range rule. -/
theorem C5_nan_increment_stored :
    (∀ s e : Dbl, rangeRejectedD s .nan e = false)
    ∧ (∀ s e : Dbl, s.lt e = true → ¬ RangeValidD s .nan e)
    ∧ strtodC "nan".toList = (.nan, [])
    ∧ (∀ canOpen : CStr → Bool,
        run_initial_command_lineD canOpen ["--loopable".toList, "a,0,nan,5".toList]
          = (0, ⟨[], 0, [⟨['a'], .fin 0, .fin 0, .nan, .fin 5⟩]⟩))
    ∧ ¬ RangeValidD (.fin 0) .nan (.fin 5) := by
  refine ⟨rangeRejectedD_nan, ?_, by decide!, fun canOpen => ?_, by decide!⟩
  · intro s e hlt hv
    have := hv.2.1 hlt
    simp [Dbl.lt] at this
  · unfold run_initial_command_lineD
    have hf : (download_command_line ["--loopable".toList, "a,0,nan,5".toList]).2.2.fileName
        = [] := by decide
    rw [if_neg (by decide), if_neg (fun h => h.1 hf)]
    decide!

theorem C5_witness :
    (Dbl.fin 0).lt (.fin 5) = true ∧ ¬ RangeValidD (.fin 0) .nan (.fin 5) :=
  ⟨by decide!, C5_nan_increment_stored.2.1 (.fin 0) (.fin 5) (by decide!)⟩

/-- C8, on the arithmetic of the machine. The argument `a,0,nan,5` of `@range` has a
valid name and a range that violates the sign rule: the start 0 is below the end 5 and
the increment, a NaN, is not positive. `range` returns 0 on it and changes the stores:
on empty stores the loop `a` is added, on stores with the variable `a` that variable is
turned into a tombstone and the loop is added, and on stores with the loop `a` that
loop is overwritten. -/
theorem C8_nan_range_acted_on :
    ¬ RangeValidD (strtodC "0".toList).1 (strtodC "nan".toList).1 (strtodC "5\n".toList).1
    ∧ rangeD "a,0,nan,5\n".toList ⟨[], 0, []⟩
      = (0, ⟨[], 0, [⟨['a'], .fin 0, .fin 0, .nan, .fin 5⟩]⟩)
    ∧ rangeD "a,0,nan,5\n".toList ⟨[⟨['a'], .fin 1⟩], 0, []⟩
      = (0, ⟨[⟨sentinel, .fin 1⟩], 1, [⟨['a'], .fin 0, .fin 0, .nan, .fin 5⟩]⟩)
    ∧ rangeD "a,0,nan,5\n".toList ⟨[], 0, [⟨['a'], .fin 2, .fin 1, .fin 1, .fin 3⟩]⟩
      = (0, ⟨[], 0, [⟨['a'], .fin 0, .fin 0, .nan, .fin 5⟩]⟩) := by
  refine ⟨by decide!, by decide!, by decide!, by decide!⟩

/-- C10, on the arithmetic of the machine. For no `--define` string and the one
`--loopable` string `a,0,nan,5`, `decode_variable_strings` and `decode_loops_strings`
both return 0, and `run_initial_command_line` returns 0, although the string is not a
loop with a valid range: its four fields are the name `a` and the numbers 0, NaN and
5, which `strtod` converts to the end of each field, and the increment is not positive
while the start is below the end. -/
theorem C10_nan_range_decoded :
    (decode_variable_stringsD []).1 = 0
    ∧ decode_loops_stringsD ["a,0,nan,5".toList] (decode_variable_stringsD []).2
      = (0, [⟨['a'], .fin 0, .fin 0, .nan, .fin 5⟩])
    ∧ (strtodC "0".toList, strtodC "nan".toList, strtodC "5".toList)
      = ((.fin 0, []), (.nan, []), (.fin 5, []))
    ∧ ¬ RangeValidD (strtodC "0".toList).1 (strtodC "nan".toList).1 (strtodC "5".toList).1
    ∧ (run_initial_command_lineD (fun _ => true)
        ["--loopable".toList, "a,0,nan,5".toList]).1 = 0 := by
  refine ⟨by decide!, by decide!, by decide!, by decide!, by decide!⟩

/-- C11, on the arithmetic of the machine. With the invalid entry
`--loopable a,0,nan,5` (a range whose increment is a NaN) `run_initial_command_line`
returns 0, not 12; and with this entry and a second loop of the same name it returns
6, the status of a duplicate, not 12. An entry with a missing field still gives 12
before the duplicate is looked at. -/
theorem C11_nan_entry_status :
    ¬ RangeValidD (.fin 0) (strtodC "nan".toList).1 (.fin 5)
    ∧ (run_initial_command_lineD (fun _ => true)
        ["--loopable".toList, "a,0,nan,5".toList]).1 = 0
    ∧ (run_initial_command_lineD (fun _ => true)
        ["--loopable".toList, "a,0,nan,5".toList,
          "--loopable".toList, "a,0,1,5".toList]).1 = DUPLICATE_VARIABLES_ERROR
    ∧ (run_initial_command_lineD (fun _ => true)
        ["--loopable".toList, "a,0,1,5".toList, "--loopable".toList, "a,0,1,5".toList,
          "--loopable".toList, "b,0,1".toList]).1 = INVALID_VARIABLES_ERROR := by
  refine ⟨by decide!, by decide!, by decide!, by decide!⟩

end Uqexpr
